import Mathlib

/-!
# OBME core: limit order book and matching engine

A shallow embedding of `src/engine/Order.{h,cpp}`, `src/engine/OrderBook.{h,cpp}`,
`src/engine/Matcher.{h,cpp}` and `src/io/OrderParser.{h,cpp}`.

* Prices are `double`s in the source.  Callers never pass NaN, and on non-NaN values the
  comparisons used by the book (`<`, `>`, the `std::map` comparators) form a linear order, so
  prices are embedded as rationals.
* `uint32_t` / `uint64_t` fields are natural numbers; the arithmetic the book performs on them
  (`remainingQty -= qty`, `totalTrades_++`) is written with its explicit wrap-around.
* `std::shared_ptr<Order>` is an address into a store `mem` of `Order` objects.  The index
  `orderMap_` and the price-level deques hold addresses, so a fill is seen through both.
  `addOrder` takes an address; `addNew` is `addOrder` on an object made by `make_shared`, which is
  how `Matcher::run` and the tests call it, and is the call the reachable books are built from.
* The `while` loops of `OrderBook::match` are run with a step budget (`fuel`); `none` means the
  budget was exhausted.  `addNew_total` shows that a budget exists on every reachable book.
* The trade callback is kept as the history `trades` of the `executeTrade` calls, each with a flag
  telling whether a callback was installed.
* The worker thread of `Matcher` is run one pass of its loop at a time, on the queue as a list;
  the clock readings of `Order`'s methods are arguments.
-/

namespace OBME

/-! ## models/OrderType.h, models/OrderSide.h -/

inductive OrderType where
  | MARKET
  | LIMIT
  | STOP
  | STOP_LIMIT
  | CANCEL
  | MODIFY
deriving DecidableEq, Repr

inductive OrderSide where
  | BUY
  | SELL
deriving DecidableEq, Repr

/-! ## engine/Order.h -/

abbrev Price := Rat

/-- The `struct Order` of `Order.h`; time points are clock ticks. -/
structure Order where
  orderId : Nat
  clientId : Nat
  symbol : String
  type : OrderType
  side : OrderSide
  price : Price
  quantity : Nat
  remainingQty : Nat
  timestamp : Nat
  lastModified : Nat
  stopPrice : Price
deriving DecidableEq, Repr

/-- The default constructor `Order::Order()`, with the clock reading `now`. -/
def Order.default (now : Nat) : Order :=
  { orderId := 0, clientId := 0, symbol := "", type := OrderType.LIMIT, side := OrderSide.BUY,
    price := 0, quantity := 0, remainingQty := 0, timestamp := now, lastModified := now,
    stopPrice := 0 }

/-- The full constructor `Order::Order(id, client, sym, t, s, p, qty, stop)`. -/
def Order.mk8 (id client : Nat) (sym : String) (t : OrderType) (s : OrderSide) (p : Price)
    (qty : Nat) (stop : Price) (now : Nat) : Order :=
  { orderId := id, clientId := client, symbol := sym, type := t, side := s, price := p,
    quantity := qty, remainingQty := qty, timestamp := now, lastModified := now,
    stopPrice := stop }

/-- The inline `Order::isValid`: `orderId > 0 && quantity > 0 && !symbol.empty()`. -/
def Order.isValid (o : Order) : Bool :=
  decide (o.orderId > 0) && decide (o.quantity > 0) && !(o.symbol == "")

/-- The field widths of `struct Order`: `uint64_t` ids, `uint32_t` quantities. -/
def Order.inRange (o : Order) : Prop :=
  o.orderId < 2 ^ 64 ∧ o.clientId < 2 ^ 64 ∧ o.quantity < 2 ^ 32 ∧ o.remainingQty < 2 ^ 32

instance (o : Order) : Decidable o.inRange := by
  unfold Order.inRange; infer_instance

/-- The assignment `order->remainingQty = q` on one object. -/
def Order.withRemaining (o : Order) (q : Nat) : Order := { o with remainingQty := q }

/-- The `uint32_t` subtraction `a -= b`. -/
def sub32 (a b : Nat) : Nat := (a + 2 ^ 32 - b % 2 ^ 32) % 2 ^ 32

/-- The `Order::getFilledQty`: `quantity - remainingQty` in `uint32_t`. -/
def Order.getFilledQty (o : Order) : Nat := sub32 o.quantity o.remainingQty

/-- The `Order::updateRemainingQty(filledQty)` of `Order.cpp`, with the clock reading `now`: a
fill larger than what is left is ignored. -/
def Order.updateRemainingQty (o : Order) (filledQty now : Nat) : Order :=
  if filledQty ≤ o.remainingQty then
    { o with remainingQty := sub32 o.remainingQty filledQty, lastModified := now }
  else o

/-- The `Order::cancel` of `Order.cpp`, with the clock reading `now`. -/
def Order.cancel (o : Order) (now : Nat) : Order :=
  { o with remainingQty := 0, lastModified := now }

/-- The inline `Order::isPartiallyFilled`: `remainingQty < quantity && remainingQty > 0`. -/
def Order.isPartiallyFilled (o : Order) : Bool :=
  decide (o.remainingQty < o.quantity) && decide (o.remainingQty > 0)

/-- The inline `Order::isFullyFilled`: `remainingQty == 0`. -/
def Order.isFullyFilled (o : Order) : Bool := decide (o.remainingQty = 0)

/-- The `Order::canMatchWith(other)` of `Order.cpp`, one `if` per statement of the source. -/
def Order.canMatchWith (o other : Order) : Bool :=
  if o.symbol ≠ other.symbol then false
  else if o.side = other.side then false
  else if (!o.isValid || !other.isValid) = true then false
  else if o.remainingQty = 0 ∨ other.remainingQty = 0 then false
  else if o.type = OrderType.LIMIT ∧ other.type = OrderType.LIMIT then
    if o.side = OrderSide.BUY then decide (o.price ≥ other.price)
    else decide (o.price ≤ other.price)
  else if o.type = OrderType.MARKET ∨ other.type = OrderType.MARKET then true
  else false

/-- The `Order::getExecutionPrice(other)` of `Order.cpp`; the last case is `std::max`. -/
def Order.getExecutionPrice (o other : Order) : Price :=
  if o.type = OrderType.MARKET ∧ other.type = OrderType.LIMIT then other.price
  else if other.type = OrderType.MARKET ∧ o.type = OrderType.LIMIT then o.price
  else if o.type = OrderType.LIMIT ∧ other.type = OrderType.LIMIT then
    if o.timestamp < other.timestamp then o.price else other.price
  else max o.price other.price

/-! ## engine/OrderBook.h -/

/-- An `OrderPtr`: the address of an `Order` object. -/
abbrev Addr := Nat

/-- One entry of `bids_` / `asks_`: a price and the deque of orders resting at it. -/
abbrev Level := Price × List Addr

/-- One call of `executeTrade`: the two orders (their addresses, and the objects as the trade
callback sees them, after the fill), the price and the quantity.  `notified` records whether a
trade callback was installed, that is whether `tradeCb_` was invoked for this fill. -/
structure Trade where
  buyPtr : Addr
  sellPtr : Addr
  buy : Order
  sell : Order
  price : Price
  qty : Nat
  notified : Bool
deriving DecidableEq, Repr

/-- The `class OrderBook`, together with the store of the `Order` objects its pointers refer to
(`mem`, allocated below `nextPtr`) and the history of `executeTrade` calls (`trades`).
`bids_` and `asks_` are the `std::map`s as association lists in iteration order. -/
structure OrderBook where
  mem : Addr → Order
  nextPtr : Addr
  bids_ : List Level
  asks_ : List Level
  orderMap_ : Nat → Option Addr
  tradeCb_ : Bool
  totalTrades_ : Nat
  trades : List Trade

/-- The constructor `OrderBook::OrderBook()`: everything empty, no callback, no object allocated. -/
def OrderBook.empty : OrderBook :=
  { mem := fun _ => Order.default 0, nextPtr := 0, bids_ := [], asks_ := [],
    orderMap_ := fun _ => none, tradeCb_ := false, totalTrades_ := 0, trades := [] }

/-- The `OrderBook::setTradeCallback`; only whether a callback is installed is kept. -/
def OrderBook.setTradeCallback (s : OrderBook) (cb : Bool) : OrderBook :=
  { s with tradeCb_ := cb }

/-- The `OrderBook::getBestBid`: `bids_.empty() ? 0.0 : bids_.begin()->first`. -/
def OrderBook.getBestBid (s : OrderBook) : Price :=
  match s.bids_ with
  | [] => 0
  | (p, _) :: _ => p

/-- The `OrderBook::getBestAsk`: `asks_.empty() ? 0.0 : asks_.begin()->first`. -/
def OrderBook.getBestAsk (s : OrderBook) : Price :=
  match s.asks_ with
  | [] => 0
  | (p, _) :: _ => p

/-- The `OrderBook::getTotalTrades`. -/
def OrderBook.getTotalTrades (s : OrderBook) : Nat := s.totalTrades_

/-- The comparator of the side's map: `std::greater` for `bids_`, `std::less` for `asks_`. -/
def comesBefore (side : OrderSide) (a b : Price) : Bool :=
  match side with
  | OrderSide.BUY => decide (a > b)
  | OrderSide.SELL => decide (a < b)

/-- The statement `levels[price].push_back(order)` on a `std::map` ordered by the comparator of
`side`: the level is created at its place when absent. -/
def pushBack (side : OrderSide) (price : Price) (order : Addr) : List Level → List Level
  | [] => [(price, [order])]
  | (k, dq) :: rest =>
    if comesBefore side price k then (price, [order]) :: (k, dq) :: rest
    else if comesBefore side k price then (k, dq) :: pushBack side price order rest
    else (k, dq ++ [order]) :: rest

/-- The body of `cancelOrder` on one side: `find(price)`, then erase-remove of every order of the
level whose `orderId` is `orderId`, then erase of the level when it became empty. -/
def removeFromLevel (mem : Addr → Order) (price : Price) (orderId : Nat) :
    List Level → List Level
  | [] => []
  | (k, dq) :: rest =>
    if k = price then
      let dq1 := dq.filter (fun o => decide ((mem o).orderId ≠ orderId))
      if dq1.isEmpty then rest else (k, dq1) :: rest
    else (k, dq) :: removeFromLevel mem price orderId rest

/-- The side an incoming order of side `side` matches against: `asks_` for BUY, `bids_` for SELL. -/
def OrderBook.opposite (s : OrderBook) (side : OrderSide) : List Level :=
  match side with
  | OrderSide.BUY => s.asks_
  | OrderSide.SELL => s.bids_

/-- Store `levels` as the side an incoming order of side `side` matches against. -/
def OrderBook.setOpposite (s : OrderBook) (side : OrderSide) (levels : List Level) : OrderBook :=
  match side with
  | OrderSide.BUY => { s with asks_ := levels }
  | OrderSide.SELL => { s with bids_ := levels }

/-- The `OrderBook::executeTrade`: both `remainingQty -= qty` in turn, `totalTrades_++`, and the
callback (recorded in `trades`). -/
def OrderBook.executeTrade (s : OrderBook) (buy sell : Addr) (price : Price) (qty : Nat) :
    OrderBook :=
  let m1 := Function.update s.mem buy
    ((s.mem buy).withRemaining (sub32 (s.mem buy).remainingQty qty))
  let m2 := Function.update m1 sell
    ((m1 sell).withRemaining (sub32 (m1 sell).remainingQty qty))
  { s with
    mem := m2
    totalTrades_ := (s.totalTrades_ + 1) % 2 ^ 64
    trades := s.trades ++
      [{ buyPtr := buy, sellPtr := sell, buy := m2 buy, sell := m2 sell, price := price,
         qty := qty, notified := s.tradeCb_ }] }

/-- One pass of the body of the inner `while` of `match` up to the `pop_front` test: the fill of
the incoming `order` against the front `matchOrder` of the level at `price`. -/
def OrderBook.fill (s : OrderBook) (side : OrderSide) (order : Addr) (price : Price)
    (matchOrder : Addr) : OrderBook :=
  let fillQty := min (s.mem order).remainingQty (s.mem matchOrder).remainingQty
  match side with
  | OrderSide.BUY => s.executeTrade order matchOrder price fillQty
  | OrderSide.SELL => s.executeTrade matchOrder order price fillQty

/-- The inner loop of `match`, `while (order->remainingQty > 0 && !dq.empty())`, on the deque `dq`
of the best opposite level; returns the book and what is left of the deque. -/
def matchLevel (side : OrderSide) (order : Addr) (price : Price) :
    Nat → OrderBook → List Addr → Option (OrderBook × List Addr)
  | 0, _, _ => none
  | fuel + 1, s, dq =>
    if (s.mem order).remainingQty > 0 then
      match dq with
      | [] => some (s, [])
      | matchOrder :: rest =>
        let s1 := s.fill side order price matchOrder
        if (s1.mem matchOrder).remainingQty = 0 then matchLevel side order price fuel s1 rest
        else matchLevel side order price fuel s1 (matchOrder :: rest)
    else some (s, dq)

/-- The price gate of `match`: `order->price < price` for BUY, `order->price > price` for SELL. -/
def priceGate (side : OrderSide) (orderPrice price : Price) : Bool :=
  match side with
  | OrderSide.BUY => decide (orderPrice < price)
  | OrderSide.SELL => decide (orderPrice > price)

/-- The outer loop of one branch of `match`,
`while (order->remainingQty > 0 && !opposite.empty())`. -/
def matchLoop (side : OrderSide) (order : Addr) : Nat → OrderBook → Option OrderBook
  | 0, _ => none
  | fuel + 1, s =>
    if (s.mem order).remainingQty > 0 then
      match s.opposite side with
      | [] => some s
      | (price, dq) :: rest =>
        if priceGate side (s.mem order).price price then some s
        else
          match matchLevel side order price fuel s dq with
          | none => none
          | some (s1, dq1) =>
            if dq1.isEmpty then matchLoop side order fuel (s1.setOpposite side rest)
            else matchLoop side order fuel (s1.setOpposite side ((price, dq1) :: rest))
    else some s

/-- The `OrderBook::match`: the branch is chosen by `order->side`. -/
def OrderBook.matchOrder (fuel : Nat) (s : OrderBook) (order : Addr) : Option OrderBook :=
  matchLoop (s.mem order).side order fuel s

/-- The statement `orderMap_[order->orderId] = order` of `addOrder`. -/
def OrderBook.indexed (s : OrderBook) (order : Addr) : OrderBook :=
  { s with orderMap_ := Function.update s.orderMap_ (s.mem order).orderId (some order) }

/-- The end of either branch of `addOrder`: `if (order->remainingQty > 0)` the order is pushed on
the level of its price, on `bids_` when its side is BUY and on `asks_` otherwise. -/
def OrderBook.restResidual (s : OrderBook) (order : Addr) : OrderBook :=
  if (s.mem order).remainingQty > 0 then
    match (s.mem order).side with
    | OrderSide.BUY =>
      { s with bids_ := pushBack OrderSide.BUY (s.mem order).price order s.bids_ }
    | OrderSide.SELL =>
      { s with asks_ := pushBack OrderSide.SELL (s.mem order).price order s.asks_ }
  else s

/-- The `OrderBook::addOrder` on an `OrderPtr` that refers to an object: the validity check, the
index, `match`, and the residual. -/
def OrderBook.addOrder (fuel : Nat) (s : OrderBook) (order : Addr) : Option OrderBook :=
  if !(s.mem order).isValid then some s
  else
    match (s.indexed order).matchOrder fuel order with
    | none => none
    | some s1 => some (s1.restResidual order)

/-- The statement `order->remainingQty = 0` of `cancelOrder` on the store. -/
def cancelledMem (mem : Addr → Order) (order : Addr) : Addr → Order :=
  Function.update mem order ((mem order).withRemaining 0)

/-- The `OrderBook::cancelOrder`. -/
def OrderBook.cancelOrder (s : OrderBook) (orderId : Nat) : OrderBook :=
  match s.orderMap_ orderId with
  | none => s
  | some order =>
    let mem1 := cancelledMem s.mem order
    match (mem1 order).side with
    | OrderSide.BUY =>
      { s with
        mem := mem1
        bids_ := removeFromLevel mem1 (mem1 order).price orderId s.bids_
        orderMap_ := Function.update s.orderMap_ orderId none }
    | OrderSide.SELL =>
      { s with
        mem := mem1
        asks_ := removeFromLevel mem1 (mem1 order).price orderId s.asks_
        orderMap_ := Function.update s.orderMap_ orderId none }

/-- The `std::make_shared<Order>(order)` of `Matcher::run` and of the tests: a new object. -/
def OrderBook.alloc (s : OrderBook) (o : Order) : OrderBook :=
  { s with mem := Function.update s.mem s.nextPtr o, nextPtr := s.nextPtr + 1 }

/-- The two statements `auto orderPtr = std::make_shared<Order>(order); book_.addOrder(orderPtr);`
of `Matcher::run` (and of every test): the order is copied into a new object, which is added. -/
def OrderBook.addNew (fuel : Nat) (s : OrderBook) (o : Order) : Option OrderBook :=
  (s.alloc o).addOrder fuel s.nextPtr


/-! ## engine/Matcher.h, engine/Matcher.cpp -/

/-- The `class Matcher`: the book it feeds, the queue of submitted orders, the two atomics, and
the ids the worker has passed to `logger_.log`. The worker thread is run one loop pass at a
time. -/
structure Matcher where
  book_ : OrderBook
  orderQueue_ : List Order
  running_ : Bool
  processedOrders_ : Nat
  logger_ : List Nat

/-- The constructor `Matcher::Matcher(book, logger)`. -/
def Matcher.new (book : OrderBook) : Matcher :=
  { book_ := book, orderQueue_ := [], running_ := false, processedOrders_ := 0, logger_ := [] }

/-- The `Matcher::start`. -/
def Matcher.start (m : Matcher) : Matcher := { m with running_ := true }

/-- The `Matcher::submitOrder`: `orderQueue_.push(order)`. -/
def Matcher.submitOrder (m : Matcher) (order : Order) : Matcher :=
  { m with orderQueue_ := m.orderQueue_ ++ [order] }

/-- The `Matcher::getProcessedOrders`. -/
def Matcher.getProcessedOrders (m : Matcher) : Nat := m.processedOrders_

/-- One pass of the body of `while (running_)` in `Matcher::run`, from the point where the wait
has returned: with an empty queue nothing is done; otherwise the front order is popped, copied
into a new object, given to `addOrder`, counted and logged. -/
def Matcher.iterate (fuel : Nat) (m : Matcher) : Option Matcher :=
  match m.orderQueue_ with
  | [] => some m
  | order :: rest =>
    match m.book_.addNew fuel order with
    | none => none
    | some book =>
      some { m with
        book_ := book
        orderQueue_ := rest
        processedOrders_ := (m.processedOrders_ + 1) % 2 ^ 64
        logger_ := m.logger_ ++ [order.orderId] }

/-- The `Matcher::stop`, as far as the flag goes: `running_ = false`; the caller then waits
for the worker to leave its loop. -/
def Matcher.stop (m : Matcher) : Matcher := { m with running_ := false }

/-- Where the worker thread stands in `Matcher::run`: not yet created, at the test of
`while (running_)`, in `cv_.wait`, holding the order it has popped, after `addOrder`, after
`processedOrders_++`, or past the loop. -/
inductive Worker where
  | notStarted
  | atLoop
  | waiting
  | holding (order : Order)
  | added (order : Order)
  | counted (order : Order)
  | finished
deriving DecidableEq

/-- A matcher together with its worker thread, and two histories: the orders passed to
`submitOrder` and the orders passed to `addOrder`, each in the order of the calls. -/
structure Engine where
  matcher : Matcher
  worker : Worker
  submitted : List Order
  applied : List Order

/-- A matcher just constructed on `book`. -/
def Engine.init (book : OrderBook) : Engine :=
  { matcher := Matcher.new book, worker := Worker.notStarted, submitted := [], applied := [] }

/-- The next atomic action of the worker thread in `Matcher::run`: the loop test; the wait with
the pop of the front order under the lock (or the `break`); `book_.addOrder` on a copy of the
order; `processedOrders_++`; `logger_.log`. `none` when the worker cannot move: it is not
running, it is blocked in the wait, or the step budget of `addOrder` is too small. -/
def Engine.work (fuel : Nat) (e : Engine) : Option Engine :=
  match e.worker with
  | Worker.notStarted => none
  | Worker.atLoop =>
    if e.matcher.running_ then some { e with worker := Worker.waiting }
    else some { e with worker := Worker.finished }
  | Worker.waiting =>
    match e.matcher.orderQueue_ with
    | order :: rest =>
      some { e with matcher := { e.matcher with orderQueue_ := rest },
                    worker := Worker.holding order }
    | [] => if e.matcher.running_ then none else some { e with worker := Worker.finished }
  | Worker.holding order =>
    match e.matcher.book_.addNew fuel order with
    | none => none
    | some book =>
      some { e with matcher := { e.matcher with book_ := book },
                    worker := Worker.added order,
                    applied := e.applied ++ [order] }
  | Worker.added order =>
    some { e with
      matcher := { e.matcher with processedOrders_ := (e.matcher.processedOrders_ + 1) % 2 ^ 64 },
      worker := Worker.counted order }
  | Worker.counted order =>
    some { e with matcher := { e.matcher with logger_ := e.matcher.logger_ ++ [order.orderId] },
                  worker := Worker.atLoop }
  | Worker.finished => none

/-- What happens next: a producer calls `submitOrder`, somebody calls `start` or `stop`, or the
worker thread takes its next action. -/
inductive Event where
  | submit (order : Order)
  | start
  | stop
  | work (fuel : Nat)

/-- One event on the engine; `start` needs a worker that is not running. -/
def Engine.step (e : Engine) : Event → Option Engine
  | Event.submit order =>
    some { e with matcher := e.matcher.submitOrder order, submitted := e.submitted ++ [order] }
  | Event.start =>
    if e.worker = Worker.notStarted ∨ e.worker = Worker.finished then
      some { e with matcher := e.matcher.start, worker := Worker.atLoop }
    else none
  | Event.stop => some { e with matcher := e.matcher.stop }
  | Event.work fuel => e.work fuel

/-- A sequence of events, first to last. -/
def Engine.run : Engine → List Event → Option Engine
  | e, [] => some e
  | e, ev :: evs =>
    match e.step ev with
    | none => none
    | some e1 => e1.run evs

/-! ## models/OrderType.h, models/OrderSide.h: printed names -/

/-- The `orderTypeToString` of `OrderType.h`. -/
def orderTypeToString : OrderType → String
  | OrderType.MARKET => "MARKET"
  | OrderType.LIMIT => "LIMIT"
  | OrderType.STOP => "STOP"
  | OrderType.STOP_LIMIT => "STOP_LIMIT"
  | OrderType.CANCEL => "CANCEL"
  | OrderType.MODIFY => "MODIFY"

/-- The `orderSideToString` of `OrderSide.h`: BUY for `OrderSide::BUY`, SELL otherwise. -/
def orderSideToString (side : OrderSide) : String :=
  if side = OrderSide.BUY then "BUY" else "SELL"

/-! ## io/OrderParser.h, io/OrderParser.cpp

A `std::string` is the list of its characters. A thrown exception is `none`. -/

/-- The numeric conversions of the C++ standard library that the parser calls; `none` stands for
the exception they throw. The parser is embedded for any such conversions. The `double` that
`std::stod` returns is taken as the number it stands for, as prices are everywhere in this
development; an infinity or a NaN has no counterpart among them. -/
structure StdConv where
  stoull : List Char → Option Nat
  stoul : List Char → Option Nat
  stod : List Char → Option Price

/-- The result of `std::stoull` stored in a `uint64_t`. -/
def StdConv.u64 (lib : StdConv) (str : List Char) : Option Nat :=
  (lib.stoull str).map (fun v => v % 2 ^ 64)

/-- The result of `std::stoul` stored in a `uint32_t`. -/
def StdConv.u32 (lib : StdConv) (str : List Char) : Option Nat :=
  (lib.stoul str).map (fun v => v % 2 ^ 32)

/-- The double quote. -/
def quoteChar : Char := Char.ofNat 34

/-- The colon. -/
def colonChar : Char := Char.ofNat 58

/-- The comma. -/
def commaChar : Char := Char.ofNat 44

/-- The vertical bar. -/
def pipeChar : Char := Char.ofNat 124

/-- The opening brace. -/
def openBrace : Char := Char.ofNat 123

/-- The closing brace. -/
def closeBrace : Char := Char.ofNat 125

/-- The `std::isspace` of the C locale: the space and the characters 9 to 13. -/
def isspace (c : Char) : Bool :=
  c.toNat = 32 || (decide (9 ≤ c.toNat) && decide (c.toNat ≤ 13))

/-- The four characters that `trim` strips: space, tab, line feed, carriage return. -/
def isTrimmed (c : Char) : Bool :=
  c.toNat = 32 || c.toNat = 9 || c.toNat = 10 || c.toNat = 13

/-- The search of `std::string::find` in the rest `s` of a string, which starts at index `i`:
the first index from `pos` on at which `pat` occurs. -/
def findAt (pat : List Char) : List Char → Nat → Nat → Option Nat
  | [], i, pos => if pos ≤ i ∧ pat = [] then some i else none
  | c :: cs, i, pos =>
    if pos ≤ i ∧ pat.isPrefixOf (c :: cs) = true then some i else findAt pat cs (i + 1) pos

/-- The `s.find(pat, pos)` of `std::string`; `none` is `npos`. -/
def findFrom (s pat : List Char) (pos : Nat) : Option Nat := findAt pat s 0 pos

/-- The `s.substr(start, len)` of `std::string`. -/
def substr (s : List Char) (start len : Nat) : List Char := (s.drop start).take len

/-- The loop of `OrderParser::split`: `while (std::getline(ss, token, delimiter))`, with the
token read so far. At the end of the input a `getline` that has read nothing fails. -/
def splitLoop (delimiter : Char) : List Char → List Char → List (List Char)
  | [], token => if token.isEmpty then [] else [token]
  | c :: cs, token =>
    if c = delimiter then token :: splitLoop delimiter cs []
    else splitLoop delimiter cs (token ++ [c])

/-- The `OrderParser::split`. -/
def OrderParser.split (str : List Char) (delimiter : Char) : List (List Char) :=
  splitLoop delimiter str []

/-- The `OrderParser::trim`: from the first to the last character that is not one of the four
stripped ones, and the empty string when there is none. -/
def OrderParser.trim (str : List Char) : List Char :=
  ((str.dropWhile isTrimmed).reverse.dropWhile isTrimmed).reverse

/-- The `OrderParser::toUpper`: `::toupper` on every character. -/
def OrderParser.toUpper (str : List Char) : List Char := str.map Char.toUpper

/-- The `OrderParser::stringToOrderType`. -/
def OrderParser.stringToOrderType (str : List Char) : Option OrderType :=
  let upper := OrderParser.toUpper str
  if upper = "MARKET".data then some OrderType.MARKET
  else if upper = "LIMIT".data then some OrderType.LIMIT
  else if upper = "STOP".data then some OrderType.STOP
  else if upper = "STOP_LIMIT".data then some OrderType.STOP_LIMIT
  else if upper = "CANCEL".data then some OrderType.CANCEL
  else if upper = "MODIFY".data then some OrderType.MODIFY
  else none

/-- The `OrderParser::stringToOrderSide`. -/
def OrderParser.stringToOrderSide (str : List Char) : Option OrderSide :=
  let upper := OrderParser.toUpper str
  if upper = "BUY".data then some OrderSide.BUY
  else if upper = "SELL".data then some OrderSide.SELL
  else none

/-- The key as `extractJsonString` and `extractJsonValue` search for it: between quotes. -/
def searchKey (key : List Char) : List Char := quoteChar :: key ++ [quoteChar]

/-- The `OrderParser::extractJsonString`. -/
def OrderParser.extractJsonString (json key : List Char) : Option (List Char) :=
  match findFrom json (searchKey key) 0 with
  | none => none
  | some keyPos =>
    match findFrom json [colonChar] keyPos with
    | none => none
    | some colonPos =>
      match findFrom json [quoteChar] colonPos with
      | none => none
      | some valueStart =>
        match findFrom json [quoteChar] (valueStart + 1) with
        | none => none
        | some valueEnd => some (substr json (valueStart + 1) (valueEnd - valueStart - 1))

/-- The `OrderParser::extractJsonValue<T>`, for the conversion `conv` of the type `T`: the
default value is returned when the key or its colon is missing, when the value is empty and when
the conversion throws. -/
def OrderParser.extractJsonValue {T : Type} (conv : List Char → Option T) (json key : List Char)
    (defaultValue : T) : T :=
  match findFrom json (searchKey key) 0 with
  | none => defaultValue
  | some keyPos =>
    match findFrom json [colonChar] keyPos with
    | none => defaultValue
    | some colonPos =>
      let valueStart := colonPos + 1 + ((json.drop (colonPos + 1)).takeWhile isspace).length
      let valueEnd := valueStart + ((json.drop valueStart).takeWhile
        (fun c => c ≠ commaChar && c ≠ closeBrace && !isspace c)).length
      if valueStart ≥ valueEnd then defaultValue
      else
        match conv (substr json valueStart (valueEnd - valueStart)) with
        | none => defaultValue
        | some v => v

/-- The `try` block of `OrderParser::parseJson`, with the clock reading `now`. -/
def OrderParser.jsonFields (lib : StdConv) (now : Nat) (json : List Char) : Option Order :=
  let orderId := OrderParser.extractJsonValue lib.u64 json "orderId".data 0
  let clientId := OrderParser.extractJsonValue lib.u64 json "clientId".data 0
  match OrderParser.extractJsonString json "symbol".data with
  | none => none
  | some symbol =>
    match (OrderParser.extractJsonString json "type".data).bind OrderParser.stringToOrderType with
    | none => none
    | some type =>
      match (OrderParser.extractJsonString json "side".data).bind
          OrderParser.stringToOrderSide with
      | none => none
      | some side =>
        let price := OrderParser.extractJsonValue lib.stod json "price".data 0
        let quantity := OrderParser.extractJsonValue lib.u32 json "quantity".data 0
        let remainingQty := OrderParser.extractJsonValue lib.u32 json "remainingQty".data quantity
        let stopPrice := OrderParser.extractJsonValue lib.stod json "stopPrice".data 0
        some { orderId := orderId, clientId := clientId, symbol := String.mk symbol,
               type := type, side := side, price := price, quantity := quantity,
               remainingQty := remainingQty, timestamp := now, lastModified := now,
               stopPrice := stopPrice }

/-- The check that ends each of the three parsers: `if (!order.isValid()) throw`. -/
def OrderParser.checked (fields : Option Order) : Option Order :=
  match fields with
  | none => none
  | some order => if !order.isValid then none else some order

/-- The `OrderParser::parseJson`. -/
def OrderParser.parseJson (lib : StdConv) (now : Nat) (json : List Char) : Option Order :=
  OrderParser.checked (OrderParser.jsonFields lib now json)

/-- The `try` block of `OrderParser::parseCsv` on the tokens of the line. -/
def OrderParser.csvFields (lib : StdConv) (now : Nat) : List (List Char) → Option Order
  | t0 :: t1 :: t2 :: t3 :: t4 :: t5 :: more =>
    match lib.u64 (OrderParser.trim t0), OrderParser.stringToOrderType (OrderParser.trim t2),
        OrderParser.stringToOrderSide (OrderParser.trim t3), lib.stod (OrderParser.trim t4),
        lib.u32 (OrderParser.trim t5) with
    | some orderId, some type, some side, some price, some quantity =>
      let base : Order :=
        { orderId := orderId, clientId := 0, symbol := String.mk (OrderParser.trim t1),
          type := type, side := side, price := price, quantity := quantity,
          remainingQty := quantity, timestamp := now, lastModified := now, stopPrice := 0 }
      match more with
      | [] => some base
      | t6 :: more7 =>
        match lib.u64 (OrderParser.trim t6) with
        | none => none
        | some clientId =>
          match more7 with
          | [] => some { base with clientId := clientId }
          | t7 :: more8 =>
            match lib.u32 (OrderParser.trim t7) with
            | none => none
            | some remainingQty =>
              match more8 with
              | [] => some { base with clientId := clientId, remainingQty := remainingQty }
              | t8 :: _ =>
                match lib.stod (OrderParser.trim t8) with
                | none => none
                | some stopPrice =>
                  some { base with clientId := clientId, remainingQty := remainingQty,
                                   stopPrice := stopPrice }
    | _, _, _, _, _ => none
  | _ => none

/-- The `OrderParser::parseCsv`. -/
def OrderParser.parseCsv (lib : StdConv) (now : Nat) (csv : List Char) : Option Order :=
  OrderParser.checked (OrderParser.csvFields lib now (OrderParser.split csv commaChar))

/-- The `try` block of `OrderParser::parsePipeDelimited` on the tokens of the line. -/
def OrderParser.pipeFields (lib : StdConv) (now : Nat) : List (List Char) → Option Order
  | t0 :: t1 :: t2 :: t3 :: t4 :: t5 :: _ =>
    match lib.u64 (OrderParser.trim t0), OrderParser.stringToOrderType (OrderParser.trim t2),
        OrderParser.stringToOrderSide (OrderParser.trim t3), lib.stod (OrderParser.trim t4),
        lib.u32 (OrderParser.trim t5) with
    | some orderId, some type, some side, some price, some quantity =>
      some { orderId := orderId, clientId := 0, symbol := String.mk (OrderParser.trim t1),
             type := type, side := side, price := price, quantity := quantity,
             remainingQty := quantity, timestamp := now, lastModified := now, stopPrice := 0 }
    | _, _, _, _, _ => none
  | _ => none

/-- The `OrderParser::parsePipeDelimited`. -/
def OrderParser.parsePipeDelimited (lib : StdConv) (now : Nat) (input : List Char) :
    Option Order :=
  OrderParser.checked (OrderParser.pipeFields lib now (OrderParser.split input pipeChar))

/-- The `OrderParser::parse`: JSON when the input is enclosed in braces, else CSV when it holds a
comma, else pipe-delimited when it holds a vertical bar, else an exception. -/
def OrderParser.parse (lib : StdConv) (now : Nat) (input : String) : Option Order :=
  if input.data = [] then none
  else if input.data.head? = some openBrace ∧ input.data.getLast? = some closeBrace then
    OrderParser.parseJson lib now input.data
  else if commaChar ∈ input.data then OrderParser.parseCsv lib now input.data
  else if pipeChar ∈ input.data then OrderParser.parsePipeDelimited lib now input.data
  else none

/-! ## The run of `match` in small steps, and the well-formed books -/

/-- The book seen through the reference `dq` that the inner loop of `match` holds on the deque of
the best opposite level: what is left of the deque stands for the level, and a level whose deque
is used up is erased, as `if (dq.empty()) erase(it)` does when the inner loop is left. -/
def OrderBook.putLevel (s : OrderBook) (side : OrderSide) (price : Price) (dq : List Addr)
    (rest : List Level) : OrderBook :=
  if dq.isEmpty then s.setOpposite side rest else s.setOpposite side ((price, dq) :: rest)

/-- One pass of the inner loop of `match` for the incoming `order` of side `side`, as a step from
book to book: the front order `m` of the best opposite level is filled and popped (`pop`), or
filled and kept (`keep`); on a book with an empty level, that level is erased (`drop`). Each step
is taken under the conditions of the two loops: the incoming order has quantity left and the
price gate does not hold against the best opposite level. -/
inductive MStep (side : OrderSide) (order : Addr) : OrderBook → OrderBook → Prop
  | pop (s : OrderBook) (price : Price) (m : Addr) (dq : List Addr) (rest : List Level) :
      s.opposite side = (price, m :: dq) :: rest →
      0 < (s.mem order).remainingQty →
      priceGate side (s.mem order).price price = false →
      ((s.fill side order price m).mem m).remainingQty = 0 →
      MStep side order s ((s.fill side order price m).putLevel side price dq rest)
  | keep (s : OrderBook) (price : Price) (m : Addr) (dq : List Addr) (rest : List Level) :
      s.opposite side = (price, m :: dq) :: rest →
      0 < (s.mem order).remainingQty →
      priceGate side (s.mem order).price price = false →
      ((s.fill side order price m).mem m).remainingQty ≠ 0 →
      MStep side order s (s.fill side order price m)
  | drop (s : OrderBook) (price : Price) (rest : List Level) :
      s.opposite side = (price, []) :: rest →
      0 < (s.mem order).remainingQty →
      priceGate side (s.mem order).price price = false →
      MStep side order s (s.setOpposite side rest)

/-- A run of `match`: any number of steps. -/
abbrev MSteps (side : OrderSide) (order : Addr) := Relation.ReflTransGen (MStep side order)

/-- The condition under which `match` goes on. -/
def matchGuard (side : OrderSide) (order : Addr) (s : OrderBook) : Prop :=
  0 < (s.mem order).remainingQty ∧
    ∃ price dq rest, s.opposite side = (price, dq) :: rest ∧
      priceGate side (s.mem order).price price = false

/-- The orders resting on one side, best level first, each level front to back. -/
def resting (levels : List Level) : List Addr := (levels.map Prod.snd).flatten

/-- One side of the book is well formed: the levels are in the order of the side's comparator, no
level is empty, and every order of a level is an allocated object of that side, at the price of
the level, with quantity left. -/
def LevelsOK (mem : Addr → Order) (next : Addr) (side : OrderSide) (levels : List Level) : Prop :=
  (levels.map Prod.fst).Pairwise (fun a b => comesBefore side a b = true) ∧
  ∀ l ∈ levels, l.2 ≠ [] ∧ ∀ a ∈ l.2, a < next ∧ (mem a).side = side ∧ (mem a).price = l.1 ∧
    0 < (mem a).remainingQty

/-- The well-formed books: both sides are well formed, no object rests twice, every bid level is
priced below every ask level, every remaining quantity fits `uint32_t`, and an id of the index
leads to an allocated object that carries this id. -/
structure WF (s : OrderBook) : Prop where
  bids : LevelsOK s.mem s.nextPtr OrderSide.BUY s.bids_
  asks : LevelsOK s.mem s.nextPtr OrderSide.SELL s.asks_
  nodup : (resting s.bids_ ++ resting s.asks_).Nodup
  nocross : ∀ b ∈ s.bids_, ∀ a ∈ s.asks_, b.1 < a.1
  range : ∀ a, (s.mem a).remainingQty < 2 ^ 32
  index : ∀ id a, s.orderMap_ id = some a → a < s.nextPtr ∧ (s.mem a).orderId = id

/-- The levels `new` are what is left of the levels `old` after orders were taken out: the prices
and the resting orders of `new` are, in order, among those of `old`, and no level is empty. -/
def LevelsSub (new old : List Level) : Prop :=
  (new.map Prod.fst).Sublist (old.map Prod.fst) ∧ (resting new).Sublist (resting old) ∧
  ∀ l ∈ new, l.2 ≠ [] ∧ ∀ a ∈ l.2, ∃ l0 ∈ old, l0.1 = l.1 ∧ a ∈ l0.2

/-- What is written back for the best level after the inner loop. -/
def levelsAfter (price : Price) (dq : List Addr) (rest : List Level) : List Level :=
  if dq.isEmpty then rest else (price, dq) :: rest

/-- The addresses resting on either side. -/
def OrderBook.allResting (s : OrderBook) : List Addr := resting s.bids_ ++ resting s.asks_

/-- One call on the book: an order is handed in through `addNew` (its fields within their widths),
an id is cancelled, or the trade callback is set or cleared. -/
inductive Step : OrderBook → OrderBook → Prop
  | add (s : OrderBook) (o : Order) (fuel : Nat) (t : OrderBook) :
      o.inRange → s.addNew fuel o = some t → Step s t
  | cancel (s : OrderBook) (orderId : Nat) : Step s (s.cancelOrder orderId)
  | setCb (s : OrderBook) (cb : Bool) : Step s (s.setTradeCallback cb)

/-- The books reachable from the empty book. -/
inductive Reachable : OrderBook → Prop
  | empty : Reachable OrderBook.empty
  | step {s t : OrderBook} : Reachable s → Step s t → Reachable t

/-- One call on the book, as data. -/
inductive Call where
  | add (o : Order)
  | cancel (orderId : Nat)
  | setCallback (cb : Bool)

/-- The fields of the order a call hands in are within their widths. -/
def Call.inRange : Call → Prop
  | Call.add o => o.inRange
  | Call.cancel _ => True
  | Call.setCallback _ => True

instance (c : Call) : Decidable c.inRange := by
  cases c <;> unfold Call.inRange <;> infer_instance

/-- Apply one call. -/
def OrderBook.call (fuel : Nat) (s : OrderBook) : Call → Option OrderBook
  | Call.add o => s.addNew fuel o
  | Call.cancel orderId => some (s.cancelOrder orderId)
  | Call.setCallback cb => some (s.setTradeCallback cb)

/-- Apply a sequence of calls, first to last. -/
def OrderBook.run (fuel : Nat) : OrderBook → List Call → Option OrderBook
  | s, [] => some s
  | s, c :: cs =>
    match s.call fuel c with
    | none => none
    | some t => t.run fuel cs

/-- The book after a sequence of calls on the empty book. -/
def bookAfter (fuel : Nat) (calls : List Call) : OrderBook :=
  (OrderBook.empty.run fuel calls).getD OrderBook.empty

/-- A LIMIT order on symbol AAPL, built by the full constructor. -/
def limitOrder (id : Nat) (side : OrderSide) (price : Price) (qty : Nat) : Order :=
  Order.mk8 id 0 "AAPL" OrderType.LIMIT side price qty 0 0

/-- A MARKET order on symbol AAPL with price 0, built by the full constructor. -/
def marketOrder (id : Nat) (side : OrderSide) (qty : Nat) : Order :=
  Order.mk8 id 0 "AAPL" OrderType.MARKET side 0 qty 0 0

/-- The address of the resting order of a trade made for an incoming order of side `side`. -/
def Trade.makerPtr (side : OrderSide) (t : Trade) : Addr :=
  match side with
  | OrderSide.BUY => t.sellPtr
  | OrderSide.SELL => t.buyPtr

/-- The address of the incoming order of a trade made for an incoming order of side `side`. -/
def Trade.takerPtr (side : OrderSide) (t : Trade) : Addr :=
  match side with
  | OrderSide.BUY => t.buyPtr
  | OrderSide.SELL => t.sellPtr

/-- The resting order of a trade, as the callback sees it. -/
def Trade.maker (side : OrderSide) (t : Trade) : Order :=
  match side with
  | OrderSide.BUY => t.sell
  | OrderSide.SELL => t.buy

/-- The incoming order of a trade, as the callback sees it. -/
def Trade.taker (side : OrderSide) (t : Trade) : Order :=
  match side with
  | OrderSide.BUY => t.buy
  | OrderSide.SELL => t.sell

/-- The resting order `a` was filled down to 0 by one of the trades of `pre`, made for an incoming
order of side `side`. -/
def FilledBefore (side : OrderSide) (a : Addr) (pre : List Trade) : Prop :=
  ∃ u ∈ pre, u.makerPtr side = a ∧ (u.maker side).remainingQty = 0

/-- The price `a` is at least as good as `b` for an incoming order of side `side`: no higher when
it buys, no lower when it sells. -/
def priceOrdered (side : OrderSide) (a b : Price) : Prop :=
  match side with
  | OrderSide.BUY => a ≤ b
  | OrderSide.SELL => b ≤ a

/-- Within every level the orders stand in the order of their allocation, that is in the order of
the `addOrder` calls that admitted them. -/
def QueueOrder (s : OrderBook) : Prop :=
  ∀ l, (l ∈ s.bids_ ∨ l ∈ s.asks_) → l.2.Pairwise (fun a b => a < b)

/-- The other side. -/
def OrderSide.other : OrderSide → OrderSide
  | OrderSide.BUY => OrderSide.SELL
  | OrderSide.SELL => OrderSide.BUY

/-- Scenario: two buys of 5 at 100, ids 1 and 2, added in this order to the empty book. -/
def twoBidsAt100 : OrderBook :=
  bookAfter 8 [Call.add (limitOrder 1 OrderSide.BUY 100 5),
    Call.add (limitOrder 2 OrderSide.BUY 100 5)]

/-- The summary of a trade: buy id, sell id, price, quantity. -/
def Trade.summary (t : Trade) : Nat × Nat × Price × Nat :=
  (t.buy.orderId, t.sell.orderId, t.price, t.qty)

/-- The total quantity of the trades of `trades` in which the object `a` is the buy or the sell
party. -/
def fillsOf (a : Addr) (trades : List Trade) : Nat :=
  ((trades.filter (fun tr => decide (tr.buyPtr = a ∨ tr.sellPtr = a))).map Trade.qty).sum

/-- One call on the book that is not a cancel of the object `p`: an `addNew`, a `cancelOrder` of an
id the index does not map to `p`, or a change of the callback. -/
inductive StepKeeping (p : Addr) : OrderBook → OrderBook → Prop
  | add (s : OrderBook) (o : Order) (fuel : Nat) (t : OrderBook) :
      o.inRange → s.addNew fuel o = some t → StepKeeping p s t
  | cancel (s : OrderBook) (orderId : Nat) :
      s.orderMap_ orderId ≠ some p → StepKeeping p s (s.cancelOrder orderId)
  | setCb (s : OrderBook) (cb : Bool) : StepKeeping p s (s.setTradeCallback cb)

/-- Every trade of the history is between objects allocated so far. -/
def TradesBelow (s : OrderBook) : Prop :=
  ∀ tr ∈ s.trades, tr.buyPtr < s.nextPtr ∧ tr.sellPtr < s.nextPtr

/-- One call on the book in which the order handed in, if any, carries a timestamp that is not
earlier than the timestamp of any object allocated before it: callers construct their orders in
the order in which they hand them in. -/
inductive StepInTime : OrderBook → OrderBook → Prop
  | add (s : OrderBook) (o : Order) (fuel : Nat) (t : OrderBook) :
      o.inRange → (∀ a, a < s.nextPtr → (s.mem a).timestamp ≤ o.timestamp) →
      s.addNew fuel o = some t → StepInTime s t
  | cancel (s : OrderBook) (orderId : Nat) : StepInTime s (s.cancelOrder orderId)
  | setCb (s : OrderBook) (cb : Bool) : StepInTime s (s.setTradeCallback cb)

/-- The books reachable from the empty book by calls whose orders are constructed in the order in
which they are handed in. -/
inductive ReachableInTime : OrderBook → Prop
  | empty : ReachableInTime OrderBook.empty
  | step {s t : OrderBook} : ReachableInTime s → StepInTime s t → ReachableInTime t

/-- The objects were allocated in the order of their timestamps. -/
def TimeOrdered (s : OrderBook) : Prop :=
  ∀ a b, a < b → b < s.nextPtr → (s.mem a).timestamp ≤ (s.mem b).timestamp

/-- A LIMIT order on symbol AAPL built by the full constructor at clock reading `now`. -/
def limitOrderAt (now : Nat) (id : Nat) (side : OrderSide) (price : Price) (qty : Nat) : Order :=
  Order.mk8 id 0 "AAPL" OrderType.LIMIT side price qty 0 now

/-- Every resting order is the one its id leads to in the index, unless another allocated object
carries the same id. -/
def IndexedResting (s : OrderBook) : Prop :=
  ∀ a ∈ s.allResting, s.orderMap_ (s.mem a).orderId = some a ∨
    ∃ b, b < s.nextPtr ∧ b ≠ a ∧ (s.mem b).orderId = (s.mem a).orderId

/-- The levels without the order `p`: every level keeps its other orders, in their order, and a
level that held only `p` is gone. -/
def withoutOrder (p : Addr) (levels : List Level) : List Level :=
  (levels.map (fun l => (l.1, l.2.filter (fun a => decide (a ≠ p))))).filter
    (fun l => !l.2.isEmpty)

/-- The fills `fills` (quantity and clock reading of each `updateRemainingQty` call, in order) are
each at most what the order has left at the moment of the call. -/
def fillsFit (o : Order) : List (Nat × Nat) → Prop
  | [] => True
  | (q, now) :: rest => q ≤ o.remainingQty ∧ fillsFit (o.updateRemainingQty q now) rest

instance fillsFit_decidable : (o : Order) → (fills : List (Nat × Nat)) → Decidable (fillsFit o fills)
  | _, [] => isTrue trivial
  | o, (q, now) :: rest =>
    @instDecidableAnd _ _ _ (fillsFit_decidable (o.updateRemainingQty q now) rest)

/-- The order after the calls `updateRemainingQty(q)` for the fills of `fills`, in order. -/
def applyFills (o : Order) : List (Nat × Nat) → Order
  | [] => o
  | (q, now) :: rest => applyFills (o.updateRemainingQty q now) rest

/-- The sum of the quantities of a sequence of fills. -/
def fillSum (fills : List (Nat × Nat)) : Nat := (fills.map Prod.fst).sum

/-- Every trade of the history has an order of side BUY as its buy party and an order of side
SELL as its sell party. -/
def Oriented (s : OrderBook) : Prop :=
  ∀ tr ∈ s.trades, tr.buy.side = OrderSide.BUY ∧ tr.sell.side = OrderSide.SELL

/-- The orders `a` and `b` agree on the fields that identify an order: `orderId`, `clientId`,
`symbol`, `type`, `side`, `price` and `quantity`. -/
def Order.sameIdentity (a b : Order) : Prop :=
  a.orderId = b.orderId ∧ a.clientId = b.clientId ∧ a.symbol = b.symbol ∧ a.type = b.type ∧
    a.side = b.side ∧ a.price = b.price ∧ a.quantity = b.quantity

instance (a b : Order) : Decidable (a.sameIdentity b) := by
  unfold Order.sameIdentity; infer_instance

/-- The counter `totalTrades_` is the number of `executeTrade` calls so far, as a `uint64_t`. -/
def CountOK (s : OrderBook) : Prop := s.totalTrades_ = s.trades.length % 2 ^ 64

/-- The books reachable from the empty book when a trade callback is installed before the first
order is handed in and is never cleared afterwards. -/
inductive WithCallback : OrderBook → Prop
  | start : WithCallback (OrderBook.empty.setTradeCallback true)
  | add {s t : OrderBook} (o : Order) (fuel : Nat) :
      WithCallback s → o.inRange → s.addNew fuel o = some t → WithCallback t
  | cancel {s : OrderBook} (orderId : Nat) : WithCallback s → WithCallback (s.cancelOrder orderId)
  | setCb {s : OrderBook} : WithCallback s → WithCallback (s.setTradeCallback true)

/-- Scenario: a matcher on a book in which BUY id 1 at 100 for 10 rests, with one submitted
intent of type CANCEL carrying the id 1 (side `side`, price 100, quantity 10). -/
def cancelIntentMatcher (side : OrderSide) : Matcher :=
  (Matcher.new (bookAfter 8 [Call.add (limitOrder 1 OrderSide.BUY 100 10)])).submitOrder
    (Order.mk8 1 0 "AAPL" OrderType.CANCEL side 100 10 0 0)

/-- The total remaining quantity of the orders resting in `levels`, read in the store `mem`. -/
def restingQty (mem : Addr → Order) (levels : List Level) : Nat :=
  ((resting levels).map (fun a => (mem a).remainingQty)).sum

/-- The trades `ts`, made in this order for one incoming order of side `side`, are right fills:
`rem` is what the incoming order has left immediately before the first of them and `mem` is the
store before the first of them. Each trade has the quantity `min` of what the incoming order
and the resting order have left immediately before it, both are seen by the callback lowered by
exactly that quantity, and no later trade of `ts` is with the same resting order, so that what a
resting order has left before its fill is what it had in `mem`. -/
def FillsOK (side : OrderSide) (mem : Addr → Order) : Nat → List Trade → Prop
  | _, [] => True
  | rem, tr :: rest =>
    tr.qty = min rem (mem (tr.makerPtr side)).remainingQty ∧
    (tr.taker side).remainingQty + tr.qty = rem ∧
    (tr.maker side).remainingQty + tr.qty = (mem (tr.makerPtr side)).remainingQty ∧
    (∀ tr2 ∈ rest, tr2.makerPtr side ≠ tr.makerPtr side) ∧
    FillsOK side mem (rem - tr.qty) rest

/-! ## The parser: the conversions of the library, and key names that are absent -/

/-- The value of the decimal digits at the start of `cs`; `none` when there is none. -/
def leadingNat (cs : List Char) : Option Nat :=
  if (cs.takeWhile Char.isDigit).isEmpty then none
  else some ((cs.takeWhile Char.isDigit).foldl (fun acc c => 10 * acc + (c.toNat - 48)) 0)

/-- The `std::stoull` and, where `unsigned long` has 64 bits, the `std::stoul` of the library
(`strtoull` and `strtoul` in base 10): leading white space, an optional sign, digits, and whatever
follows is ignored; no digit is an `invalid_argument`, a number that does not fit into 64 bits
an `out_of_range`, and a minus sign negates modulo `2^64`. -/
def decimalUnsigned (cs : List Char) : Option Nat :=
  match cs.dropWhile isspace with
  | '-' :: rest => (leadingNat rest).bind (fun v => if v < 2 ^ 64 then some ((2 ^ 64 - v) % 2 ^ 64) else none)
  | '+' :: rest => (leadingNat rest).bind (fun v => if v < 2 ^ 64 then some v else none)
  | body => (leadingNat body).bind (fun v => if v < 2 ^ 64 then some v else none)

/-- A hexadecimal digit, in either case. -/
def isHexDigit (c : Char) : Bool :=
  c.isDigit || (decide (97 ≤ c.toNat) && decide (c.toNat ≤ 102)) ||
    (decide (65 ≤ c.toNat) && decide (c.toNat ≤ 70))

/-- The value of a decimal or hexadecimal digit. -/
def digitValue (c : Char) : Nat :=
  if c.isDigit then c.toNat - 48 else if 97 ≤ c.toNat then c.toNat - 87 else c.toNat - 55

/-- The value of a string of digits in the base `base`. -/
def digitsValue (base : Nat) (cs : List Char) : Nat :=
  cs.foldl (fun acc c => base * acc + digitValue c) 0

/-- The exponent part that may follow the digits of a floating-point text: the letter `lower` or
`upper`, an optional sign and at least one decimal digit. Without such a part the exponent
is 0. -/
def exponentPart (lower upper : Char) : List Char → Int
  | [] => 0
  | c :: rest =>
    if c = lower ∨ c = upper then
      match rest with
      | '-' :: digits => -(((leadingNat digits).getD 0 : Nat) : Int)
      | '+' :: digits => (((leadingNat digits).getD 0 : Nat) : Int)
      | digits => (((leadingNat digits).getD 0 : Nat) : Int)
    else 0

/-- The digits of a floating-point text in the base `base` (10 or 16, with binary digits
`bits` = 1 resp. 4 per digit place of the fraction for base 16): digits before and after an
optional point, of which there must be one at least, and the exponent part. The result is the
number that the text denotes, as a fraction `(n, d)` of naturals; `none` when there is no
digit. -/
def floatText (isDigit : Char → Bool) (base expBase : Nat) (lower upper : Char)
    (cs : List Char) : Option (Nat × Nat) :=
  let whole := cs.takeWhile isDigit
  let afterWhole := cs.dropWhile isDigit
  let frac := match afterWhole with
    | '.' :: rest => rest.takeWhile isDigit
    | _ => []
  let afterDigits := match afterWhole with
    | '.' :: rest => rest.dropWhile isDigit
    | _ => afterWhole
  if (whole ++ frac).isEmpty then none
  else
    let mantissa := digitsValue base (whole ++ frac)
    let exponent := exponentPart lower upper afterDigits
    some (mantissa * expBase ^ exponent.toNat, base ^ frac.length * expBase ^ (-exponent).toNat)

/-- The number denoted by a floating-point text without its sign, as `strtod` reads it: a
hexadecimal text after `0x` or `0X` (binary exponent after `p`), else a decimal text (decimal
exponent after `e`). A text `0x` with no hexadecimal digit after it is read as the decimal 0. -/
def floatMagnitude (cs : List Char) : Option (Nat × Nat) :=
  match cs with
  | '0' :: x :: rest =>
    if x = 'x' ∨ x = 'X' then
      match floatText isHexDigit 16 2 'p' 'P' rest with
      | some v => some v
      | none => floatText Char.isDigit 10 10 'e' 'E' cs
    else floatText Char.isDigit 10 10 'e' 'E' cs
  | _ => floatText Char.isDigit 10 10 'e' 'E' cs

/-- The number of times `n` can be halved before it is below 2, counted in at most `fuel`
steps. -/
def halvings : Nat → Nat → Nat
  | 0, _ => 0
  | fuel + 1, n => if 2 ≤ n then halvings fuel (n / 2) + 1 else 0

/-- The largest `k` with `2^k ≤ n`, for positive `n`. -/
def binaryLog (n : Nat) : Nat := halvings n n

/-- The largest `e` with `2^e ≤ n / d`, for positive `n` and `d`. -/
def floorLog2 (n d : Nat) : Int :=
  let e0 : Int := (binaryLog n : Int) - (binaryLog d : Int)
  if n * 2 ^ (-e0).toNat < d * 2 ^ e0.toNat then e0 - 1 else e0

/-- The integer nearest to `(n / d) / 2^u`, the even one of two that are equally near. -/
def roundAt (n d : Nat) (u : Int) : Nat :=
  let num := n * 2 ^ (-u).toNat
  let den := d * 2 ^ u.toNat
  if 2 * (num % den) > den ∨ (2 * (num % den) = den ∧ (num / den) % 2 = 1) then num / den + 1
  else num / den

/-- The conversion of the number `n / d`, negated when `negative`, to an IEEE 754 `double`
(53 binary digits, exponents from -1022 to 1023, subnormal numbers in steps of `2^-1074`,
rounding to nearest, ties to even), as `strtod` performs it under `std::stod`; the result is the
value of the `double`. `none` stands for `out_of_range`, which `std::stod` throws when `strtod`
reports a range error: rounded to 53 digits the number is `2^1024` or more, or the result is
inexact and the number, rounded to 53 digits, is still below `2^-1022`. -/
def nearestDouble (negative : Bool) (n d : Nat) : Option Price :=
  if n = 0 then some 0
  else
    let e := floorLog2 n d
    let u := max (e - 52) (-1074)
    let r := roundAt n d u
    let inexact := (n * 2 ^ (-u).toNat) % (d * 2 ^ u.toNat) ≠ 0
    let tiny := e < -1022 ∧ ¬ (e = -1023 ∧ roundAt n d (e - 52) = 2 ^ 53)
    let huge := 1024 ≤ e ∨ (e = 1023 ∧ r = 2 ^ 53)
    if huge then none
    else if tiny ∧ inexact then none
    else some (mkRat ((if negative then -1 else 1) * ((r * 2 ^ u.toNat : Nat) : Int))
      (2 ^ (-u).toNat))

/-- The `std::stod` of the library on the texts whose value is a number: leading white space,
an optional sign, a decimal or hexadecimal floating-point text, and whatever follows is ignored;
`none` stands for the `invalid_argument` thrown when no number can be read and for the
`out_of_range` of `nearestDouble`. The texts `inf`, `infinity` and `nan`, for which the library
returns an infinity or a NaN, have no value among the prices of this development, which are
numbers: the reader has no result for them. -/
def stodValue (cs : List Char) : Option Price :=
  match cs.dropWhile isspace with
  | '-' :: rest => (floatMagnitude rest).bind (fun v => nearestDouble true v.1 v.2)
  | '+' :: rest => (floatMagnitude rest).bind (fun v => nearestDouble false v.1 v.2)
  | body => (floatMagnitude body).bind (fun v => nearestDouble false v.1 v.2)

/-- The conversions of the C++ standard library, for a platform with a 64-bit `unsigned long`
and IEEE 754 doubles, used to run the parser on examples. -/
def glibcConv : StdConv :=
  { stoull := decimalUnsigned, stoul := decimalUnsigned, stod := stodValue }

/-- The text `json` holds the name `key` between quotes nowhere: not as the name of a member and
not inside a value or another name either. This is what the searches of `extractJsonString` and
`extractJsonValue` test, and it says more than that the JSON object has no member `key`. -/
def quotedKeyAbsent (json : List Char) (key : String) : Prop :=
  ∀ pre post : List Char, json ≠ pre ++ searchKey key.data ++ post

/-- The order the worker has popped from the queue and not yet given to `addOrder`. -/
def Worker.inHand : Worker → List Order
  | Worker.holding order => [order]
  | _ => []

/-- The worker stands between `addOrder` and `processedOrders_++`. -/
def Worker.uncounted : Worker → Bool
  | Worker.added _ => true
  | _ => false

/-- What holds of a matcher on `book` at every moment: the submitted orders are the applied ones,
then the one in the hand of the worker, then the queue; the book is `book` with the applied
orders added in order; and the counter of processed orders, a `uint64_t`, is the number of
applied orders, or one less between `addOrder` and `processedOrders_++`. -/
def Engine.Inv (book : OrderBook) (e : Engine) : Prop :=
  e.submitted = e.applied ++ e.worker.inHand ++ e.matcher.orderQueue_ ∧
    (∃ fuel, book.run fuel (e.applied.map Call.add) = some e.matcher.book_) ∧
    (e.worker.uncounted = false →
      e.matcher.getProcessedOrders = e.applied.length % 2 ^ 64) ∧
    (e.worker.uncounted = true →
      0 < e.applied.length ∧
        e.matcher.getProcessedOrders = (e.applied.length - 1) % 2 ^ 64)

/-- The call does not hand in an order with the id `orderId`. -/
def Call.avoids (orderId : Nat) : Call → Prop
  | Call.add o => o.orderId ≠ orderId
  | Call.cancel _ => True
  | Call.setCallback _ => True

instance (orderId : Nat) (c : Call) : Decidable (c.avoids orderId) := by
  cases c <;> unfold Call.avoids <;> infer_instance

/-! ## Runs that differ in their clock readings -/

/-- The order with its two time points blanked. -/
def Order.eraseTime (o : Order) : Order := { o with timestamp := 0, lastModified := 0 }

/-- The trade with the time points of its two orders blanked. -/
def Trade.eraseTime (tr : Trade) : Trade :=
  { tr with buy := tr.buy.eraseTime, sell := tr.sell.eraseTime }

/-- The book with the time points of all its order objects blanked, in the store and in the
history; levels, index, counter and remaining quantities are kept. -/
def OrderBook.eraseTime (s : OrderBook) : OrderBook :=
  { s with mem := fun a => (s.mem a).eraseTime, trades := s.trades.map Trade.eraseTime }

/-- The call with the time points of the order it hands in blanked. -/
def Call.eraseTime : Call → Call
  | Call.add o => Call.add o.eraseTime
  | Call.cancel orderId => Call.cancel orderId
  | Call.setCallback cb => Call.setCallback cb

/-! ## Lemmas -/

@[simp] theorem withRemaining_remainingQty (o : Order) (q : Nat) :
    (o.withRemaining q).remainingQty = q := rfl

@[simp] theorem withRemaining_orderId (o : Order) (q : Nat) :
    (o.withRemaining q).orderId = o.orderId := rfl

@[simp] theorem withRemaining_side (o : Order) (q : Nat) :
    (o.withRemaining q).side = o.side := rfl

@[simp] theorem withRemaining_price (o : Order) (q : Nat) :
    (o.withRemaining q).price = o.price := rfl

@[simp] theorem withRemaining_quantity (o : Order) (q : Nat) :
    (o.withRemaining q).quantity = o.quantity := rfl

@[simp] theorem withRemaining_withRemaining (o : Order) (q r : Nat) :
    (o.withRemaining q).withRemaining r = o.withRemaining r := rfl

theorem withRemaining_self (o : Order) : o.withRemaining o.remainingQty = o := rfl

theorem setOpposite_opposite (s : OrderBook) (side : OrderSide) :
    s.setOpposite side (s.opposite side) = s := by
  cases side <;> rfl

theorem opposite_setOpposite (s : OrderBook) (side : OrderSide) (l : List Level) :
    (s.setOpposite side l).opposite side = l := by
  cases side <;> rfl

theorem setOpposite_setOpposite (s : OrderBook) (side : OrderSide) (l l2 : List Level) :
    (s.setOpposite side l).setOpposite side l2 = s.setOpposite side l2 := by
  cases side <;> rfl

theorem mem_setOpposite (s : OrderBook) (side : OrderSide) (l : List Level) :
    (s.setOpposite side l).mem = s.mem := by
  cases side <;> rfl

theorem fill_setOpposite (s : OrderBook) (side side2 : OrderSide) (order : Addr) (price : Price) (m : Addr)
    (l : List Level) :
    (s.setOpposite side2 l).fill side order price m = (s.fill side order price m).setOpposite side2 l := by
  cases side <;> cases side2 <;> rfl

theorem fill_price (s : OrderBook) (side : OrderSide) (order : Addr) (price : Price) (m : Addr) (a : Addr) :
    ((s.fill side order price m).mem a).price = (s.mem a).price := by
  cases side <;>
  simp only [OrderBook.fill, OrderBook.executeTrade, Function.update_apply] <;>
  split_ifs <;> simp_all

theorem matchLevel_steps (side : OrderSide) (order : Addr) (price : Price) (rest : List Level) :
    ∀ (fuel : Nat) (s : OrderBook) (dq : List Addr) (s1 : OrderBook) (dq1 : List Addr),
      matchLevel side order price fuel s dq = some (s1, dq1) →
      priceGate side (s.mem order).price price = false →
      MSteps side order (s.putLevel side price dq rest) (s1.putLevel side price dq1 rest) := by
  intro fuel
  induction fuel with
  | zero => intro s dq s1 dq1 h; simp [matchLevel] at h
  | succ n ih =>
    intro s dq s1 dq1 h hg
    simp only [matchLevel] at h
    split_ifs at h with hpos
    · cases dq with
      | nil =>
        simp only [Option.some.injEq, Prod.mk.injEq] at h
        obtain ⟨rfl, rfl⟩ := h
        exact Relation.ReflTransGen.refl
      | cons m dq =>
        simp only at h
        split_ifs at h with hz
        · have hg2 : priceGate side ((s.fill side order price m).mem order).price price = false := by
            rw [fill_price]; exact hg
          refine Relation.ReflTransGen.head ?_ (ih _ _ _ _ h hg2)
          have := @MStep.pop side order (s.putLevel side price (m :: dq) rest) price m dq rest
          simp only [OrderBook.putLevel, List.isEmpty_cons, Bool.false_eq_true, if_false,
            opposite_setOpposite, mem_setOpposite, fill_setOpposite, setOpposite_setOpposite] at this ⊢
          exact this trivial hpos hg hz
        · have hg2 : priceGate side ((s.fill side order price m).mem order).price price = false := by
            rw [fill_price]; exact hg
          refine Relation.ReflTransGen.head ?_ (ih _ _ _ _ h hg2)
          have := @MStep.keep side order (s.putLevel side price (m :: dq) rest) price m dq rest
          simp only [OrderBook.putLevel, List.isEmpty_cons, Bool.false_eq_true, if_false,
            opposite_setOpposite, mem_setOpposite, fill_setOpposite, setOpposite_setOpposite] at this ⊢
          exact this trivial hpos hg hz
    · simp only [Option.some.injEq, Prod.mk.injEq] at h
      obtain ⟨rfl, rfl⟩ := h
      exact Relation.ReflTransGen.refl

theorem matchLoop_steps (side : OrderSide) (order : Addr) :
    ∀ (fuel : Nat) (s t : OrderBook), matchLoop side order fuel s = some t →
      MSteps side order s t ∧ ¬ matchGuard side order t := by
  intro fuel
  induction fuel with
  | zero => intro s t h; simp [matchLoop] at h
  | succ n ih =>
    intro s t h
    simp only [matchLoop] at h
    split_ifs at h with hpos
    · split at h
      · rename_i hopp
        simp only [Option.some.injEq] at h
        subst h
        refine ⟨Relation.ReflTransGen.refl, ?_⟩
        rintro ⟨_, price, dq, rest, h1, _⟩
        rw [hopp] at h1; cases h1
      · rename_i price dq rest hopp
        split_ifs at h with hg
        · simp only [Option.some.injEq] at h
          subst h
          refine ⟨Relation.ReflTransGen.refl, ?_⟩
          rintro ⟨_, price2, dq2, rest2, h1, h2⟩
          rw [hopp] at h1
          simp only [List.cons.injEq, Prod.mk.injEq] at h1
          obtain ⟨⟨rfl, rfl⟩, rfl⟩ := h1
          rw [hg] at h2; cases h2
        · have hg : priceGate side (s.mem order).price price = false := by simpa using hg
          split at h
          · cases h
          · rename_i s1 dq1 hlev
            have key : MSteps side order s (s1.putLevel side price dq1 rest) := by
              cases dq with
              | nil =>
                cases n with
                | zero => simp [matchLevel] at hlev
                | succ k =>
                  simp only [matchLevel, hpos, if_true, Option.some.injEq, Prod.mk.injEq] at hlev
                  obtain ⟨rfl, rfl⟩ := hlev
                  simp only [OrderBook.putLevel, List.isEmpty_nil, if_true]
                  exact Relation.ReflTransGen.single (MStep.drop s price rest hopp hpos hg)
              | cons m dq =>
                have := matchLevel_steps side order price rest n s (m :: dq) s1 dq1 hlev hg
                simp only [OrderBook.putLevel, List.isEmpty_cons, Bool.false_eq_true, if_false] at this
                rw [← hopp, setOpposite_opposite] at this
                exact this
            have h2 : matchLoop side order n (s1.putLevel side price dq1 rest) = some t := by
              simp only [OrderBook.putLevel]
              split_ifs at h ⊢ <;> exact h
            obtain ⟨h3, h4⟩ := ih _ _ h2
            exact ⟨key.trans h3, h4⟩
    · simp only [Option.some.injEq] at h
      subst h
      exact ⟨Relation.ReflTransGen.refl, fun hg => hpos hg.1⟩

theorem mem_resting {levels : List Level} {a : Addr} :
    a ∈ resting levels ↔ ∃ l ∈ levels, a ∈ l.2 := by
  simp only [resting, List.mem_flatten, List.mem_map]
  constructor
  · rintro ⟨dq, ⟨l, hl, rfl⟩, ha⟩; exact ⟨l, hl, ha⟩
  · rintro ⟨l, hl, ha⟩; exact ⟨l.2, ⟨l, hl, rfl⟩, ha⟩

theorem levelsSub_refl {mem : Addr → Order} {next : Addr} {side : OrderSide} {l : List Level}
    (h : LevelsOK mem next side l) : LevelsSub l l :=
  ⟨List.Sublist.refl _, List.Sublist.refl _, fun x hx => ⟨(h.2 x hx).1, fun _ ha => ⟨x, hx, rfl, ha⟩⟩⟩

theorem levelsOK_sub {mem mem2 : Addr → Order} {next : Addr} {side : OrderSide}
    {new old : List Level} (h : LevelsOK mem next side old) (hsub : LevelsSub new old)
    (hm : ∀ a, (mem2 a).side = (mem a).side ∧ (mem2 a).price = (mem a).price)
    (hpos : ∀ a ∈ resting new, 0 < (mem2 a).remainingQty) :
    LevelsOK mem2 next side new := by
  refine ⟨h.1.sublist hsub.1, fun l hl => ⟨(hsub.2.2 l hl).1, fun a ha => ?_⟩⟩
  obtain ⟨l0, hl0, hk, ha0⟩ := (hsub.2.2 l hl).2 a ha
  obtain ⟨h1, h2, h3, _⟩ := (h.2 l0 hl0).2 a ha0
  refine ⟨h1, by rw [(hm a).1]; exact h2, by rw [(hm a).2, h3, hk], hpos a (mem_resting.2 ⟨l, hl, ha⟩)⟩

theorem wf_shrink {s t : OrderBook} (hs : WF s) (hnext : t.nextPtr = s.nextPtr)
    (hidx : ∀ id a, t.orderMap_ id = some a → s.orderMap_ id = some a)
    (hb : LevelsSub t.bids_ s.bids_) (ha : LevelsSub t.asks_ s.asks_)
    (hmem : ∀ a, (t.mem a).side = (s.mem a).side ∧ (t.mem a).price = (s.mem a).price)
    (hid : ∀ a, (t.mem a).orderId = (s.mem a).orderId)
    (hrange : ∀ a, (t.mem a).remainingQty < 2 ^ 32)
    (hpos : ∀ a ∈ resting t.bids_ ++ resting t.asks_, 0 < (t.mem a).remainingQty) : WF t := by
  refine ⟨?_, ?_, ?_, ?_, hrange, ?_⟩
  · rw [hnext]; exact levelsOK_sub hs.bids hb hmem (fun a h => hpos a (List.mem_append_left _ h))
  · rw [hnext]; exact levelsOK_sub hs.asks ha hmem (fun a h => hpos a (List.mem_append_right _ h))
  · exact hs.nodup.sublist (hb.2.1.append ha.2.1)
  · intro b hb' a ha'
    obtain ⟨hbne, hbm⟩ := hb.2.2 b hb'
    obtain ⟨hane, ham⟩ := ha.2.2 a ha'
    obtain ⟨x, hx⟩ := List.exists_mem_of_ne_nil _ hbne
    obtain ⟨y, hy⟩ := List.exists_mem_of_ne_nil _ hane
    obtain ⟨b0, hb0, hbk, _⟩ := hbm x hx
    obtain ⟨a0, ha0, hak, _⟩ := ham y hy
    rw [← hbk, ← hak]; exact hs.nocross b0 hb0 a0 ha0
  · intro id a h
    obtain ⟨h1, h2⟩ := hs.index id a (hidx id a h)
    exact ⟨by rw [hnext]; exact h1, by rw [hid]; exact h2⟩

theorem sub32_of_le {a b : Nat} (ha : a < 2 ^ 32) (hb : b ≤ a) : sub32 a b = a - b := by
  unfold sub32
  have hb2 : b < 2 ^ 32 := lt_of_le_of_lt hb ha
  rw [Nat.mod_eq_of_lt hb2]
  have : a + 2 ^ 32 - b = (a - b) + 2 ^ 32 := by omega
  rw [this, Nat.add_mod_right, Nat.mod_eq_of_lt (by omega)]

@[simp] theorem fill_bids (s : OrderBook) (side : OrderSide) (order : Addr) (price : Price)
    (m : Addr) : (s.fill side order price m).bids_ = s.bids_ := by cases side <;> rfl

@[simp] theorem fill_asks (s : OrderBook) (side : OrderSide) (order : Addr) (price : Price)
    (m : Addr) : (s.fill side order price m).asks_ = s.asks_ := by cases side <;> rfl

@[simp] theorem fill_orderMap (s : OrderBook) (side : OrderSide) (order : Addr) (price : Price)
    (m : Addr) : (s.fill side order price m).orderMap_ = s.orderMap_ := by cases side <;> rfl

@[simp] theorem fill_nextPtr (s : OrderBook) (side : OrderSide) (order : Addr) (price : Price)
    (m : Addr) : (s.fill side order price m).nextPtr = s.nextPtr := by cases side <;> rfl

@[simp] theorem fill_tradeCb (s : OrderBook) (side : OrderSide) (order : Addr) (price : Price)
    (m : Addr) : (s.fill side order price m).tradeCb_ = s.tradeCb_ := by cases side <;> rfl

theorem fill_opposite (s : OrderBook) (side side2 : OrderSide) (order : Addr) (price : Price)
    (m : Addr) : (s.fill side order price m).opposite side2 = s.opposite side2 := by
  cases side <;> cases side2 <;> rfl

/-- What a fill leaves of an object: only `remainingQty` may differ. -/
theorem fill_mem_fields (s : OrderBook) (side : OrderSide) (order : Addr) (price : Price)
    (m a : Addr) :
    (s.fill side order price m).mem a =
      (s.mem a).withRemaining ((s.fill side order price m).mem a).remainingQty := by
  cases side <;>
  simp only [OrderBook.fill, OrderBook.executeTrade, Function.update_apply] <;>
  split_ifs <;> first | rfl | simp_all

theorem fill_mem_other (s : OrderBook) (side : OrderSide) (order : Addr) (price : Price)
    (m a : Addr) (h1 : a ≠ order) (h2 : a ≠ m) : (s.fill side order price m).mem a = s.mem a := by
  cases side <;>
  simp [OrderBook.fill, OrderBook.executeTrade, Function.update_apply, h1, h2]

theorem fill_mem_order (s : OrderBook) (side : OrderSide) (order : Addr) (price : Price)
    (m : Addr) (hne : order ≠ m) (hr : (s.mem order).remainingQty < 2 ^ 32) :
    ((s.fill side order price m).mem order).remainingQty =
      (s.mem order).remainingQty - min (s.mem order).remainingQty (s.mem m).remainingQty := by
  cases side <;>
  simp [OrderBook.fill, OrderBook.executeTrade, Function.update_apply, hne, hne.symm,
    sub32_of_le hr (Nat.min_le_left _ _)]

theorem fill_mem_maker (s : OrderBook) (side : OrderSide) (order : Addr) (price : Price)
    (m : Addr) (hne : order ≠ m) (hr : (s.mem m).remainingQty < 2 ^ 32) :
    ((s.fill side order price m).mem m).remainingQty =
      (s.mem m).remainingQty - min (s.mem order).remainingQty (s.mem m).remainingQty := by
  cases side <;>
  simp [OrderBook.fill, OrderBook.executeTrade, Function.update_apply, hne, hne.symm,
    sub32_of_le hr (Nat.min_le_right _ _)]

theorem putLevel_eq (s : OrderBook) (side : OrderSide) (price : Price) (dq : List Addr)
    (rest : List Level) :
    s.putLevel side price dq rest = s.setOpposite side (levelsAfter price dq rest) := by
  unfold OrderBook.putLevel levelsAfter; split_ifs <;> rfl

@[simp] theorem resting_nil : resting [] = [] := rfl

@[simp] theorem resting_cons (l : Level) (rest : List Level) :
    resting (l :: rest) = l.2 ++ resting rest := by
  simp [resting]

theorem resting_levelsAfter (price : Price) (dq : List Addr) (rest : List Level) :
    resting (levelsAfter price dq rest) = dq ++ resting rest := by
  unfold levelsAfter
  cases dq <;> simp

theorem levelsAfter_sub (price : Price) (m : Addr) (dq : List Addr) (rest : List Level)
    (hrest : ∀ l ∈ rest, l.2 ≠ []) :
    LevelsSub (levelsAfter price dq rest) ((price, m :: dq) :: rest) := by
  refine ⟨?_, ?_, ?_⟩
  · unfold levelsAfter
    split_ifs
    · simp
    · simp
  · rw [resting_levelsAfter]; simp
  · intro l hl
    unfold levelsAfter at hl
    split_ifs at hl with hdq
    · exact ⟨hrest l hl, fun a ha => ⟨l, List.mem_cons_of_mem _ hl, rfl, ha⟩⟩
    · rcases List.mem_cons.1 hl with rfl | hl
      · refine ⟨by simpa using hdq, fun a ha => ⟨(price, m :: dq), List.mem_cons_self _ _, rfl, ?_⟩⟩
        exact List.mem_cons_of_mem _ ha
      · exact ⟨hrest l hl, fun a ha => ⟨l, List.mem_cons_of_mem _ hl, rfl, ha⟩⟩

@[simp] theorem setOpposite_nextPtr (s : OrderBook) (side : OrderSide) (l : List Level) :
    (s.setOpposite side l).nextPtr = s.nextPtr := by cases side <;> rfl

@[simp] theorem setOpposite_orderMap (s : OrderBook) (side : OrderSide) (l : List Level) :
    (s.setOpposite side l).orderMap_ = s.orderMap_ := by cases side <;> rfl

@[simp] theorem setOpposite_trades (s : OrderBook) (side : OrderSide) (l : List Level) :
    (s.setOpposite side l).trades = s.trades := by cases side <;> rfl

@[simp] theorem setOpposite_mem (s : OrderBook) (side : OrderSide) (l : List Level) :
    (s.setOpposite side l).mem = s.mem := by cases side <;> rfl


theorem wf_opp_ne_nil {s : OrderBook} (hs : WF s) (side : OrderSide) :
    ∀ l ∈ s.opposite side, l.2 ≠ [] := by
  intro l hl
  cases side
  · exact (hs.asks.2 l hl).1
  · exact (hs.bids.2 l hl).1

theorem mem_allResting_of_opp {s : OrderBook} {side : OrderSide} {a : Addr}
    (h : a ∈ resting (s.opposite side)) : a ∈ s.allResting := by
  cases side
  · exact List.mem_append_right _ h
  · exact List.mem_append_left _ h

theorem wf_pos {s : OrderBook} (hs : WF s) {a : Addr} (h : a ∈ s.allResting) :
    0 < (s.mem a).remainingQty := by
  rcases List.mem_append.1 h with h | h
  · obtain ⟨l, hl, ha⟩ := mem_resting.1 h
    exact ((hs.bids.2 l hl).2 a ha).2.2.2
  · obtain ⟨l, hl, ha⟩ := mem_resting.1 h
    exact ((hs.asks.2 l hl).2 a ha).2.2.2

theorem mstep_wf {side : OrderSide} {order : Addr} {s t : OrderBook}
    (h : MStep side order s t) (hs : WF s) (ho : order ∉ s.allResting) :
    WF t ∧ order ∉ t.allResting := by
  cases h with
  | pop price m dq rest hopp hpos hg hz =>
    have hm : m ∈ s.allResting := @mem_allResting_of_opp s side m (by rw [hopp]; simp)
    have hne : order ≠ m := fun e => ho (e ▸ hm)
    have hsubO : LevelsSub (levelsAfter price dq rest) (s.opposite side) := by
      rw [hopp]
      exact levelsAfter_sub price m dq rest
        (fun l hl => wf_opp_ne_nil hs side l (by rw [hopp]; exact List.mem_cons_of_mem _ hl))
    have hsubAll : ((s.fill side order price m).putLevel side price dq rest).allResting.Sublist
        s.allResting ∧ m ∉ ((s.fill side order price m).putLevel side price dq rest).allResting := by
      have hnd := hs.nodup
      rw [putLevel_eq]
      cases side <;>
        simp only [OrderBook.opposite] at hopp <;>
        simp only [OrderBook.allResting, OrderBook.setOpposite, fill_bids, fill_asks,
          resting_levelsAfter, hopp, resting_cons] at hnd ⊢
      · refine ⟨(List.Sublist.refl _).append (List.sublist_cons_self _ _), ?_⟩
        intro hmem
        have := (List.nodup_append.1 hnd)
        simp only [List.cons_append, List.nodup_cons, List.mem_append] at this
        rcases List.mem_append.1 hmem with h1 | h1
        · exact this.2.2 h1 (List.mem_cons_self _ _)
        · exact this.2.1.1 (List.mem_append.1 h1)
      · refine ⟨(List.sublist_cons_self _ _).append (List.Sublist.refl _), ?_⟩
        intro hmem
        have := (List.nodup_append.1 hnd)
        simp only [List.cons_append, List.nodup_cons, List.mem_append] at this
        rcases List.mem_append.1 hmem with h1 | h1
        · exact this.1.1 (List.mem_append.1 h1)
        · exact this.2.2 (List.mem_cons_self _ _) h1
    have hord : order ∉ ((s.fill side order price m).putLevel side price dq rest).allResting :=
      fun hmem => ho (hsubAll.1.subset hmem)
    refine ⟨?_, hord⟩
    refine wf_shrink hs ?_ ?_ ?_ ?_ ?_ ?_ ?_ ?_
    · rw [putLevel_eq]; simp
    · rw [putLevel_eq]; simp
    · rw [putLevel_eq]
      cases side
      · simpa [OrderBook.setOpposite] using levelsSub_refl hs.bids
      · simpa [OrderBook.setOpposite, OrderBook.opposite] using hsubO
    · rw [putLevel_eq]
      cases side
      · simpa [OrderBook.setOpposite, OrderBook.opposite] using hsubO
      · simpa [OrderBook.setOpposite] using levelsSub_refl hs.asks
    · intro a
      rw [putLevel_eq, setOpposite_mem, fill_mem_fields]
      exact ⟨rfl, rfl⟩
    · intro a
      rw [putLevel_eq, setOpposite_mem, fill_mem_fields]; rfl
    · intro a
      rw [putLevel_eq, setOpposite_mem]
      by_cases ha : a = order
      · subst ha; rw [fill_mem_order _ _ _ _ _ hne (hs.range _)]
        exact lt_of_le_of_lt (Nat.sub_le _ _) (hs.range _)
      · by_cases hb : a = m
        · subst hb; rw [fill_mem_maker _ _ _ _ _ hne (hs.range _)]
          exact lt_of_le_of_lt (Nat.sub_le _ _) (hs.range _)
        · rw [fill_mem_other _ _ _ _ _ _ ha hb]; exact hs.range _
    · intro a ha
      have h1 : a ≠ order := fun e => hord (e ▸ ha)
      have h2 : a ≠ m := fun e => hsubAll.2 (e ▸ ha)
      have h3 : a ∈ s.allResting := hsubAll.1.subset ha
      rw [putLevel_eq, setOpposite_mem, fill_mem_other _ _ _ _ _ _ h1 h2]
      exact wf_pos hs h3
  | keep price m dq rest hopp hpos hg hz =>
    have hm : m ∈ s.allResting := @mem_allResting_of_opp s side m (by rw [hopp]; simp)
    have hne : order ≠ m := fun e => ho (e ▸ hm)
    have hall : (s.fill side order price m).allResting = s.allResting := by
      simp [OrderBook.allResting]
    refine ⟨?_, by rw [hall]; exact ho⟩
    refine wf_shrink hs (by simp) (by simp) (by simpa using levelsSub_refl hs.bids)
      (by simpa using levelsSub_refl hs.asks) ?_ ?_ ?_ ?_
    · intro a; rw [fill_mem_fields]; exact ⟨rfl, rfl⟩
    · intro a; rw [fill_mem_fields]; rfl
    · intro a
      by_cases ha : a = order
      · subst ha; rw [fill_mem_order _ _ _ _ _ hne (hs.range _)]
        exact lt_of_le_of_lt (Nat.sub_le _ _) (hs.range _)
      · by_cases hb : a = m
        · subst hb; rw [fill_mem_maker _ _ _ _ _ hne (hs.range _)]
          exact lt_of_le_of_lt (Nat.sub_le _ _) (hs.range _)
        · rw [fill_mem_other _ _ _ _ _ _ ha hb]; exact hs.range _
    · intro a ha
      have ha : a ∈ s.allResting := by simpa [OrderBook.allResting] using ha
      have h1 : a ≠ order := fun e => ho (e ▸ ha)
      by_cases hb : a = m
      · subst hb; exact Nat.pos_of_ne_zero hz
      · rw [fill_mem_other _ _ _ _ _ _ h1 hb]; exact wf_pos hs ha
  | drop price rest hopp hpos hg =>
    exact absurd rfl (wf_opp_ne_nil hs side (price, []) (by rw [hopp]; exact List.mem_cons_self _ _))

theorem msteps_wf {side : OrderSide} {order : Addr} {s t : OrderBook}
    (h : MSteps side order s t) (hs : WF s) (ho : order ∉ s.allResting) :
    WF t ∧ order ∉ t.allResting := by
  induction h with
  | refl => exact ⟨hs, ho⟩
  | tail _ hstep ih => exact mstep_wf hstep ih.1 ih.2

theorem comesBefore_trans (side : OrderSide) {a b c : Price}
    (h1 : comesBefore side a b = true) (h2 : comesBefore side b c = true) :
    comesBefore side a c = true := by
  cases side <;> simp only [comesBefore, decide_eq_true_eq] at * 
  · exact lt_trans h2 h1
  · exact lt_trans h1 h2

theorem eq_of_not_comesBefore (side : OrderSide) {a b : Price}
    (h1 : ¬ comesBefore side a b = true) (h2 : ¬ comesBefore side b a = true) : b = a := by
  cases side <;> simp only [comesBefore, decide_eq_true_eq, not_lt] at * 
  · exact le_antisymm h2 h1
  · exact le_antisymm h1 h2

theorem levelsOK_cons_inv {mem : Addr → Order} {next : Addr} {side : OrderSide} {x : Level}
    {rest : List Level} (h : LevelsOK mem next side (x :: rest)) :
    (∀ l ∈ rest, comesBefore side x.1 l.1 = true) ∧ LevelsOK mem next side rest := by
  have h1 := h.1
  rw [List.map_cons, List.pairwise_cons] at h1
  exact ⟨fun l hl => h1.1 l.1 (List.mem_map_of_mem _ hl),
    h1.2, fun l hl => h.2 l (List.mem_cons_of_mem _ hl)⟩

theorem pushBack_keys (side : OrderSide) (price : Price) (order : Addr) (levels : List Level) :
    ∀ l ∈ pushBack side price order levels, l.1 = price ∨ ∃ l0 ∈ levels, l0.1 = l.1 := by
  induction levels with
  | nil => intro l hl; simp [pushBack] at hl; left; rw [hl]
  | cons x rest ih =>
    intro l hl
    obtain ⟨k, dq⟩ := x
    simp only [pushBack] at hl
    split_ifs at hl
    · rcases List.mem_cons.1 hl with rfl | hl
      · left; rfl
      · right; exact ⟨l, hl, rfl⟩
    · rcases List.mem_cons.1 hl with rfl | hl
      · right; exact ⟨_, List.mem_cons_self _ _, rfl⟩
      · rcases ih l hl with h | ⟨l0, h0, h1⟩
        · left; exact h
        · right; exact ⟨l0, List.mem_cons_of_mem _ h0, h1⟩
    · rcases List.mem_cons.1 hl with rfl | hl
      · right; exact ⟨_, List.mem_cons_self _ _, rfl⟩
      · right; exact ⟨l, List.mem_cons_of_mem _ hl, rfl⟩

theorem pushBack_perm (side : OrderSide) (price : Price) (order : Addr) (levels : List Level) :
    (resting (pushBack side price order levels)).Perm (order :: resting levels) := by
  induction levels with
  | nil => simp [pushBack]
  | cons x rest ih =>
    obtain ⟨k, dq⟩ := x
    simp only [pushBack]
    split_ifs
    · simp
    · simp only [resting_cons]
      exact (List.Perm.append_left dq ih).trans List.perm_middle
    · simp only [resting_cons, List.append_assoc, List.singleton_append]
      exact List.perm_middle

theorem pushBack_ok {mem : Addr → Order} {next : Addr} {side : OrderSide} {levels : List Level}
    (h : LevelsOK mem next side levels) (price : Price) (order : Addr)
    (ho : order < next ∧ (mem order).side = side ∧ (mem order).price = price ∧
      0 < (mem order).remainingQty) :
    LevelsOK mem next side (pushBack side price order levels) := by
  induction levels with
  | nil =>
    refine ⟨by simp [pushBack], fun l hl => ?_⟩
    simp only [pushBack, List.mem_singleton] at hl
    subst hl
    exact ⟨by simp, fun a ha => by simp only [List.mem_singleton] at ha; subst ha; exact ho⟩
  | cons x rest ih =>
    obtain ⟨k, dq⟩ := x
    have hrest : LevelsOK mem next side rest := (levelsOK_cons_inv h).2
    have hk : ∀ l ∈ rest, comesBefore side k l.1 = true := (levelsOK_cons_inv h).1
    simp only [pushBack]
    split_ifs with h1 h2
    · refine ⟨?_, ?_⟩
      · simp only [List.map_cons, List.pairwise_cons]
        refine ⟨?_, by simpa using h.1⟩
        intro b hb
        rcases List.mem_cons.1 hb with rfl | hb
        · exact h1
        · obtain ⟨l, hl, rfl⟩ := List.mem_map.1 hb
          exact comesBefore_trans side h1 (hk l hl)
      · intro l hl
        rcases List.mem_cons.1 hl with rfl | hl
        · exact ⟨by simp, fun a ha => by simp only [List.mem_singleton] at ha; subst ha; exact ho⟩
        · exact h.2 l hl
    · refine ⟨?_, ?_⟩
      · simp only [List.map_cons, List.pairwise_cons]
        refine ⟨?_, (ih hrest).1⟩
        intro b hb
        obtain ⟨l, hl, rfl⟩ := List.mem_map.1 hb
        rcases pushBack_keys side price order rest l hl with e | ⟨l0, hl0, e⟩
        · rw [e]; exact h2
        · rw [← e]; exact hk l0 hl0
      · intro l hl
        rcases List.mem_cons.1 hl with rfl | hl
        · exact h.2 _ (List.mem_cons_self _ _)
        · exact (ih hrest).2 l hl
    · have hkp : k = price := eq_of_not_comesBefore side h1 h2
      refine ⟨by simpa using h.1, ?_⟩
      intro l hl
      rcases List.mem_cons.1 hl with rfl | hl
      · refine ⟨by simp, fun a ha => ?_⟩
        rcases List.mem_append.1 ha with ha | ha
        · exact (h.2 (k, dq) (List.mem_cons_self _ _)).2 a ha
        · simp only [List.mem_singleton] at ha; subst ha
          exact ⟨ho.1, ho.2.1, by rw [hkp]; exact ho.2.2.1, ho.2.2.2⟩
      · exact h.2 l (List.mem_cons_of_mem _ hl)


theorem comesBefore_irrefl (side : OrderSide) (a : Price) : ¬ comesBefore side a a = true := by
  cases side <;> simp [comesBefore]

theorem removeFromLevel_sub (mem : Addr → Order) (price : Price) (id : Nat)
    (levels : List Level) (hne : ∀ l ∈ levels, l.2 ≠ []) :
    LevelsSub (removeFromLevel mem price id levels) levels := by
  induction levels with
  | nil => exact ⟨List.Sublist.refl _, List.Sublist.refl _, fun l hl => by simp [removeFromLevel] at hl⟩
  | cons x rest ih =>
    obtain ⟨k, dq⟩ := x
    have ih := ih (fun l hl => hne l (List.mem_cons_of_mem _ hl))
    simp only [removeFromLevel]
    split_ifs with hk hemp
    · refine ⟨by simp, by simp, fun l hl => ⟨hne l (List.mem_cons_of_mem _ hl), fun a ha =>
        ⟨l, List.mem_cons_of_mem _ hl, rfl, ha⟩⟩⟩
    · refine ⟨by simp, ?_, ?_⟩
      · simp only [resting_cons]
        exact (List.filter_sublist _).append (List.Sublist.refl _)
      · intro l hl
        rcases List.mem_cons.1 hl with rfl | hl
        · refine ⟨by simpa using hemp, fun a ha => ⟨(k, dq), List.mem_cons_self _ _, rfl, ?_⟩⟩
          exact (List.mem_filter.1 ha).1
        · exact ⟨hne l (List.mem_cons_of_mem _ hl), fun a ha =>
            ⟨l, List.mem_cons_of_mem _ hl, rfl, ha⟩⟩
    · refine ⟨?_, ?_, ?_⟩
      · simp only [List.map_cons]; exact ih.1.cons₂ _
      · simp only [resting_cons]; exact (List.Sublist.refl _).append ih.2.1
      · intro l hl
        rcases List.mem_cons.1 hl with rfl | hl
        · exact ⟨hne _ (List.mem_cons_self _ _), fun a ha => ⟨_, List.mem_cons_self _ _, rfl, ha⟩⟩
        · obtain ⟨h1, h2⟩ := ih.2.2 l hl
          refine ⟨h1, fun a ha => ?_⟩
          obtain ⟨l0, hl0, e, ha0⟩ := h2 a ha
          exact ⟨l0, List.mem_cons_of_mem _ hl0, e, ha0⟩

theorem removeFromLevel_not_mem {mem : Addr → Order} {next : Addr} {side : OrderSide}
    {levels : List Level} (h : LevelsOK mem next side levels) (mem1 : Addr → Order)
    (price : Price) (id : Nat) (a : Addr)
    (hp : ∀ l ∈ levels, a ∈ l.2 → l.1 = price) (hid : (mem1 a).orderId = id) :
    a ∉ resting (removeFromLevel mem1 price id levels) := by
  induction levels with
  | nil => simp [removeFromLevel]
  | cons x rest ih =>
    obtain ⟨k, dq⟩ := x
    obtain ⟨hk, hrest⟩ := levelsOK_cons_inv h
    have ih := ih hrest (fun l hl => hp l (List.mem_cons_of_mem _ hl))
    have hnr : k = price → a ∉ resting rest := by
      intro e ha
      obtain ⟨l, hl, hal⟩ := mem_resting.1 ha
      have := hk l hl
      rw [hp l (List.mem_cons_of_mem _ hl) hal, e] at this
      exact comesBefore_irrefl side price this
    simp only [removeFromLevel]
    split_ifs with hkp hemp
    · exact hnr hkp
    · simp only [resting_cons, List.mem_append, not_or]
      refine ⟨fun ha => ?_, hnr hkp⟩
      simpa [hid] using (List.mem_filter.1 ha).2
    · simp only [resting_cons, List.mem_append, not_or]
      exact ⟨fun ha => hkp (hp _ (List.mem_cons_self _ _) ha), ih⟩

theorem levelsOK_side_of_mem {mem : Addr → Order} {next : Addr} {side : OrderSide}
    {levels : List Level} (h : LevelsOK mem next side levels) {a : Addr}
    (ha : a ∈ resting levels) : (mem a).side = side := by
  obtain ⟨l, hl, hal⟩ := mem_resting.1 ha
  exact ((h.2 l hl).2 a hal).2.1

theorem cancelledMem_fields (mem : Addr → Order) (order a : Addr) :
    cancelledMem mem order a = (mem a).withRemaining (cancelledMem mem order a).remainingQty := by
  unfold cancelledMem
  by_cases ha : a = order
  · subst ha; simp
  · simp [Function.update_noteq ha]; rfl

theorem cancelledMem_other (mem : Addr → Order) (order a : Addr) (h : a ≠ order) :
    cancelledMem mem order a = mem a := Function.update_noteq h _ _

theorem cancelledMem_self (mem : Addr → Order) (order : Addr) :
    cancelledMem mem order order = (mem order).withRemaining 0 := Function.update_same _ _ _

theorem cancelOrder_none {s : OrderBook} {id : Nat} (h : s.orderMap_ id = none) :
    s.cancelOrder id = s := by
  unfold OrderBook.cancelOrder; rw [h]

theorem cancelOrder_buy {s : OrderBook} {id : Nat} {order : Addr}
    (h : s.orderMap_ id = some order) (hside : (s.mem order).side = OrderSide.BUY) :
    s.cancelOrder id =
      { s with
        mem := cancelledMem s.mem order
        bids_ := removeFromLevel (cancelledMem s.mem order) (s.mem order).price id s.bids_
        orderMap_ := Function.update s.orderMap_ id none } := by
  unfold OrderBook.cancelOrder
  rw [h]
  simp only [cancelledMem_self, withRemaining_side, withRemaining_price, hside]

theorem cancelOrder_sell {s : OrderBook} {id : Nat} {order : Addr}
    (h : s.orderMap_ id = some order) (hside : (s.mem order).side = OrderSide.SELL) :
    s.cancelOrder id =
      { s with
        mem := cancelledMem s.mem order
        asks_ := removeFromLevel (cancelledMem s.mem order) (s.mem order).price id s.asks_
        orderMap_ := Function.update s.orderMap_ id none } := by
  unfold OrderBook.cancelOrder
  rw [h]
  simp only [cancelledMem_self, withRemaining_side, withRemaining_price, hside]

theorem cancelOrder_wf {s : OrderBook} (hs : WF s) (id : Nat) : WF (s.cancelOrder id) := by
  cases hidx : s.orderMap_ id with
  | none => rw [cancelOrder_none hidx]; exact hs
  | some order =>
    obtain ⟨_, hoid⟩ := hs.index id order hidx
    have hrange : ∀ a, (cancelledMem s.mem order a).remainingQty < 2 ^ 32 := by
      intro a
      by_cases ha : a = order
      · subst ha; rw [cancelledMem_self]; simp
      · rw [cancelledMem_other _ _ _ ha]; exact hs.range a
    have hidx2 : ∀ id2 a, Function.update s.orderMap_ id none id2 = some a →
        s.orderMap_ id2 = some a := by
      intro id2 a h
      by_cases e : id2 = id
      · subst e; simp at h
      · rwa [Function.update_noteq e] at h
    have hoid2 : (cancelledMem s.mem order order).orderId = id := by
      rw [cancelledMem_self]; exact hoid
    cases hside : (s.mem order).side with
    | BUY =>
      rw [cancelOrder_buy hidx hside]
      have hnot : order ∉ resting (removeFromLevel (cancelledMem s.mem order)
          (s.mem order).price id s.bids_) ++ resting s.asks_ := by
        intro hmem
        rcases List.mem_append.1 hmem with h | h
        · refine removeFromLevel_not_mem hs.bids _ _ id order ?_ hoid2 h
          intro l hl hal
          exact ((hs.bids.2 l hl).2 order hal).2.2.1.symm
        · have := levelsOK_side_of_mem hs.asks h
          rw [hside] at this; cases this
      have hsub := removeFromLevel_sub (cancelledMem s.mem order)
          (s.mem order).price id s.bids_ (fun l hl => (hs.bids.2 l hl).1)
      refine wf_shrink hs rfl hidx2 hsub (levelsSub_refl hs.asks) ?_ ?_ hrange ?_
      · intro a; dsimp only; rw [cancelledMem_fields]; exact ⟨rfl, rfl⟩
      · intro a; dsimp only; rw [cancelledMem_fields]; rfl
      · intro a ha
        have hne : a ≠ order := fun e => hnot (e ▸ ha)
        dsimp only
        rw [cancelledMem_other _ _ _ hne]
        refine wf_pos hs ?_
        rcases List.mem_append.1 ha with h | h
        · exact List.mem_append_left _ (hsub.2.1.subset h)
        · exact List.mem_append_right _ h
    | SELL =>
      rw [cancelOrder_sell hidx hside]
      have hnot : order ∉ resting s.bids_ ++ resting (removeFromLevel (cancelledMem s.mem order)
          (s.mem order).price id s.asks_) := by
        intro hmem
        rcases List.mem_append.1 hmem with h | h
        · have := levelsOK_side_of_mem hs.bids h
          rw [hside] at this; cases this
        · refine removeFromLevel_not_mem hs.asks _ _ id order ?_ hoid2 h
          intro l hl hal
          exact ((hs.asks.2 l hl).2 order hal).2.2.1.symm
      have hsub := removeFromLevel_sub (cancelledMem s.mem order)
          (s.mem order).price id s.asks_ (fun l hl => (hs.asks.2 l hl).1)
      refine wf_shrink hs rfl hidx2 (levelsSub_refl hs.bids) hsub ?_ ?_ hrange ?_
      · intro a; dsimp only; rw [cancelledMem_fields]; exact ⟨rfl, rfl⟩
      · intro a; dsimp only; rw [cancelledMem_fields]; rfl
      · intro a ha
        have hne : a ≠ order := fun e => hnot (e ▸ ha)
        dsimp only
        rw [cancelledMem_other _ _ _ hne]
        refine wf_pos hs ?_
        rcases List.mem_append.1 ha with h | h
        · exact List.mem_append_left _ h
        · exact List.mem_append_right _ (hsub.2.1.subset h)

theorem wf_lt_next {s : OrderBook} (hs : WF s) {a : Addr} (h : a ∈ s.allResting) :
    a < s.nextPtr := by
  rcases List.mem_append.1 h with h | h
  · obtain ⟨l, hl, ha⟩ := mem_resting.1 h
    exact ((hs.bids.2 l hl).2 a ha).1
  · obtain ⟨l, hl, ha⟩ := mem_resting.1 h
    exact ((hs.asks.2 l hl).2 a ha).1

theorem levelsOK_frame {mem mem2 : Addr → Order} {next next2 : Addr} {side : OrderSide}
    {levels : List Level} (h : LevelsOK mem next side levels) (hn : next ≤ next2)
    (hm : ∀ a, a < next → mem2 a = mem a) : LevelsOK mem2 next2 side levels := by
  refine ⟨h.1, fun l hl => ⟨(h.2 l hl).1, fun a ha => ?_⟩⟩
  obtain ⟨h1, h2⟩ := (h.2 l hl).2 a ha
  rw [hm a h1]
  exact ⟨lt_of_lt_of_le h1 hn, h2⟩

theorem alloc_wf {s : OrderBook} (hs : WF s) {o : Order} (ho : o.inRange) : WF (s.alloc o) := by
  have hm : ∀ a, a < s.nextPtr → (s.alloc o).mem a = s.mem a := fun a ha =>
    Function.update_noteq (Nat.ne_of_lt ha) _ _
  refine ⟨levelsOK_frame hs.bids (Nat.le_succ _) hm, levelsOK_frame hs.asks (Nat.le_succ _) hm, hs.nodup,
    hs.nocross, ?_, ?_⟩
  · intro a
    by_cases ha : a = s.nextPtr
    · subst ha; simp only [OrderBook.alloc, Function.update_same]; exact ho.2.2.2
    · simp only [OrderBook.alloc, Function.update_noteq ha]; exact hs.range a
  · intro id a h
    obtain ⟨h1, h2⟩ := hs.index id a h
    exact ⟨Nat.lt_succ_of_lt h1, by rw [hm a h1]; exact h2⟩

theorem alloc_not_resting {s : OrderBook} (hs : WF s) (o : Order) :
    s.nextPtr ∉ (s.alloc o).allResting := fun h => lt_irrefl _ (wf_lt_next hs h)

theorem index_wf {s : OrderBook} (hs : WF s) {order : Addr} (ho : order < s.nextPtr) :
    WF (s.indexed order) := by
  refine ⟨hs.bids, hs.asks, hs.nodup, hs.nocross, hs.range, ?_⟩
  intro id a h
  by_cases e : id = (s.mem order).orderId
  · subst e
    simp only [OrderBook.indexed, Function.update_same, Option.some.injEq] at h
    subst h
    exact ⟨ho, rfl⟩
  · simp only [OrderBook.indexed, Function.update_noteq e] at h
    exact hs.index id a h

/-- A step of `match` changes no field of an object but `remainingQty`, and allocates nothing. -/
theorem mstep_frame {side : OrderSide} {order : Addr} {s t : OrderBook}
    (h : MStep side order s t) :
    t.nextPtr = s.nextPtr ∧ t.orderMap_ = s.orderMap_ ∧ t.tradeCb_ = s.tradeCb_ ∧
      ∀ a, t.mem a = (s.mem a).withRemaining (t.mem a).remainingQty := by
  cases h with
  | pop price m dq rest hopp hpos hg hz =>
    rw [putLevel_eq]
    refine ⟨by simp, by simp, by cases side <;> rfl, fun a => ?_⟩
    rw [setOpposite_mem]; exact fill_mem_fields _ _ _ _ _ _
  | keep price m dq rest hopp hpos hg hz =>
    exact ⟨by simp, by simp, by simp, fun a => fill_mem_fields _ _ _ _ _ _⟩
  | drop price rest hopp hpos hg =>
    exact ⟨by simp, by simp, by cases side <;> rfl, fun a => by rw [setOpposite_mem]; rfl⟩

theorem msteps_frame {side : OrderSide} {order : Addr} {s t : OrderBook}
    (h : MSteps side order s t) :
    t.nextPtr = s.nextPtr ∧ t.orderMap_ = s.orderMap_ ∧ t.tradeCb_ = s.tradeCb_ ∧
      ∀ a, t.mem a = (s.mem a).withRemaining (t.mem a).remainingQty := by
  induction h with
  | refl => exact ⟨rfl, rfl, rfl, fun a => rfl⟩
  | tail _ hstep ih =>
    obtain ⟨h1, h2, h3, h4⟩ := mstep_frame hstep
    refine ⟨h1.trans ih.1, h2.trans ih.2.1, h3.trans ih.2.2.1, fun a => ?_⟩
    rw [h4 a, ih.2.2.2 a]; rfl

/-- When `match` has stopped with quantity left, the price gate holds against every level of the
opposite side. -/
theorem gate_of_not_guard {s : OrderBook} (hs : WF s) {side : OrderSide} {order : Addr}
    (hng : ¬ matchGuard side order s) (hpos : 0 < (s.mem order).remainingQty) :
    ∀ l ∈ s.opposite side, priceGate side (s.mem order).price l.1 = true := by
  intro l hl
  cases hopp : s.opposite side with
  | nil => rw [hopp] at hl; cases hl
  | cons x rest =>
    obtain ⟨price, dq⟩ := x
    have hgate : priceGate side (s.mem order).price price = true := by
      by_contra hg
      exact hng ⟨hpos, price, dq, rest, hopp, by simpa using hg⟩
    rw [hopp] at hl
    rcases List.mem_cons.1 hl with rfl | hl
    · exact hgate
    · cases side
      · have hk := (levelsOK_cons_inv (show LevelsOK s.mem s.nextPtr OrderSide.SELL
            ((price, dq) :: rest) from hopp ▸ hs.asks)).1 l hl
        simp only [priceGate, comesBefore, decide_eq_true_eq] at hgate hk ⊢
        exact lt_trans hgate hk
      · have hk := (levelsOK_cons_inv (show LevelsOK s.mem s.nextPtr OrderSide.BUY
            ((price, dq) :: rest) from hopp ▸ hs.bids)).1 l hl
        simp only [priceGate, comesBefore, decide_eq_true_eq] at hgate hk ⊢
        exact lt_trans hk hgate

theorem rest_buy_wf {s : OrderBook} (hs : WF s) {order : Addr} (ho : order < s.nextPtr)
    (hnr : order ∉ s.allResting) (hside : (s.mem order).side = OrderSide.BUY)
    (hpos : 0 < (s.mem order).remainingQty) (hng : ¬ matchGuard OrderSide.BUY order s) :
    WF { s with bids_ := pushBack OrderSide.BUY (s.mem order).price order s.bids_ } := by
  refine ⟨pushBack_ok hs.bids _ _ ⟨ho, hside, rfl, hpos⟩, hs.asks, ?_, ?_, hs.range, hs.index⟩
  · have hp := (pushBack_perm OrderSide.BUY (s.mem order).price order s.bids_).append_right
      (resting s.asks_)
    refine hp.nodup_iff.2 ?_
    simp only [List.cons_append, List.nodup_cons]
    exact ⟨hnr, hs.nodup⟩
  · intro b hb a ha
    rcases pushBack_keys _ _ _ _ b hb with e | ⟨b0, hb0, e⟩
    · have := gate_of_not_guard hs hng hpos a ha
      rw [e]; simpa [priceGate] using this
    · rw [← e]; exact hs.nocross b0 hb0 a ha

theorem rest_sell_wf {s : OrderBook} (hs : WF s) {order : Addr} (ho : order < s.nextPtr)
    (hnr : order ∉ s.allResting) (hside : (s.mem order).side = OrderSide.SELL)
    (hpos : 0 < (s.mem order).remainingQty) (hng : ¬ matchGuard OrderSide.SELL order s) :
    WF { s with asks_ := pushBack OrderSide.SELL (s.mem order).price order s.asks_ } := by
  refine ⟨hs.bids, pushBack_ok hs.asks _ _ ⟨ho, hside, rfl, hpos⟩, ?_, ?_, hs.range, hs.index⟩
  · have hp := (pushBack_perm OrderSide.SELL (s.mem order).price order s.asks_).append_left
      (resting s.bids_)
    refine hp.nodup_iff.2 ?_
    refine (List.perm_middle.nodup_iff).2 ?_
    simp only [List.nodup_cons]
    exact ⟨hnr, hs.nodup⟩
  · intro b hb a ha
    rcases pushBack_keys _ _ _ _ a ha with e | ⟨a0, ha0, e⟩
    · have := gate_of_not_guard hs hng hpos b hb
      rw [e]; simpa [priceGate] using this
    · rw [← e]; exact hs.nocross b hb a0 ha0

theorem restResidual_wf {s : OrderBook} (hs : WF s) {order : Addr} (ho : order < s.nextPtr)
    (hnr : order ∉ s.allResting) (hng : ¬ matchGuard (s.mem order).side order s) :
    WF (s.restResidual order) := by
  unfold OrderBook.restResidual
  split_ifs with hpos
  · split
    · rename_i hside
      exact rest_buy_wf hs ho hnr hside hpos (hside ▸ hng)
    · rename_i hside
      exact rest_sell_wf hs ho hnr hside hpos (hside ▸ hng)
  · exact hs

/-- The call `addOrder` keeps a well-formed book well formed, when the object added rests on
neither side. -/
theorem addOrder_wf {s t : OrderBook} {order : Addr} {fuel : Nat} (hs : WF s)
    (ho : order < s.nextPtr) (hnr : order ∉ s.allResting)
    (h : s.addOrder fuel order = some t) : WF t := by
  unfold OrderBook.addOrder at h
  split_ifs at h with hv
  · simp only [Option.some.injEq] at h; subst h; exact hs
  · simp only [OrderBook.matchOrder] at h
    split at h
    · cases h
    · rename_i s1 hm
      simp only [Option.some.injEq] at h; subst h
      obtain ⟨hsteps, hng⟩ := matchLoop_steps _ _ _ _ _ hm
      obtain ⟨hwf1, hnr1⟩ := msteps_wf hsteps (index_wf hs ho) hnr
      obtain ⟨hnext, _, _, hfields⟩ := msteps_frame hsteps
      have ho1 : order < s1.nextPtr := by rw [hnext]; exact ho
      have hside1 : (s1.mem order).side = (s.mem order).side := by rw [hfields order]; rfl
      exact restResidual_wf hwf1 ho1 hnr1 (by rw [hside1]; exact hng)

theorem addNew_wf {s t : OrderBook} {o : Order} {fuel : Nat} (hs : WF s) (ho : o.inRange)
    (h : s.addNew fuel o = some t) : WF t :=
  addOrder_wf (alloc_wf hs ho) (Nat.lt_succ_self _) (alloc_not_resting hs o) h

theorem empty_wf : WF OrderBook.empty := by
  refine ⟨⟨List.Pairwise.nil, fun l hl => (by cases hl)⟩,
    ⟨List.Pairwise.nil, fun l hl => (by cases hl)⟩,
    List.nodup_nil, fun b hb => (by cases hb), fun a => ?_, fun id a h => ?_⟩
  · simp [OrderBook.empty, Order.default]
  · simp [OrderBook.empty] at h

theorem step_wf {s t : OrderBook} (h : Step s t) (hs : WF s) : WF t := by
  cases h with
  | add o fuel _ ho h2 => exact addNew_wf hs ho h2
  | cancel id => exact cancelOrder_wf hs id
  | setCb cb => exact ⟨hs.bids, hs.asks, hs.nodup, hs.nocross, hs.range, hs.index⟩

theorem reachable_wf {s : OrderBook} (h : Reachable s) : WF s := by
  induction h with
  | empty => exact empty_wf
  | step _ hstep ih => exact step_wf hstep ih

theorem run_reachable (fuel : Nat) :
    ∀ (calls : List Call) (s t : OrderBook), Reachable s → (∀ c ∈ calls, c.inRange) →
      s.run fuel calls = some t → Reachable t := by
  intro calls
  induction calls with
  | nil =>
    intro s t hs _ h
    simp only [OrderBook.run, Option.some.injEq] at h
    subst h; exact hs
  | cons c cs ih =>
    intro s t hs hr h
    simp only [OrderBook.run] at h
    split at h
    · cases h
    · rename_i u hu
      refine ih u t ?_ (fun c hc => hr c (List.mem_cons_of_mem _ hc)) h
      have hc := hr c (List.mem_cons_self _ _)
      cases c with
      | add o => exact Reachable.step hs (Step.add s o fuel u hc hu)
      | cancel id =>
        simp only [OrderBook.call, Option.some.injEq] at hu
        subst hu; exact Reachable.step hs (Step.cancel s id)
      | setCallback cb =>
        simp only [OrderBook.call, Option.some.injEq] at hu
        subst hu; exact Reachable.step hs (Step.setCb s cb)

theorem bookAfter_reachable (fuel : Nat) (calls : List Call) (h : ∀ c ∈ calls, c.inRange) :
    Reachable (bookAfter fuel calls) := by
  unfold bookAfter
  cases hr : OrderBook.empty.run fuel calls with
  | none => exact Reachable.empty
  | some t => exact run_reachable fuel calls _ t Reachable.empty h hr

/-- The call `addOrder` on a valid order: index, `match`, then the residual rests. -/
theorem addOrder_valid {s t : OrderBook} {order : Addr} {fuel : Nat}
    (hv : (s.mem order).isValid = true) (h : s.addOrder fuel order = some t) :
    ∃ s1, matchLoop (s.mem order).side order fuel (s.indexed order) = some s1 ∧
      t = s1.restResidual order := by
  unfold OrderBook.addOrder at h
  simp only [hv, Bool.not_true, Bool.false_eq_true, if_false, OrderBook.matchOrder] at h
  split at h
  · cases h
  · rename_i s1 hm
    simp only [Option.some.injEq] at h
    exact ⟨s1, hm, h.symm⟩

theorem addOrder_invalid {s t : OrderBook} {order : Addr} {fuel : Nat}
    (hv : (s.mem order).isValid = false) (h : s.addOrder fuel order = some t) : t = s := by
  unfold OrderBook.addOrder at h
  simp only [hv, Bool.not_false, if_true, Option.some.injEq] at h
  exact h.symm

@[simp] theorem restResidual_trades (s : OrderBook) (order : Addr) :
    (s.restResidual order).trades = s.trades := by
  unfold OrderBook.restResidual
  split_ifs
  · split <;> rfl
  · rfl

@[simp] theorem restResidual_mem (s : OrderBook) (order : Addr) :
    (s.restResidual order).mem = s.mem := by
  unfold OrderBook.restResidual
  split_ifs
  · split <;> rfl
  · rfl

@[simp] theorem restResidual_nextPtr (s : OrderBook) (order : Addr) :
    (s.restResidual order).nextPtr = s.nextPtr := by
  unfold OrderBook.restResidual
  split_ifs
  · split <;> rfl
  · rfl

@[simp] theorem restResidual_orderMap (s : OrderBook) (order : Addr) :
    (s.restResidual order).orderMap_ = s.orderMap_ := by
  unfold OrderBook.restResidual
  split_ifs
  · split <;> rfl
  · rfl

@[simp] theorem restResidual_totalTrades (s : OrderBook) (order : Addr) :
    (s.restResidual order).totalTrades_ = s.totalTrades_ := by
  unfold OrderBook.restResidual
  split_ifs
  · split <;> rfl
  · rfl

theorem restResidual_opposite (s : OrderBook) (order : Addr) :
    (s.restResidual order).opposite (s.mem order).side = s.opposite (s.mem order).side := by
  unfold OrderBook.restResidual
  split_ifs
  · split <;> rename_i hside <;> simp only [hside, OrderBook.opposite]
  · rfl

/-- The trade a fill records. -/
theorem fill_trades (s : OrderBook) (side : OrderSide) (order : Addr) (price : Price)
    (m : Addr) :
    ∃ tr, (s.fill side order price m).trades = s.trades ++ [tr] ∧
      tr.makerPtr side = m ∧ tr.takerPtr side = order ∧
      tr.maker side = (s.fill side order price m).mem m ∧
      tr.taker side = (s.fill side order price m).mem order ∧
      tr.price = price ∧ tr.qty = min (s.mem order).remainingQty (s.mem m).remainingQty ∧
      tr.notified = s.tradeCb_ := by
  cases side
  · exact ⟨_, rfl, rfl, rfl, rfl, rfl, rfl, rfl, rfl⟩
  · exact ⟨_, rfl, rfl, rfl, rfl, rfl, rfl, rfl, rfl⟩

theorem wf_level_price {s : OrderBook} (hs : WF s) {side : OrderSide} {l : Level} {a : Addr}
    (hl : l ∈ s.opposite side) (ha : a ∈ l.2) : (s.mem a).price = l.1 := by
  cases side
  · exact ((hs.asks.2 l hl).2 a ha).2.2.1
  · exact ((hs.bids.2 l hl).2 a ha).2.2.1

/-- What one step of `match` does on a well-formed book: the front order `m` of the best opposite
level trades with the incoming order at the price of the level, which is the price of `m`, for
the smaller of the two remaining quantities; then either `m` is used up and leaves the book, or
the incoming order is used up. -/
theorem mstep_facts {side : OrderSide} {order : Addr} {u t : OrderBook}
    (h : MStep side order u t) (hu : WF u) (ho : order ∉ u.allResting) :
    ∃ m dq rest tr, u.opposite side = (tr.price, m :: dq) :: rest ∧ m ≠ order ∧
      t.trades = u.trades ++ [tr] ∧
      tr.makerPtr side = m ∧ tr.takerPtr side = order ∧
      tr.maker side = t.mem m ∧ tr.taker side = t.mem order ∧
      tr.price = (u.mem m).price ∧
      tr.qty = min (u.mem order).remainingQty (u.mem m).remainingQty ∧
      0 < tr.qty ∧ tr.notified = u.tradeCb_ ∧
      (t.mem order).remainingQty = (u.mem order).remainingQty - tr.qty ∧
      (t.mem m).remainingQty = (u.mem m).remainingQty - tr.qty ∧
      (∀ a, a ≠ order → a ≠ m → t.mem a = u.mem a) ∧
      (((t.mem m).remainingQty = 0 ∧ t.opposite side = levelsAfter tr.price dq rest) ∨
        ((t.mem m).remainingQty ≠ 0 ∧ (t.mem order).remainingQty = 0 ∧
          t.opposite side = u.opposite side)) := by
  cases h with
  | pop price m dq rest hopp hpos hg hz =>
    have hm : m ∈ u.allResting := @mem_allResting_of_opp u side m (by rw [hopp]; simp)
    have hne : order ≠ m := fun e => ho (e ▸ hm)
    obtain ⟨tr, h1, h2, h3, h4, h5, h6, h7, h8⟩ := fill_trades u side order price m
    have hprice : (u.mem m).price = price :=
      wf_level_price hu (show (price, m :: dq) ∈ u.opposite side by rw [hopp]; simp)
        (List.mem_cons_self _ _)
    refine ⟨m, dq, rest, tr, by rw [hopp, h6], hne.symm, ?_, h2, h3, ?_, ?_, ?_, h7,
      ?_, h8, ?_, ?_, ?_, Or.inl ⟨?_, ?_⟩⟩
    · rw [putLevel_eq, setOpposite_trades]; exact h1
    · rw [putLevel_eq, setOpposite_mem]; exact h4
    · rw [putLevel_eq, setOpposite_mem]; exact h5
    · rw [h6, hprice]
    · rw [h7]; exact lt_min hpos (wf_pos hu hm)
    · rw [putLevel_eq, setOpposite_mem, h7]; exact fill_mem_order _ _ _ _ _ hne (hu.range _)
    · rw [putLevel_eq, setOpposite_mem, h7]; exact fill_mem_maker _ _ _ _ _ hne (hu.range _)
    · intro a ha hb
      rw [putLevel_eq, setOpposite_mem]; exact fill_mem_other _ _ _ _ _ _ ha hb
    · rw [putLevel_eq, setOpposite_mem]; exact hz
    · rw [putLevel_eq, opposite_setOpposite, h6]
  | keep price m dq rest hopp hpos hg hz =>
    have hm : m ∈ u.allResting := @mem_allResting_of_opp u side m (by rw [hopp]; simp)
    have hne : order ≠ m := fun e => ho (e ▸ hm)
    obtain ⟨tr, h1, h2, h3, h4, h5, h6, h7, h8⟩ := fill_trades u side order price m
    have hprice : (u.mem m).price = price :=
      wf_level_price hu (show (price, m :: dq) ∈ u.opposite side by rw [hopp]; simp)
        (List.mem_cons_self _ _)
    have hmk := fill_mem_maker u side order price m hne (hu.range _)
    have hor := fill_mem_order u side order price m hne (hu.range _)
    refine ⟨m, dq, rest, tr, by rw [hopp, h6], hne.symm, h1, h2, h3, h4, h5, ?_, h7,
      ?_, h8, ?_, ?_, ?_, Or.inr ⟨hz, ?_, ?_⟩⟩
    · rw [h6, hprice]
    · rw [h7]; exact lt_min hpos (wf_pos hu hm)
    · rw [h7]; exact hor
    · rw [h7]; exact hmk
    · intro a ha hb
      exact fill_mem_other _ _ _ _ _ _ ha hb
    · rw [hor]
      rw [hmk] at hz
      have : (u.mem order).remainingQty ≤ (u.mem m).remainingQty := by
        by_contra hc
        rw [Nat.min_eq_right (Nat.le_of_lt (Nat.lt_of_not_le hc))] at hz
        exact hz (Nat.sub_self _)
      rw [Nat.min_eq_left this]; exact Nat.sub_self _
    · exact fill_opposite _ _ _ _ _ _
  | drop price rest hopp hpos hg =>
    exact absurd rfl (wf_opp_ne_nil hu side (price, []) (by rw [hopp]; exact List.mem_cons_self _ _))

theorem wf_nodup_opp {s : OrderBook} (hs : WF s) (side : OrderSide) :
    (resting (s.opposite side)).Nodup := by
  have := List.nodup_append.1 hs.nodup
  cases side
  · exact this.2.1
  · exact this.1

theorem append_singleton_split {α : Type} {ts pre post : List α} {x y : α}
    (h : ts ++ [x] = pre ++ y :: post) :
    (post = [] ∧ pre = ts ∧ y = x) ∨ ∃ post2, post = post2 ++ [x] ∧ ts = pre ++ y :: post2 := by
  rcases List.eq_nil_or_concat post with rfl | ⟨post2, z, rfl⟩
  · left
    have h2 : ts ++ [x] = pre ++ [y] := h
    obtain ⟨h3, h4⟩ := List.append_inj' h2 rfl
    exact ⟨rfl, h3.symm, by simpa using h4.symm⟩
  · right
    have h2 : ts ++ [x] = (pre ++ y :: post2) ++ [z] := by
      rw [h]; simp
    obtain ⟨h3, h4⟩ := List.append_inj' h2 rfl
    simp only [List.cons.injEq, and_true] at h4
    subst h4
    exact ⟨post2, by simp, h3⟩

/-- Priority: in a run of `match` on a well-formed book, an order `b` that rests behind `a` in the
priority order of the opposite side (better level first, front of the level first) trades only
after a trade that has filled `a` down to 0. -/
theorem msteps_priority {side : OrderSide} {order : Addr} {s t : OrderBook}
    (h : MSteps side order s t) (hs : WF s) (ho : order ∉ s.allResting)
    {a b : Addr} {l1 l2 l3 : List Addr}
    (hab : resting (s.opposite side) = l1 ++ a :: l2 ++ b :: l3) :
    ∃ ts, t.trades = s.trades ++ ts ∧
      (∀ pre tr post, ts = pre ++ tr :: post → tr.makerPtr side = b →
        FilledBefore side a pre) ∧
      ((∃ k1 k2 k3, resting (t.opposite side) = k1 ++ a :: k2 ++ b :: k3) ∨
        FilledBefore side a ts) := by
  induction h with
  | refl =>
    refine ⟨[], by simp, ?_, Or.inl ⟨l1, l2, l3, hab⟩⟩
    intro pre tr post h
    cases pre <;> simp at h
  | tail hsu hstep ih =>
    rename_i u t
    obtain ⟨ts, htr, hfifo, hdisj⟩ := ih
    obtain ⟨hu, hou⟩ := msteps_wf hsu hs ho
    obtain ⟨m, dq, rest, tr, hopp, _, htr2, hmk, _, hsnap, _, _, _, _, _, _, _, _, hcase⟩ :=
      mstep_facts hstep hu hou
    have hnd := wf_nodup_opp hu side
    have hrest : resting (u.opposite side) = m :: (dq ++ resting rest) := by rw [hopp]; simp
    refine ⟨ts ++ [tr], by rw [htr2, htr, List.append_assoc], ?_, ?_⟩
    · intro pre x post hsplit hx
      rcases append_singleton_split hsplit with ⟨_, rfl, rfl⟩ | ⟨post2, _, hts⟩
      · rcases hdisj with ⟨k1, k2, k3, hk⟩ | hfb
        · exfalso
          rw [hk] at hrest hnd
          rw [hmk] at hx
          subst hx
          cases k1 with
          | nil =>
            simp only [List.nil_append, List.cons_append, List.cons.injEq] at hrest
            obtain ⟨rfl, _⟩ := hrest
            simp at hnd
          | cons c k1 =>
            simp only [List.cons_append, List.cons.injEq] at hrest
            obtain ⟨rfl, _⟩ := hrest
            simp at hnd
        · exact hfb
      · exact hfifo pre x post2 hts hx
    · rcases hdisj with ⟨k1, k2, k3, hk⟩ | ⟨w, hw, hw2⟩
      · rcases hcase with ⟨hz, hopp2⟩ | ⟨_, _, hopp2⟩
        · cases k1 with
          | nil =>
            right
            rw [hk] at hrest
            simp only [List.nil_append, List.cons_append, List.cons.injEq] at hrest
            refine ⟨tr, by simp, ?_, ?_⟩
            · rw [hmk]; exact hrest.1.symm
            · rw [hsnap]; exact hz
          | cons c k1 =>
            left
            rw [hk] at hrest
            simp only [List.cons_append, List.cons.injEq] at hrest
            refine ⟨k1, k2, k3, ?_⟩
            rw [hopp2, resting_levelsAfter, ← hrest.2]
        · left
          exact ⟨k1, k2, k3, by rw [hopp2]; exact hk⟩
      · right
        exact ⟨w, List.mem_append_left _ hw, hw2⟩

theorem priceOrdered_refl (side : OrderSide) (a : Price) : priceOrdered side a a := by
  cases side <;> exact le_refl a

theorem wf_head_best {u : OrderBook} (hu : WF u) {side : OrderSide} {p : Price}
    {dq : List Addr} {rest : List Level} (hopp : u.opposite side = (p, dq) :: rest) :
    ∀ l ∈ rest, priceOrdered side p l.1 := by
  intro l hl
  cases side
  · have hk := (levelsOK_cons_inv (show LevelsOK u.mem u.nextPtr OrderSide.SELL
        ((p, dq) :: rest) from hopp ▸ hu.asks)).1 l hl
    simp only [comesBefore, decide_eq_true_eq] at hk
    exact le_of_lt hk
  · have hk := (levelsOK_cons_inv (show LevelsOK u.mem u.nextPtr OrderSide.BUY
        ((p, dq) :: rest) from hopp ▸ hu.bids)).1 l hl
    simp only [comesBefore, decide_eq_true_eq] at hk
    exact le_of_lt hk

theorem mem_levelsAfter {price : Price} {dq : List Addr} {rest : List Level} {l : Level}
    (h : l ∈ levelsAfter price dq rest) : l.1 = price ∨ l ∈ rest := by
  unfold levelsAfter at h
  split_ifs at h
  · exact Or.inr h
  · rcases List.mem_cons.1 h with rfl | h
    · exact Or.inl rfl
    · exact Or.inr h

/-- The trades of a run of `match` on a well-formed book: each is between the incoming order and
an order that rested on the opposite side, at the price of that resting order, for a positive
quantity; their prices go from better to worse; and no level left on the opposite side is better
than the price of any of them. -/
theorem msteps_trades {side : OrderSide} {order : Addr} {s t : OrderBook}
    (h : MSteps side order s t) (hs : WF s) (ho : order ∉ s.allResting) :
    ∃ ts, t.trades = s.trades ++ ts ∧
      (∀ tr ∈ ts, tr.takerPtr side = order ∧ tr.makerPtr side ∈ resting (s.opposite side) ∧
        tr.price = (tr.maker side).price ∧ tr.price = (s.mem (tr.makerPtr side)).price ∧
        0 < tr.qty ∧ tr.notified = s.tradeCb_) ∧
      (ts.map Trade.price).Pairwise (priceOrdered side) ∧
      (∀ tr ∈ ts, ∀ l ∈ t.opposite side, priceOrdered side tr.price l.1) ∧
      (∀ a ∈ resting (t.opposite side), a ∈ resting (s.opposite side)) := by
  induction h with
  | refl =>
    refine ⟨[], by simp, ?_, List.Pairwise.nil, ?_, fun a h => h⟩
    · intro tr h; cases h
    · intro tr h; cases h
  | tail hsu hstep ih =>
    rename_i u t
    obtain ⟨ts, htr, hloc, hsorted, hbest, hsub⟩ := ih
    obtain ⟨hu, hou⟩ := msteps_wf hsu hs ho
    obtain ⟨_, _, hcb, hfields⟩ := msteps_frame hsu
    obtain ⟨_, _, _, hfields2⟩ := mstep_frame hstep
    obtain ⟨m, dq, rest, tr, hopp, _, htr2, hmk, htk, hsnap, _, hprice, _, hqty, hnot, _, _, _,
      hcase⟩ := mstep_facts hstep hu hou
    have hmrest : m ∈ resting (u.opposite side) := by rw [hopp]; simp
    have hnew : ∀ l ∈ t.opposite side, l.1 = tr.price ∨ l ∈ rest := by
      intro l hl
      rcases hcase with ⟨_, hopp2⟩ | ⟨_, _, hopp2⟩
      · rw [hopp2] at hl; exact mem_levelsAfter hl
      · rw [hopp2, hopp] at hl
        rcases List.mem_cons.1 hl with rfl | hl
        · exact Or.inl rfl
        · exact Or.inr hl
    refine ⟨ts ++ [tr], by rw [htr2, htr, List.append_assoc], ?_, ?_, ?_, ?_⟩
    · intro x hx
      rcases List.mem_append.1 hx with hx | hx
      · exact hloc x hx
      · simp only [List.mem_singleton] at hx
        subst hx
        refine ⟨htk, by rw [hmk]; exact hsub m hmrest, ?_, ?_, hqty, by rw [hnot, hcb]⟩
        · rw [hsnap, hfields2 m, hprice]; rfl
        · rw [hmk, hprice, hfields m]; rfl
    · rw [List.map_append, List.pairwise_append]
      refine ⟨hsorted, by simp, ?_⟩
      intro p hp q hq
      obtain ⟨x, hx, rfl⟩ := List.mem_map.1 hp
      simp only [List.map_cons, List.map_nil, List.mem_singleton] at hq
      subst hq
      have := hbest x hx (tr.price, m :: dq) (by rw [hopp]; exact List.mem_cons_self _ _)
      exact this
    · intro x hx l hl
      rcases List.mem_append.1 hx with hx | hx
      · rcases hnew l hl with e | hl2
        · rw [e]
          exact hbest x hx (tr.price, m :: dq) (by rw [hopp]; exact List.mem_cons_self _ _)
        · exact hbest x hx l (by rw [hopp]; exact List.mem_cons_of_mem _ hl2)
      · simp only [List.mem_singleton] at hx
        subst hx
        rcases hnew l hl with e | hl2
        · rw [e]; exact priceOrdered_refl side _
        · exact wf_head_best hu hopp l hl2
    · intro a ha
      apply hsub
      rcases hcase with ⟨_, hopp2⟩ | ⟨_, _, hopp2⟩
      · rw [hopp2, resting_levelsAfter] at ha
        rw [hopp]; simp only [resting_cons, List.cons_append, List.mem_cons]
        exact Or.inr ha
      · rw [hopp2] at ha; exact ha

theorem levelsAfter_levels {price : Price} {m : Addr} {dq : List Addr} {rest : List Level}
    {l : Level} (h : l ∈ levelsAfter price dq rest) :
    ∃ l0 ∈ (price, m :: dq) :: rest, l.1 = l0.1 ∧ l.2.Sublist l0.2 := by
  unfold levelsAfter at h
  split_ifs at h
  · exact ⟨l, List.mem_cons_of_mem _ h, rfl, List.Sublist.refl _⟩
  · rcases List.mem_cons.1 h with rfl | h
    · exact ⟨_, List.mem_cons_self _ _, rfl, List.sublist_cons_self _ _⟩
    · exact ⟨l, List.mem_cons_of_mem _ h, rfl, List.Sublist.refl _⟩

theorem removeFromLevel_levels (mem : Addr → Order) (price : Price) (id : Nat)
    (levels : List Level) :
    ∀ l ∈ removeFromLevel mem price id levels, ∃ l0 ∈ levels, l.1 = l0.1 ∧ l.2.Sublist l0.2 := by
  induction levels with
  | nil => intro l hl; simp [removeFromLevel] at hl
  | cons x rest ih =>
    obtain ⟨k, dq⟩ := x
    intro l hl
    simp only [removeFromLevel] at hl
    split_ifs at hl
    · exact ⟨l, List.mem_cons_of_mem _ hl, rfl, List.Sublist.refl _⟩
    · rcases List.mem_cons.1 hl with rfl | hl
      · exact ⟨_, List.mem_cons_self _ _, rfl, List.filter_sublist _⟩
      · exact ⟨l, List.mem_cons_of_mem _ hl, rfl, List.Sublist.refl _⟩
    · rcases List.mem_cons.1 hl with rfl | hl
      · exact ⟨_, List.mem_cons_self _ _, rfl, List.Sublist.refl _⟩
      · obtain ⟨l0, h0, h1, h2⟩ := ih l hl
        exact ⟨l0, List.mem_cons_of_mem _ h0, h1, h2⟩

theorem pushBack_levels (side : OrderSide) (price : Price) (order : Addr) (levels : List Level) :
    ∀ l ∈ pushBack side price order levels,
      l ∈ levels ∨ l = (price, [order]) ∨ ∃ dq, (l.1, dq) ∈ levels ∧ l.2 = dq ++ [order] := by
  induction levels with
  | nil => intro l hl; simp [pushBack] at hl; exact Or.inr (Or.inl hl)
  | cons x rest ih =>
    obtain ⟨k, dq⟩ := x
    intro l hl
    simp only [pushBack] at hl
    split_ifs at hl
    · rcases List.mem_cons.1 hl with rfl | hl
      · exact Or.inr (Or.inl rfl)
      · exact Or.inl hl
    · rcases List.mem_cons.1 hl with rfl | hl
      · exact Or.inl (List.mem_cons_self _ _)
      · rcases ih l hl with h | h | ⟨d, h1, h2⟩
        · exact Or.inl (List.mem_cons_of_mem _ h)
        · exact Or.inr (Or.inl h)
        · exact Or.inr (Or.inr ⟨d, List.mem_cons_of_mem _ h1, h2⟩)
    · rcases List.mem_cons.1 hl with rfl | hl
      · exact Or.inr (Or.inr ⟨dq, List.mem_cons_self _ _, rfl⟩)
      · exact Or.inl (List.mem_cons_of_mem _ hl)

theorem mstep_levels {side : OrderSide} {order : Addr} {u t : OrderBook}
    (h : MStep side order u t) :
    (∀ l ∈ t.bids_, ∃ l0 ∈ u.bids_, l.1 = l0.1 ∧ l.2.Sublist l0.2) ∧
      (∀ l ∈ t.asks_, ∃ l0 ∈ u.asks_, l.1 = l0.1 ∧ l.2.Sublist l0.2) := by
  have hrefl : ∀ (L : List Level), ∀ l ∈ L, ∃ l0 ∈ L, l.1 = l0.1 ∧ l.2.Sublist l0.2 :=
    fun L l hl => ⟨l, hl, rfl, List.Sublist.refl _⟩
  cases h with
  | pop price m dq rest hopp hpos hg hz =>
    rw [putLevel_eq]
    cases side
    · simp only [OrderBook.opposite] at hopp
      refine ⟨by simpa [OrderBook.setOpposite] using hrefl u.bids_, ?_⟩
      intro l hl
      simp only [OrderBook.setOpposite] at hl
      rw [hopp]; exact levelsAfter_levels hl
    · simp only [OrderBook.opposite] at hopp
      refine ⟨?_, by simpa [OrderBook.setOpposite] using hrefl u.asks_⟩
      intro l hl
      simp only [OrderBook.setOpposite] at hl
      rw [hopp]; exact levelsAfter_levels hl
  | keep price m dq rest hopp hpos hg hz =>
    exact ⟨by simpa using hrefl u.bids_, by simpa using hrefl u.asks_⟩
  | drop price rest hopp hpos hg =>
    cases side
    · simp only [OrderBook.opposite] at hopp
      refine ⟨by simpa [OrderBook.setOpposite] using hrefl u.bids_, ?_⟩
      intro l hl
      simp only [OrderBook.setOpposite] at hl
      rw [hopp]; exact ⟨l, List.mem_cons_of_mem _ hl, rfl, List.Sublist.refl _⟩
    · simp only [OrderBook.opposite] at hopp
      refine ⟨?_, by simpa [OrderBook.setOpposite] using hrefl u.asks_⟩
      intro l hl
      simp only [OrderBook.setOpposite] at hl
      rw [hopp]; exact ⟨l, List.mem_cons_of_mem _ hl, rfl, List.Sublist.refl _⟩

theorem msteps_levels {side : OrderSide} {order : Addr} {s t : OrderBook}
    (h : MSteps side order s t) :
    (∀ l ∈ t.bids_, ∃ l0 ∈ s.bids_, l.1 = l0.1 ∧ l.2.Sublist l0.2) ∧
      (∀ l ∈ t.asks_, ∃ l0 ∈ s.asks_, l.1 = l0.1 ∧ l.2.Sublist l0.2) := by
  induction h with
  | refl =>
    exact ⟨fun l hl => ⟨l, hl, rfl, List.Sublist.refl _⟩,
      fun l hl => ⟨l, hl, rfl, List.Sublist.refl _⟩⟩
  | tail _ hstep ih =>
    obtain ⟨h1, h2⟩ := mstep_levels hstep
    refine ⟨fun l hl => ?_, fun l hl => ?_⟩
    · obtain ⟨l0, a, b, c⟩ := h1 l hl
      obtain ⟨l1, a1, b1, c1⟩ := ih.1 l0 a
      exact ⟨l1, a1, b.trans b1, c.trans c1⟩
    · obtain ⟨l0, a, b, c⟩ := h2 l hl
      obtain ⟨l1, a1, b1, c1⟩ := ih.2 l0 a
      exact ⟨l1, a1, b.trans b1, c.trans c1⟩

theorem queueOrder_of_levels {s t : OrderBook} (hs : QueueOrder s)
    (hb : ∀ l ∈ t.bids_, ∃ l0 ∈ s.bids_, l.1 = l0.1 ∧ l.2.Sublist l0.2)
    (ha : ∀ l ∈ t.asks_, ∃ l0 ∈ s.asks_, l.1 = l0.1 ∧ l.2.Sublist l0.2) : QueueOrder t := by
  intro l hl
  rcases hl with hl | hl
  · obtain ⟨l0, h0, _, h2⟩ := hb l hl
    exact (hs l0 (Or.inl h0)).sublist h2
  · obtain ⟨l0, h0, _, h2⟩ := ha l hl
    exact (hs l0 (Or.inr h0)).sublist h2

theorem cancelOrder_queueOrder {s : OrderBook} (hs : QueueOrder s) (id : Nat) :
    QueueOrder (s.cancelOrder id) := by
  have hrefl : ∀ (L : List Level), ∀ l ∈ L, ∃ l0 ∈ L, l.1 = l0.1 ∧ l.2.Sublist l0.2 :=
    fun L l hl => ⟨l, hl, rfl, List.Sublist.refl _⟩
  cases hidx : s.orderMap_ id with
  | none => rw [cancelOrder_none hidx]; exact hs
  | some order =>
    cases hside : (s.mem order).side with
    | BUY =>
      rw [cancelOrder_buy hidx hside]
      exact queueOrder_of_levels hs (removeFromLevel_levels _ _ _ _) (hrefl _)
    | SELL =>
      rw [cancelOrder_sell hidx hside]
      exact queueOrder_of_levels hs (hrefl _) (removeFromLevel_levels _ _ _ _)

theorem pushBack_queue {side : OrderSide} {price : Price} {order : Addr} {levels : List Level}
    (h : ∀ l ∈ levels, l.2.Pairwise (fun a b => a < b))
    (hlt : ∀ a ∈ resting levels, a < order) :
    ∀ l ∈ pushBack side price order levels, l.2.Pairwise (fun a b => a < b) := by
  intro l hl
  rcases pushBack_levels side price order levels l hl with h1 | h1 | ⟨dq, h1, h2⟩
  · exact h l h1
  · rw [h1]; simp
  · rw [h2, List.pairwise_append]
    refine ⟨h _ h1, by simp, ?_⟩
    intro a ha b hb
    simp only [List.mem_singleton] at hb
    subst hb
    exact hlt a (mem_resting.2 ⟨_, h1, ha⟩)

theorem restResidual_queueOrder {s : OrderBook} (hs : QueueOrder s) {order : Addr}
    (hlt : ∀ a ∈ s.allResting, a < order) : QueueOrder (s.restResidual order) := by
  unfold OrderBook.restResidual
  split_ifs
  · split
    · intro l hl
      rcases hl with hl | hl
      · exact pushBack_queue (fun l hl => hs l (Or.inl hl))
          (fun a ha => hlt a (List.mem_append_left _ ha)) l hl
      · exact hs l (Or.inr hl)
    · intro l hl
      rcases hl with hl | hl
      · exact hs l (Or.inl hl)
      · exact pushBack_queue (fun l hl => hs l (Or.inr hl))
          (fun a ha => hlt a (List.mem_append_right _ ha)) l hl
  · exact hs

/-- The run of `addNew` on a valid order, on a well-formed book: the new object is indexed, `match`
runs as a sequence of steps until its guard fails, and the residual rests. -/
theorem addNew_run {s t : OrderBook} {o : Order} {fuel : Nat} (hs : WF s) (ho : o.inRange)
    (hv : o.isValid = true) (h : s.addNew fuel o = some t) :
    ∃ s1, MSteps o.side s.nextPtr ((s.alloc o).indexed s.nextPtr) s1 ∧
      ¬ matchGuard o.side s.nextPtr s1 ∧ t = s1.restResidual s.nextPtr ∧
      WF ((s.alloc o).indexed s.nextPtr) ∧
      s.nextPtr ∉ ((s.alloc o).indexed s.nextPtr).allResting ∧
      WF s1 ∧ s.nextPtr ∉ s1.allResting := by
  have hmem : (s.alloc o).mem s.nextPtr = o := by simp [OrderBook.alloc]
  unfold OrderBook.addNew at h
  obtain ⟨s1, hm, ht⟩ := addOrder_valid (by rw [hmem]; exact hv) h
  rw [hmem] at hm
  obtain ⟨hsteps, hng⟩ := matchLoop_steps _ _ _ _ _ hm
  have hwf0 : WF ((s.alloc o).indexed s.nextPtr) :=
    index_wf (alloc_wf hs ho) (Nat.lt_succ_self _)
  have hnr0 : s.nextPtr ∉ ((s.alloc o).indexed s.nextPtr).allResting := alloc_not_resting hs o
  obtain ⟨hwf1, hnr1⟩ := msteps_wf hsteps hwf0 hnr0
  exact ⟨s1, hsteps, hng, ht, hwf0, hnr0, hwf1, hnr1⟩

theorem addNew_invalid {s t : OrderBook} {o : Order} {fuel : Nat}
    (hv : o.isValid = false) (h : s.addNew fuel o = some t) : t = s.alloc o := by
  unfold OrderBook.addNew at h
  exact addOrder_invalid (by simp [OrderBook.alloc, hv]) h

theorem addNew_queueOrder {s t : OrderBook} {o : Order} {fuel : Nat} (hs : WF s)
    (hq : QueueOrder s) (ho : o.inRange) (h : s.addNew fuel o = some t) : QueueOrder t := by
  cases hv : o.isValid with
  | false => rw [addNew_invalid hv h]; exact hq
  | true =>
    obtain ⟨s1, hsteps, _, ht, _, _, hwf1, hnr1⟩ := addNew_run hs ho hv h
    obtain ⟨hb, ha⟩ := msteps_levels hsteps
    have hq1 : QueueOrder s1 := @queueOrder_of_levels s s1 hq hb ha
    rw [ht]
    refine restResidual_queueOrder hq1 ?_
    intro a ha
    have h1 := wf_lt_next hwf1 ha
    have h2 : s1.nextPtr = s.nextPtr + 1 := by rw [(msteps_frame hsteps).1]; rfl
    have h3 : a ≠ s.nextPtr := fun e => hnr1 (e ▸ ha)
    rw [h2] at h1
    exact lt_of_le_of_ne (Nat.lt_succ_iff.1 h1) h3

theorem reachable_queueOrder {s : OrderBook} (h : Reachable s) : QueueOrder s := by
  induction h with
  | empty => intro l hl; rcases hl with hl | hl <;> cases hl
  | step hr hstep ih =>
    cases hstep with
    | add o fuel _ ho h2 => exact addNew_queueOrder (reachable_wf hr) ih ho h2
    | cancel id => exact cancelOrder_queueOrder ih id
    | setCb cb => exact ih

theorem sorted_before {dq : List Addr} (h : dq.Pairwise (fun a b => a < b)) {a b : Addr}
    (ha : a ∈ dq) (hb : b ∈ dq) (hab : a < b) :
    ∃ d1 d2 d3, dq = d1 ++ a :: d2 ++ b :: d3 := by
  induction dq with
  | nil => cases ha
  | cons x xs ih =>
    obtain ⟨hx, hxs⟩ := List.pairwise_cons.1 h
    rcases List.mem_cons.1 ha with e1 | ha2
    · rcases List.mem_cons.1 hb with e2 | hb2
      · rw [e1, e2] at hab; exact absurd hab (lt_irrefl _)
      · obtain ⟨d2, d3, e⟩ := List.append_of_mem hb2
        exact ⟨[], d2, d3, by rw [e, e1]; simp⟩
    · rcases List.mem_cons.1 hb with e2 | hb2
      · rw [e2] at hab; exact absurd (lt_trans (hx a ha2) hab) (lt_irrefl _)
      · obtain ⟨d1, d2, d3, e⟩ := ih hxs ha2 hb2
        exact ⟨x :: d1, d2, d3, by rw [e]; simp⟩

theorem resting_of_level {levels : List Level} {l : Level} (h : l ∈ levels) :
    ∃ x y, resting levels = x ++ l.2 ++ y := by
  induction levels with
  | nil => cases h
  | cons z zs ih =>
    rcases List.mem_cons.1 h with rfl | h
    · exact ⟨[], resting zs, by simp⟩
    · obtain ⟨x, y, e⟩ := ih h
      exact ⟨z.2 ++ x, y, by rw [resting_cons, e]; simp⟩

theorem levels_before {mem : Addr → Order} {next : Addr} {side : OrderSide}
    {levels : List Level} (h : LevelsOK mem next side levels) {a b : Addr}
    (ha : a ∈ resting levels) (hb : b ∈ resting levels)
    (hab : comesBefore side (mem a).price (mem b).price = true) :
    ∃ l1 l2 l3, resting levels = l1 ++ a :: l2 ++ b :: l3 := by
  induction levels with
  | nil => cases ha
  | cons x rest ih =>
    obtain ⟨k, dq⟩ := x
    obtain ⟨hk, hrest⟩ := levelsOK_cons_inv h
    have hin : ∀ c ∈ dq, (mem c).price = k := fun c hc =>
      ((h.2 (k, dq) (List.mem_cons_self _ _)).2 c hc).2.2.1
    have hout : ∀ c ∈ resting rest, comesBefore side k (mem c).price = true := by
      intro c hc
      obtain ⟨l, hl, hcl⟩ := mem_resting.1 hc
      rw [((hrest.2 l hl).2 c hcl).2.2.1]
      exact hk l hl
    simp only [resting_cons, List.mem_append] at ha hb ⊢
    rcases ha with ha | ha
    · rcases hb with hb | hb
      · rw [hin a ha, hin b hb] at hab
        exact absurd hab (comesBefore_irrefl side k)
      · obtain ⟨x1, x2, e1⟩ := List.append_of_mem ha
        obtain ⟨y1, y2, e2⟩ := List.append_of_mem hb
        exact ⟨x1, x2 ++ y1, y2, by rw [e1, e2]; simp⟩
    · rcases hb with hb | hb
      · rw [hin b hb] at hab
        exact absurd (comesBefore_trans side hab (hout a ha)) (comesBefore_irrefl side _)
      · obtain ⟨l1, l2, l3, e⟩ := ih hrest ha hb
        exact ⟨dq ++ l1, l2, l3, by rw [e]; simp⟩

@[simp] theorem indexed_trades (s : OrderBook) (order : Addr) :
    (s.indexed order).trades = s.trades := rfl

@[simp] theorem indexed_mem (s : OrderBook) (order : Addr) :
    (s.indexed order).mem = s.mem := rfl

@[simp] theorem indexed_opposite (s : OrderBook) (order : Addr) (side : OrderSide) :
    (s.indexed order).opposite side = s.opposite side := by cases side <;> rfl

@[simp] theorem alloc_trades (s : OrderBook) (o : Order) : (s.alloc o).trades = s.trades := rfl

@[simp] theorem alloc_opposite (s : OrderBook) (o : Order) (side : OrderSide) :
    (s.alloc o).opposite side = s.opposite side := by cases side <;> rfl

@[simp] theorem alloc_mem_self (s : OrderBook) (o : Order) : (s.alloc o).mem s.nextPtr = o := by
  simp [OrderBook.alloc]

theorem alloc_mem_other (s : OrderBook) (o : Order) {a : Addr} (h : a ≠ s.nextPtr) :
    (s.alloc o).mem a = s.mem a := by
  simp [OrderBook.alloc, Function.update_noteq h]

theorem wf_resting_disjoint {s : OrderBook} (hs : WF s) {a : Addr}
    (h1 : a ∈ resting s.bids_) (h2 : a ∈ resting s.asks_) : False :=
  (List.nodup_append.1 hs.nodup).2.2 h1 h2

theorem mem_opposite_of_resting {s : OrderBook} (hs : WF s) {side : OrderSide} {l : Level}
    (hl : l ∈ s.bids_ ∨ l ∈ s.asks_) {b : Addr} (hb : b ∈ l.2)
    (hr : b ∈ resting (s.opposite side)) : l ∈ s.opposite side := by
  cases side
  · rcases hl with hl | hl
    · exact absurd hr (fun h => wf_resting_disjoint hs (mem_resting.2 ⟨l, hl, hb⟩) h)
    · exact hl
  · rcases hl with hl | hl
    · exact hl
    · exact absurd hr (fun h => wf_resting_disjoint hs h (mem_resting.2 ⟨l, hl, hb⟩))

theorem filledBefore_sides {side : OrderSide} {a : Addr} {pre : List Trade}
    (h : FilledBefore side a pre) :
    ∃ u ∈ pre, (u.buyPtr = a ∧ u.buy.remainingQty = 0) ∨
      (u.sellPtr = a ∧ u.sell.remainingQty = 0) := by
  obtain ⟨u, hu, h1, h2⟩ := h
  cases side
  · exact ⟨u, hu, Or.inr ⟨h1, h2⟩⟩
  · exact ⟨u, hu, Or.inl ⟨h1, h2⟩⟩

/-- The trades `addNew` adds to the history, for a valid order on a reachable book, seen as the
trades of the run of `match`. -/
theorem addNew_trades {s t : OrderBook} {o : Order} {fuel : Nat} (hs : WF s) (ho : o.inRange)
    (hv : o.isValid = true) (h : s.addNew fuel o = some t) {ts : List Trade}
    (hts : t.trades = s.trades ++ ts) :
    ∃ s1, MSteps o.side s.nextPtr ((s.alloc o).indexed s.nextPtr) s1 ∧
      s1.trades = ((s.alloc o).indexed s.nextPtr).trades ++ ts ∧
      WF ((s.alloc o).indexed s.nextPtr) ∧
      s.nextPtr ∉ ((s.alloc o).indexed s.nextPtr).allResting ∧
      t = s1.restResidual s.nextPtr := by
  obtain ⟨s1, hsteps, _, ht, hwf0, hnr0, _, _⟩ := addNew_run hs ho hv h
  refine ⟨s1, hsteps, ?_, hwf0, hnr0, ht⟩
  rw [ht, restResidual_trades] at hts
  simpa using hts

theorem wf_opp_ok {s : OrderBook} (hs : WF s) (side : OrderSide) :
    LevelsOK s.mem s.nextPtr side.other (s.opposite side) := by
  cases side
  · exact hs.asks
  · exact hs.bids

theorem resting_opp_lt {s : OrderBook} (hs : WF s) {side : OrderSide} {a : Addr}
    (h : a ∈ resting (s.opposite side)) : a < s.nextPtr :=
  wf_lt_next hs (mem_allResting_of_opp h)

theorem append_right_nil {α : Type} {xs ys : List α} (h : xs = xs ++ ys) : ys = [] := by
  have := congrArg List.length h
  simp only [List.length_append] at this
  exact List.eq_nil_of_length_eq_zero (by omega)

/-- The inner loop of `match` stops only when the level is used up or the incoming order is. -/
theorem matchLevel_exit (side : OrderSide) (order : Addr) (price : Price) :
    ∀ (fuel : Nat) (s : OrderBook) (dq : List Addr) (s1 : OrderBook) (dq1 : List Addr),
      matchLevel side order price fuel s dq = some (s1, dq1) →
      dq1 = [] ∨ (s1.mem order).remainingQty = 0 := by
  intro fuel
  induction fuel with
  | zero => intro s dq s1 dq1 h; simp [matchLevel] at h
  | succ n ih =>
    intro s dq s1 dq1 h
    simp only [matchLevel] at h
    split_ifs at h with hpos
    · cases dq with
      | nil =>
        simp only [Option.some.injEq, Prod.mk.injEq] at h
        exact Or.inl h.2.symm
      | cons m dq =>
        simp only at h
        split_ifs at h with hz
        · exact ih _ _ _ _ h
        · exact ih _ _ _ _ h
    · simp only [Option.some.injEq, Prod.mk.injEq] at h
      obtain ⟨rfl, rfl⟩ := h
      exact Or.inr (Nat.eq_zero_of_not_pos hpos)

/-- The inner loop of `match` returns within `dq.length + 2` passes, when the incoming order is
not in the level, the level holds no order twice and every order in it has quantity left. -/
theorem matchLevel_total (side : OrderSide) (order : Addr) (price : Price) :
    ∀ (dq : List Addr) (s : OrderBook) (fuel : Nat), order ∉ dq → dq.Nodup →
      (∀ a ∈ dq, 0 < (s.mem a).remainingQty ∧ (s.mem a).remainingQty < 2 ^ 32) →
      (s.mem order).remainingQty < 2 ^ 32 → dq.length + 2 ≤ fuel →
      ∃ r, matchLevel side order price fuel s dq = some r := by
  intro dq
  induction dq with
  | nil =>
    intro s fuel _ _ _ _ hf
    obtain ⟨n, rfl⟩ : ∃ n, fuel = n + 1 := ⟨fuel - 1, by simp at hf; omega⟩
    simp only [matchLevel]
    split_ifs <;> exact ⟨_, rfl⟩
  | cons m dq ih =>
    intro s fuel hno hnd hpos hr hf
    obtain ⟨n, rfl⟩ : ∃ n, fuel = n + 1 := ⟨fuel - 1, by simp at hf; omega⟩
    have hne : order ≠ m := fun e => hno (e ▸ List.mem_cons_self _ _)
    simp only [matchLevel]
    split_ifs with hp hz
    · refine ih _ n (fun h => hno (List.mem_cons_of_mem _ h)) (List.nodup_cons.1 hnd).2 ?_ ?_ ?_
      · intro a ha
        have h1 : a ≠ order := fun e => hno (e ▸ List.mem_cons_of_mem _ ha)
        have h2 : a ≠ m := fun e => (List.nodup_cons.1 hnd).1 (e ▸ ha)
        rw [fill_mem_other _ _ _ _ _ _ h1 h2]
        exact hpos a (List.mem_cons_of_mem _ ha)
      · rw [fill_mem_order _ _ _ _ _ hne hr]
        exact lt_of_le_of_lt (Nat.sub_le _ _) hr
      · simp only [List.length_cons] at hf; omega
    · have hmr := (hpos m (List.mem_cons_self _ _)).2
      have hzero : ((s.fill side order price m).mem order).remainingQty = 0 := by
        rw [fill_mem_order _ _ _ _ _ hne hr]
        rw [fill_mem_maker _ _ _ _ _ hne hmr] at hz
        have : (s.mem order).remainingQty ≤ (s.mem m).remainingQty := by
          by_contra hc
          rw [Nat.min_eq_right (Nat.le_of_lt (Nat.lt_of_not_le hc))] at hz
          exact hz (Nat.sub_self _)
        rw [Nat.min_eq_left this]; exact Nat.sub_self _
      obtain ⟨k, rfl⟩ : ∃ k, n = k + 1 := ⟨n - 1, by simp only [List.length_cons] at hf; omega⟩
      simp only [matchLevel, hzero, lt_irrefl, if_false]
      exact ⟨_, rfl⟩
    · exact ⟨_, rfl⟩

/-- A step budget that is enough for `match` on a well-formed book. -/
theorem matchLoop_total (side : OrderSide) (order : Addr) :
    ∀ (n : Nat) (s : OrderBook) (fuel : Nat), (s.opposite side).length = n → WF s →
      order ∉ s.allResting →
      (resting (s.opposite side)).length + (s.opposite side).length + 3 ≤ fuel →
      ∃ t, matchLoop side order fuel s = some t := by
  intro n
  induction n with
  | zero =>
    intro s fuel hn _ _ hf
    obtain ⟨k, rfl⟩ : ∃ k, fuel = k + 1 := ⟨fuel - 1, by omega⟩
    have hnil : s.opposite side = [] := List.eq_nil_of_length_eq_zero hn
    simp only [matchLoop, hnil]
    split_ifs <;> exact ⟨_, rfl⟩
  | succ n ih =>
    intro s fuel hn hs ho hf
    obtain ⟨k, rfl⟩ : ∃ k, fuel = k + 1 := ⟨fuel - 1, by omega⟩
    cases hopp : s.opposite side with
    | nil => rw [hopp] at hn; cases hn
    | cons x rest =>
      obtain ⟨price, dq⟩ := x
      rw [hopp] at hn hf
      simp only [List.length_cons, resting_cons, List.length_append] at hn hf
      simp only [matchLoop, hopp]
      split_ifs with hpos hg
      · exact ⟨_, rfl⟩
      · have hg : priceGate side (s.mem order).price price = false := by simpa using hg
        have hsub : ∀ a ∈ dq, a ∈ s.allResting := fun a ha =>
          @mem_allResting_of_opp s side a (by rw [hopp]; simp [ha])
        have hnd : dq.Nodup := by
          have := wf_nodup_opp hs side
          rw [hopp, resting_cons] at this
          exact (List.nodup_append.1 this).1
        obtain ⟨⟨s1, dq1⟩, hlev⟩ := matchLevel_total side order price dq s k
          (fun h => ho (hsub _ h)) hnd
          (fun a ha => ⟨wf_pos hs (hsub a ha), hs.range a⟩) (hs.range order) (by omega)
        rw [hlev]
        have hdq : dq ≠ [] := wf_opp_ne_nil hs side (price, dq) (by rw [hopp]; simp)
        have hsteps := matchLevel_steps side order price rest k s dq s1 dq1 hlev hg
        have hstart : s.putLevel side price dq rest = s := by
          cases dq with
          | nil => exact absurd rfl hdq
          | cons m dq =>
            simp only [OrderBook.putLevel, List.isEmpty_cons, Bool.false_eq_true, if_false]
            rw [← hopp, setOpposite_opposite]
        rw [hstart] at hsteps
        obtain ⟨hwf1, hnr1⟩ := msteps_wf hsteps hs ho
        have hcont : ∀ u, u = s1.putLevel side price dq1 rest →
            ∃ t, matchLoop side order k u = some t := by
          intro u hu
          rcases matchLevel_exit side order price k s dq s1 dq1 hlev with hnil | hzero
          · subst hnil
            have hu2 : u.opposite side = rest := by
              rw [hu]; simp [OrderBook.putLevel, opposite_setOpposite]
            refine ih u k (by rw [hu2]; omega) (hu ▸ hwf1) (hu ▸ hnr1) ?_
            rw [hu2]; omega
          · obtain ⟨j, rfl⟩ : ∃ j, k = j + 1 := ⟨k - 1, by omega⟩
            have hz2 : (u.mem order).remainingQty = 0 := by
              rw [hu, putLevel_eq, setOpposite_mem]; exact hzero
            simp only [matchLoop, hz2, lt_irrefl, if_false]
            exact ⟨_, rfl⟩
        simp only []
        split_ifs with hemp
        · refine hcont _ ?_
          simp only [OrderBook.putLevel, hemp, if_true]
        · refine hcont _ ?_
          simp only [OrderBook.putLevel, hemp, Bool.false_eq_true, if_false]
      · exact ⟨_, rfl⟩

/-- The call `addNew` returns on every well-formed book, given enough steps. -/
theorem addNew_total {s : OrderBook} (hs : WF s) {o : Order} (ho : o.inRange) :
    ∃ fuel t, s.addNew fuel o = some t := by
  have hwf0 : WF ((s.alloc o).indexed s.nextPtr) :=
    index_wf (alloc_wf hs ho) (Nat.lt_succ_self _)
  have hnr0 : s.nextPtr ∉ ((s.alloc o).indexed s.nextPtr).allResting := alloc_not_resting hs o
  obtain ⟨t, ht⟩ := matchLoop_total o.side s.nextPtr _ ((s.alloc o).indexed s.nextPtr) _ rfl
    hwf0 hnr0 (le_refl _)
  refine ⟨(resting (((s.alloc o).indexed s.nextPtr).opposite o.side)).length +
    (((s.alloc o).indexed s.nextPtr).opposite o.side).length + 3, ?_⟩
  unfold OrderBook.addNew OrderBook.addOrder
  split_ifs
  · exact ⟨_, rfl⟩
  · simp only [OrderBook.matchOrder, indexed_mem, alloc_mem_self]
    rw [ht]
    exact ⟨_, rfl⟩

theorem fillsOf_append (a : Addr) (xs ys : List Trade) :
    fillsOf a (xs ++ ys) = fillsOf a xs + fillsOf a ys := by
  simp [fillsOf, List.filter_append]

theorem fillsOf_single_of (a : Addr) (tr : Trade) (h : tr.buyPtr = a ∨ tr.sellPtr = a) :
    fillsOf a [tr] = tr.qty := by
  simp [fillsOf, List.filter, h]

theorem fillsOf_single_not (a : Addr) (tr : Trade) (h : ¬ (tr.buyPtr = a ∨ tr.sellPtr = a)) :
    fillsOf a [tr] = 0 := by
  simp [fillsOf, List.filter, h]

theorem trade_involves (side : OrderSide) {tr : Trade} {a : Addr} :
    (tr.buyPtr = a ∨ tr.sellPtr = a) ↔ (tr.makerPtr side = a ∨ tr.takerPtr side = a) := by
  cases side <;> simp only [Trade.makerPtr, Trade.takerPtr]
  · exact Or.comm

/-- One step of `match` on a well-formed book lowers the remaining quantity of the two parties by
the quantity of the trade it records, and of no other object. -/
theorem mstep_conserve {side : OrderSide} {order : Addr} {u t : OrderBook}
    (h : MStep side order u t) (hu : WF u) (ho : order ∉ u.allResting) (p : Addr) :
    fillsOf p t.trades + (t.mem p).remainingQty = fillsOf p u.trades + (u.mem p).remainingQty ∧
      (t.mem p).remainingQty ≤ (u.mem p).remainingQty := by
  obtain ⟨m, dq, rest, tr, _, hne, htr, hmk, htk, _, _, _, hqty, _, _, hor, hmr, hoth, _⟩ :=
    mstep_facts h hu ho
  rw [htr, fillsOf_append]
  have hle1 : tr.qty ≤ (u.mem order).remainingQty := by rw [hqty]; exact Nat.min_le_left _ _
  have hle2 : tr.qty ≤ (u.mem m).remainingQty := by rw [hqty]; exact Nat.min_le_right _ _
  by_cases h1 : p = order
  · subst h1
    rw [fillsOf_single_of p tr ((trade_involves side).2 (Or.inr htk)), hor]
    omega
  · by_cases h2 : p = m
    · subst h2
      rw [fillsOf_single_of p tr ((trade_involves side).2 (Or.inl hmk)), hmr]
      omega
    · have hni : ¬ (tr.buyPtr = p ∨ tr.sellPtr = p) := by
        rw [trade_involves side, hmk, htk]
        rintro (e | e)
        · exact h2 e.symm
        · exact h1 e.symm
      rw [fillsOf_single_not p tr hni, hoth p h1 h2]
      omega

theorem msteps_conserve {side : OrderSide} {order : Addr} {s t : OrderBook}
    (h : MSteps side order s t) (hs : WF s) (ho : order ∉ s.allResting) (p : Addr) :
    fillsOf p t.trades + (t.mem p).remainingQty = fillsOf p s.trades + (s.mem p).remainingQty ∧
      (t.mem p).remainingQty ≤ (s.mem p).remainingQty := by
  induction h with
  | refl => exact ⟨rfl, le_refl _⟩
  | tail hsu hstep ih =>
    obtain ⟨hu, hou⟩ := msteps_wf hsu hs ho
    obtain ⟨h1, h2⟩ := mstep_conserve hstep hu hou p
    exact ⟨h1.trans ih.1, h2.trans ih.2⟩

/-- The effect of `addNew` on the store and on the history is that of a run of `match` for the new
object, started from the book in which the object has been allocated. -/
theorem addNew_effect {s t : OrderBook} {o : Order} {fuel : Nat} (hs : WF s) (ho : o.inRange)
    (h : s.addNew fuel o = some t) :
    ∃ s0 s1, MSteps o.side s.nextPtr s0 s1 ∧ WF s0 ∧ s.nextPtr ∉ s0.allResting ∧
      s0.mem = (s.alloc o).mem ∧ s0.trades = s.trades ∧ s0.nextPtr = s.nextPtr + 1 ∧
      s0.tradeCb_ = s.tradeCb_ ∧
      t.mem = s1.mem ∧ t.trades = s1.trades ∧ t.nextPtr = s.nextPtr + 1 ∧
      t.tradeCb_ = s.tradeCb_ := by
  cases hv : o.isValid with
  | false =>
    rw [addNew_invalid hv h]
    exact ⟨s.alloc o, s.alloc o, Relation.ReflTransGen.refl, alloc_wf hs ho,
      alloc_not_resting hs o, rfl, rfl, rfl, rfl, rfl, rfl, rfl, rfl⟩
  | true =>
    obtain ⟨s1, hsteps, _, ht, hwf0, hnr0, _, _⟩ := addNew_run hs ho hv h
    obtain ⟨hnext, _, hcb, _⟩ := msteps_frame hsteps
    refine ⟨_, s1, hsteps, hwf0, hnr0, rfl, rfl, rfl, rfl, ?_, ?_, ?_, ?_⟩
    · rw [ht, restResidual_mem]
    · rw [ht, restResidual_trades]
    · rw [ht, restResidual_nextPtr, hnext]; rfl
    · rw [ht]
      have : (s1.restResidual s.nextPtr).tradeCb_ = s1.tradeCb_ := by
        unfold OrderBook.restResidual
        split_ifs
        · split <;> rfl
        · rfl
      rw [this, hcb]; rfl

/-- A call on a well-formed book leaves the identity of every allocated object as it is, does not
raise its remaining quantity, and frees nothing. -/
theorem step_mono {u t : OrderBook} (h : Step u t) (hu : WF u) (p : Addr)
    (hp : p < u.nextPtr) :
    (t.mem p).remainingQty ≤ (u.mem p).remainingQty ∧
      t.mem p = (u.mem p).withRemaining (t.mem p).remainingQty ∧ p < t.nextPtr := by
  cases h with
  | add o fuel _ ho h2 =>
    obtain ⟨s0, s1, hsteps, hwf0, hnr0, hm0, _, _, _, hm1, _, hn1, _⟩ := addNew_effect hu ho h2
    have hne : p ≠ u.nextPtr := Nat.ne_of_lt hp
    have h0 : s0.mem p = u.mem p := by rw [hm0]; exact alloc_mem_other u o hne
    obtain ⟨_, _, _, hfields⟩ := msteps_frame hsteps
    refine ⟨?_, ?_, by rw [hn1]; exact Nat.lt_succ_of_lt hp⟩
    · rw [hm1, ← h0]; exact (msteps_conserve hsteps hwf0 hnr0 p).2
    · rw [hm1, ← h0]; exact hfields p
  | cancel id =>
    cases hidx : u.orderMap_ id with
    | none => rw [cancelOrder_none hidx]; exact ⟨le_refl _, rfl, hp⟩
    | some order =>
      have hmem : (u.cancelOrder id).mem = cancelledMem u.mem order := by
        cases hside : (u.mem order).side with
        | BUY => rw [cancelOrder_buy hidx hside]
        | SELL => rw [cancelOrder_sell hidx hside]
      have hnext : (u.cancelOrder id).nextPtr = u.nextPtr := by
        cases hside : (u.mem order).side with
        | BUY => rw [cancelOrder_buy hidx hside]
        | SELL => rw [cancelOrder_sell hidx hside]
      rw [hmem, hnext]
      refine ⟨?_, cancelledMem_fields _ _ _, hp⟩
      by_cases e : p = order
      · subst e; rw [cancelledMem_self]; simp
      · rw [cancelledMem_other _ _ _ e]
  | setCb cb => exact ⟨le_refl _, rfl, hp⟩

/-- A call that is not a cancel of the object `p` keeps the sum of what `p` has traded and what
it has left. -/
theorem stepKeeping_conserve {p : Addr} {u t : OrderBook} (h : StepKeeping p u t) (hu : WF u)
    (hp : p < u.nextPtr) :
    fillsOf p t.trades + (t.mem p).remainingQty = fillsOf p u.trades + (u.mem p).remainingQty := by
  cases h with
  | add o fuel _ ho h2 =>
    obtain ⟨s0, s1, hsteps, hwf0, hnr0, hm0, ht0, _, _, hm1, ht1, _, _⟩ := addNew_effect hu ho h2
    have hne : p ≠ u.nextPtr := Nat.ne_of_lt hp
    have h0 : s0.mem p = u.mem p := by rw [hm0]; exact alloc_mem_other u o hne
    rw [hm1, ht1, ← h0, ← ht0]
    exact (msteps_conserve hsteps hwf0 hnr0 p).1
  | cancel id hid =>
    cases hidx : u.orderMap_ id with
    | none => rw [cancelOrder_none hidx]
    | some order =>
      have hne : p ≠ order := fun e => hid (by rw [hidx, e])
      cases hside : (u.mem order).side with
      | BUY =>
        rw [cancelOrder_buy hidx hside]
        simp only [cancelledMem_other _ _ _ hne]
      | SELL =>
        rw [cancelOrder_sell hidx hside]
        simp only [cancelledMem_other _ _ _ hne]
  | setCb cb => rfl

theorem stepKeeping_step {p : Addr} {u t : OrderBook} (h : StepKeeping p u t) : Step u t := by
  cases h with
  | add o fuel _ ho h2 => exact Step.add _ o fuel _ ho h2
  | cancel id _ => exact Step.cancel _ id
  | setCb cb => exact Step.setCb _ cb

theorem mstep_tradesBelow {side : OrderSide} {order : Addr} {u t : OrderBook}
    (h : MStep side order u t) (hu : WF u) (ho : order ∉ u.allResting)
    (hlt : order < u.nextPtr) (hb : TradesBelow u) : TradesBelow t := by
  obtain ⟨m, dq, rest, tr, hopp, _, htr, hmk, htk, _⟩ := mstep_facts h hu ho
  have hm : m < u.nextPtr := resting_opp_lt hu (by rw [hopp]; simp)
  have hn : t.nextPtr = u.nextPtr := (mstep_frame h).1
  intro x hx
  rw [hn]
  rw [htr] at hx
  rcases List.mem_append.1 hx with hx | hx
  · exact hb x hx
  · simp only [List.mem_singleton] at hx
    subst hx
    cases side <;> simp only [Trade.makerPtr, Trade.takerPtr] at hmk htk
    · exact ⟨htk ▸ hlt, hmk ▸ hm⟩
    · exact ⟨hmk ▸ hm, htk ▸ hlt⟩

theorem msteps_tradesBelow {side : OrderSide} {order : Addr} {s t : OrderBook}
    (h : MSteps side order s t) (hs : WF s) (ho : order ∉ s.allResting)
    (hlt : order < s.nextPtr) (hb : TradesBelow s) : TradesBelow t := by
  induction h with
  | refl => exact hb
  | tail hsu hstep ih =>
    obtain ⟨hu, hou⟩ := msteps_wf hsu hs ho
    exact mstep_tradesBelow hstep hu hou (by rw [(msteps_frame hsu).1]; exact hlt) ih

theorem reachable_tradesBelow {s : OrderBook} (h : Reachable s) : TradesBelow s := by
  induction h with
  | empty => intro tr htr; cases htr
  | step hr hstep ih =>
    cases hstep with
    | add o fuel _ ho h2 =>
      obtain ⟨s0, s1, hsteps, hwf0, hnr0, _, ht0, hn0, _, _, ht1, hn1, _⟩ :=
        addNew_effect (reachable_wf hr) ho h2
      have hb0 : TradesBelow s0 := by
        intro tr htr
        rw [ht0] at htr
        rw [hn0]
        exact ⟨Nat.lt_succ_of_lt (ih tr htr).1, Nat.lt_succ_of_lt (ih tr htr).2⟩
      have hb1 := msteps_tradesBelow hsteps hwf0 hnr0 (by rw [hn0]; exact Nat.lt_succ_self _) hb0
      intro tr htr
      rw [ht1] at htr
      rw [hn1, ← hn0, ← (msteps_frame hsteps).1]
      exact hb1 tr htr
    | cancel id =>
      rename_i u
      have h1 : (u.cancelOrder id).trades = u.trades := by
        cases hidx : u.orderMap_ id with
        | none => rw [cancelOrder_none hidx]
        | some order =>
          cases hside : (u.mem order).side with
          | BUY => rw [cancelOrder_buy hidx hside]
          | SELL => rw [cancelOrder_sell hidx hside]
      have h2 : (u.cancelOrder id).nextPtr = u.nextPtr := by
        cases hidx : u.orderMap_ id with
        | none => rw [cancelOrder_none hidx]
        | some order =>
          cases hside : (u.mem order).side with
          | BUY => rw [cancelOrder_buy hidx hside]
          | SELL => rw [cancelOrder_sell hidx hside]
      intro tr htr
      rw [h1] at htr; rw [h2]; exact ih tr htr
    | setCb cb => exact ih

theorem fillsOf_fresh {s : OrderBook} (hb : TradesBelow s) : fillsOf s.nextPtr s.trades = 0 := by
  unfold fillsOf
  have : s.trades.filter (fun tr => decide (tr.buyPtr = s.nextPtr ∨ tr.sellPtr = s.nextPtr))
      = [] := by
    rw [List.filter_eq_nil_iff]
    intro tr htr
    have := hb tr htr
    simp only [decide_eq_true_eq, not_or]
    exact ⟨Nat.ne_of_lt this.1, Nat.ne_of_lt this.2⟩
  rw [this]; rfl

/-- What `addNew` leaves of the object it allocates: its identity, at most the remaining
quantity it came with, and in the history exactly the trades that account for the difference. -/
theorem addNew_new_object {s t : OrderBook} {o : Order} {fuel : Nat} (hr : Reachable s)
    (ho : o.inRange) (h : s.addNew fuel o = some t) :
    fillsOf s.nextPtr t.trades + (t.mem s.nextPtr).remainingQty = o.remainingQty ∧
      t.mem s.nextPtr = o.withRemaining (t.mem s.nextPtr).remainingQty ∧
      s.nextPtr < t.nextPtr := by
  have hs := reachable_wf hr
  obtain ⟨s0, s1, hsteps, hwf0, hnr0, hm0, ht0, _, _, hm1, ht1, hn1, _⟩ := addNew_effect hs ho h
  have h0 : s0.mem s.nextPtr = o := by rw [hm0]; exact alloc_mem_self s o
  obtain ⟨_, _, _, hfields⟩ := msteps_frame hsteps
  refine ⟨?_, ?_, by rw [hn1]; exact Nat.lt_succ_self _⟩
  · rw [hm1, ht1, (msteps_conserve hsteps hwf0 hnr0 s.nextPtr).1, ht0, h0,
      fillsOf_fresh (reachable_tradesBelow hr)]
    simp
  · rw [hm1, ← h0]; exact hfields s.nextPtr

@[simp] theorem withRemaining_timestamp (o : Order) (q : Nat) :
    (o.withRemaining q).timestamp = o.timestamp := rfl

@[simp] theorem withRemaining_type (o : Order) (q : Nat) :
    (o.withRemaining q).type = o.type := rfl

@[simp] theorem withRemaining_symbol (o : Order) (q : Nat) :
    (o.withRemaining q).symbol = o.symbol := rfl

@[simp] theorem withRemaining_clientId (o : Order) (q : Nat) :
    (o.withRemaining q).clientId = o.clientId := rfl

theorem cancelOrder_nextPtr (s : OrderBook) (id : Nat) :
    (s.cancelOrder id).nextPtr = s.nextPtr := by
  cases hidx : s.orderMap_ id with
  | none => rw [cancelOrder_none hidx]
  | some order =>
    cases hside : (s.mem order).side with
    | BUY => rw [cancelOrder_buy hidx hside]
    | SELL => rw [cancelOrder_sell hidx hside]

theorem cancelOrder_trades (s : OrderBook) (id : Nat) :
    (s.cancelOrder id).trades = s.trades := by
  cases hidx : s.orderMap_ id with
  | none => rw [cancelOrder_none hidx]
  | some order =>
    cases hside : (s.mem order).side with
    | BUY => rw [cancelOrder_buy hidx hside]
    | SELL => rw [cancelOrder_sell hidx hside]

theorem cancelOrder_totalTrades (s : OrderBook) (id : Nat) :
    (s.cancelOrder id).totalTrades_ = s.totalTrades_ := by
  cases hidx : s.orderMap_ id with
  | none => rw [cancelOrder_none hidx]
  | some order =>
    cases hside : (s.mem order).side with
    | BUY => rw [cancelOrder_buy hidx hside]
    | SELL => rw [cancelOrder_sell hidx hside]

theorem cancelOrder_tradeCb (s : OrderBook) (id : Nat) :
    (s.cancelOrder id).tradeCb_ = s.tradeCb_ := by
  cases hidx : s.orderMap_ id with
  | none => rw [cancelOrder_none hidx]
  | some order =>
    cases hside : (s.mem order).side with
    | BUY => rw [cancelOrder_buy hidx hside]
    | SELL => rw [cancelOrder_sell hidx hside]

theorem cancelOrder_mem {s : OrderBook} {id : Nat} {order : Addr}
    (hidx : s.orderMap_ id = some order) :
    (s.cancelOrder id).mem = cancelledMem s.mem order := by
  cases hside : (s.mem order).side with
  | BUY => rw [cancelOrder_buy hidx hside]
  | SELL => rw [cancelOrder_sell hidx hside]

theorem cancelOrder_orderMap {s : OrderBook} {id : Nat} {order : Addr}
    (hidx : s.orderMap_ id = some order) :
    (s.cancelOrder id).orderMap_ = Function.update s.orderMap_ id none := by
  cases hside : (s.mem order).side with
  | BUY => rw [cancelOrder_buy hidx hside]
  | SELL => rw [cancelOrder_sell hidx hside]

/-- A call leaves the timestamp of every allocated object as it is and allocates at most one. -/
theorem step_timestamp {u t : OrderBook} (h : Step u t) (hu : WF u) (p : Addr)
    (hp : p < u.nextPtr) : (t.mem p).timestamp = (u.mem p).timestamp := by
  rw [(step_mono h hu p hp).2.1]; rfl

theorem reachableInTime_reachable {s : OrderBook} (h : ReachableInTime s) : Reachable s := by
  induction h with
  | empty => exact Reachable.empty
  | step _ hstep ih =>
    cases hstep with
    | add o fuel _ ho _ h2 => exact Reachable.step ih (Step.add _ o fuel _ ho h2)
    | cancel id => exact Reachable.step ih (Step.cancel _ id)
    | setCb cb => exact Reachable.step ih (Step.setCb _ cb)

theorem reachableInTime_ordered {s : OrderBook} (h : ReachableInTime s) : TimeOrdered s := by
  induction h with
  | empty => intro a b _ hb; exact absurd hb (Nat.not_lt_zero _)
  | step hr hstep ih =>
    rename_i u t
    have hur := reachableInTime_reachable hr
    have hu := reachable_wf hur
    cases hstep with
    | add o fuel _ ho hts h2 =>
      have hstep : Step u t := Step.add _ o fuel _ ho h2
      obtain ⟨_, hnew, _⟩ := addNew_new_object hur ho h2
      have hnext : t.nextPtr = u.nextPtr + 1 := by
        obtain ⟨_, _, _, _, _, _, _, _, _, _, _, hn, _⟩ := addNew_effect hu ho h2
        exact hn
      intro a b hab hb
      rw [hnext] at hb
      have ha : a < u.nextPtr := lt_of_lt_of_le hab (Nat.lt_succ_iff.1 hb)
      rw [step_timestamp hstep hu a ha]
      rcases Nat.lt_succ_iff_lt_or_eq.1 hb with hb | hb
      · rw [step_timestamp hstep hu b hb]; exact ih a b hab hb
      · rw [hb, hnew]; exact hts a ha
    | cancel id =>
      intro a b hab hb
      rw [cancelOrder_nextPtr] at hb
      rw [step_timestamp (Step.cancel u id) hu a (lt_trans hab hb),
        step_timestamp (Step.cancel u id) hu b hb]
      exact ih a b hab hb
    | setCb cb => exact ih

theorem mstep_allResting {side : OrderSide} {order : Addr} {u t : OrderBook}
    (h : MStep side order u t) : ∀ a ∈ t.allResting, a ∈ u.allResting := by
  obtain ⟨hb, ha⟩ := mstep_levels h
  intro a hmem
  rcases List.mem_append.1 hmem with hm | hm
  · obtain ⟨l, hl, hal⟩ := mem_resting.1 hm
    obtain ⟨l0, hl0, _, hsub⟩ := hb l hl
    exact List.mem_append_left _ (mem_resting.2 ⟨l0, hl0, hsub.subset hal⟩)
  · obtain ⟨l, hl, hal⟩ := mem_resting.1 hm
    obtain ⟨l0, hl0, _, hsub⟩ := ha l hl
    exact List.mem_append_right _ (mem_resting.2 ⟨l0, hl0, hsub.subset hal⟩)

theorem msteps_allResting {side : OrderSide} {order : Addr} {s t : OrderBook}
    (h : MSteps side order s t) : ∀ a ∈ t.allResting, a ∈ s.allResting := by
  induction h with
  | refl => exact fun a h => h
  | tail _ hstep ih => exact fun a h => ih a (mstep_allResting hstep a h)

theorem msteps_indexed {side : OrderSide} {order : Addr} {s t : OrderBook}
    (h : MSteps side order s t) (hi : IndexedResting s) : IndexedResting t := by
  obtain ⟨hn, hm, _, hf⟩ := msteps_frame h
  have hid : ∀ a, (t.mem a).orderId = (s.mem a).orderId := fun a => by rw [hf a]; rfl
  intro a ha
  rw [hm, hn, hid a]
  rcases hi a (msteps_allResting h a ha) with h1 | ⟨b, hb1, hb2, hb3⟩
  · exact Or.inl h1
  · exact Or.inr ⟨b, hb1, hb2, by rw [hid b]; exact hb3⟩

theorem restResidual_allResting (s : OrderBook) (order : Addr) :
    ∀ a ∈ (s.restResidual order).allResting, a = order ∨ a ∈ s.allResting := by
  intro a ha
  unfold OrderBook.restResidual at ha
  split_ifs at ha
  · split at ha
    · rcases List.mem_append.1 ha with h | h
      · have := (pushBack_perm _ _ _ _).subset h
        rcases List.mem_cons.1 this with e | e
        · exact Or.inl e
        · exact Or.inr (List.mem_append_left _ e)
      · exact Or.inr (List.mem_append_right _ h)
    · rcases List.mem_append.1 ha with h | h
      · exact Or.inr (List.mem_append_left _ h)
      · have := (pushBack_perm _ _ _ _).subset h
        rcases List.mem_cons.1 this with e | e
        · exact Or.inl e
        · exact Or.inr (List.mem_append_right _ e)
  · exact Or.inr ha

theorem addNew_indexed {s t : OrderBook} {o : Order} {fuel : Nat} (hs : WF s)
    (hi : IndexedResting s) (ho : o.inRange) (h : s.addNew fuel o = some t) :
    IndexedResting t := by
  have halloc : IndexedResting (s.alloc o) := by
    intro a ha
    have hlt : a < s.nextPtr := wf_lt_next hs ha
    have hne : a ≠ s.nextPtr := Nat.ne_of_lt hlt
    rw [alloc_mem_other s o hne]
    rcases hi a ha with h1 | ⟨b, hb1, hb2, hb3⟩
    · exact Or.inl h1
    · exact Or.inr ⟨b, Nat.lt_succ_of_lt hb1, hb2,
        by rw [alloc_mem_other s o (Nat.ne_of_lt hb1)]; exact hb3⟩
  cases hv : o.isValid with
  | false => rw [addNew_invalid hv h]; exact halloc
  | true =>
    obtain ⟨s1, hsteps, _, ht, hwf0, hnr0, hwf1, hnr1⟩ := addNew_run hs ho hv h
    have hi0 : IndexedResting ((s.alloc o).indexed s.nextPtr) := by
      intro a ha
      have hlt : a < s.nextPtr := wf_lt_next hs ha
      have hne : a ≠ s.nextPtr := Nat.ne_of_lt hlt
      simp only [indexed_mem, OrderBook.indexed, alloc_mem_self]
      by_cases e : ((s.alloc o).mem a).orderId = o.orderId
      · right
        exact ⟨s.nextPtr, Nat.lt_succ_self _, hne.symm, by rw [alloc_mem_self]; exact e.symm⟩
      · rw [Function.update_noteq e]
        exact halloc a ha
    have hi1 := msteps_indexed hsteps hi0
    obtain ⟨hn, hm, _, hf⟩ := msteps_frame hsteps
    rw [ht]
    intro a ha
    rw [restResidual_mem, restResidual_orderMap, restResidual_nextPtr]
    rcases restResidual_allResting s1 s.nextPtr a ha with e | e
    · left
      rw [e, hm, hf s.nextPtr]
      simp [OrderBook.indexed]
    · exact hi1 a e

theorem cancelOrder_allResting {s : OrderBook} (hs : WF s) (id : Nat) :
    ∀ a ∈ (s.cancelOrder id).allResting, a ∈ s.allResting := by
  cases hidx : s.orderMap_ id with
  | none => rw [cancelOrder_none hidx]; exact fun a h => h
  | some order =>
    intro a ha
    cases hside : (s.mem order).side with
    | BUY =>
      rw [cancelOrder_buy hidx hside] at ha
      rcases List.mem_append.1 ha with h | h
      · exact List.mem_append_left _
          ((removeFromLevel_sub _ _ _ _ (fun l hl => (hs.bids.2 l hl).1)).2.1.subset h)
      · exact List.mem_append_right _ h
    | SELL =>
      rw [cancelOrder_sell hidx hside] at ha
      rcases List.mem_append.1 ha with h | h
      · exact List.mem_append_left _ h
      · exact List.mem_append_right _
          ((removeFromLevel_sub _ _ _ _ (fun l hl => (hs.asks.2 l hl).1)).2.1.subset h)

/-- After `cancelOrder(id)` the object the index led to rests on neither side. -/
theorem cancelOrder_not_resting {s : OrderBook} (hs : WF s) {id : Nat} {order : Addr}
    (hidx : s.orderMap_ id = some order) : order ∉ (s.cancelOrder id).allResting := by
  have hwf := cancelOrder_wf hs id
  intro hmem
  have hpos := wf_pos hwf hmem
  rw [cancelOrder_mem hidx, cancelledMem_self] at hpos
  simp at hpos

theorem cancelOrder_indexed {s : OrderBook} (hs : WF s) (hi : IndexedResting s) (id : Nat) :
    IndexedResting (s.cancelOrder id) := by
  cases hidx : s.orderMap_ id with
  | none => rw [cancelOrder_none hidx]; exact hi
  | some order =>
    obtain ⟨hlt, hoid⟩ := hs.index id order hidx
    have hnr := cancelOrder_not_resting hs hidx
    have hid : ∀ a, ((s.cancelOrder id).mem a).orderId = (s.mem a).orderId := by
      intro a; rw [cancelOrder_mem hidx, cancelledMem_fields]; rfl
    intro a ha
    have hne : a ≠ order := fun e => hnr (e ▸ ha)
    rw [cancelOrder_orderMap hidx, cancelOrder_nextPtr, hid a]
    by_cases e : (s.mem a).orderId = id
    · right
      exact ⟨order, hlt, hne.symm, by rw [hid order, hoid, e]⟩
    · rw [Function.update_noteq e]
      rcases hi a (cancelOrder_allResting hs id a ha) with h1 | ⟨b, hb1, hb2, hb3⟩
      · exact Or.inl h1
      · exact Or.inr ⟨b, hb1, hb2, by rw [hid b]; exact hb3⟩

theorem reachable_indexed {s : OrderBook} (h : Reachable s) : IndexedResting s := by
  induction h with
  | empty => intro a ha; cases ha
  | step hr hstep ih =>
    cases hstep with
    | add o fuel _ ho h2 => exact addNew_indexed (reachable_wf hr) ih ho h2
    | cancel id => exact cancelOrder_indexed (reachable_wf hr) ih id
    | setCb cb => exact ih

theorem withoutOrder_cons (p : Addr) (k : Price) (dq : List Addr) (rest : List Level) :
    withoutOrder p ((k, dq) :: rest) =
      if (dq.filter (fun a => decide (a ≠ p))).isEmpty then withoutOrder p rest
      else (k, dq.filter (fun a => decide (a ≠ p))) :: withoutOrder p rest := by
  unfold withoutOrder
  cases h : (dq.filter (fun a => decide (a ≠ p))).isEmpty <;>
    simp only [List.map_cons, List.filter_cons, h, Bool.not_true, Bool.not_false,
      Bool.false_eq_true, if_true, if_false]

theorem filter_ne_self {dq : List Addr} {p : Addr} (h : p ∉ dq) :
    dq.filter (fun a => decide (a ≠ p)) = dq := by
  rw [List.filter_eq_self]
  intro a ha
  simp only [decide_eq_true_eq]
  exact fun e => h (e ▸ ha)

theorem withoutOrder_of_not_mem {p : Addr} {levels : List Level} (hp : p ∉ resting levels)
    (hne : ∀ l ∈ levels, l.2 ≠ []) : withoutOrder p levels = levels := by
  induction levels with
  | nil => rfl
  | cons x rest ih =>
    obtain ⟨k, dq⟩ := x
    simp only [resting_cons, List.mem_append, not_or] at hp
    rw [withoutOrder_cons, filter_ne_self hp.1,
      ih hp.2 (fun l hl => hne l (List.mem_cons_of_mem _ hl))]
    have : dq ≠ [] := hne (k, dq) (List.mem_cons_self _ _)
    cases dq with
    | nil => exact absurd rfl this
    | cons a as => simp

/-- On a well-formed side where `p` is the only order carrying the id, the erase-remove of
`cancelOrder` takes `p` out of its level and nothing else. -/
theorem removeFromLevel_eq_without {mem : Addr → Order} {next : Addr} {side : OrderSide}
    {levels : List Level} (h : LevelsOK mem next side levels) (mem1 : Addr → Order) (id : Nat)
    {p : Addr} (hp : p ∈ resting levels) (hnd : (resting levels).Nodup)
    (hid : ∀ a ∈ resting levels, (mem1 a).orderId = id ↔ a = p) :
    removeFromLevel mem1 (mem p).price id levels = withoutOrder p levels := by
  induction levels with
  | nil => cases hp
  | cons x rest ih =>
    obtain ⟨k, dq⟩ := x
    obtain ⟨hk, hrest⟩ := levelsOK_cons_inv h
    have hin : ∀ c ∈ dq, (mem c).price = k := fun c hc =>
      ((h.2 (k, dq) (List.mem_cons_self _ _)).2 c hc).2.2.1
    have hne : ∀ l ∈ rest, l.2 ≠ [] := fun l hl => (hrest.2 l hl).1
    simp only [resting_cons] at hp hnd hid
    have hdisj := (List.nodup_append.1 hnd)
    rw [withoutOrder_cons]
    simp only [removeFromLevel]
    by_cases hkp : k = (mem p).price
    · have hpdq : p ∈ dq := by
        rcases List.mem_append.1 hp with h1 | h1
        · exact h1
        · exfalso
          obtain ⟨l, hl, hpl⟩ := mem_resting.1 h1
          have := hk l hl
          rw [← ((hrest.2 l hl).2 p hpl).2.2.1, ← hkp] at this
          exact comesBefore_irrefl side k this
      have hprest : p ∉ resting rest := fun h1 => hdisj.2.2 hpdq h1
      have hfilter : dq.filter (fun o => decide ((mem1 o).orderId ≠ id)) =
          dq.filter (fun a => decide (a ≠ p)) := by
        apply List.filter_congr
        intro a ha
        have := hid a (List.mem_append_left _ ha)
        simp only [ne_eq, this]
      simp only [hkp, if_true, hfilter]
      rw [withoutOrder_of_not_mem hprest hne]
    · have hpdq : p ∉ dq := fun h1 => hkp (hin p h1).symm
      have hprest : p ∈ resting rest := by
        rcases List.mem_append.1 hp with h1 | h1
        · exact absurd h1 hpdq
        · exact h1
      simp only [hkp, if_false]
      rw [filter_ne_self hpdq,
        ih hrest hprest hdisj.2.1 (fun a ha => hid a (List.mem_append_right _ ha))]
      have : dq ≠ [] := (h.2 (k, dq) (List.mem_cons_self _ _)).1
      cases dq with
      | nil => exact absurd rfl this
      | cons a as => simp

theorem mstep_guard {side : OrderSide} {order : Addr} {s t : OrderBook}
    (h : MStep side order s t) : matchGuard side order s := by
  cases h with
  | pop price m dq rest hopp hpos hg hz => exact ⟨hpos, price, m :: dq, rest, hopp, hg⟩
  | keep price m dq rest hopp hpos hg hz => exact ⟨hpos, price, m :: dq, rest, hopp, hg⟩
  | drop price rest hopp hpos hg => exact ⟨hpos, price, [], rest, hopp, hg⟩

/-- A run of `match` that starts where the guard of the loop fails makes no step. -/
theorem msteps_of_not_guard {side : OrderSide} {order : Addr} {s t : OrderBook}
    (h : MSteps side order s t) (hng : ¬ matchGuard side order s) : t = s := by
  rcases Relation.ReflTransGen.cases_head h with e | ⟨u, hstep, _⟩
  · exact e.symm
  · exact absurd (mstep_guard hstep) hng

theorem setOpposite_other (s : OrderBook) (side : OrderSide) (l : List Level) :
    (s.setOpposite side l).opposite side.other = s.opposite side.other := by
  cases side <;> rfl

@[simp] theorem setOpposite_totalTrades (s : OrderBook) (side : OrderSide) (l : List Level) :
    (s.setOpposite side l).totalTrades_ = s.totalTrades_ := by cases side <;> rfl

@[simp] theorem fill_totalTrades (s : OrderBook) (side : OrderSide) (order : Addr)
    (price : Price) (m : Addr) :
    (s.fill side order price m).totalTrades_ = (s.totalTrades_ + 1) % 2 ^ 64 := by
  cases side <;> rfl

/-- The state in which `match` leaves a well-formed book when the incoming order has no more
quantity left than the front order of the best opposite level, which it crosses: exactly one
fill is made; the front order is popped when it is used up too, and kept otherwise. -/
theorem msteps_one_fill {side : OrderSide} {order : Addr} {s0 s1 : OrderBook}
    (h : MSteps side order s0 s1) (hng : ¬ matchGuard side order s1) (hs : WF s0)
    (ho : order ∉ s0.allResting) {price : Price} {m : Addr} {dq : List Addr}
    {rest : List Level} (hopp : s0.opposite side = (price, m :: dq) :: rest)
    (hg : priceGate side (s0.mem order).price price = false)
    (hpos : 0 < (s0.mem order).remainingQty)
    (hle : (s0.mem order).remainingQty ≤ (s0.mem m).remainingQty) :
    s1 = if (s0.mem order).remainingQty = (s0.mem m).remainingQty
      then (s0.fill side order price m).putLevel side price dq rest
      else s0.fill side order price m := by
  have hm : m ∈ s0.allResting := @mem_allResting_of_opp s0 side m (by rw [hopp]; simp)
  have hne : order ≠ m := fun e => ho (e ▸ hm)
  have hor := fill_mem_order s0 side order price m hne (hs.range _)
  have hmk := fill_mem_maker s0 side order price m hne (hs.range _)
  rw [Nat.min_eq_left hle] at hor hmk
  rw [Nat.sub_self] at hor
  rcases Relation.ReflTransGen.cases_head h with e | ⟨u, hstep, hrest⟩
  · exact absurd ⟨hpos, price, m :: dq, rest, hopp, hg⟩ (e ▸ hng)
  · cases hstep with
    | pop price2 m2 dq2 rest2 hopp2 hpos2 hg2 hz =>
      rw [hopp] at hopp2
      simp only [List.cons.injEq, Prod.mk.injEq] at hopp2
      obtain ⟨⟨rfl, rfl, rfl⟩, rfl⟩ := hopp2
      rw [hmk] at hz
      have heq : (s0.mem order).remainingQty = (s0.mem m).remainingQty := by omega
      rw [if_pos heq]
      refine msteps_of_not_guard hrest ?_
      rintro ⟨hp, _⟩
      rw [putLevel_eq, setOpposite_mem, hor] at hp
      exact lt_irrefl _ hp
    | keep price2 m2 dq2 rest2 hopp2 hpos2 hg2 hz =>
      rw [hopp] at hopp2
      simp only [List.cons.injEq, Prod.mk.injEq] at hopp2
      obtain ⟨⟨rfl, rfl, rfl⟩, rfl⟩ := hopp2
      rw [hmk] at hz
      have hneq : (s0.mem order).remainingQty ≠ (s0.mem m).remainingQty := by omega
      rw [if_neg hneq]
      refine msteps_of_not_guard hrest ?_
      rintro ⟨hp, _⟩
      rw [hor] at hp
      exact lt_irrefl _ hp
    | drop price2 rest2 hopp2 hpos2 hg2 =>
      rw [hopp] at hopp2
      simp only [List.cons.injEq, Prod.mk.injEq] at hopp2
      obtain ⟨⟨_, e⟩, _⟩ := hopp2
      cases e

@[simp] theorem indexed_nextPtr (s : OrderBook) (order : Addr) :
    (s.indexed order).nextPtr = s.nextPtr := rfl

@[simp] theorem indexed_totalTrades (s : OrderBook) (order : Addr) :
    (s.indexed order).totalTrades_ = s.totalTrades_ := rfl

@[simp] theorem alloc_totalTrades (s : OrderBook) (o : Order) :
    (s.alloc o).totalTrades_ = s.totalTrades_ := rfl

@[simp] theorem alloc_nextPtr (s : OrderBook) (o : Order) :
    (s.alloc o).nextPtr = s.nextPtr + 1 := rfl

@[simp] theorem alloc_orderMap (s : OrderBook) (o : Order) :
    (s.alloc o).orderMap_ = s.orderMap_ := rfl

theorem restResidual_of_zero {s : OrderBook} {order : Addr}
    (h : (s.mem order).remainingQty = 0) : s.restResidual order = s := by
  unfold OrderBook.restResidual
  rw [h]; simp

/-- What `addNew` does on a reachable book when the order handed in crosses the best opposite
level and has no more quantity left than the front order `m` of that level. -/
theorem addNew_one_fill {s t : OrderBook} {o : Order} {fuel : Nat} (hs : WF s) (ho : o.inRange)
    (hv : o.isValid = true) (h : s.addNew fuel o = some t) {price : Price} {m : Addr}
    {dq : List Addr} {rest : List Level}
    (hopp : s.opposite o.side = (price, m :: dq) :: rest)
    (hg : priceGate o.side o.price price = false) (hpos : 0 < o.remainingQty)
    (hle : o.remainingQty ≤ (s.mem m).remainingQty) :
    (∃ tr, t.trades = s.trades ++ [tr] ∧ tr.makerPtr o.side = m ∧
        tr.takerPtr o.side = s.nextPtr ∧ tr.maker o.side = t.mem m ∧
        tr.taker o.side = t.mem s.nextPtr ∧ tr.price = price ∧ tr.qty = o.remainingQty ∧
        tr.notified = s.tradeCb_) ∧
      t.mem s.nextPtr = o.withRemaining 0 ∧
      t.mem m = (s.mem m).withRemaining ((s.mem m).remainingQty - o.remainingQty) ∧
      (∀ a, a ≠ s.nextPtr → a ≠ m → t.mem a = s.mem a) ∧
      t.opposite o.side = (if o.remainingQty = (s.mem m).remainingQty
        then levelsAfter price dq rest else s.opposite o.side) ∧
      t.opposite o.side.other = s.opposite o.side.other ∧
      t.totalTrades_ = (s.totalTrades_ + 1) % 2 ^ 64 ∧
      t.orderMap_ = Function.update s.orderMap_ o.orderId (some s.nextPtr) := by
  obtain ⟨s1, hsteps, hng, ht, hwf0, hnr0, _, _⟩ := addNew_run hs ho hv h
  have hmlt : m < s.nextPtr := resting_opp_lt hs (by rw [hopp]; simp)
  have hmne : m ≠ s.nextPtr := Nat.ne_of_lt hmlt
  have hm0 : ((s.alloc o).indexed s.nextPtr).mem m = s.mem m := by
    rw [indexed_mem]; exact alloc_mem_other s o hmne
  have hp0 : ((s.alloc o).indexed s.nextPtr).mem s.nextPtr = o := by
    rw [indexed_mem]; exact alloc_mem_self s o
  have hopp0 : ((s.alloc o).indexed s.nextPtr).opposite o.side = (price, m :: dq) :: rest := by
    rw [indexed_opposite, alloc_opposite]; exact hopp
  have hs1 := msteps_one_fill hsteps hng hwf0 hnr0 hopp0 (by rw [hp0]; exact hg)
    (by rw [hp0]; exact hpos) (by rw [hp0, hm0]; exact hle)
  rw [hp0, hm0] at hs1
  have hor := fill_mem_order ((s.alloc o).indexed s.nextPtr) o.side s.nextPtr price m
    hmne.symm (hwf0.range _)
  have hmk := fill_mem_maker ((s.alloc o).indexed s.nextPtr) o.side s.nextPtr price m
    hmne.symm (hwf0.range _)
  rw [hp0, hm0, Nat.min_eq_left hle] at hor hmk
  rw [Nat.sub_self] at hor
  have hfo := fill_mem_fields ((s.alloc o).indexed s.nextPtr) o.side s.nextPtr price m s.nextPtr
  have hfm := fill_mem_fields ((s.alloc o).indexed s.nextPtr) o.side s.nextPtr price m m
  rw [hor, hp0] at hfo
  rw [hmk, hm0] at hfm
  have hmem1 : s1.mem = (((s.alloc o).indexed s.nextPtr).fill o.side s.nextPtr price m).mem := by
    rw [hs1]; split_ifs
    · rw [putLevel_eq, setOpposite_mem]
    · rfl
  have hzero : (s1.mem s.nextPtr).remainingQty = 0 := by rw [hmem1, hor]
  have ht2 : t = s1 := by rw [ht]; exact restResidual_of_zero hzero
  obtain ⟨tr, h1, h2, h3, h4, h5, h6, h7, h8⟩ :=
    fill_trades ((s.alloc o).indexed s.nextPtr) o.side s.nextPtr price m
  rw [hp0, hm0, Nat.min_eq_left hle] at h7
  have htr1 : s1.trades =
      (((s.alloc o).indexed s.nextPtr).fill o.side s.nextPtr price m).trades := by
    rw [hs1]; split_ifs
    · rw [putLevel_eq, setOpposite_trades]
    · rfl
  rw [ht2]
  refine ⟨⟨tr, ?_, h2, h3, by rw [hmem1]; exact h4, by rw [hmem1]; exact h5, h6, h7, h8⟩,
    by rw [hmem1]; exact hfo, by rw [hmem1]; exact hfm, ?_, ?_, ?_, ?_, ?_⟩
  · rw [htr1, h1]; rfl
  · intro a ha hb
    rw [hmem1, fill_mem_other _ _ _ _ _ _ ha hb, indexed_mem]
    exact alloc_mem_other s o ha
  · rw [hs1]
    split_ifs
    · rw [putLevel_eq, opposite_setOpposite]
    · rw [fill_opposite, indexed_opposite, alloc_opposite]
  · rw [hs1]
    split_ifs
    · rw [putLevel_eq, setOpposite_other, fill_opposite, indexed_opposite, alloc_opposite]
    · rw [fill_opposite, indexed_opposite, alloc_opposite]
  · rw [hs1]
    split_ifs
    · rw [putLevel_eq, setOpposite_totalTrades, fill_totalTrades]; rfl
    · rw [fill_totalTrades]; rfl
  · rw [hs1]
    split_ifs
    · rw [putLevel_eq, setOpposite_orderMap, fill_orderMap]
      simp [OrderBook.indexed]
    · rw [fill_orderMap]
      simp [OrderBook.indexed]

/-- What `addNew` does on a reachable book when the guard of `match` fails at once: the new
object is indexed and its residual rests; nothing else happens. -/
theorem addNew_no_fill {s t : OrderBook} {o : Order} {fuel : Nat} (hs : WF s) (ho : o.inRange)
    (hv : o.isValid = true) (h : s.addNew fuel o = some t)
    (hng : ¬ matchGuard o.side s.nextPtr ((s.alloc o).indexed s.nextPtr)) :
    t = ((s.alloc o).indexed s.nextPtr).restResidual s.nextPtr := by
  obtain ⟨s1, hsteps, _, ht, _, _, _, _⟩ := addNew_run hs ho hv h
  rw [ht, msteps_of_not_guard hsteps hng]

@[simp] theorem other_other (side : OrderSide) : side.other.other = side := by
  cases side <;> rfl

theorem pushBack_mem_same {side : OrderSide} {price : Price} {order : Addr}
    {levels : List Level}
    (hsorted : (levels.map Prod.fst).Pairwise (fun a b => comesBefore side a b = true))
    {dq : List Addr} (h : (price, dq) ∈ levels) :
    (price, dq ++ [order]) ∈ pushBack side price order levels := by
  induction levels with
  | nil => cases h
  | cons x rest ih =>
    obtain ⟨k, d⟩ := x
    rw [List.map_cons, List.pairwise_cons] at hsorted
    simp only [pushBack]
    rcases List.mem_cons.1 h with e | hrest
    · simp only [Prod.mk.injEq] at e
      obtain ⟨rfl, rfl⟩ := e
      simp [comesBefore_irrefl side price]
    · have hk : comesBefore side k price = true :=
        hsorted.1 price (List.mem_map_of_mem Prod.fst hrest)
      have hnot : ¬ comesBefore side price k = true := fun h1 =>
        comesBefore_irrefl side price (comesBefore_trans side h1 hk)
      simp only [hnot, hk, if_true, if_false]
      exact List.mem_cons_of_mem _ (ih hsorted.2 hrest)

theorem pushBack_mem_new {side : OrderSide} {price : Price} {order : Addr}
    {levels : List Level} (h : ∀ dq, (price, dq) ∉ levels) :
    (price, [order]) ∈ pushBack side price order levels := by
  induction levels with
  | nil => simp [pushBack]
  | cons x rest ih =>
    obtain ⟨k, d⟩ := x
    simp only [pushBack]
    split_ifs with h1 h2
    · exact List.mem_cons_self _ _
    · exact List.mem_cons_of_mem _ (ih (fun dq hdq => h dq (List.mem_cons_of_mem _ hdq)))
    · have e : k = price := eq_of_not_comesBefore side h1 h2
      exact absurd (by rw [e]; exact List.mem_cons_self _ _) (h d)

theorem pushBack_mem_other {side : OrderSide} {price : Price} {order : Addr}
    {levels : List Level} {l : Level} (h : l.1 ≠ price) :
    l ∈ pushBack side price order levels ↔ l ∈ levels := by
  induction levels with
  | nil =>
    simp only [pushBack, List.mem_singleton, List.not_mem_nil, iff_false]
    intro e; exact h (by rw [e])
  | cons x rest ih =>
    obtain ⟨k, d⟩ := x
    simp only [pushBack]
    split_ifs with h1 h2
    · constructor
      · intro hl
        rcases List.mem_cons.1 hl with e | hl
        · exact absurd (by rw [e]) h
        · exact hl
      · exact fun hl => List.mem_cons_of_mem _ hl
    · simp only [List.mem_cons, ih]
    · have e : k = price := eq_of_not_comesBefore side h1 h2
      constructor
      · intro hl
        rcases List.mem_cons.1 hl with e2 | hl
        · exact absurd (by rw [e2, e]) h
        · exact List.mem_cons_of_mem _ hl
      · intro hl
        rcases List.mem_cons.1 hl with e2 | hl
        · exact absurd (by rw [e2, e]) h
        · exact List.mem_cons_of_mem _ hl

theorem restResidual_own {s : OrderBook} {order : Addr}
    (hpos : 0 < (s.mem order).remainingQty) :
    (s.restResidual order).opposite (s.mem order).side.other =
      pushBack (s.mem order).side (s.mem order).price order
        (s.opposite (s.mem order).side.other) := by
  unfold OrderBook.restResidual
  rw [if_pos hpos]
  split <;> rename_i hside <;> simp only [hside, OrderSide.other, OrderBook.opposite]

theorem not_guard_of_noncross {s : OrderBook} {side : OrderSide} {order : Addr}
    (h : s.opposite side = [] ∨
      (side = OrderSide.BUY ∧ (s.mem order).price < s.getBestAsk) ∨
      (side = OrderSide.SELL ∧ s.getBestBid < (s.mem order).price)) :
    ¬ matchGuard side order s := by
  rintro ⟨_, price, dq, rest, hopp, hg⟩
  rcases h with h | ⟨rfl, h⟩ | ⟨rfl, h⟩
  · rw [h] at hopp; cases hopp
  · simp only [OrderBook.opposite] at hopp
    simp only [OrderBook.getBestAsk, hopp] at h
    simp [priceGate, h] at hg
  · simp only [OrderBook.opposite] at hopp
    simp only [OrderBook.getBestBid, hopp] at h
    simp [priceGate, h] at hg

theorem applyFills_spec :
    ∀ (fills : List (Nat × Nat)) (o : Order), o.remainingQty < 2 ^ 32 → fillsFit o fills →
      (applyFills o fills).remainingQty + fillSum fills = o.remainingQty ∧
        (applyFills o fills).quantity = o.quantity := by
  intro fills
  induction fills with
  | nil => intro o _ _; exact ⟨by simp [applyFills, fillSum], rfl⟩
  | cons x rest ih =>
    obtain ⟨q, now⟩ := x
    intro o hr hfit
    obtain ⟨hq, hrest⟩ := hfit
    have hu : (o.updateRemainingQty q now).remainingQty = o.remainingQty - q := by
      simp only [Order.updateRemainingQty, if_pos hq]
      exact sub32_of_le hr hq
    have huq : (o.updateRemainingQty q now).quantity = o.quantity := by
      simp only [Order.updateRemainingQty, if_pos hq]
    obtain ⟨h1, h2⟩ := ih (o.updateRemainingQty q now) (by rw [hu]; omega) hrest
    refine ⟨?_, by rw [← huq]; exact h2⟩
    simp only [fillSum] at h1
    simp only [applyFills, fillSum, List.map_cons, List.sum_cons]
    rw [hu] at h1
    omega

theorem mstep_oriented {side : OrderSide} {order : Addr} {u t : OrderBook}
    (h : MStep side order u t) (hu : WF u) (ho : order ∉ u.allResting)
    (hside : (u.mem order).side = side) (hor : Oriented u) : Oriented t := by
  obtain ⟨m, dq, rest, tr, hopp, _, htr, _, _, hmk, htk, _⟩ := mstep_facts h hu ho
  obtain ⟨_, _, _, hfields⟩ := mstep_frame h
  have hm : (u.mem m).side = side.other :=
    (((wf_opp_ok hu side).2 _ (by rw [hopp]; exact List.mem_cons_self _ _)).2 m
      (List.mem_cons_self _ _)).2.1
  have h1 : (tr.maker side).side = side.other := by
    rw [hmk, hfields m, withRemaining_side, hm]
  have h2 : (tr.taker side).side = side := by
    rw [htk, hfields order, withRemaining_side, hside]
  intro x hx
  rw [htr] at hx
  rcases List.mem_append.1 hx with hx | hx
  · exact hor x hx
  · simp only [List.mem_singleton] at hx
    subst hx
    cases side
    · exact ⟨h2, h1⟩
    · exact ⟨h1, h2⟩

theorem msteps_oriented {side : OrderSide} {order : Addr} {s t : OrderBook}
    (h : MSteps side order s t) (hs : WF s) (ho : order ∉ s.allResting)
    (hside : (s.mem order).side = side) (hor : Oriented s) : Oriented t := by
  induction h with
  | refl => exact hor
  | tail hsu hstep ih =>
    obtain ⟨hu, hou⟩ := msteps_wf hsu hs ho
    obtain ⟨_, _, _, hfields⟩ := msteps_frame hsu
    exact mstep_oriented hstep hu hou (by rw [hfields order, withRemaining_side, hside]) ih

theorem addNew_oriented {s t : OrderBook} {o : Order} {fuel : Nat} (hs : WF s)
    (hor : Oriented s) (ho : o.inRange) (h : s.addNew fuel o = some t) : Oriented t := by
  obtain ⟨s0, s1, hsteps, hwf0, hnr0, hm0, ht0, _, _, _, ht1, _, _⟩ := addNew_effect hs ho h
  have hor0 : Oriented s0 := by
    intro tr htr
    rw [ht0] at htr
    exact hor tr htr
  have hside : (s0.mem s.nextPtr).side = o.side := by rw [hm0, alloc_mem_self]
  have := msteps_oriented hsteps hwf0 hnr0 hside hor0
  intro tr htr
  rw [ht1] at htr
  exact this tr htr

theorem reachable_oriented {s : OrderBook} (h : Reachable s) : Oriented s := by
  induction h with
  | empty => intro tr htr; cases htr
  | step hr hstep ih =>
    cases hstep with
    | add o fuel _ ho h2 => exact addNew_oriented (reachable_wf hr) ih ho h2
    | cancel id =>
      intro tr htr
      rw [cancelOrder_trades] at htr
      exact ih tr htr
    | setCb cb => exact ih

theorem sameIdentity_of_withRemaining {a b : Order} {q : Nat} (h : a = b.withRemaining q) :
    a.sameIdentity b := by
  subst h
  exact ⟨rfl, rfl, rfl, rfl, rfl, rfl, rfl⟩

theorem cancelOrder_mono (s : OrderBook) (orderId : Nat) (p : Addr) :
    (s.cancelOrder orderId).mem p =
        (s.mem p).withRemaining ((s.cancelOrder orderId).mem p).remainingQty ∧
      ((s.cancelOrder orderId).mem p).remainingQty ≤ (s.mem p).remainingQty := by
  cases hidx : s.orderMap_ orderId with
  | none => rw [cancelOrder_none hidx]; exact ⟨rfl, le_refl _⟩
  | some order =>
    rw [cancelOrder_mem hidx]
    refine ⟨cancelledMem_fields _ _ _, ?_⟩
    by_cases e : p = order
    · subst e; rw [cancelledMem_self]; simp
    · rw [cancelledMem_other _ _ _ e]

theorem countOK_succ {total len : Nat} (h : total = len % 2 ^ 64) :
    (total + 1) % 2 ^ 64 = (len + 1) % 2 ^ 64 := by
  rw [h, Nat.add_mod, Nat.mod_mod, ← Nat.add_mod]

theorem fill_countOK {s : OrderBook} (h : CountOK s) (side : OrderSide) (order : Addr)
    (price : Price) (m : Addr) : CountOK (s.fill side order price m) := by
  obtain ⟨tr, htr, _⟩ := fill_trades s side order price m
  unfold CountOK
  rw [fill_totalTrades, htr, List.length_append, List.length_singleton]
  exact countOK_succ h

theorem mstep_countOK {side : OrderSide} {order : Addr} {u t : OrderBook}
    (h : MStep side order u t) (hu : CountOK u) : CountOK t := by
  cases h with
  | pop price m dq rest hopp hpos hg hz =>
    have := fill_countOK hu side order price m
    unfold CountOK at this ⊢
    rw [putLevel_eq, setOpposite_totalTrades, setOpposite_trades]
    exact this
  | keep price m dq rest hopp hpos hg hz => exact fill_countOK hu side order price m
  | drop price rest hopp hpos hg =>
    unfold CountOK at hu ⊢
    rw [setOpposite_totalTrades, setOpposite_trades]
    exact hu

theorem msteps_countOK {side : OrderSide} {order : Addr} {s t : OrderBook}
    (h : MSteps side order s t) (hs : CountOK s) : CountOK t := by
  induction h with
  | refl => exact hs
  | tail _ hstep ih => exact mstep_countOK hstep ih

theorem addNew_countOK {s t : OrderBook} {o : Order} {fuel : Nat} (hs : WF s)
    (hc : CountOK s) (ho : o.inRange) (h : s.addNew fuel o = some t) : CountOK t := by
  cases hv : o.isValid with
  | false => rw [addNew_invalid hv h]; exact hc
  | true =>
    obtain ⟨s1, hsteps, _, ht, _⟩ := addNew_run hs ho hv h
    have h1 : CountOK s1 := msteps_countOK hsteps hc
    unfold CountOK at h1 ⊢
    rw [ht, restResidual_totalTrades, restResidual_trades]
    exact h1

theorem reachable_countOK {s : OrderBook} (h : Reachable s) : CountOK s := by
  induction h with
  | empty => rfl
  | step hr hstep ih =>
    cases hstep with
    | add o fuel _ ho h2 => exact addNew_countOK (reachable_wf hr) ih ho h2
    | cancel id =>
      unfold CountOK at ih ⊢
      rw [cancelOrder_totalTrades, cancelOrder_trades]
      exact ih
    | setCb cb => exact ih

/-- An `addNew` call appends its trades to the history; each of them records whether a callback
was installed when the call was made. -/
theorem addNew_appends {s t : OrderBook} {o : Order} {fuel : Nat} (hs : WF s) (ho : o.inRange)
    (h : s.addNew fuel o = some t) :
    ∃ ts, t.trades = s.trades ++ ts ∧ (∀ tr ∈ ts, tr.notified = s.tradeCb_) ∧
      t.tradeCb_ = s.tradeCb_ := by
  obtain ⟨s0, s1, hsteps, hwf0, hnr0, _, ht0, _, hcb0, _, ht1, _, hcb1⟩ := addNew_effect hs ho h
  obtain ⟨ts, hts, hall, _⟩ := msteps_trades hsteps hwf0 hnr0
  refine ⟨ts, by rw [ht1, hts, ht0], ?_, hcb1⟩
  intro tr htr
  rw [(hall tr htr).2.2.2.2.2, hcb0]

theorem withCallback_reachable {s : OrderBook} (h : WithCallback s) : Reachable s := by
  induction h with
  | start => exact Reachable.step Reachable.empty (Step.setCb _ true)
  | add o fuel _ ho h2 ih => exact Reachable.step ih (Step.add _ o fuel _ ho h2)
  | cancel id _ ih => exact Reachable.step ih (Step.cancel _ id)
  | setCb _ ih => exact Reachable.step ih (Step.setCb _ true)

theorem withCallback_notified {s : OrderBook} (h : WithCallback s) :
    s.tradeCb_ = true ∧ ∀ tr ∈ s.trades, tr.notified = true := by
  induction h with
  | start => exact ⟨rfl, fun tr htr => by cases htr⟩
  | add o fuel hw ho h2 ih =>
    obtain ⟨ts, hts, hall, hcb⟩ := addNew_appends (reachable_wf (withCallback_reachable hw)) ho h2
    refine ⟨by rw [hcb]; exact ih.1, ?_⟩
    intro tr htr
    rw [hts] at htr
    rcases List.mem_append.1 htr with htr | htr
    · exact ih.2 tr htr
    · rw [hall tr htr]; exact ih.1
  | cancel id _ ih =>
    refine ⟨by rw [cancelOrder_tradeCb]; exact ih.1, ?_⟩
    intro tr htr
    rw [cancelOrder_trades] at htr
    exact ih.2 tr htr
  | setCb _ ih => exact ⟨rfl, ih.2⟩

theorem matchLevel_succ (side : OrderSide) (order : Addr) (price : Price) (fuel : Nat)
    (s : OrderBook) (dq : List Addr) :
    matchLevel side order price (fuel + 1) s dq =
      if (s.mem order).remainingQty > 0 then
        match dq with
        | [] => some (s, [])
        | matchOrder :: rest =>
          if ((s.fill side order price matchOrder).mem matchOrder).remainingQty = 0 then
            matchLevel side order price fuel (s.fill side order price matchOrder) rest
          else matchLevel side order price fuel (s.fill side order price matchOrder)
            (matchOrder :: rest)
      else some (s, dq) := rfl

theorem matchLoop_succ (side : OrderSide) (order : Addr) (fuel : Nat) (s : OrderBook) :
    matchLoop side order (fuel + 1) s =
      if (s.mem order).remainingQty > 0 then
        match s.opposite side with
        | [] => some s
        | (price, dq) :: rest =>
          if priceGate side (s.mem order).price price then some s
          else
            match matchLevel side order price fuel s dq with
            | none => none
            | some (s1, dq1) =>
              if dq1.isEmpty then matchLoop side order fuel (s1.setOpposite side rest)
              else matchLoop side order fuel (s1.setOpposite side ((price, dq1) :: rest))
      else some s := rfl

theorem matchLevel_mono (side : OrderSide) (order : Addr) (price : Price) :
    ∀ (fuel : Nat) (s : OrderBook) (dq : List Addr) (r : OrderBook × List Addr),
      matchLevel side order price fuel s dq = some r →
      matchLevel side order price (fuel + 1) s dq = some r := by
  intro fuel
  induction fuel with
  | zero => intro s dq r h; simp [matchLevel] at h
  | succ n ih =>
    intro s dq r h
    rw [matchLevel_succ] at h ⊢
    by_cases hpos : (s.mem order).remainingQty > 0
    · rw [if_pos hpos] at h ⊢
      cases dq with
      | nil => exact h
      | cons m rest =>
        simp only at h ⊢
        by_cases hz : ((s.fill side order price m).mem m).remainingQty = 0
        · rw [if_pos hz] at h ⊢
          exact ih _ _ _ h
        · rw [if_neg hz] at h ⊢
          exact ih _ _ _ h
    · rw [if_neg hpos] at h ⊢
      exact h

theorem matchLoop_mono (side : OrderSide) (order : Addr) :
    ∀ (fuel : Nat) (s t : OrderBook), matchLoop side order fuel s = some t →
      matchLoop side order (fuel + 1) s = some t := by
  intro fuel
  induction fuel with
  | zero => intro s t h; simp [matchLoop] at h
  | succ n ih =>
    intro s t h
    rw [matchLoop_succ] at h ⊢
    by_cases hpos : (s.mem order).remainingQty > 0
    · rw [if_pos hpos] at h ⊢
      cases hopp : s.opposite side with
      | nil => rw [hopp] at h; exact h
      | cons l rest =>
        obtain ⟨price, dq⟩ := l
        rw [hopp] at h
        simp only at h ⊢
        by_cases hg : priceGate side (s.mem order).price price = true
        · rw [if_pos hg] at h ⊢
          exact h
        · rw [if_neg hg] at h ⊢
          cases hml : matchLevel side order price n s dq with
          | none => rw [hml] at h; cases h
          | some r =>
            obtain ⟨s1, dq1⟩ := r
            rw [hml] at h
            rw [matchLevel_mono side order price n s dq _ hml]
            simp only at h ⊢
            by_cases he : dq1.isEmpty = true
            · rw [if_pos he] at h ⊢
              exact ih _ _ h
            · rw [if_neg he] at h ⊢
              exact ih _ _ h
    · rw [if_neg hpos] at h ⊢
      exact h

theorem addNew_mono {s t : OrderBook} {o : Order} {fuel : Nat} (h : s.addNew fuel o = some t) :
    s.addNew (fuel + 1) o = some t := by
  unfold OrderBook.addNew OrderBook.addOrder at h ⊢
  by_cases hv : (!((s.alloc o).mem s.nextPtr).isValid) = true
  · rw [if_pos hv] at h ⊢
    exact h
  · rw [if_neg hv] at h ⊢
    unfold OrderBook.matchOrder at h ⊢
    cases hm : matchLoop (((s.alloc o).indexed s.nextPtr).mem s.nextPtr).side s.nextPtr fuel
        ((s.alloc o).indexed s.nextPtr) with
    | none => rw [hm] at h; cases h
    | some s1 =>
      rw [hm] at h
      rw [matchLoop_mono _ _ _ _ _ hm]
      exact h

theorem addNew_mono_le {s t : OrderBook} {o : Order} {fuel : Nat}
    (h : s.addNew fuel o = some t) : ∀ fuel2, fuel ≤ fuel2 → s.addNew fuel2 o = some t := by
  intro fuel2 hle
  induction hle with
  | refl => exact h
  | step _ ih => exact addNew_mono ih

/-- The book `addNew` returns does not depend on the step budget. -/
theorem addNew_unique {s t1 t2 : OrderBook} {o : Order} {f1 f2 : Nat}
    (h1 : s.addNew f1 o = some t1) (h2 : s.addNew f2 o = some t2) : t1 = t2 := by
  have e1 := addNew_mono_le h1 (max f1 f2) (le_max_left _ _)
  have e2 := addNew_mono_le h2 (max f1 f2) (le_max_right _ _)
  rw [e1] at e2
  exact Option.some.inj e2

theorem fillsOK_congr {side : OrderSide} {mem1 mem2 : Addr → Order} :
    ∀ (ts : List Trade) (rem : Nat),
      (∀ tr ∈ ts, (mem1 (tr.makerPtr side)).remainingQty =
        (mem2 (tr.makerPtr side)).remainingQty) →
      FillsOK side mem1 rem ts → FillsOK side mem2 rem ts := by
  intro ts
  induction ts with
  | nil => intro _ _ _; trivial
  | cons tr rest ih =>
    intro rem hm h
    obtain ⟨h1, h2, h3, h4, h5⟩ := h
    have e := hm tr (List.mem_cons_self _ _)
    exact ⟨by rw [← e]; exact h1, h2, by rw [← e]; exact h3, h4,
      ih _ (fun x hx => hm x (List.mem_cons_of_mem _ hx)) h5⟩

theorem restingQty_congr {mem1 mem2 : Addr → Order} {levels : List Level}
    (h : ∀ a ∈ resting levels, (mem1 a).remainingQty = (mem2 a).remainingQty) :
    restingQty mem1 levels = restingQty mem2 levels := by
  unfold restingQty
  rw [List.map_congr_left h]

/-- One step of `match` takes from the opposite side exactly the quantity of its trade. -/
theorem mstep_fill {side : OrderSide} {order : Addr} {u v : OrderBook}
    (h : MStep side order u v) (hu : WF u) (ho : order ∉ u.allResting) :
    ∃ tr, v.trades = u.trades ++ [tr] ∧ tr.takerPtr side = order ∧
      tr.makerPtr side ∈ resting (u.opposite side) ∧
      tr.qty = min (u.mem order).remainingQty (u.mem (tr.makerPtr side)).remainingQty ∧
      (tr.taker side).remainingQty + tr.qty = (u.mem order).remainingQty ∧
      (tr.maker side).remainingQty + tr.qty = (u.mem (tr.makerPtr side)).remainingQty ∧
      (v.mem order).remainingQty + tr.qty = (u.mem order).remainingQty ∧
      restingQty v.mem (v.opposite side) + tr.qty = restingQty u.mem (u.opposite side) ∧
      (∀ a ∈ resting (v.opposite side), a ∈ resting (u.opposite side) ∧
        (v.mem a).remainingQty = (u.mem a).remainingQty ∨ a = tr.makerPtr side) ∧
      (tr.makerPtr side ∈ resting (v.opposite side) → (v.mem order).remainingQty = 0) := by
  obtain ⟨m, dq, rest, tr, hopp, hne, htr, hmk, htk, hmo, hto, _, hqty, _, _, hor, hmr, hoth,
    hcase⟩ := mstep_facts h hu ho
  have hle1 : tr.qty ≤ (u.mem order).remainingQty := by rw [hqty]; exact Nat.min_le_left _ _
  have hle2 : tr.qty ≤ (u.mem m).remainingQty := by rw [hqty]; exact Nat.min_le_right _ _
  have hres : resting (u.opposite side) = m :: (dq ++ resting rest) := by
    rw [hopp, resting_cons]; rfl
  have hnd : (m :: (dq ++ resting rest)).Nodup := hres ▸ wf_nodup_opp hu side
  have hmnot : m ∉ dq ++ resting rest := (List.nodup_cons.1 hnd).1
  have hsame : ∀ a ∈ dq ++ resting rest, v.mem a = u.mem a := by
    intro a ha
    refine hoth a ?_ ?_
    · intro e
      have hin : a ∈ resting (u.opposite side) := by
        rw [hres]; exact List.mem_cons_of_mem _ ha
      exact ho (e ▸ @mem_allResting_of_opp u side a hin)
    · intro e; exact hmnot (e ▸ ha)
  have hsum : ((dq ++ resting rest).map (fun a => (v.mem a).remainingQty)).sum =
      ((dq ++ resting rest).map (fun a => (u.mem a).remainingQty)).sum := by
    rw [List.map_congr_left (fun a ha => by rw [hsame a ha])]
  refine ⟨tr, htr, htk, by rw [hmk, hres]; exact List.mem_cons_self _ _, by rw [hmk]; exact hqty,
    by rw [hto, hor]; omega, by rw [hmo, hmk, hmr]; omega, by rw [hor]; omega, ?_, ?_, ?_⟩
  · rcases hcase with ⟨hz, hv⟩ | ⟨_, _, hv⟩
    · unfold restingQty
      rw [hv, resting_levelsAfter, hres, List.map_cons, List.sum_cons, hsum]
      rw [hmr] at hz
      omega
    · unfold restingQty
      rw [hv, hres, List.map_cons, List.sum_cons, List.map_cons, List.sum_cons, hsum, hmr]
      omega
  · intro a ha
    rcases hcase with ⟨_, hv⟩ | ⟨_, _, hv⟩
    · rw [hv, resting_levelsAfter] at ha
      left
      exact ⟨by rw [hres]; exact List.mem_cons_of_mem _ ha, by rw [hsame a ha]⟩
    · rw [hv, hres] at ha
      rcases List.mem_cons.1 ha with e | ha
      · right; rw [hmk]; exact e
      · left
        exact ⟨by rw [hres]; exact List.mem_cons_of_mem _ ha, by rw [hsame a ha]⟩
  · intro hin
    rcases hcase with ⟨_, hv⟩ | ⟨_, hz, _⟩
    · rw [hv, resting_levelsAfter, hmk] at hin
      exact absurd hin hmnot
    · exact hz

/-- A run of `match` on a well-formed book: its trades are right fills, their quantities sum to
what the incoming order lost, and also to what the opposite side lost. -/
theorem msteps_fills {side : OrderSide} {order : Addr} {u t : OrderBook}
    (h : MSteps side order u t) :
    WF u → order ∉ u.allResting →
    ∃ ts, t.trades = u.trades ++ ts ∧ FillsOK side u.mem (u.mem order).remainingQty ts ∧
      (∀ tr ∈ ts, tr.takerPtr side = order ∧ tr.makerPtr side ∈ resting (u.opposite side)) ∧
      (t.mem order).remainingQty + (ts.map Trade.qty).sum = (u.mem order).remainingQty ∧
      restingQty t.mem (t.opposite side) + (ts.map Trade.qty).sum =
        restingQty u.mem (u.opposite side) := by
  induction h using Relation.ReflTransGen.head_induction_on with
  | refl =>
    intro _ _
    refine ⟨[], by simp, trivial, ?_, by simp, by simp⟩
    intro tr htr
    cases htr
  | head hstep hrest ih =>
    rename_i u v
    intro hu ho
    obtain ⟨hv, hov⟩ := mstep_wf hstep hu ho
    obtain ⟨tr, htr, htk, hmin, hqty, htaker, hmaker, hord, hrq, hkeep, hstop⟩ :=
      mstep_fill hstep hu ho
    obtain ⟨ts, hts, hfills, hall, hsum, hrsum⟩ := ih hv hov
    have hts_nil : tr.makerPtr side ∈ resting (v.opposite side) → ts = [] := by
      intro hin
      have hz := hstop hin
      have : t = v := msteps_of_not_guard hrest (fun hg => by
        have := hg.1
        rw [hz] at this
        exact lt_irrefl _ this)
      rw [this] at hts
      exact append_right_nil hts
    have hmakers : ∀ x ∈ ts, x.makerPtr side ≠ tr.makerPtr side ∧
        x.makerPtr side ∈ resting (u.opposite side) ∧
        (v.mem (x.makerPtr side)).remainingQty = (u.mem (x.makerPtr side)).remainingQty := by
      intro x hx
      have hxin := (hall x hx).2
      rcases hkeep _ hxin with ⟨h1, h2⟩ | e
      · refine ⟨?_, h1, h2⟩
        intro e
        rw [e] at hxin
        rw [hts_nil hxin] at hx
        cases hx
      · rw [e] at hxin
        rw [hts_nil hxin] at hx
        cases hx
    refine ⟨tr :: ts, by rw [hts, htr, List.append_assoc]; rfl, ?_, ?_, ?_, ?_⟩
    · refine ⟨hqty, htaker, hmaker, fun x hx => (hmakers x hx).1, ?_⟩
      have e : (u.mem order).remainingQty - tr.qty = (v.mem order).remainingQty := by omega
      rw [e]
      exact fillsOK_congr ts _ (fun x hx => (hmakers x hx).2.2) hfills
    · intro x hx
      rcases List.mem_cons.1 hx with e | hx
      · rw [e]; exact ⟨htk, hmin⟩
      · exact ⟨(hall x hx).1, (hmakers x hx).2.1⟩
    · rw [List.map_cons, List.sum_cons]; omega
    · rw [List.map_cons, List.sum_cons]; omega

/-- The trades an `addNew` call appends on a well-formed book all have a positive quantity. -/
theorem addNew_positive {s t : OrderBook} {o : Order} {fuel : Nat} (hs : WF s) (ho : o.inRange)
    (h : s.addNew fuel o = some t) :
    ∃ ts, t.trades = s.trades ++ ts ∧ ∀ tr ∈ ts, 0 < tr.qty := by
  obtain ⟨s0, s1, hsteps, hwf0, hnr0, _, ht0, _, _, _, ht1, _, _⟩ := addNew_effect hs ho h
  obtain ⟨ts, hts, hall, _⟩ := msteps_trades hsteps hwf0 hnr0
  exact ⟨ts, by rw [ht1, hts, ht0], fun tr htr => (hall tr htr).2.2.2.2.1⟩

theorem reachable_positive {s : OrderBook} (h : Reachable s) : ∀ tr ∈ s.trades, 0 < tr.qty := by
  induction h with
  | empty => intro tr htr; cases htr
  | step hr hstep ih =>
    cases hstep with
    | add o fuel _ ho h2 =>
      obtain ⟨ts, hts, hall⟩ := addNew_positive (reachable_wf hr) ho h2
      intro tr htr
      rw [hts] at htr
      rcases List.mem_append.1 htr with htr | htr
      · exact ih tr htr
      · exact hall tr htr
    | cancel id =>
      intro tr htr
      rw [cancelOrder_trades] at htr
      exact ih tr htr
    | setCb cb => exact ih

theorem findAt_occurs (pat : List Char) :
    ∀ (s : List Char) (i pos k : Nat), findAt pat s i pos = some k →
      ∃ pre post, s = pre ++ pat ++ post := by
  intro s
  induction s with
  | nil =>
    intro i pos k h
    simp only [findAt] at h
    split_ifs at h with hc
    exact ⟨[], [], by rw [hc.2]; rfl⟩
  | cons c cs ih =>
    intro i pos k h
    simp only [findAt] at h
    split_ifs at h with hc
    · obtain ⟨t, ht⟩ := List.isPrefixOf_iff_prefix.1 hc.2
      exact ⟨[], t, by rw [← ht]; rfl⟩
    · obtain ⟨pre, post, e⟩ := ih _ _ _ h
      exact ⟨c :: pre, post, by rw [e]; rfl⟩

theorem findFrom_of_absent {json : List Char} {key : String} (h : quotedKeyAbsent json key) :
    findFrom json (searchKey key.data) 0 = none := by
  cases hf : findFrom json (searchKey key.data) 0 with
  | none => rfl
  | some k =>
    obtain ⟨pre, post, e⟩ := findAt_occurs _ _ _ _ _ hf
    exact absurd e (h pre post)

theorem absent_of_findAt (pat : List Char) :
    ∀ (s : List Char) (i : Nat), findAt pat s i 0 = none →
      ∀ pre post : List Char, s ≠ pre ++ pat ++ post := by
  intro s
  induction s with
  | nil =>
    intro i h pre post e
    simp only [findAt] at h
    split_ifs at h with hc
    apply hc
    refine ⟨Nat.zero_le _, ?_⟩
    have e2 := e.symm
    simp only [List.append_eq_nil] at e2
    exact e2.1.2
  | cons c cs ih =>
    intro i h pre post e
    simp only [findAt] at h
    split_ifs at h with hc
    cases pre with
    | nil =>
      apply hc
      refine ⟨Nat.zero_le _, List.isPrefixOf_iff_prefix.2 ⟨post, ?_⟩⟩
      rw [e]; rfl
    | cons p pre2 =>
      have e2 : cs = pre2 ++ pat ++ post := by
        have e3 : c :: cs = p :: (pre2 ++ pat ++ post) := e
        exact (List.cons.inj e3).2
      exact ih _ h pre2 post e2

theorem absent_of_findFrom {json : List Char} {key : String}
    (h : findFrom json (searchKey key.data) 0 = none) : quotedKeyAbsent json key :=
  absent_of_findAt _ _ _ h

theorem extractJsonValue_of_absent {T : Type} (conv : List Char → Option T)
    {json : List Char} {key : String} (h : quotedKeyAbsent json key) (d : T) :
    OrderParser.extractJsonValue conv json key.data d = d := by
  unfold OrderParser.extractJsonValue
  rw [findFrom_of_absent h]

theorem extractJsonString_of_absent {json : List Char} {key : String}
    (h : quotedKeyAbsent json key) : OrderParser.extractJsonString json key.data = none := by
  unfold OrderParser.extractJsonString
  rw [findFrom_of_absent h]

theorem checked_valid {fields : Option Order} {o : Order}
    (h : OrderParser.checked fields = some o) : o.isValid = true ∧ fields = some o := by
  unfold OrderParser.checked at h
  cases fields with
  | none => cases h
  | some order =>
    simp only at h
    cases hv : order.isValid with
    | false => rw [hv] at h; simp at h
    | true =>
      rw [hv] at h
      simp only [Bool.not_true, Bool.false_eq_true, if_false, Option.some.injEq] at h
      subst h
      exact ⟨hv, rfl⟩

theorem isValid_iff (o : Order) :
    o.isValid = true ↔ 0 < o.orderId ∧ 0 < o.quantity ∧ o.symbol ≠ "" := by
  unfold Order.isValid
  simp [and_assoc]

theorem jsonFields_values {lib : StdConv} {now : Nat} {json : List Char} {o : Order}
    (h : OrderParser.jsonFields lib now json = some o) :
    o.orderId = OrderParser.extractJsonValue lib.u64 json "orderId".data 0 ∧
      o.quantity = OrderParser.extractJsonValue lib.u32 json "quantity".data 0 ∧
      (∃ symbol, OrderParser.extractJsonString json "symbol".data = some symbol) ∧
      (∃ type, OrderParser.extractJsonString json "type".data = some type) ∧
      ∃ side, OrderParser.extractJsonString json "side".data = some side := by
  unfold OrderParser.jsonFields at h
  cases h1 : OrderParser.extractJsonString json "symbol".data with
  | none => rw [h1] at h; cases h
  | some symbol =>
    cases h2 : OrderParser.extractJsonString json "type".data with
    | none => rw [h1, h2] at h; cases h
    | some typeStr =>
      cases h3 : OrderParser.extractJsonString json "side".data with
      | none =>
        rw [h1, h2, h3] at h
        simp only [Option.bind] at h
        split at h <;> cases h
      | some sideStr =>
        rw [h1, h2, h3] at h
        simp only [Option.bind] at h
        split at h
        · cases h
        · split at h
          · cases h
          · simp only [Option.some.injEq] at h
            subst h
            exact ⟨rfl, rfl, ⟨_, rfl⟩, ⟨_, rfl⟩, ⟨_, rfl⟩⟩

theorem halvings_spec :
    ∀ (fuel n : Nat), 0 < n → n ≤ fuel →
      2 ^ halvings fuel n ≤ n ∧ n < 2 ^ (halvings fuel n + 1) := by
  intro fuel
  induction fuel with
  | zero => intro n h0 h1; omega
  | succ fuel ih =>
    intro n h0 h1
    simp only [halvings]
    split_ifs with h2
    · obtain ⟨ha, hb⟩ := ih (n / 2) (by omega) (by omega)
      rw [pow_succ, pow_succ]
      rw [pow_succ] at hb
      constructor <;> omega
    · constructor <;> simp <;> omega

theorem binaryLog_spec (n : Nat) (h : 0 < n) :
    2 ^ binaryLog n ≤ n ∧ n < 2 ^ (binaryLog n + 1) :=
  halvings_spec n n h (Nat.le_refl n)

theorem call_mono_le {s t : OrderBook} {c : Call} {fuel fuel2 : Nat}
    (h : s.call fuel c = some t) (hle : fuel ≤ fuel2) : s.call fuel2 c = some t := by
  cases c with
  | add o => exact addNew_mono_le h fuel2 hle
  | cancel id => exact h
  | setCallback cb => exact h

theorem run_mono_le {fuel fuel2 : Nat} (hle : fuel ≤ fuel2) :
    ∀ (calls : List Call) (s t : OrderBook), s.run fuel calls = some t →
      s.run fuel2 calls = some t := by
  intro calls
  induction calls with
  | nil => intro s t h; exact h
  | cons c cs ih =>
    intro s t h
    simp only [OrderBook.run] at h ⊢
    cases hc : s.call fuel c with
    | none => rw [hc] at h; cases h
    | some u =>
      rw [hc] at h
      rw [call_mono_le hc hle]
      exact ih u t h

theorem run_snoc {fuel : Nat} :
    ∀ (calls : List Call) (s t u : OrderBook) (c : Call), s.run fuel calls = some t →
      t.call fuel c = some u → s.run fuel (calls ++ [c]) = some u := by
  intro calls
  induction calls with
  | nil =>
    intro s t u c h hc
    simp only [OrderBook.run, Option.some.injEq] at h
    subst h
    simp only [List.nil_append, OrderBook.run, hc]
  | cons c0 cs ih =>
    intro s t u c h hc
    simp only [List.cons_append, OrderBook.run] at h ⊢
    cases h0 : s.call fuel c0 with
    | none => rw [h0] at h; cases h
    | some v =>
      rw [h0] at h
      exact ih v t u c h hc

theorem init_inv (book : OrderBook) : (Engine.init book).Inv book :=
  ⟨rfl, ⟨0, rfl⟩, fun _ => rfl, fun h => by cases h⟩

theorem work_inv {book : OrderBook} {e e1 : Engine} {fuel : Nat} (hi : e.Inv book)
    (h : e.work fuel = some e1) : e1.Inv book := by
  obtain ⟨hsub, ⟨f0, hbook⟩, hc1, hc2⟩ := hi
  unfold Engine.work at h
  cases hw : e.worker with
  | notStarted => rw [hw] at h; cases h
  | atLoop =>
    rw [hw] at h hsub hc1
    simp only at h
    split_ifs at h <;>
      (simp only [Option.some.injEq] at h; subst h
       exact ⟨hsub, ⟨f0, hbook⟩, fun _ => hc1 rfl, fun hu => by cases hu⟩)
  | waiting =>
    rw [hw] at h hsub hc1
    simp only at h
    cases hq : e.matcher.orderQueue_ with
    | nil =>
      rw [hq] at h
      simp only at h
      split_ifs at h
      simp only [Option.some.injEq] at h; subst h
      exact ⟨by rw [hsub, hq]; rfl, ⟨f0, hbook⟩, fun _ => hc1 rfl, fun hu => by cases hu⟩
    | cons order rest =>
      rw [hq] at h hsub
      simp only [Option.some.injEq] at h; subst h
      refine ⟨?_, ⟨f0, hbook⟩, fun _ => hc1 rfl, fun hu => by cases hu⟩
      simp only [Worker.inHand, List.append_nil] at hsub
      simp only [Worker.inHand, hsub, List.append_assoc, List.singleton_append]
  | holding order =>
    rw [hw] at h hsub hc1
    simp only at h
    cases hadd : e.matcher.book_.addNew fuel order with
    | none => rw [hadd] at h; cases h
    | some b =>
      rw [hadd] at h
      simp only [Option.some.injEq] at h; subst h
      refine ⟨?_, ⟨max f0 fuel, ?_⟩, (fun hu => by cases hu), fun _ => ?_⟩
      · simp only [Worker.inHand, List.append_assoc, List.singleton_append, List.append_nil]
          at hsub ⊢
        exact hsub
      · rw [List.map_append]
        exact run_snoc _ _ _ _ (Call.add order)
          (run_mono_le (le_max_left _ _) _ _ _ hbook)
          (addNew_mono_le hadd _ (le_max_right _ _))
      · have := hc1 rfl
        simp only [Matcher.getProcessedOrders] at this ⊢
        simp only [List.length_append, List.length_singleton, Nat.add_sub_cancel]
        exact ⟨Nat.succ_pos _, this⟩
  | added order =>
    rw [hw] at h hsub hc2
    simp only [Option.some.injEq] at h; subst h
    refine ⟨hsub, ⟨f0, hbook⟩, fun _ => ?_, fun hu => by cases hu⟩
    obtain ⟨hpos, hcount⟩ := hc2 rfl
    simp only [Matcher.getProcessedOrders] at hcount ⊢
    rw [hcount]
    omega
  | counted order =>
    rw [hw] at h hsub hc1
    simp only [Option.some.injEq] at h; subst h
    exact ⟨hsub, ⟨f0, hbook⟩, fun _ => hc1 rfl, fun hu => by cases hu⟩
  | finished => rw [hw] at h; cases h

theorem step_inv {book : OrderBook} {e e1 : Engine} {ev : Event} (hi : e.Inv book)
    (h : e.step ev = some e1) : e1.Inv book := by
  cases ev with
  | submit order =>
    obtain ⟨hsub, hb, hc1, hc2⟩ := hi
    simp only [Engine.step, Option.some.injEq] at h; subst h
    refine ⟨?_, hb, hc1, hc2⟩
    simp only [Matcher.submitOrder, hsub, List.append_assoc]
  | start =>
    obtain ⟨hsub, hb, hc1, hc2⟩ := hi
    simp only [Engine.step] at h
    split_ifs at h with hw
    simp only [Option.some.injEq] at h; subst h
    have hin : e.worker.inHand = [] := by
      rcases hw with hw | hw <;> rw [hw] <;> rfl
    have hun : e.worker.uncounted = false := by
      rcases hw with hw | hw <;> rw [hw] <;> rfl
    refine ⟨?_, hb, fun _ => hc1 hun, fun hu => by cases hu⟩
    rw [hin] at hsub
    exact hsub
  | stop =>
    simp only [Engine.step, Option.some.injEq] at h; subst h
    exact hi
  | work fuel => exact work_inv hi h

theorem run_inv {book : OrderBook} :
    ∀ (events : List Event) (e e1 : Engine), e.Inv book → e.run events = some e1 →
      e1.Inv book := by
  intro events
  induction events with
  | nil =>
    intro e e1 hi h
    simp only [Engine.run, Option.some.injEq] at h
    subst h; exact hi
  | cons ev evs ih =>
    intro e e1 hi h
    simp only [Engine.run] at h
    cases hs : e.step ev with
    | none => rw [hs] at h; cases h
    | some e2 =>
      rw [hs] at h
      exact ih e2 e1 (step_inv hi hs) h

/-- Four actions of a waiting worker on a non-empty queue are one pass of `Matcher::run`. -/
theorem pass_is_iterate {e : Engine} {fuel : Nat} {m1 : Matcher}
    (hw : e.worker = Worker.waiting) (hq : e.matcher.orderQueue_ ≠ [])
    (hi : e.matcher.iterate fuel = some m1) :
    ∃ e1, e.run [Event.work fuel, Event.work fuel, Event.work fuel, Event.work fuel] = some e1 ∧
      e1.matcher = m1 ∧ e1.worker = Worker.atLoop ∧ e1.submitted = e.submitted ∧
      e1.applied = e.applied ++ e.matcher.orderQueue_.take 1 := by
  unfold Matcher.iterate at hi
  cases hqueue : e.matcher.orderQueue_ with
  | nil => exact absurd hqueue hq
  | cons order rest =>
    rw [hqueue] at hi
    simp only at hi
    cases hadd : e.matcher.book_.addNew fuel order with
    | none => rw [hadd] at hi; cases hi
    | some b =>
      rw [hadd] at hi
      simp only [Option.some.injEq] at hi
      subst hi
      refine ⟨{ matcher :=
                  { e.matcher with
                    book_ := b
                    orderQueue_ := rest
                    processedOrders_ := (e.matcher.processedOrders_ + 1) % 2 ^ 64
                    logger_ := e.matcher.logger_ ++ [order.orderId] },
                worker := Worker.atLoop, submitted := e.submitted,
                applied := e.applied ++ [order] }, ?_, rfl, rfl, rfl, rfl⟩
      simp only [Engine.run, Engine.step, Engine.work, hw, hqueue, hadd]

/-- What `addNew` does to the index: a valid order is entered under its id, an invalid one
changes nothing. -/
theorem addNew_orderMap {s t : OrderBook} {o : Order} {fuel : Nat}
    (h : s.addNew fuel o = some t) :
    t.orderMap_ = if o.isValid = true then Function.update s.orderMap_ o.orderId (some s.nextPtr)
      else s.orderMap_ := by
  have hmem : (s.alloc o).mem s.nextPtr = o := alloc_mem_self s o
  cases hv : o.isValid with
  | false =>
    rw [addNew_invalid hv h]
    simp
  | true =>
    unfold OrderBook.addNew at h
    obtain ⟨s1, hm, ht⟩ := addOrder_valid (by rw [hmem]; exact hv) h
    obtain ⟨hsteps, _⟩ := matchLoop_steps _ _ _ _ _ hm
    obtain ⟨_, hidx, _, _⟩ := msteps_frame hsteps
    rw [ht, restResidual_orderMap, hidx]
    simp only [OrderBook.indexed, hmem, alloc_orderMap, if_true]

theorem removeFromLevel_keeps (mem : Addr → Order) (price : Price) (id : Nat) :
    ∀ (levels : List Level) (l : Level), l ∈ levels → l.1 ≠ price →
      l ∈ removeFromLevel mem price id levels := by
  intro levels
  induction levels with
  | nil => intro l hl _; cases hl
  | cons x rest ih =>
    obtain ⟨k, dq⟩ := x
    intro l hl hne
    simp only [removeFromLevel]
    by_cases hk : k = price
    · rw [if_pos hk]
      have hrest : l ∈ rest := by
        rcases List.mem_cons.1 hl with e | hl
        · exact absurd (by rw [e]; exact hk) hne
        · exact hl
      split_ifs
      · exact hrest
      · exact List.mem_cons_of_mem _ hrest
    · rw [if_neg hk]
      rcases List.mem_cons.1 hl with e | hl
      · rw [e]; exact List.mem_cons_self _ _
      · exact List.mem_cons_of_mem _ (ih l hl hne)

/-- A `cancelOrder` that goes through the order `p2` leaves every level that is on the other side
or at another price than `p2` as it is. -/
theorem cancelOrder_keeps_level {t : OrderBook} (ht : WF t) {id : Nat} {p2 : Addr}
    (hidx : t.orderMap_ id = some p2) {l : Level} (hl : l ∈ t.bids_ ∨ l ∈ t.asks_)
    (hdiff : (l ∈ t.bids_ ∧ (t.mem p2).side = OrderSide.SELL) ∨
      (l ∈ t.asks_ ∧ (t.mem p2).side = OrderSide.BUY) ∨ l.1 ≠ (t.mem p2).price) :
    l ∈ (t.cancelOrder id).bids_ ∨ l ∈ (t.cancelOrder id).asks_ := by
  cases hside : (t.mem p2).side with
  | BUY =>
    rw [cancelOrder_buy hidx hside]
    rcases hl with hl | hl
    · left
      rcases hdiff with ⟨_, h⟩ | ⟨h, _⟩ | h
      · rw [hside] at h; cases h
      · exact absurd (ht.nocross l hl l h) (lt_irrefl _)
      · exact removeFromLevel_keeps _ _ _ _ l hl h
    · right; exact hl
  | SELL =>
    rw [cancelOrder_sell hidx hside]
    rcases hl with hl | hl
    · left; exact hl
    · right
      rcases hdiff with ⟨h, _⟩ | ⟨_, h⟩ | h
      · exact absurd (ht.nocross l h l hl) (lt_irrefl _)
      · rw [hside] at h; cases h
      · exact removeFromLevel_keeps _ _ _ _ l hl h

theorem call_avoids_index {s t : OrderBook} {c : Call} {fuel : Nat} {id : Nat}
    (hc : c.avoids id) (hnone : s.orderMap_ id = none) (h : s.call fuel c = some t) :
    t.orderMap_ id = none := by
  cases c with
  | add o =>
    have := addNew_orderMap h
    rw [this]
    split_ifs
    · rw [Function.update_noteq (fun e => hc e.symm)]; exact hnone
    · exact hnone
  | cancel id2 =>
    simp only [OrderBook.call, Option.some.injEq] at h
    subst h
    cases hidx : s.orderMap_ id2 with
    | none => rw [cancelOrder_none hidx]; exact hnone
    | some order =>
      rw [cancelOrder_orderMap hidx]
      by_cases e : id = id2
      · rw [e]; simp
      · rw [Function.update_noteq e]; exact hnone
  | setCallback cb =>
    simp only [OrderBook.call, Option.some.injEq] at h
    subst h
    exact hnone

theorem run_avoids_index {fuel : Nat} {id : Nat} :
    ∀ (calls : List Call) (s t : OrderBook), (∀ c ∈ calls, c.avoids id) →
      s.orderMap_ id = none → s.run fuel calls = some t → t.orderMap_ id = none := by
  intro calls
  induction calls with
  | nil =>
    intro s t _ hnone h
    simp only [OrderBook.run, Option.some.injEq] at h
    subst h; exact hnone
  | cons c cs ih =>
    intro s t hall hnone h
    simp only [OrderBook.run] at h
    cases hc : s.call fuel c with
    | none => rw [hc] at h; cases h
    | some u =>
      rw [hc] at h
      exact ih u t (fun x hx => hall x (List.mem_cons_of_mem _ hx))
        (call_avoids_index (hall c (List.mem_cons_self _ _)) hnone hc) h

@[simp] theorem eraseTime_remainingQty (o : Order) :
    o.eraseTime.remainingQty = o.remainingQty := rfl

@[simp] theorem eraseTime_side (o : Order) : o.eraseTime.side = o.side := rfl

@[simp] theorem eraseTime_price (o : Order) : o.eraseTime.price = o.price := rfl

@[simp] theorem eraseTime_orderId (o : Order) : o.eraseTime.orderId = o.orderId := rfl

@[simp] theorem eraseTime_isValid (o : Order) : o.eraseTime.isValid = o.isValid := rfl

theorem eraseTime_withRemaining (o : Order) (q : Nat) :
    (o.withRemaining q).eraseTime = o.eraseTime.withRemaining q := rfl

@[simp] theorem eraseTime_mem (s : OrderBook) (a : Addr) :
    s.eraseTime.mem a = (s.mem a).eraseTime := rfl

@[simp] theorem eraseTime_opposite (s : OrderBook) (side : OrderSide) :
    s.eraseTime.opposite side = s.opposite side := by cases side <;> rfl

theorem eraseTime_update (m : Addr → Order) (p : Addr) (v : Order) :
    (fun a => (Function.update m p v a).eraseTime) =
      Function.update (fun a => (m a).eraseTime) p v.eraseTime := by
  funext a
  by_cases h : a = p
  · subst h; simp
  · simp [Function.update_noteq h]

theorem eraseTime_step {f g : Addr → Order} (hfg : (fun a => (f a).eraseTime) = g)
    (p : Addr) (qty : Nat) :
    (fun a => (Function.update f p ((f p).withRemaining (sub32 (f p).remainingQty qty))
        a).eraseTime) =
      Function.update g p ((g p).withRemaining (sub32 (g p).remainingQty qty)) := by
  subst hfg
  exact eraseTime_update _ _ _

theorem executeTrade_erase (s : OrderBook) (buy sell : Addr) (price : Price) (qty : Nat) :
    (s.executeTrade buy sell price qty).eraseTime =
      s.eraseTime.executeTrade buy sell price qty := by
  have hm : (fun a => ((s.executeTrade buy sell price qty).mem a).eraseTime) =
      (s.eraseTime.executeTrade buy sell price qty).mem :=
    eraseTime_step (eraseTime_step (f := s.mem) rfl buy qty) sell qty
  have hb := congrFun hm buy
  have hsl := congrFun hm sell
  simp only [OrderBook.eraseTime, OrderBook.executeTrade, OrderBook.mk.injEq, true_and,
    List.map_append, List.map_cons, List.map_nil] at hm hb hsl ⊢
  refine ⟨hm, ?_⟩
  congr 2
  simp only [Trade.eraseTime, Trade.mk.injEq, true_and, and_true]
  exact ⟨hb, hsl⟩

theorem fill_erase (s : OrderBook) (side : OrderSide) (order : Addr) (price : Price)
    (m : Addr) :
    (s.fill side order price m).eraseTime = s.eraseTime.fill side order price m := by
  cases side <;> exact executeTrade_erase _ _ _ _ _

theorem setOpposite_erase (s : OrderBook) (side : OrderSide) (l : List Level) :
    (s.setOpposite side l).eraseTime = s.eraseTime.setOpposite side l := by
  cases side <;> rfl

theorem matchLevel_erase (side : OrderSide) (order : Addr) (price : Price) :
    ∀ (fuel : Nat) (s : OrderBook) (dq : List Addr),
      matchLevel side order price fuel s.eraseTime dq =
        (matchLevel side order price fuel s dq).map (fun r => (r.1.eraseTime, r.2)) := by
  intro fuel
  induction fuel with
  | zero => intro s dq; rfl
  | succ n ih =>
    intro s dq
    rw [matchLevel_succ, matchLevel_succ]
    simp only [eraseTime_mem, eraseTime_remainingQty]
    by_cases hpos : (s.mem order).remainingQty > 0
    · rw [if_pos hpos, if_pos hpos]
      cases dq with
      | nil => rfl
      | cons m rest =>
        simp only
        rw [← fill_erase]
        simp only [eraseTime_mem, eraseTime_remainingQty]
        by_cases hz : ((s.fill side order price m).mem m).remainingQty = 0
        · rw [if_pos hz, if_pos hz]; exact ih _ _
        · rw [if_neg hz, if_neg hz]; exact ih _ _
    · rw [if_neg hpos, if_neg hpos]; rfl

theorem matchLoop_erase (side : OrderSide) (order : Addr) :
    ∀ (fuel : Nat) (s : OrderBook),
      matchLoop side order fuel s.eraseTime =
        (matchLoop side order fuel s).map OrderBook.eraseTime := by
  intro fuel
  induction fuel with
  | zero => intro s; rfl
  | succ n ih =>
    intro s
    rw [matchLoop_succ, matchLoop_succ]
    simp only [eraseTime_mem, eraseTime_remainingQty, eraseTime_opposite, eraseTime_price]
    by_cases hpos : (s.mem order).remainingQty > 0
    · rw [if_pos hpos, if_pos hpos]
      cases hopp : s.opposite side with
      | nil => rfl
      | cons l rest =>
        obtain ⟨price, dq⟩ := l
        simp only
        by_cases hg : priceGate side (s.mem order).price price = true
        · rw [if_pos hg, if_pos hg]; rfl
        · rw [if_neg hg, if_neg hg, matchLevel_erase]
          cases matchLevel side order price n s dq with
          | none => rfl
          | some r =>
            obtain ⟨s1, dq1⟩ := r
            simp only [Option.map_some']
            by_cases he : dq1.isEmpty = true
            · rw [if_pos he, if_pos he, ← setOpposite_erase]; exact ih _
            · rw [if_neg he, if_neg he, ← setOpposite_erase]; exact ih _
    · rw [if_neg hpos, if_neg hpos]; rfl

theorem indexed_erase (s : OrderBook) (order : Addr) :
    (s.indexed order).eraseTime = s.eraseTime.indexed order := rfl

theorem restResidual_erase (s : OrderBook) (order : Addr) :
    (s.restResidual order).eraseTime = s.eraseTime.restResidual order := by
  unfold OrderBook.restResidual
  simp only [eraseTime_mem, eraseTime_remainingQty, eraseTime_side, eraseTime_price]
  by_cases hpos : (s.mem order).remainingQty > 0
  · rw [if_pos hpos, if_pos hpos]
    cases (s.mem order).side <;> rfl
  · rw [if_neg hpos, if_neg hpos]

theorem addOrder_erase (fuel : Nat) (s : OrderBook) (order : Addr) :
    s.eraseTime.addOrder fuel order = (s.addOrder fuel order).map OrderBook.eraseTime := by
  unfold OrderBook.addOrder OrderBook.matchOrder
  simp only [eraseTime_mem, eraseTime_isValid, eraseTime_side]
  by_cases hv : (!(s.mem order).isValid) = true
  · rw [if_pos hv, if_pos hv]; rfl
  · rw [if_neg hv, if_neg hv, ← indexed_erase, matchLoop_erase]
    simp only [eraseTime_mem, indexed_mem, eraseTime_side]
    cases hml : matchLoop (s.mem order).side order fuel (s.indexed order) with
    | none => rfl
    | some s1 => simp only [Option.map_some', restResidual_erase]

theorem alloc_erase (s : OrderBook) (o : Order) :
    (s.alloc o).eraseTime = s.eraseTime.alloc o.eraseTime := by
  simp only [OrderBook.alloc, OrderBook.eraseTime, OrderBook.mk.injEq, and_true, true_and]
  exact eraseTime_update _ _ _

theorem addNew_erase (fuel : Nat) (s : OrderBook) (o : Order) :
    s.eraseTime.addNew fuel o.eraseTime = (s.addNew fuel o).map OrderBook.eraseTime := by
  unfold OrderBook.addNew
  rw [← alloc_erase, addOrder_erase]
  rfl

theorem removeFromLevel_erase (mem : Addr → Order) (price : Price) (id : Nat) :
    ∀ levels : List Level,
      removeFromLevel (fun a => (mem a).eraseTime) price id levels =
        removeFromLevel mem price id levels := by
  intro levels
  induction levels with
  | nil => rfl
  | cons x rest ih =>
    obtain ⟨k, dq⟩ := x
    simp only [removeFromLevel, eraseTime_orderId, ih]

theorem cancelOrder_erase (s : OrderBook) (id : Nat) :
    s.eraseTime.cancelOrder id = (s.cancelOrder id).eraseTime := by
  cases hidx : s.orderMap_ id with
  | none =>
    rw [cancelOrder_none hidx]
    exact cancelOrder_none hidx
  | some order =>
    have hidx2 : s.eraseTime.orderMap_ id = some order := hidx
    have hmem : cancelledMem (fun a => (s.mem a).eraseTime) order =
        fun a => (cancelledMem s.mem order a).eraseTime := by
      unfold cancelledMem
      rw [eraseTime_update]
      rfl
    cases hside : (s.mem order).side with
    | BUY =>
      rw [cancelOrder_buy hidx hside, cancelOrder_buy hidx2 hside]
      simp only [OrderBook.eraseTime, OrderBook.mk.injEq, and_true, true_and, eraseTime_price]
      rw [hmem]
      exact ⟨rfl, removeFromLevel_erase _ _ _ _⟩
    | SELL =>
      rw [cancelOrder_sell hidx hside, cancelOrder_sell hidx2 hside]
      simp only [OrderBook.eraseTime, OrderBook.mk.injEq, and_true, true_and, eraseTime_price]
      rw [hmem]
      exact ⟨rfl, removeFromLevel_erase _ _ _ _⟩

theorem call_erase (fuel : Nat) (s : OrderBook) (c : Call) :
    s.eraseTime.call fuel c.eraseTime = (s.call fuel c).map OrderBook.eraseTime := by
  cases c with
  | add o => exact addNew_erase fuel s o
  | cancel id =>
    simp only [Call.eraseTime, OrderBook.call, Option.map_some', cancelOrder_erase]
  | setCallback cb => rfl

theorem run_erase (fuel : Nat) :
    ∀ (calls : List Call) (s : OrderBook),
      s.eraseTime.run fuel (calls.map Call.eraseTime) =
        (s.run fuel calls).map OrderBook.eraseTime := by
  intro calls
  induction calls with
  | nil => intro s; rfl
  | cons c cs ih =>
    intro s
    simp only [List.map_cons, OrderBook.run, call_erase]
    cases s.call fuel c with
    | none => rfl
    | some t => simp only [Option.map_some', ih]

set_option exponentiation.threshold 2000 in
set_option maxRecDepth 20000 in
theorem stodValue_examples :
    stodValue "100.5".data = some (mkRat 201 2) ∧
      stodValue "0.1".data = some (mkRat 3602879701896397 36028797018963968) ∧
      stodValue "1e2".data = some 100 ∧
      stodValue ".5".data = some (mkRat 1 2) ∧
      stodValue "0x10".data = some 16 ∧
      stodValue "0x1.8p1".data = some 3 ∧
      stodValue " -2.5e-1abc".data = some (mkRat (-1) 4) ∧
      stodValue "9007199254740993".data = some 9007199254740992 ∧
      stodValue "1e400".data = none ∧
      stodValue "1e-400".data = none ∧
      stodValue ".".data = none ∧
      stodValue "e5".data = none ∧
      stodValue "".data = none := by
  decide

theorem decimalUnsigned_examples :
    decimalUnsigned "42abc".data = some 42 ∧
      decimalUnsigned " +7".data = some 7 ∧
      decimalUnsigned "1e2".data = some 1 ∧
      decimalUnsigned "-1".data = some (2 ^ 64 - 1) ∧
      decimalUnsigned "18446744073709551615".data = some (2 ^ 64 - 1) ∧
      decimalUnsigned "18446744073709551616".data = none ∧
      decimalUnsigned ".5".data = none ∧
      glibcConv.u32 "4294967296".data = some 0 ∧
      glibcConv.u32 "-3".data = some 4294967293 := by
  decide

/-! ## Claims -/

/-- C1 (no-cross): in every book reachable from the empty book, when both sides are non-empty
the best bid is strictly below the best ask, and so is the price of every resting buy order
below the price of every resting sell order. -/
theorem C1_no_cross (s : OrderBook) (h : Reachable s) (hb : s.bids_ ≠ []) (ha : s.asks_ ≠ []) :
    s.getBestBid < s.getBestAsk ∧
      ∀ b ∈ resting s.bids_, ∀ a ∈ resting s.asks_, (s.mem b).price < (s.mem a).price := by
  have hs := reachable_wf h
  refine ⟨?_, ?_⟩
  · unfold OrderBook.getBestBid OrderBook.getBestAsk
    cases hbl : s.bids_ with
    | nil => exact absurd hbl hb
    | cons x xs =>
      cases hal : s.asks_ with
      | nil => exact absurd hal ha
      | cons y ys =>
        exact hs.nocross x (by rw [hbl]; exact List.mem_cons_self _ _) y
          (by rw [hal]; exact List.mem_cons_self _ _)
  · intro b hb a ha
    obtain ⟨lb, hlb, hbl⟩ := mem_resting.1 hb
    obtain ⟨la, hla, hal⟩ := mem_resting.1 ha
    rw [((hs.bids.2 lb hlb).2 b hbl).2.2.1, ((hs.asks.2 la hla).2 a hal).2.2.1]
    exact hs.nocross lb hlb la hla

/-- C1, on the book holding a buy at 99 and a sell at 101. -/
theorem C1_no_cross_witness :
    (bookAfter 8 [Call.add (limitOrder 1 OrderSide.BUY 99 10),
        Call.add (limitOrder 2 OrderSide.SELL 101 10)]).getBestBid <
      (bookAfter 8 [Call.add (limitOrder 1 OrderSide.BUY 99 10),
        Call.add (limitOrder 2 OrderSide.SELL 101 10)]).getBestAsk :=
  (C1_no_cross _ (bookAfter_reachable _ _ (by decide)) (by decide) (by decide)).1

/-- C2 (index consistency), evaluated where it fails: after BUY id 1 at 100 for 10 and SELL id 2
at 100 for 10 there is one trade, both orders have remaining quantity 0 and rest in no level, and
both ids are still in the index. -/
theorem C2_filled_orders_stay_indexed :
    (bookAfter 8 [Call.add (limitOrder 1 OrderSide.BUY 100 10),
        Call.add (limitOrder 2 OrderSide.SELL 100 10)]).orderMap_ 1 = some 0 ∧
      (bookAfter 8 [Call.add (limitOrder 1 OrderSide.BUY 100 10),
        Call.add (limitOrder 2 OrderSide.SELL 100 10)]).orderMap_ 2 = some 1 ∧
      ((bookAfter 8 [Call.add (limitOrder 1 OrderSide.BUY 100 10),
        Call.add (limitOrder 2 OrderSide.SELL 100 10)]).mem 0).remainingQty = 0 ∧
      ((bookAfter 8 [Call.add (limitOrder 1 OrderSide.BUY 100 10),
        Call.add (limitOrder 2 OrderSide.SELL 100 10)]).mem 1).remainingQty = 0 ∧
      (bookAfter 8 [Call.add (limitOrder 1 OrderSide.BUY 100 10),
        Call.add (limitOrder 2 OrderSide.SELL 100 10)]).bids_ = [] ∧
      (bookAfter 8 [Call.add (limitOrder 1 OrderSide.BUY 100 10),
        Call.add (limitOrder 2 OrderSide.SELL 100 10)]).asks_ = [] ∧
      (bookAfter 8 [Call.add (limitOrder 1 OrderSide.BUY 100 10),
        Call.add (limitOrder 2 OrderSide.SELL 100 10)]).trades.map Trade.summary
        = [(1, 2, 100, 10)] := by
  decide

/-- C3 (time priority): on a reachable book, let `a` and `b` rest in the same price level, `a`
admitted before `b` (addresses are handed out in the order of the `addOrder` calls).  Then,
whatever order is added, `addOrder` returns, and a trade of that call in which `b` takes part
comes after a trade of the same call that filled `a` down to remaining quantity 0. -/
theorem C3_time_priority (s : OrderBook) (h : Reachable s) (o : Order) (ho : o.inRange)
    (l : Level) (hl : l ∈ s.bids_ ∨ l ∈ s.asks_) (a b : Addr) (ha : a ∈ l.2) (hb : b ∈ l.2)
    (hab : a < b) :
    (∃ fuel t, s.addNew fuel o = some t) ∧
      ∀ fuel t, s.addNew fuel o = some t →
        ∀ pre tr post, t.trades = s.trades ++ (pre ++ tr :: post) →
          (tr.buyPtr = b ∨ tr.sellPtr = b) →
          ∃ u ∈ pre, (u.buyPtr = a ∧ u.buy.remainingQty = 0) ∨
            (u.sellPtr = a ∧ u.sell.remainingQty = 0) := by
  have hs := reachable_wf h
  refine ⟨addNew_total hs ho, ?_⟩
  intro fuel t hadd pre tr post htr hB
  cases hv : o.isValid with
  | false =>
    rw [addNew_invalid hv hadd, alloc_trades] at htr
    have := congrArg List.length htr
    simp at this
  | true =>
    obtain ⟨s1, hsteps, htr1, hwf0, hnr0, _⟩ := addNew_trades hs ho hv hadd htr
    have hbrest : b ∈ s.allResting := by
      rcases hl with hl | hl
      · exact List.mem_append_left _ (mem_resting.2 ⟨l, hl, hb⟩)
      · exact List.mem_append_right _ (mem_resting.2 ⟨l, hl, hb⟩)
    have hblt : b < s.nextPtr := wf_lt_next hs hbrest
    obtain ⟨ts, hts, hloc, _, _, _⟩ := msteps_trades hsteps hwf0 hnr0
    have hts2 : ts = pre ++ tr :: post := List.append_cancel_left (hts.symm.trans htr1)
    obtain ⟨htk, hmk, _⟩ := hloc tr (by rw [hts2]; simp)
    have hmaker : tr.makerPtr o.side = b := by
      cases hside : o.side <;> rw [hside] at htk <;>
        simp only [Trade.takerPtr, Trade.makerPtr] at htk ⊢
      · rcases hB with e | e
        · rw [e] at htk; exact absurd htk (Nat.ne_of_lt hblt)
        · exact e
      · rcases hB with e | e
        · exact e
        · rw [e] at htk; exact absurd htk (Nat.ne_of_lt hblt)
    rw [hmaker] at hmk
    simp only [indexed_opposite, alloc_opposite] at hmk
    have hlopp := mem_opposite_of_resting hs hl hb hmk
    obtain ⟨d1, d2, d3, hd⟩ := sorted_before (reachable_queueOrder h l hl) ha hb hab
    obtain ⟨x, y, hxy⟩ := resting_of_level hlopp
    have hrest : resting (((s.alloc o).indexed s.nextPtr).opposite o.side) =
        (x ++ d1) ++ a :: d2 ++ b :: (d3 ++ y) := by
      simp only [indexed_opposite, alloc_opposite]
      rw [hxy, hd]; simp
    obtain ⟨ts2, hts3, hfifo, _⟩ := msteps_priority hsteps hwf0 hnr0 hrest
    have hts4 : ts2 = pre ++ tr :: post := List.append_cancel_left (hts3.symm.trans htr1)
    exact filledBefore_sides (hfifo pre tr post hts4 hmaker)

/-- C3 on two buys of 5 at 100 (ids 1 and 2) met by a sell of 8 at 100: the trade with id 2 comes
after the trade that fills id 1; and with a sell of 5 the only trade is (1, 3, 100, 5) and id 2
still rests with remaining quantity 5. -/
theorem C3_time_priority_witness :
    (∃ u ∈ (bookAfter 8 [Call.add (limitOrder 1 OrderSide.BUY 100 5),
          Call.add (limitOrder 2 OrderSide.BUY 100 5),
          Call.add (limitOrder 3 OrderSide.SELL 100 8)]).trades.take 1,
        (u.buyPtr = 0 ∧ u.buy.remainingQty = 0) ∨ (u.sellPtr = 0 ∧ u.sell.remainingQty = 0)) ∧
      ((bookAfter 8 [Call.add (limitOrder 1 OrderSide.BUY 100 5),
          Call.add (limitOrder 2 OrderSide.BUY 100 5),
          Call.add (limitOrder 3 OrderSide.SELL 100 5)]).trades.map Trade.summary
        = [(1, 3, 100, 5)]) ∧
      ((bookAfter 8 [Call.add (limitOrder 1 OrderSide.BUY 100 5),
          Call.add (limitOrder 2 OrderSide.BUY 100 5),
          Call.add (limitOrder 3 OrderSide.SELL 100 5)]).bids_ = [(100, [1])]) ∧
      ((bookAfter 8 [Call.add (limitOrder 1 OrderSide.BUY 100 5),
          Call.add (limitOrder 2 OrderSide.BUY 100 5),
          Call.add (limitOrder 3 OrderSide.SELL 100 5)]).mem 1).remainingQty = 5 :=
  ⟨(C3_time_priority twoBidsAt100 (bookAfter_reachable _ _ (by decide))
      (limitOrder 3 OrderSide.SELL 100 8) (by decide)
      (100, [0, 1]) (Or.inl (by decide)) 0 1 (by decide) (by decide) (by decide)).2 8
      (bookAfter 8 [Call.add (limitOrder 1 OrderSide.BUY 100 5),
          Call.add (limitOrder 2 OrderSide.BUY 100 5),
          Call.add (limitOrder 3 OrderSide.SELL 100 8)]) rfl
      ((bookAfter 8 [Call.add (limitOrder 1 OrderSide.BUY 100 5),
          Call.add (limitOrder 2 OrderSide.BUY 100 5),
          Call.add (limitOrder 3 OrderSide.SELL 100 8)]).trades.take 1)
      ((bookAfter 8 [Call.add (limitOrder 1 OrderSide.BUY 100 5),
          Call.add (limitOrder 2 OrderSide.BUY 100 5),
          Call.add (limitOrder 3 OrderSide.SELL 100 8)]).trades.get ⟨1, by decide⟩) [] (by decide)
      (Or.inl (by decide)),
    by decide, by decide, by decide⟩

/-- C4 (price priority): on a reachable book `addOrder` returns, and the trades it makes are in
price order, non-decreasing in price for an incoming BUY and non-increasing for an incoming SELL; and a
trade at some price comes only after every opposite order that rested at a strictly better price
(a lower ask for a BUY, a higher bid for a SELL) has been filled down to 0 by a trade of the call.
-/
theorem C4_price_priority (s : OrderBook) (h : Reachable s) (o : Order) (ho : o.inRange) :
    (∃ fuel t, s.addNew fuel o = some t) ∧
      ∀ fuel t, s.addNew fuel o = some t → ∀ ts, t.trades = s.trades ++ ts →
        (ts.map Trade.price).Pairwise (priceOrdered o.side) ∧
          ∀ pre tr post, ts = pre ++ tr :: post → ∀ a ∈ resting (s.opposite o.side),
            comesBefore o.side.other (s.mem a).price tr.price = true →
            ∃ u ∈ pre, u.makerPtr o.side = a ∧ (u.maker o.side).remainingQty = 0 := by
  have hs := reachable_wf h
  refine ⟨addNew_total hs ho, ?_⟩
  intro fuel t hadd ts htr
  cases hv : o.isValid with
  | false =>
    rw [addNew_invalid hv hadd, alloc_trades] at htr
    have hnil := append_right_nil htr
    subst hnil
    refine ⟨List.Pairwise.nil, ?_⟩
    intro pre tr post hsplit
    cases pre <;> cases hsplit
  | true =>
    obtain ⟨s1, hsteps, htr1, hwf0, hnr0, _⟩ := addNew_trades hs ho hv hadd htr
    obtain ⟨ts1, hts, hloc, hsorted, _, _⟩ := msteps_trades hsteps hwf0 hnr0
    have hts2 : ts1 = ts := List.append_cancel_left (hts.symm.trans htr1)
    subst hts2
    refine ⟨hsorted, ?_⟩
    intro pre tr post hsplit a ha hbetter
    obtain ⟨_, hmk, _, hprice, _⟩ := hloc tr (by rw [hsplit]; simp)
    simp only [indexed_opposite, alloc_opposite, indexed_mem] at hmk hprice
    have hblt := resting_opp_lt hs hmk
    rw [alloc_mem_other s o (Nat.ne_of_lt hblt)] at hprice
    rw [hprice] at hbetter
    obtain ⟨l1, l2, l3, hl⟩ := levels_before (wf_opp_ok hs o.side) ha hmk hbetter
    have hrest : resting (((s.alloc o).indexed s.nextPtr).opposite o.side) =
        l1 ++ a :: l2 ++ (tr.makerPtr o.side) :: l3 := by
      simp only [indexed_opposite, alloc_opposite]; exact hl
    obtain ⟨ts2, hts3, hfifo, _⟩ := msteps_priority hsteps hwf0 hnr0 hrest
    have hts4 : ts2 = pre ++ tr :: post := by
      rw [← hsplit]; exact List.append_cancel_left (hts3.symm.trans htr1)
    exact hfifo pre tr post hts4 rfl

/-- C4 on buys at 99 (id 1) and 100 (id 2) met by a sell of 8 at 99: the trade at 99 comes after
the trade that fills the buy at 100; and with a sell of 5 at 99 the only trade is (2, 3, 100, 5)
and id 1 still rests at 99. -/
theorem C4_price_priority_witness :
    (∃ u ∈ (bookAfter 8 [Call.add (limitOrder 1 OrderSide.BUY 99 5),
          Call.add (limitOrder 2 OrderSide.BUY 100 5),
          Call.add (limitOrder 3 OrderSide.SELL 99 8)]).trades.take 1,
        u.makerPtr OrderSide.SELL = 1 ∧ (u.maker OrderSide.SELL).remainingQty = 0) ∧
      ((bookAfter 8 [Call.add (limitOrder 1 OrderSide.BUY 99 5),
          Call.add (limitOrder 2 OrderSide.BUY 100 5),
          Call.add (limitOrder 3 OrderSide.SELL 99 5)]).trades.map Trade.summary
        = [(2, 3, 100, 5)]) ∧
      ((bookAfter 8 [Call.add (limitOrder 1 OrderSide.BUY 99 5),
          Call.add (limitOrder 2 OrderSide.BUY 100 5),
          Call.add (limitOrder 3 OrderSide.SELL 99 5)]).bids_ = [(99, [0])]) :=
  ⟨((C4_price_priority
      (bookAfter 8 [Call.add (limitOrder 1 OrderSide.BUY 99 5),
          Call.add (limitOrder 2 OrderSide.BUY 100 5)])
      (bookAfter_reachable _ _ (by decide))
      (limitOrder 3 OrderSide.SELL 99 8) (by decide)).2 8
      (bookAfter 8 [Call.add (limitOrder 1 OrderSide.BUY 99 5),
          Call.add (limitOrder 2 OrderSide.BUY 100 5),
          Call.add (limitOrder 3 OrderSide.SELL 99 8)]) rfl
      (bookAfter 8 [Call.add (limitOrder 1 OrderSide.BUY 99 5),
          Call.add (limitOrder 2 OrderSide.BUY 100 5),
          Call.add (limitOrder 3 OrderSide.SELL 99 8)]).trades (by decide)).2
      ((bookAfter 8 [Call.add (limitOrder 1 OrderSide.BUY 99 5),
          Call.add (limitOrder 2 OrderSide.BUY 100 5),
          Call.add (limitOrder 3 OrderSide.SELL 99 8)]).trades.take 1)
      ((bookAfter 8 [Call.add (limitOrder 1 OrderSide.BUY 99 5),
          Call.add (limitOrder 2 OrderSide.BUY 100 5),
          Call.add (limitOrder 3 OrderSide.SELL 99 8)]).trades.get ⟨1, by decide⟩) []
      (by decide) 1 (by decide) (by decide),
    by decide, by decide⟩

/-- C5 (maker price): on a reachable book `addOrder` returns, and every trade it makes is between
the incoming order and an order that rested on the opposite side, and its price is the price field
of that resting order, whatever the price of the incoming order. -/
theorem C5_maker_price (s : OrderBook) (h : Reachable s) (o : Order) (ho : o.inRange) :
    (∃ fuel t, s.addNew fuel o = some t) ∧
      ∀ fuel t, s.addNew fuel o = some t → ∀ ts, t.trades = s.trades ++ ts →
        ∀ tr ∈ ts, tr.takerPtr o.side = s.nextPtr ∧
          tr.makerPtr o.side ∈ resting (s.opposite o.side) ∧
          tr.price = (s.mem (tr.makerPtr o.side)).price ∧
          tr.price = (tr.maker o.side).price := by
  have hs := reachable_wf h
  refine ⟨addNew_total hs ho, ?_⟩
  intro fuel t hadd ts htr
  cases hv : o.isValid with
  | false =>
    rw [addNew_invalid hv hadd, alloc_trades] at htr
    have hnil := append_right_nil htr
    subst hnil
    intro tr htr; cases htr
  | true =>
    obtain ⟨s1, hsteps, htr1, hwf0, hnr0, _⟩ := addNew_trades hs ho hv hadd htr
    obtain ⟨ts1, hts, hloc, _, _, _⟩ := msteps_trades hsteps hwf0 hnr0
    have hts2 : ts1 = ts := List.append_cancel_left (hts.symm.trans htr1)
    subst hts2
    intro tr htr
    obtain ⟨htk, hmk, hp1, hp2, _⟩ := hloc tr htr
    simp only [indexed_opposite, alloc_opposite, indexed_mem] at hmk hp2
    rw [alloc_mem_other s o (Nat.ne_of_lt (resting_opp_lt hs hmk))] at hp2
    exact ⟨htk, hmk, hp2, hp1⟩

/-- C5 on a buy of 5 at 100 met by a sell of 5 at 99: the one trade prints at 100, the price of
the resting buy. -/
theorem C5_maker_price_witness :
    (∀ tr ∈ (bookAfter 8 [Call.add (limitOrder 1 OrderSide.BUY 100 5),
        Call.add (limitOrder 2 OrderSide.SELL 99 5)]).trades,
      tr.price = ((bookAfter 8 [Call.add (limitOrder 1 OrderSide.BUY 100 5)]).mem
        (tr.makerPtr OrderSide.SELL)).price) ∧
      (bookAfter 8 [Call.add (limitOrder 1 OrderSide.BUY 100 5),
        Call.add (limitOrder 2 OrderSide.SELL 99 5)]).trades.map Trade.summary
        = [(1, 2, 100, 5)] :=
  ⟨fun tr htr => ((C5_maker_price (bookAfter 8 [Call.add (limitOrder 1 OrderSide.BUY 100 5)])
    (bookAfter_reachable _ _ (by decide)) (limitOrder 2 OrderSide.SELL 99 5) (by decide)).2 8
    (bookAfter 8 [Call.add (limitOrder 1 OrderSide.BUY 100 5),
        Call.add (limitOrder 2 OrderSide.SELL 99 5)]) rfl
    (bookAfter 8 [Call.add (limitOrder 1 OrderSide.BUY 100 5),
        Call.add (limitOrder 2 OrderSide.SELL 99 5)]).trades (by decide) tr htr).2.2.1,
    by decide⟩

/-- C6 (post-condition of add): on a reachable book `addOrder` of a valid order returns, and
afterwards the order has remaining quantity 0, or the opposite side is empty, or the best
opposite price does not cross the order's price (best ask above it for a BUY, best bid below it
for a SELL). -/
theorem C6_add_postcondition (s : OrderBook) (h : Reachable s) (o : Order) (ho : o.inRange)
    (hv : o.isValid = true) :
    (∃ fuel t, s.addNew fuel o = some t) ∧
      ∀ fuel t, s.addNew fuel o = some t →
        (t.mem s.nextPtr).remainingQty = 0 ∨ t.opposite o.side = [] ∨
          (o.side = OrderSide.BUY ∧ o.price < t.getBestAsk) ∨
          (o.side = OrderSide.SELL ∧ t.getBestBid < o.price) := by
  have hs := reachable_wf h
  refine ⟨addNew_total hs ho, ?_⟩
  intro fuel t hadd
  obtain ⟨s1, hsteps, hng, ht, _, _, _, _⟩ := addNew_run hs ho hv hadd
  obtain ⟨_, _, _, hfields⟩ := msteps_frame hsteps
  have hside : (s1.mem s.nextPtr).side = o.side := by
    rw [hfields s.nextPtr]; simp
  have hprice : (s1.mem s.nextPtr).price = o.price := by
    rw [hfields s.nextPtr]; simp
  subst ht
  have hopp : (s1.restResidual s.nextPtr).opposite o.side = s1.opposite o.side := by
    rw [← hside]; exact restResidual_opposite s1 s.nextPtr
  rw [restResidual_mem]
  by_cases hpos : 0 < (s1.mem s.nextPtr).remainingQty
  · right
    cases hl : s1.opposite o.side with
    | nil => left; rw [hopp, hl]
    | cons x rest =>
      right
      obtain ⟨price, dq⟩ := x
      have hgate : priceGate o.side (s1.mem s.nextPtr).price price = true := by
        by_contra hg
        exact hng ⟨hpos, price, dq, rest, hl, by simpa using hg⟩
      rw [hprice] at hgate
      cases hsd : o.side with
      | BUY =>
        left
        rw [hsd] at hgate hopp hl
        simp only [OrderBook.opposite] at hopp hl
        simp only [priceGate, decide_eq_true_eq] at hgate
        refine ⟨rfl, ?_⟩
        unfold OrderBook.getBestAsk
        rw [hopp, hl]; exact hgate
      | SELL =>
        right
        rw [hsd] at hgate hopp hl
        simp only [OrderBook.opposite] at hopp hl
        simp only [priceGate, decide_eq_true_eq] at hgate
        refine ⟨rfl, ?_⟩
        unfold OrderBook.getBestBid
        rw [hopp, hl]; exact hgate
  · left; exact Nat.eq_zero_of_not_pos hpos

/-- C6 on a buy at 99 followed by a sell at 101: the sell does not cross the best bid. -/
theorem C6_add_postcondition_witness :
    ((bookAfter 8 [Call.add (limitOrder 1 OrderSide.BUY 99 10),
        Call.add (limitOrder 2 OrderSide.SELL 101 10)]).mem
        (bookAfter 8 [Call.add (limitOrder 1 OrderSide.BUY 99 10)]).nextPtr).remainingQty = 0 ∨
      (bookAfter 8 [Call.add (limitOrder 1 OrderSide.BUY 99 10),
        Call.add (limitOrder 2 OrderSide.SELL 101 10)]).opposite
          (limitOrder 2 OrderSide.SELL 101 10).side = [] ∨
      ((limitOrder 2 OrderSide.SELL 101 10).side = OrderSide.BUY ∧
        (limitOrder 2 OrderSide.SELL 101 10).price <
          (bookAfter 8 [Call.add (limitOrder 1 OrderSide.BUY 99 10),
            Call.add (limitOrder 2 OrderSide.SELL 101 10)]).getBestAsk) ∨
      ((limitOrder 2 OrderSide.SELL 101 10).side = OrderSide.SELL ∧
        (bookAfter 8 [Call.add (limitOrder 1 OrderSide.BUY 99 10),
            Call.add (limitOrder 2 OrderSide.SELL 101 10)]).getBestBid <
          (limitOrder 2 OrderSide.SELL 101 10).price) :=
  (C6_add_postcondition (bookAfter 8 [Call.add (limitOrder 1 OrderSide.BUY 99 10)])
    (bookAfter_reachable _ _ (by decide)) (limitOrder 2 OrderSide.SELL 101 10) (by decide)
    (by decide)).2 8 _ rfl

/-- C7 (MARKET orders skip the price gate), evaluated where it fails: with a sell of 10 at 100
resting, a valid MARKET BUY of 10 with price 0 makes no trade; the sell stays and the MARKET order
rests as a bid at price 0 with its whole quantity. -/
theorem C7_market_buy_is_gated :
    (marketOrder 2 OrderSide.BUY 10).isValid = true ∧
      (bookAfter 8 [Call.add (limitOrder 1 OrderSide.SELL 100 10),
        Call.add (marketOrder 2 OrderSide.BUY 10)]).trades = [] ∧
      (bookAfter 8 [Call.add (limitOrder 1 OrderSide.SELL 100 10),
        Call.add (marketOrder 2 OrderSide.BUY 10)]).asks_ = [(100, [0])] ∧
      (bookAfter 8 [Call.add (limitOrder 1 OrderSide.SELL 100 10),
        Call.add (marketOrder 2 OrderSide.BUY 10)]).bids_ = [(0, [1])] ∧
      ((bookAfter 8 [Call.add (limitOrder 1 OrderSide.SELL 100 10),
        Call.add (marketOrder 2 OrderSide.BUY 10)]).mem 1).remainingQty = 10 ∧
      ((bookAfter 8 [Call.add (limitOrder 1 OrderSide.SELL 100 10),
        Call.add (marketOrder 2 OrderSide.BUY 10)]).mem 1).type = OrderType.MARKET := by
  decide

/-- C8 (only LIMIT residuals rest), evaluated where it fails: a MARKET BUY of 10 added to the empty
book rests on the bid side at price 0 and its id is in the index. -/
theorem C8_market_residual_rests :
    (bookAfter 8 [Call.add (marketOrder 1 OrderSide.BUY 10)]).bids_ = [(0, [0])] ∧
      (bookAfter 8 [Call.add (marketOrder 1 OrderSide.BUY 10)]).orderMap_ 1 = some 0 ∧
      ((bookAfter 8 [Call.add (marketOrder 1 OrderSide.BUY 10)]).mem 0).type
        = OrderType.MARKET ∧
      ((bookAfter 8 [Call.add (marketOrder 1 OrderSide.BUY 10)]).mem 0).remainingQty = 10 ∧
      OrderBook.empty.bids_ = [] ∧ OrderBook.empty.orderMap_ 1 = none := by
  decide

/-- C9 as stated fails: after BUY id 1 at 100 for 10 and `cancelOrder(1)` no trade has been made,
yet `getFilledQty()` of the order is 10. -/
theorem C9_conservation_counterexample :
    ¬ (fillsOf 0 (bookAfter 8 [Call.add (limitOrder 1 OrderSide.BUY 100 10),
          Call.cancel 1]).trades =
        ((bookAfter 8 [Call.add (limitOrder 1 OrderSide.BUY 100 10),
          Call.cancel 1]).mem 0).getFilledQty) := by
  decide

/-- C9, amended (conservation until cancel): for an order handed to `addOrder` on a reachable
book with remaining quantity equal to its quantity, after that call and any later calls none of
which is a `cancelOrder` of that order, the quantities of the trades in which the order is the buy
or the sell party add up to `quantity - remainingQty`, which is `getFilledQty()`. -/
theorem C9_conservation_until_cancel (s : OrderBook) (h : Reachable s) (o : Order)
    (ho : o.inRange) (hq : o.remainingQty = o.quantity) (fuel : Nat) (s1 : OrderBook)
    (hadd : s.addNew fuel o = some s1) (t : OrderBook)
    (hsteps : Relation.ReflTransGen (StepKeeping s.nextPtr) s1 t) :
    fillsOf s.nextPtr t.trades = (t.mem s.nextPtr).quantity - (t.mem s.nextPtr).remainingQty ∧
      (t.mem s.nextPtr).getFilledQty = fillsOf s.nextPtr t.trades := by
  have key : Reachable t ∧ s.nextPtr < t.nextPtr ∧
      fillsOf s.nextPtr t.trades + (t.mem s.nextPtr).remainingQty = o.quantity ∧
      (t.mem s.nextPtr).quantity = o.quantity := by
    induction hsteps with
    | refl =>
      obtain ⟨h1, h2, h3⟩ := addNew_new_object h ho hadd
      exact ⟨Reachable.step h (Step.add s o fuel _ ho hadd), h3, by rw [h1, hq],
        by rw [h2]; rfl⟩
    | tail _ hstep ih =>
      obtain ⟨hr, hlt, hsum, hqty⟩ := ih
      have hwf := reachable_wf hr
      obtain ⟨_, hf, hlt2⟩ := step_mono (stepKeeping_step hstep) hwf s.nextPtr hlt
      refine ⟨Reachable.step hr (stepKeeping_step hstep), hlt2, ?_, ?_⟩
      · rw [stepKeeping_conserve hstep hwf hlt]; exact hsum
      · rw [hf]; exact hqty
  obtain ⟨_, _, hsum, hqty⟩ := key
  have hle : (t.mem s.nextPtr).remainingQty ≤ (t.mem s.nextPtr).quantity := by omega
  have hfill : fillsOf s.nextPtr t.trades =
      (t.mem s.nextPtr).quantity - (t.mem s.nextPtr).remainingQty := by omega
  refine ⟨hfill, ?_⟩
  unfold Order.getFilledQty
  rw [sub32_of_le (by rw [hqty]; exact ho.2.2.1) hle, hfill]

/-- C9 amended, on BUY id 1 at 100 for 10 followed by SELL id 2 at 100 for 4: the buy has traded
4 and has 6 left. -/
theorem C9_conservation_until_cancel_witness :
    fillsOf OrderBook.empty.nextPtr
        (bookAfter 8 [Call.add (limitOrder 1 OrderSide.BUY 100 10),
          Call.add (limitOrder 2 OrderSide.SELL 100 4)]).trades =
      ((bookAfter 8 [Call.add (limitOrder 1 OrderSide.BUY 100 10),
          Call.add (limitOrder 2 OrderSide.SELL 100 4)]).mem OrderBook.empty.nextPtr).quantity -
        ((bookAfter 8 [Call.add (limitOrder 1 OrderSide.BUY 100 10),
          Call.add (limitOrder 2 OrderSide.SELL 100 4)]).mem
            OrderBook.empty.nextPtr).remainingQty :=
  (C9_conservation_until_cancel OrderBook.empty Reachable.empty
    (limitOrder 1 OrderSide.BUY 100 10) (by decide) rfl 8
    (bookAfter 8 [Call.add (limitOrder 1 OrderSide.BUY 100 10)]) rfl
    (bookAfter 8 [Call.add (limitOrder 1 OrderSide.BUY 100 10),
      Call.add (limitOrder 2 OrderSide.SELL 100 4)])
    (Relation.ReflTransGen.single
      (StepKeeping.add _ (limitOrder 2 OrderSide.SELL 100 4) 8 _ (by decide) rfl))).1

/-- C10 as stated fails: a valid order with quantity 10 and remaining quantity 20 (its fields
within their widths, as the JSON and CSV formats can carry it) is admitted and rests with
remaining quantity above its quantity. -/
theorem C10_quantity_bound_counterexample :
    ((limitOrder 1 OrderSide.BUY 100 10).withRemaining 20).isValid = true ∧
      ((limitOrder 1 OrderSide.BUY 100 10).withRemaining 20).inRange ∧
      (bookAfter 8 [Call.add ((limitOrder 1 OrderSide.BUY 100 10).withRemaining 20)]).bids_
        = [(100, [0])] ∧
      ¬ ((bookAfter 8 [Call.add ((limitOrder 1 OrderSide.BUY 100 10).withRemaining
            20)]).mem 0).remainingQty ≤
          ((bookAfter 8 [Call.add ((limitOrder 1 OrderSide.BUY 100 10).withRemaining
            20)]).mem 0).quantity := by
  decide

/-- C10, amended (quantity bound): an order handed to `addOrder` on a reachable book with
remaining quantity at most its quantity keeps `remainingQty <= quantity`, and its quantity, after
that call and after every later `addOrder`, `cancelOrder` or `setTradeCallback` call. -/
theorem C10_quantity_bound (s : OrderBook) (h : Reachable s) (o : Order) (ho : o.inRange)
    (hq : o.remainingQty ≤ o.quantity) (fuel : Nat) (s1 : OrderBook)
    (hadd : s.addNew fuel o = some s1) (t : OrderBook)
    (hsteps : Relation.ReflTransGen Step s1 t) :
    (t.mem s.nextPtr).remainingQty ≤ (t.mem s.nextPtr).quantity ∧
      (t.mem s.nextPtr).quantity = o.quantity := by
  have key : Reachable t ∧ s.nextPtr < t.nextPtr ∧
      (t.mem s.nextPtr).remainingQty ≤ o.remainingQty ∧
      (t.mem s.nextPtr).quantity = o.quantity := by
    induction hsteps with
    | refl =>
      obtain ⟨h1, h2, h3⟩ := addNew_new_object h ho hadd
      exact ⟨Reachable.step h (Step.add s o fuel _ ho hadd), h3, by omega, by rw [h2]; rfl⟩
    | tail _ hstep ih =>
      obtain ⟨hr, hlt, hle, hqty⟩ := ih
      obtain ⟨hm, hf, hlt2⟩ := step_mono hstep (reachable_wf hr) s.nextPtr hlt
      exact ⟨Reachable.step hr hstep, hlt2, hm.trans hle, by rw [hf]; exact hqty⟩
  obtain ⟨_, _, hle, hqty⟩ := key
  exact ⟨by omega, hqty⟩

/-- C10 amended, on BUY id 1 at 100 for 10 followed by SELL id 2 at 100 for 4: the buy is left
with 6 of 10. -/
theorem C10_quantity_bound_witness :
    ((bookAfter 8 [Call.add (limitOrder 1 OrderSide.BUY 100 10),
          Call.add (limitOrder 2 OrderSide.SELL 100 4)]).mem
            OrderBook.empty.nextPtr).remainingQty ≤
      ((bookAfter 8 [Call.add (limitOrder 1 OrderSide.BUY 100 10),
          Call.add (limitOrder 2 OrderSide.SELL 100 4)]).mem OrderBook.empty.nextPtr).quantity :=
  (C10_quantity_bound OrderBook.empty Reachable.empty
    (limitOrder 1 OrderSide.BUY 100 10) (by decide) (by decide) 8
    (bookAfter 8 [Call.add (limitOrder 1 OrderSide.BUY 100 10)]) rfl
    (bookAfter 8 [Call.add (limitOrder 1 OrderSide.BUY 100 10),
      Call.add (limitOrder 2 OrderSide.SELL 100 4)])
    (Relation.ReflTransGen.single
      (Step.add _ (limitOrder 2 OrderSide.SELL 100 4) 8 _ (by decide) rfl))).1

/-- C12 (no empty level): in every book reachable from the empty book, every price level of the
bid map and of the ask map holds at least one order. -/
theorem C12_no_empty_level (s : OrderBook) (h : Reachable s) :
    ∀ l, (l ∈ s.bids_ ∨ l ∈ s.asks_) → l.2 ≠ [] := by
  intro l hl
  have hs := reachable_wf h
  rcases hl with hl | hl
  · exact (hs.bids.2 l hl).1
  · exact (hs.asks.2 l hl).1

/-- C12 on two buys of 5 at 100 met by a sell of 5 at 100: the level at 100 still holds the second
buy; met by a sell of 10, the level is gone. -/
theorem C12_no_empty_level_witness :
    (∀ l, (l ∈ (bookAfter 8 [Call.add (limitOrder 1 OrderSide.BUY 100 5),
          Call.add (limitOrder 2 OrderSide.BUY 100 5),
          Call.add (limitOrder 3 OrderSide.SELL 100 5)]).bids_ ∨
        l ∈ (bookAfter 8 [Call.add (limitOrder 1 OrderSide.BUY 100 5),
          Call.add (limitOrder 2 OrderSide.BUY 100 5),
          Call.add (limitOrder 3 OrderSide.SELL 100 5)]).asks_) → l.2 ≠ []) ∧
      (bookAfter 8 [Call.add (limitOrder 1 OrderSide.BUY 100 5),
          Call.add (limitOrder 2 OrderSide.BUY 100 5),
          Call.add (limitOrder 3 OrderSide.SELL 100 5)]).bids_ = [(100, [1])] ∧
      (bookAfter 8 [Call.add (limitOrder 1 OrderSide.BUY 100 5),
          Call.add (limitOrder 2 OrderSide.BUY 100 5),
          Call.add (limitOrder 3 OrderSide.SELL 100 10)]).bids_ = [] :=
  ⟨C12_no_empty_level _ (bookAfter_reachable _ _ (by decide)), by decide, by decide⟩

/-- C13 (invalid orders are dropped): on every book, for every step budget, `addOrder` of an order
with `orderId = 0`, `quantity = 0` or an empty symbol returns the book as it was; so handing such
an order in through `addNew` changes neither side, nor the index, nor the trade count, and makes
no trade. -/
theorem C13_invalid_dropped (s : OrderBook) (o : Order) (fuel : Nat)
    (h : o.orderId = 0 ∨ o.quantity = 0 ∨ o.symbol = "") :
    o.isValid = false ∧
      (∀ order, s.mem order = o → s.addOrder fuel order = some s) ∧
      ∃ t, s.addNew fuel o = some t ∧ t.bids_ = s.bids_ ∧ t.asks_ = s.asks_ ∧
        t.orderMap_ = s.orderMap_ ∧ t.getTotalTrades = s.getTotalTrades ∧
        t.trades = s.trades := by
  have hv : o.isValid = false := by
    unfold Order.isValid
    rcases h with h | h | h
    · simp [h]
    · simp [h]
    · simp [h]
  refine ⟨hv, ?_, ?_⟩
  · intro order ho
    unfold OrderBook.addOrder
    simp [ho, hv]
  · refine ⟨s.alloc o, ?_, rfl, rfl, rfl, rfl, rfl⟩
    unfold OrderBook.addNew OrderBook.addOrder
    simp [hv]

/-- C13 on the default-constructed order, added to a book holding a buy at 100. -/
theorem C13_invalid_dropped_witness :
    (Order.default 0).isValid = false ∧
      ∃ t, (bookAfter 8 [Call.add (limitOrder 1 OrderSide.BUY 100 5)]).addNew 0
          (Order.default 0) = some t ∧
        t.bids_ = (bookAfter 8 [Call.add (limitOrder 1 OrderSide.BUY 100 5)]).bids_ ∧
        t.asks_ = (bookAfter 8 [Call.add (limitOrder 1 OrderSide.BUY 100 5)]).asks_ ∧
        t.orderMap_ = (bookAfter 8 [Call.add (limitOrder 1 OrderSide.BUY 100 5)]).orderMap_ ∧
        t.getTotalTrades =
          (bookAfter 8 [Call.add (limitOrder 1 OrderSide.BUY 100 5)]).getTotalTrades ∧
        t.trades = (bookAfter 8 [Call.add (limitOrder 1 OrderSide.BUY 100 5)]).trades :=
  ⟨(C13_invalid_dropped (bookAfter 8 [Call.add (limitOrder 1 OrderSide.BUY 100 5)])
      (Order.default 0) 0 (Or.inl rfl)).1,
    (C13_invalid_dropped (bookAfter 8 [Call.add (limitOrder 1 OrderSide.BUY 100 5)])
      (Order.default 0) 0 (Or.inl rfl)).2.2⟩

/-- C14 (idempotent cancel): on every book, reachable or not, and for every id, `cancelOrder(id)`
applied twice gives the same book as applied once: sides, index, trade count and all else. -/
theorem C14_cancel_idempotent (s : OrderBook) (orderId : Nat) :
    (s.cancelOrder orderId).cancelOrder orderId = s.cancelOrder orderId := by
  have hnone : (s.cancelOrder orderId).orderMap_ orderId = none := by
    cases hidx : s.orderMap_ orderId with
    | none => rw [cancelOrder_none hidx]; exact hidx
    | some order =>
      cases hside : (s.mem order).side with
      | BUY => rw [cancelOrder_buy hidx hside]; simp
      | SELL => rw [cancelOrder_sell hidx hside]; simp
  exact cancelOrder_none hnone

/-- C15 (cancel of an unknown id): on every book, `cancelOrder` of an id that is not in the index
returns the book as it was: both sides, the index, the trade count and the trade history. -/
theorem C15_cancel_unknown (s : OrderBook) (orderId : Nat) (h : s.orderMap_ orderId = none) :
    s.cancelOrder orderId = s ∧
      (s.cancelOrder orderId).bids_ = s.bids_ ∧ (s.cancelOrder orderId).asks_ = s.asks_ ∧
      (s.cancelOrder orderId).orderMap_ = s.orderMap_ ∧
      (s.cancelOrder orderId).getTotalTrades = s.getTotalTrades ∧
      (s.cancelOrder orderId).trades = s.trades := by
  have e : s.cancelOrder orderId = s := by
    unfold OrderBook.cancelOrder
    rw [h]
  rw [e]
  exact ⟨rfl, rfl, rfl, rfl, rfl, rfl⟩

/-- C15 on a book holding a buy with id 1: cancelling id 7 leaves the buy resting. -/
theorem C15_cancel_unknown_witness :
    (bookAfter 8 [Call.add (limitOrder 1 OrderSide.BUY 100 5)]).cancelOrder 7 =
      bookAfter 8 [Call.add (limitOrder 1 OrderSide.BUY 100 5)] :=
  (C15_cancel_unknown (bookAfter 8 [Call.add (limitOrder 1 OrderSide.BUY 100 5)]) 7
    (by decide)).1

/-- C19 (best-price queries): in every reachable book, `getBestBid()` is 0 when no order rests on
the bid side and otherwise is the price of a resting buy order and at least the price of every
resting buy order; `getBestAsk()` is 0 when no order rests on the ask side and otherwise is the
price of a resting sell order and at most the price of every resting sell order. -/
theorem C19_best_prices (s : OrderBook) (h : Reachable s) :
    (resting s.bids_ = [] → s.getBestBid = 0) ∧
      (resting s.bids_ ≠ [] →
        (∃ a ∈ resting s.bids_, (s.mem a).price = s.getBestBid) ∧
          ∀ a ∈ resting s.bids_, (s.mem a).price ≤ s.getBestBid) ∧
      (resting s.asks_ = [] → s.getBestAsk = 0) ∧
      (resting s.asks_ ≠ [] →
        (∃ a ∈ resting s.asks_, (s.mem a).price = s.getBestAsk) ∧
          ∀ a ∈ resting s.asks_, s.getBestAsk ≤ (s.mem a).price) := by
  have hs := reachable_wf h
  refine ⟨?_, ?_, ?_, ?_⟩
  · intro hnil
    unfold OrderBook.getBestBid
    cases hb : s.bids_ with
    | nil => rfl
    | cons x xs =>
      exfalso
      obtain ⟨a, ha⟩ := List.exists_mem_of_ne_nil _ (hs.bids.2 x (by rw [hb]; simp)).1
      have : a ∈ resting s.bids_ := mem_resting.2 ⟨x, by rw [hb]; simp, ha⟩
      rw [hnil] at this; cases this
  · intro hne
    unfold OrderBook.getBestBid
    cases hb : s.bids_ with
    | nil => rw [hb] at hne; exact absurd rfl hne
    | cons x xs =>
      obtain ⟨k, dq⟩ := x
      have hok : LevelsOK s.mem s.nextPtr OrderSide.BUY ((k, dq) :: xs) := hb ▸ hs.bids
      obtain ⟨hk, _⟩ := levelsOK_cons_inv hok
      refine ⟨?_, ?_⟩
      · obtain ⟨a, ha⟩ := List.exists_mem_of_ne_nil _ (hok.2 (k, dq) (by simp)).1
        exact ⟨a, mem_resting.2 ⟨(k, dq), by simp, ha⟩, ((hok.2 (k, dq) (by simp)).2 a ha).2.2.1⟩
      · intro a ha
        obtain ⟨l, hl, hal⟩ := mem_resting.1 ha
        rw [((hok.2 l hl).2 a hal).2.2.1]
        rcases List.mem_cons.1 hl with e | hl
        · rw [e]
        · have := hk l hl
          simp only [comesBefore, decide_eq_true_eq] at this
          exact le_of_lt this
  · intro hnil
    unfold OrderBook.getBestAsk
    cases hb : s.asks_ with
    | nil => rfl
    | cons x xs =>
      exfalso
      obtain ⟨a, ha⟩ := List.exists_mem_of_ne_nil _ (hs.asks.2 x (by rw [hb]; simp)).1
      have : a ∈ resting s.asks_ := mem_resting.2 ⟨x, by rw [hb]; simp, ha⟩
      rw [hnil] at this; cases this
  · intro hne
    unfold OrderBook.getBestAsk
    cases hb : s.asks_ with
    | nil => rw [hb] at hne; exact absurd rfl hne
    | cons x xs =>
      obtain ⟨k, dq⟩ := x
      have hok : LevelsOK s.mem s.nextPtr OrderSide.SELL ((k, dq) :: xs) := hb ▸ hs.asks
      obtain ⟨hk, _⟩ := levelsOK_cons_inv hok
      refine ⟨?_, ?_⟩
      · obtain ⟨a, ha⟩ := List.exists_mem_of_ne_nil _ (hok.2 (k, dq) (by simp)).1
        exact ⟨a, mem_resting.2 ⟨(k, dq), by simp, ha⟩, ((hok.2 (k, dq) (by simp)).2 a ha).2.2.1⟩
      · intro a ha
        obtain ⟨l, hl, hal⟩ := mem_resting.1 ha
        rw [((hok.2 l hl).2 a hal).2.2.1]
        rcases List.mem_cons.1 hl with e | hl
        · rw [e]
        · have := hk l hl
          simp only [comesBefore, decide_eq_true_eq] at this
          exact le_of_lt this

/-- C19 on buys at 99 and 100 and a sell at 101: the best bid is 100, the best ask 101; on the
empty book both are 0. -/
theorem C19_best_prices_witness :
    ((∃ a ∈ resting (bookAfter 8 [Call.add (limitOrder 1 OrderSide.BUY 99 5),
            Call.add (limitOrder 2 OrderSide.BUY 100 5),
            Call.add (limitOrder 3 OrderSide.SELL 101 5)]).bids_,
          ((bookAfter 8 [Call.add (limitOrder 1 OrderSide.BUY 99 5),
            Call.add (limitOrder 2 OrderSide.BUY 100 5),
            Call.add (limitOrder 3 OrderSide.SELL 101 5)]).mem a).price =
          (bookAfter 8 [Call.add (limitOrder 1 OrderSide.BUY 99 5),
            Call.add (limitOrder 2 OrderSide.BUY 100 5),
            Call.add (limitOrder 3 OrderSide.SELL 101 5)]).getBestBid) ∧
        ∀ a ∈ resting (bookAfter 8 [Call.add (limitOrder 1 OrderSide.BUY 99 5),
            Call.add (limitOrder 2 OrderSide.BUY 100 5),
            Call.add (limitOrder 3 OrderSide.SELL 101 5)]).bids_,
          ((bookAfter 8 [Call.add (limitOrder 1 OrderSide.BUY 99 5),
            Call.add (limitOrder 2 OrderSide.BUY 100 5),
            Call.add (limitOrder 3 OrderSide.SELL 101 5)]).mem a).price ≤
          (bookAfter 8 [Call.add (limitOrder 1 OrderSide.BUY 99 5),
            Call.add (limitOrder 2 OrderSide.BUY 100 5),
            Call.add (limitOrder 3 OrderSide.SELL 101 5)]).getBestBid) ∧
      (bookAfter 8 [Call.add (limitOrder 1 OrderSide.BUY 99 5),
            Call.add (limitOrder 2 OrderSide.BUY 100 5),
            Call.add (limitOrder 3 OrderSide.SELL 101 5)]).getBestBid = 100 ∧
      (bookAfter 8 [Call.add (limitOrder 1 OrderSide.BUY 99 5),
            Call.add (limitOrder 2 OrderSide.BUY 100 5),
            Call.add (limitOrder 3 OrderSide.SELL 101 5)]).getBestAsk = 101 ∧
      OrderBook.empty.getBestBid = 0 ∧ OrderBook.empty.getBestAsk = 0 :=
  ⟨(C19_best_prices _ (bookAfter_reachable _ _ (by decide))).2.1 (by decide),
    by decide, by decide, by decide, by decide⟩

/-- C11 as stated fails: `addOrder` does not stamp the order.  After a buy at 100 constructed at
clock reading 5 and then a buy at 100 constructed at clock reading 3, both rest in the level at
100 with the timestamps they came with, and the order at the head has the later timestamp. -/
theorem C11_arrival_order_counterexample :
    (bookAfter 8 [Call.add (limitOrderAt 5 1 OrderSide.BUY 100 10),
        Call.add (limitOrderAt 3 2 OrderSide.BUY 100 10)]).bids_ = [(100, [0, 1])] ∧
      ((bookAfter 8 [Call.add (limitOrderAt 5 1 OrderSide.BUY 100 10),
        Call.add (limitOrderAt 3 2 OrderSide.BUY 100 10)]).mem 0).timestamp = 5 ∧
      ((bookAfter 8 [Call.add (limitOrderAt 5 1 OrderSide.BUY 100 10),
        Call.add (limitOrderAt 3 2 OrderSide.BUY 100 10)]).mem 1).timestamp = 3 ∧
      ¬ (((bookAfter 8 [Call.add (limitOrderAt 5 1 OrderSide.BUY 100 10),
          Call.add (limitOrderAt 3 2 OrderSide.BUY 100 10)]).mem 0).timestamp ≤
        ((bookAfter 8 [Call.add (limitOrderAt 5 1 OrderSide.BUY 100 10),
          Call.add (limitOrderAt 3 2 OrderSide.BUY 100 10)]).mem 1).timestamp) := by
  decide

/-- C11, amended (arrival order): `addOrder` keeps the timestamp the order was constructed with;
within every level of a reachable book the orders stand in the order of their admission; so
when callers hand in orders whose timestamps do not decrease from call to call, an order nearer
the head of a level has a timestamp no later than every order behind it. -/
theorem C11_arrival_order (s : OrderBook) (h : ReachableInTime s) :
    (∀ l, (l ∈ s.bids_ ∨ l ∈ s.asks_) →
        l.2.Pairwise (fun a b => a < b ∧ (s.mem a).timestamp ≤ (s.mem b).timestamp)) ∧
      ∀ o fuel t, o.inRange → s.addNew fuel o = some t →
        (t.mem s.nextPtr).timestamp = o.timestamp := by
  have hr := reachableInTime_reachable h
  have hs := reachable_wf hr
  refine ⟨?_, ?_⟩
  · intro l hl
    have hq := reachable_queueOrder hr l hl
    have hord := reachableInTime_ordered h
    have hlt : ∀ b ∈ l.2, b < s.nextPtr := by
      intro b hb
      refine wf_lt_next hs ?_
      rcases hl with hl | hl
      · exact List.mem_append_left _ (mem_resting.2 ⟨l, hl, hb⟩)
      · exact List.mem_append_right _ (mem_resting.2 ⟨l, hl, hb⟩)
    refine List.Pairwise.imp_of_mem ?_ hq
    intro a b _ hb hab
    exact ⟨hab, hord a b hab (hlt b hb)⟩
  · intro o fuel t ho hadd
    rw [(addNew_new_object hr ho hadd).2.1]; rfl

/-- C11 amended, on two buys at 100 constructed at clock readings 3 and 5 and handed in in this
order: the head of the level has the earlier timestamp. -/
theorem C11_arrival_order_witness :
    (∀ l, (l ∈ (bookAfter 8 [Call.add (limitOrderAt 3 1 OrderSide.BUY 100 10),
          Call.add (limitOrderAt 5 2 OrderSide.BUY 100 10)]).bids_ ∨
        l ∈ (bookAfter 8 [Call.add (limitOrderAt 3 1 OrderSide.BUY 100 10),
          Call.add (limitOrderAt 5 2 OrderSide.BUY 100 10)]).asks_) →
      l.2.Pairwise (fun a b => a < b ∧
        ((bookAfter 8 [Call.add (limitOrderAt 3 1 OrderSide.BUY 100 10),
          Call.add (limitOrderAt 5 2 OrderSide.BUY 100 10)]).mem a).timestamp ≤
        ((bookAfter 8 [Call.add (limitOrderAt 3 1 OrderSide.BUY 100 10),
          Call.add (limitOrderAt 5 2 OrderSide.BUY 100 10)]).mem b).timestamp)) ∧
      (bookAfter 8 [Call.add (limitOrderAt 3 1 OrderSide.BUY 100 10),
          Call.add (limitOrderAt 5 2 OrderSide.BUY 100 10)]).bids_ = [(100, [0, 1])] ∧
      ((bookAfter 8 [Call.add (limitOrderAt 3 1 OrderSide.BUY 100 10),
          Call.add (limitOrderAt 5 2 OrderSide.BUY 100 10)]).mem 0).timestamp = 3 ∧
      ((bookAfter 8 [Call.add (limitOrderAt 3 1 OrderSide.BUY 100 10),
          Call.add (limitOrderAt 5 2 OrderSide.BUY 100 10)]).mem 1).timestamp = 5 :=
  ⟨(C11_arrival_order _
    (ReachableInTime.step
      (ReachableInTime.step ReachableInTime.empty
        (StepInTime.add OrderBook.empty (limitOrderAt 3 1 OrderSide.BUY 100 10) 8
          (bookAfter 8 [Call.add (limitOrderAt 3 1 OrderSide.BUY 100 10)]) (by decide)
          (fun a ha => absurd ha (Nat.not_lt_zero a)) rfl))
      (StepInTime.add _ (limitOrderAt 5 2 OrderSide.BUY 100 10) 8
        (bookAfter 8 [Call.add (limitOrderAt 3 1 OrderSide.BUY 100 10),
          Call.add (limitOrderAt 5 2 OrderSide.BUY 100 10)]) (by decide)
        (by decide) rfl))).1,
    by decide, by decide, by decide⟩

/-- C16 (effect of cancel): on a reachable book let `p` be a resting order whose id no other
allocated order carries.  After `cancelOrder` of that id, `p` is in no level and its id is not in
the index, its remaining quantity is 0, each side is what it was without `p` (the other orders of
every level in their order, and no level left empty), no trade is recorded and the trade count is
as before, and every other order object is unchanged. -/
theorem C16_cancel_effect (s : OrderBook) (h : Reachable s) (p : Addr)
    (hp : p ∈ s.allResting)
    (huniq : ∀ b, b < s.nextPtr → (s.mem b).orderId = (s.mem p).orderId → b = p) :
    p ∉ (s.cancelOrder (s.mem p).orderId).allResting ∧
      (s.cancelOrder (s.mem p).orderId).orderMap_ (s.mem p).orderId = none ∧
      ((s.cancelOrder (s.mem p).orderId).mem p).remainingQty = 0 ∧
      (s.cancelOrder (s.mem p).orderId).bids_ = withoutOrder p s.bids_ ∧
      (s.cancelOrder (s.mem p).orderId).asks_ = withoutOrder p s.asks_ ∧
      (∀ l, (l ∈ (s.cancelOrder (s.mem p).orderId).bids_ ∨
        l ∈ (s.cancelOrder (s.mem p).orderId).asks_) → l.2 ≠ []) ∧
      (s.cancelOrder (s.mem p).orderId).trades = s.trades ∧
      (s.cancelOrder (s.mem p).orderId).getTotalTrades = s.getTotalTrades ∧
      ∀ a, a ≠ p → (s.cancelOrder (s.mem p).orderId).mem a = s.mem a := by
  have hs := reachable_wf h
  have hidx : s.orderMap_ (s.mem p).orderId = some p := by
    rcases reachable_indexed h p hp with h1 | ⟨b, hb1, hb2, hb3⟩
    · exact h1
    · exact absurd (huniq b hb1 hb3) hb2
  have hwf := cancelOrder_wf hs (s.mem p).orderId
  have hid1 : ∀ a ∈ s.allResting,
      (cancelledMem s.mem p a).orderId = (s.mem p).orderId ↔ a = p := by
    intro a ha
    rw [cancelledMem_fields]
    constructor
    · intro e; exact huniq a (wf_lt_next hs ha) e
    · intro e; rw [e]; rfl
  have hnd := List.nodup_append.1 hs.nodup
  refine ⟨cancelOrder_not_resting hs hidx, ?_, ?_, ?_, ?_, ?_, cancelOrder_trades _ _,
    cancelOrder_totalTrades _ _, ?_⟩
  · rw [cancelOrder_orderMap hidx]; simp
  · rw [cancelOrder_mem hidx, cancelledMem_self]; rfl
  · cases hside : (s.mem p).side with
    | BUY =>
      rw [cancelOrder_buy hidx hside]
      have hpb : p ∈ resting s.bids_ := by
        rcases List.mem_append.1 hp with h1 | h1
        · exact h1
        · have := levelsOK_side_of_mem hs.asks h1
          rw [hside] at this; cases this
      exact removeFromLevel_eq_without hs.bids _ _ hpb hnd.1
        (fun a ha => hid1 a (List.mem_append_left _ ha))
    | SELL =>
      rw [cancelOrder_sell hidx hside]
      have hpb : p ∉ resting s.bids_ := by
        intro h1
        have := levelsOK_side_of_mem hs.bids h1
        rw [hside] at this; cases this
      exact (withoutOrder_of_not_mem hpb (fun l hl => (hs.bids.2 l hl).1)).symm
  · cases hside : (s.mem p).side with
    | BUY =>
      rw [cancelOrder_buy hidx hside]
      have hpa : p ∉ resting s.asks_ := by
        intro h1
        have := levelsOK_side_of_mem hs.asks h1
        rw [hside] at this; cases this
      exact (withoutOrder_of_not_mem hpa (fun l hl => (hs.asks.2 l hl).1)).symm
    | SELL =>
      rw [cancelOrder_sell hidx hside]
      have hpa : p ∈ resting s.asks_ := by
        rcases List.mem_append.1 hp with h1 | h1
        · have := levelsOK_side_of_mem hs.bids h1
          rw [hside] at this; cases this
        · exact h1
      exact removeFromLevel_eq_without hs.asks _ _ hpa hnd.2.1
        (fun a ha => hid1 a (List.mem_append_right _ ha))
  · intro l hl
    rcases hl with hl | hl
    · exact (hwf.bids.2 l hl).1
    · exact (hwf.asks.2 l hl).1
  · intro a ha
    rw [cancelOrder_mem hidx, cancelledMem_other _ _ _ ha]

/-- C16 on BUY id 1 at 100 for 10: after `cancelOrder(1)` the book is empty and the order has
remaining quantity 0; a SELL id 2 at 100 for 10 added next makes no trade and the best ask is
100. -/
theorem C16_cancel_effect_witness :
    ((bookAfter 8 [Call.add (limitOrder 1 OrderSide.BUY 100 10)]).cancelOrder
        ((bookAfter 8 [Call.add (limitOrder 1 OrderSide.BUY 100 10)]).mem 0).orderId).bids_ =
        withoutOrder 0 (bookAfter 8 [Call.add (limitOrder 1 OrderSide.BUY 100 10)]).bids_ ∧
      (bookAfter 8 [Call.add (limitOrder 1 OrderSide.BUY 100 10), Call.cancel 1]).bids_ = [] ∧
      ((bookAfter 8 [Call.add (limitOrder 1 OrderSide.BUY 100 10),
        Call.cancel 1]).mem 0).remainingQty = 0 ∧
      (bookAfter 8 [Call.add (limitOrder 1 OrderSide.BUY 100 10), Call.cancel 1,
        Call.add (limitOrder 2 OrderSide.SELL 100 10)]).trades = [] ∧
      (bookAfter 8 [Call.add (limitOrder 1 OrderSide.BUY 100 10), Call.cancel 1,
        Call.add (limitOrder 2 OrderSide.SELL 100 10)]).getTotalTrades = 0 ∧
      (bookAfter 8 [Call.add (limitOrder 1 OrderSide.BUY 100 10), Call.cancel 1,
        Call.add (limitOrder 2 OrderSide.SELL 100 10)]).getBestAsk = 100 ∧
      (bookAfter 8 [Call.add (limitOrder 1 OrderSide.BUY 100 10), Call.cancel 1,
        Call.add (limitOrder 2 OrderSide.SELL 100 10)]).asks_ = [(100, [1])] :=
  ⟨(C16_cancel_effect (bookAfter 8 [Call.add (limitOrder 1 OrderSide.BUY 100 10)])
      (bookAfter_reachable _ _ (by decide)) 0 (by decide) (by decide)).2.2.2.1,
    by decide, by decide, by decide, by decide, by decide, by decide⟩

/-- C20 (non-crossing limit rests): on a reachable book, for a valid order with quantity left
such that the opposite side is empty or its best price does not cross the order's price,
`addOrder` returns, makes no trade, leaves the opposite side and every other order object as
they were, keeps the order as it came, and changes the own side by the one statement
`levels[price].push_back(order)`: the order stands at the tail of the level at its price, which
is created when absent, and every level at another price is as before. -/
theorem C20_noncrossing_rests (s : OrderBook) (h : Reachable s) (o : Order) (ho : o.inRange)
    (hv : o.isValid = true) (hpos : 0 < o.remainingQty)
    (hnc : s.opposite o.side = [] ∨ (o.side = OrderSide.BUY ∧ o.price < s.getBestAsk) ∨
      (o.side = OrderSide.SELL ∧ s.getBestBid < o.price)) :
    (∃ fuel t, s.addNew fuel o = some t) ∧
      ∀ fuel t, s.addNew fuel o = some t →
        t.trades = s.trades ∧ t.getTotalTrades = s.getTotalTrades ∧
        t.opposite o.side = s.opposite o.side ∧
        (∀ a, a ≠ s.nextPtr → t.mem a = s.mem a) ∧
        t.mem s.nextPtr = o ∧
        t.opposite o.side.other =
          pushBack o.side o.price s.nextPtr (s.opposite o.side.other) ∧
        (∀ dq, (o.price, dq) ∈ s.opposite o.side.other →
          (o.price, dq ++ [s.nextPtr]) ∈ t.opposite o.side.other) ∧
        ((∀ dq, (o.price, dq) ∉ s.opposite o.side.other) →
          (o.price, [s.nextPtr]) ∈ t.opposite o.side.other) ∧
        ∀ l, l.1 ≠ o.price → (l ∈ t.opposite o.side.other ↔ l ∈ s.opposite o.side.other) := by
  have hs := reachable_wf h
  refine ⟨addNew_total hs ho, ?_⟩
  intro fuel t hadd
  have hp0 : ((s.alloc o).indexed s.nextPtr).mem s.nextPtr = o := by
    rw [indexed_mem]; exact alloc_mem_self s o
  have hng : ¬ matchGuard o.side s.nextPtr ((s.alloc o).indexed s.nextPtr) := by
    apply not_guard_of_noncross
    rw [hp0, indexed_opposite, alloc_opposite]
    exact hnc
  have ht := addNew_no_fill hs ho hv hadd hng
  have hown : t.opposite o.side.other =
      pushBack o.side o.price s.nextPtr (s.opposite o.side.other) := by
    have := @restResidual_own ((s.alloc o).indexed s.nextPtr) s.nextPtr (by rw [hp0]; exact hpos)
    rw [hp0, indexed_opposite, alloc_opposite] at this
    rw [ht]; exact this
  have hsorted : ((s.opposite o.side.other).map Prod.fst).Pairwise
      (fun a b => comesBefore o.side a b = true) := by
    have := (wf_opp_ok hs o.side.other).1
    rwa [other_other] at this
  refine ⟨by rw [ht]; simp, by rw [ht]; simp [OrderBook.getTotalTrades], ?_, ?_, ?_, hown,
    ?_, ?_, ?_⟩
  · have := restResidual_opposite ((s.alloc o).indexed s.nextPtr) s.nextPtr
    rw [hp0, indexed_opposite, alloc_opposite] at this
    rw [ht]; exact this
  · intro a ha
    rw [ht, restResidual_mem, indexed_mem]; exact alloc_mem_other s o ha
  · rw [ht, restResidual_mem]; exact hp0
  · intro dq hdq
    rw [hown]; exact pushBack_mem_same hsorted hdq
  · intro hnone
    rw [hown]; exact pushBack_mem_new hnone
  · intro l hl
    rw [hown]; exact pushBack_mem_other hl

/-- C20 on a buy at 99 followed by a sell at 101 on the empty book: no trade, the sell rests
alone at 101, the best bid is 99 and the best ask 101. -/
theorem C20_noncrossing_rests_witness :
    (bookAfter 8 [Call.add (limitOrder 1 OrderSide.BUY 99 10),
        Call.add (limitOrder 2 OrderSide.SELL 101 10)]).trades =
        (bookAfter 8 [Call.add (limitOrder 1 OrderSide.BUY 99 10)]).trades ∧
      (bookAfter 8 [Call.add (limitOrder 1 OrderSide.BUY 99 10),
        Call.add (limitOrder 2 OrderSide.SELL 101 10)]).trades = [] ∧
      (bookAfter 8 [Call.add (limitOrder 1 OrderSide.BUY 99 10),
        Call.add (limitOrder 2 OrderSide.SELL 101 10)]).bids_ = [(99, [0])] ∧
      (bookAfter 8 [Call.add (limitOrder 1 OrderSide.BUY 99 10),
        Call.add (limitOrder 2 OrderSide.SELL 101 10)]).asks_ = [(101, [1])] ∧
      (bookAfter 8 [Call.add (limitOrder 1 OrderSide.BUY 99 10),
        Call.add (limitOrder 2 OrderSide.SELL 101 10)]).getBestBid = 99 ∧
      (bookAfter 8 [Call.add (limitOrder 1 OrderSide.BUY 99 10),
        Call.add (limitOrder 2 OrderSide.SELL 101 10)]).getBestAsk = 101 :=
  ⟨((C20_noncrossing_rests (bookAfter 8 [Call.add (limitOrder 1 OrderSide.BUY 99 10)])
      (bookAfter_reachable _ _ (by decide)) (limitOrder 2 OrderSide.SELL 101 10) (by decide)
      (by decide) (by decide) (Or.inr (Or.inr ⟨rfl, by decide⟩))).2 8
      (bookAfter 8 [Call.add (limitOrder 1 OrderSide.BUY 99 10),
        Call.add (limitOrder 2 OrderSide.SELL 101 10)]) rfl).1,
    by decide, by decide, by decide, by decide, by decide⟩

/-- C18 (partial fill leaves the residual maker): on a reachable book whose best opposite level
has the order `m` at its head, for a valid incoming order of quantity `b` smaller than the
remaining quantity `a` of `m`, at a price that crosses the level, `addOrder` returns and makes
exactly one trade, between `m` and the incoming order, of quantity `b` at the price of the level,
which is the price of `m`; `m` stays at the head of its level with `a - b` left; the incoming
order is used up and rests nowhere; and `getTotalTrades()` goes up by one (in `uint64_t`). -/
theorem C18_partial_fill (s : OrderBook) (h : Reachable s) (o : Order) (ho : o.inRange)
    (hv : o.isValid = true) (hq : o.remainingQty = o.quantity) (price : Price) (m : Addr)
    (dq : List Addr) (rest : List Level)
    (hopp : s.opposite o.side = (price, m :: dq) :: rest)
    (hcross : priceGate o.side o.price price = false)
    (hlt : o.quantity < (s.mem m).remainingQty) :
    (∃ fuel t, s.addNew fuel o = some t) ∧
      ∀ fuel t, s.addNew fuel o = some t →
        (∃ tr, t.trades = s.trades ++ [tr] ∧ tr.makerPtr o.side = m ∧
          tr.takerPtr o.side = s.nextPtr ∧ tr.qty = o.quantity ∧ tr.price = price ∧
          tr.price = (s.mem m).price) ∧
        t.opposite o.side = (price, m :: dq) :: rest ∧
        (t.mem m).remainingQty = (s.mem m).remainingQty - o.quantity ∧
        (t.mem s.nextPtr).remainingQty = 0 ∧
        t.opposite o.side.other = s.opposite o.side.other ∧
        s.nextPtr ∉ t.allResting ∧
        t.getTotalTrades = (s.getTotalTrades + 1) % 2 ^ 64 := by
  have hs := reachable_wf h
  refine ⟨addNew_total hs ho, ?_⟩
  intro fuel t hadd
  have hpos : 0 < o.remainingQty := by
    rw [hq]
    have := hv
    simp only [Order.isValid, Bool.and_eq_true, decide_eq_true_eq] at this
    exact this.1.2
  obtain ⟨⟨tr, h1, h2, h3, _, _, h6, h7, _⟩, hp, hm, _, hop, hown, htt, _⟩ :=
    addNew_one_fill hs ho hv hadd hopp hcross hpos (by rw [hq]; exact Nat.le_of_lt hlt)
  have hne : o.remainingQty ≠ (s.mem m).remainingQty := by rw [hq]; exact Nat.ne_of_lt hlt
  rw [if_neg hne] at hop
  have hprice : (s.mem m).price = price :=
    wf_level_price hs (show (price, m :: dq) ∈ s.opposite o.side by rw [hopp]; simp)
      (List.mem_cons_self _ _)
  refine ⟨⟨tr, h1, h2, h3, by rw [h7, hq], h6, by rw [h6, hprice]⟩, by rw [hop, hopp],
    by rw [hm, hq]; rfl, by rw [hp]; rfl, hown, ?_, htt⟩
  intro hmem
  have hin : s.nextPtr ∈ s.allResting := by
    cases hside : o.side <;> rw [hside] at hop hown <;>
      simp only [OrderSide.other, OrderBook.opposite] at hop hown <;>
      simp only [OrderBook.allResting] at hmem ⊢
    · rw [hop, hown] at hmem; exact hmem
    · rw [hop, hown] at hmem; exact hmem
  exact lt_irrefl _ (wf_lt_next hs hin)

/-- C18 on BUY id 1 at 100 for 10 met by SELL id 2 at 100 for 4: one trade (1, 2, 100, 4), the buy
rests alone at 100 with 6 left, no ask rests and the trade count is 1. -/
theorem C18_partial_fill_witness :
    ((∃ tr, (bookAfter 8 [Call.add (limitOrder 1 OrderSide.BUY 100 10),
          Call.add (limitOrder 2 OrderSide.SELL 100 4)]).trades =
          (bookAfter 8 [Call.add (limitOrder 1 OrderSide.BUY 100 10)]).trades ++ [tr] ∧
        tr.makerPtr (limitOrder 2 OrderSide.SELL 100 4).side = 0 ∧
        tr.takerPtr (limitOrder 2 OrderSide.SELL 100 4).side =
          (bookAfter 8 [Call.add (limitOrder 1 OrderSide.BUY 100 10)]).nextPtr ∧
        tr.qty = (limitOrder 2 OrderSide.SELL 100 4).quantity ∧ tr.price = 100 ∧
        tr.price = ((bookAfter 8 [Call.add (limitOrder 1 OrderSide.BUY 100 10)]).mem 0).price)) ∧
      (bookAfter 8 [Call.add (limitOrder 1 OrderSide.BUY 100 10),
          Call.add (limitOrder 2 OrderSide.SELL 100 4)]).trades.map Trade.summary
        = [(1, 2, 100, 4)] ∧
      (bookAfter 8 [Call.add (limitOrder 1 OrderSide.BUY 100 10),
          Call.add (limitOrder 2 OrderSide.SELL 100 4)]).bids_ = [(100, [0])] ∧
      ((bookAfter 8 [Call.add (limitOrder 1 OrderSide.BUY 100 10),
          Call.add (limitOrder 2 OrderSide.SELL 100 4)]).mem 0).remainingQty = 6 ∧
      (bookAfter 8 [Call.add (limitOrder 1 OrderSide.BUY 100 10),
          Call.add (limitOrder 2 OrderSide.SELL 100 4)]).asks_ = [] ∧
      (bookAfter 8 [Call.add (limitOrder 1 OrderSide.BUY 100 10),
          Call.add (limitOrder 2 OrderSide.SELL 100 4)]).getTotalTrades = 1 :=
  ⟨((C18_partial_fill (bookAfter 8 [Call.add (limitOrder 1 OrderSide.BUY 100 10)])
      (bookAfter_reachable _ _ (by decide)) (limitOrder 2 OrderSide.SELL 100 4) (by decide)
      (by decide) rfl 100 0 [] [] (by decide) (by decide) (by decide)).2 8
      (bookAfter 8 [Call.add (limitOrder 1 OrderSide.BUY 100 10),
          Call.add (limitOrder 2 OrderSide.SELL 100 4)]) rfl).1,
    by decide, by decide, by decide, by decide, by decide⟩

/-- C17 (trivial cross): on the empty book, for a non-empty symbol, any price `p`, a quantity
`0 < q < 2^32` and positive ids, adding a LIMIT BUY of `q` at `p` and then a LIMIT SELL of `q` at
`p` returns both times and leaves exactly one trade: its buy party is the BUY order, its sell
party the SELL order (both seen with nothing left), its price is `p` and its quantity `q`; both
sides are then empty, `getBestBid()` and `getBestAsk()` are 0 and the trade count is 1. -/
theorem C17_trivial_cross (sym : String) (p : Price) (q id1 id2 c1 c2 : Nat)
    (stop1 stop2 : Price) (now1 now2 : Nat) (hsym : sym ≠ "") (hq : 0 < q) (hq32 : q < 2 ^ 32)
    (hid1 : 0 < id1) (hid2 : 0 < id2) (hw1 : id1 < 2 ^ 64) (hw2 : id2 < 2 ^ 64)
    (hc1 : c1 < 2 ^ 64) (hc2 : c2 < 2 ^ 64) :
    (∃ f1 t1 f2 t2,
        OrderBook.empty.addNew f1
          (Order.mk8 id1 c1 sym OrderType.LIMIT OrderSide.BUY p q stop1 now1) = some t1 ∧
        t1.addNew f2
          (Order.mk8 id2 c2 sym OrderType.LIMIT OrderSide.SELL p q stop2 now2) = some t2) ∧
      ∀ f1 t1 f2 t2,
        OrderBook.empty.addNew f1
          (Order.mk8 id1 c1 sym OrderType.LIMIT OrderSide.BUY p q stop1 now1) = some t1 →
        t1.addNew f2
          (Order.mk8 id2 c2 sym OrderType.LIMIT OrderSide.SELL p q stop2 now2) = some t2 →
        (∃ tr, t2.trades = [tr] ∧ tr.buyPtr = 0 ∧ tr.sellPtr = 1 ∧
          tr.buy = (Order.mk8 id1 c1 sym OrderType.LIMIT OrderSide.BUY p q stop1
            now1).withRemaining 0 ∧
          tr.sell = (Order.mk8 id2 c2 sym OrderType.LIMIT OrderSide.SELL p q stop2
            now2).withRemaining 0 ∧
          tr.price = p ∧ tr.qty = q) ∧
        t2.bids_ = [] ∧ t2.asks_ = [] ∧ t2.getBestBid = 0 ∧ t2.getBestAsk = 0 ∧
        t2.getTotalTrades = 1 := by
  have hwf0 : WF OrderBook.empty := reachable_wf Reachable.empty
  have hr1 : (Order.mk8 id1 c1 sym OrderType.LIMIT OrderSide.BUY p q stop1 now1).inRange :=
    ⟨hw1, hc1, hq32, hq32⟩
  have hr2 : (Order.mk8 id2 c2 sym OrderType.LIMIT OrderSide.SELL p q stop2 now2).inRange :=
    ⟨hw2, hc2, hq32, hq32⟩
  have hv1 : (Order.mk8 id1 c1 sym OrderType.LIMIT OrderSide.BUY p q stop1 now1).isValid
      = true := by
    simp [Order.isValid, Order.mk8, hid1, hq, hsym]
  have hv2 : (Order.mk8 id2 c2 sym OrderType.LIMIT OrderSide.SELL p q stop2 now2).isValid
      = true := by
    simp [Order.isValid, Order.mk8, hid2, hq, hsym]
  have key : ∀ f1 t1, OrderBook.empty.addNew f1
      (Order.mk8 id1 c1 sym OrderType.LIMIT OrderSide.BUY p q stop1 now1) = some t1 →
      WF t1 ∧ t1.bids_ = [(p, [0])] ∧ t1.asks_ = [] ∧ t1.trades = [] ∧ t1.totalTrades_ = 0 ∧
        t1.nextPtr = 1 ∧
        t1.mem 0 = Order.mk8 id1 c1 sym OrderType.LIMIT OrderSide.BUY p q stop1 now1 := by
    intro f1 t1 h1
    have hng : ¬ matchGuard OrderSide.BUY OrderBook.empty.nextPtr
        ((OrderBook.empty.alloc (Order.mk8 id1 c1 sym OrderType.LIMIT OrderSide.BUY p q stop1
          now1)).indexed OrderBook.empty.nextPtr) :=
      not_guard_of_noncross (Or.inl rfl)
    have ht := addNew_no_fill hwf0 hr1 hv1 h1 hng
    refine ⟨addNew_wf hwf0 hr1 h1, ?_, ?_, ?_, ?_, ?_, ?_⟩ <;> rw [ht] <;>
      simp [OrderBook.restResidual, OrderBook.indexed, OrderBook.alloc, OrderBook.empty,
        Order.mk8, hq, pushBack]
  constructor
  · obtain ⟨f1, t1, h1⟩ := addNew_total hwf0 hr1
    obtain ⟨f2, t2, h2⟩ := addNew_total (key f1 t1 h1).1 hr2
    exact ⟨f1, t1, f2, t2, h1, h2⟩
  · intro f1 t1 f2 t2 h1 h2
    obtain ⟨hwf1, hb, ha, htr, htt, hnp, hm0⟩ := key f1 t1 h1
    obtain ⟨⟨tr, e1, e2, e3, e4, e5, e6, e7, _⟩, hp, hm, _, hop, hown, htot, _⟩ :=
      @addNew_one_fill t1 t2 _ f2 hwf1 hr2 hv2 h2 p 0 [] [] hb
        (by simp [priceGate, Order.mk8]) hq (by rw [hm0]; exact le_refl _)
    have hb2 : t2.bids_ = [] := by
      have : t2.opposite OrderSide.SELL = [] := by
        refine hop.trans ?_
        rw [hm0]; simp [Order.mk8, levelsAfter]
      exact this
    have ha2 : t2.asks_ = [] := by
      have : t2.opposite OrderSide.BUY = [] := hown.trans ha
      exact this
    refine ⟨⟨tr, by rw [e1, htr]; rfl, e2, by rw [← hnp]; exact e3, ?_, ?_, e6, e7⟩, hb2, ha2,
      by simp [OrderBook.getBestBid, hb2], by simp [OrderBook.getBestAsk, ha2], ?_⟩
    · have : tr.buy = t2.mem 0 := e4
      rw [this, hm, hm0]; simp [Order.withRemaining, Order.mk8]
    · have : tr.sell = t2.mem t1.nextPtr := e5
      rw [this, hp]
    · have : t2.totalTrades_ = (t1.totalTrades_ + 1) % 2 ^ 64 := htot
      simp [OrderBook.getTotalTrades, this, htt]

/-- C17 on BUY id 1 and SELL id 2 of 10 at 100 on AAPL: one trade (1, 2, 100, 10), after which
the book is empty. -/
theorem C17_trivial_cross_witness :
    ((∃ tr, (bookAfter 8 [Call.add (limitOrder 1 OrderSide.BUY 100 10),
          Call.add (limitOrder 2 OrderSide.SELL 100 10)]).trades = [tr] ∧
        tr.buyPtr = 0 ∧ tr.sellPtr = 1 ∧
        tr.buy = (Order.mk8 1 0 "AAPL" OrderType.LIMIT OrderSide.BUY 100 10 0 0).withRemaining 0 ∧
        tr.sell =
          (Order.mk8 2 0 "AAPL" OrderType.LIMIT OrderSide.SELL 100 10 0 0).withRemaining 0 ∧
        tr.price = 100 ∧ tr.qty = 10) ∧
      (bookAfter 8 [Call.add (limitOrder 1 OrderSide.BUY 100 10),
          Call.add (limitOrder 2 OrderSide.SELL 100 10)]).bids_ = [] ∧
      (bookAfter 8 [Call.add (limitOrder 1 OrderSide.BUY 100 10),
          Call.add (limitOrder 2 OrderSide.SELL 100 10)]).asks_ = [] ∧
      (bookAfter 8 [Call.add (limitOrder 1 OrderSide.BUY 100 10),
          Call.add (limitOrder 2 OrderSide.SELL 100 10)]).getBestBid = 0 ∧
      (bookAfter 8 [Call.add (limitOrder 1 OrderSide.BUY 100 10),
          Call.add (limitOrder 2 OrderSide.SELL 100 10)]).getBestAsk = 0 ∧
      (bookAfter 8 [Call.add (limitOrder 1 OrderSide.BUY 100 10),
          Call.add (limitOrder 2 OrderSide.SELL 100 10)]).getTotalTrades = 1) ∧
      (bookAfter 8 [Call.add (limitOrder 1 OrderSide.BUY 100 10),
          Call.add (limitOrder 2 OrderSide.SELL 100 10)]).trades.map Trade.summary
        = [(1, 2, 100, 10)] :=
  ⟨(C17_trivial_cross "AAPL" 100 10 1 2 0 0 0 0 0 0 (by decide) (by decide) (by decide)
      (by decide) (by decide) (by decide) (by decide) (by decide) (by decide)).2 8
      (bookAfter 8 [Call.add (limitOrder 1 OrderSide.BUY 100 10)]) 8
      (bookAfter 8 [Call.add (limitOrder 1 OrderSide.BUY 100 10),
          Call.add (limitOrder 2 OrderSide.SELL 100 10)]) rfl rfl,
    by decide⟩

/-- C24 (canMatchWith): for two orders whose types are LIMIT or MARKET, `a.canMatchWith(b)` is
true exactly when they have the same symbol, different sides, both are valid, both have quantity
left and, when both are LIMIT, the price of the BUY order is at least the price of the SELL
order; and for orders of any type, different symbols or equal sides give false. -/
theorem C24_canMatchWith_definition (a b : Order)
    (ha : a.type = OrderType.LIMIT ∨ a.type = OrderType.MARKET)
    (hb : b.type = OrderType.LIMIT ∨ b.type = OrderType.MARKET) :
    (a.canMatchWith b = true ↔
      a.symbol = b.symbol ∧ a.side ≠ b.side ∧ a.isValid = true ∧ b.isValid = true ∧
        0 < a.remainingQty ∧ 0 < b.remainingQty ∧
        (a.type = OrderType.LIMIT → b.type = OrderType.LIMIT →
          (a.side = OrderSide.BUY → b.price ≤ a.price) ∧
          (a.side = OrderSide.SELL → a.price ≤ b.price))) ∧
      ∀ c d : Order, (c.symbol ≠ d.symbol ∨ c.side = d.side) → c.canMatchWith d = false := by
  constructor
  · unfold Order.canMatchWith
    by_cases hsym : a.symbol = b.symbol
    · by_cases hside : a.side = b.side
      · simp [hsym, hside]
      · cases hva : a.isValid
        · simp [hsym, hside, hva]
        · cases hvb : b.isValid
          · simp [hsym, hside, hva, hvb]
          · by_cases hra : a.remainingQty = 0
            · simp [hsym, hside, hva, hvb, hra]
            · by_cases hrb : b.remainingQty = 0
              · simp [hsym, hside, hva, hvb, hra, hrb]
              · have hpa : 0 < a.remainingQty := Nat.pos_of_ne_zero hra
                have hpb : 0 < b.remainingQty := Nat.pos_of_ne_zero hrb
                rcases ha with ha | ha <;> rcases hb with hb | hb
                · cases hs : a.side <;>
                    simp [hsym, hs ▸ hside, hva, hvb, hra, hrb, ha, hb, hpa, hpb, hs]
                · simp [hsym, hside, hva, hvb, hra, hrb, ha, hb, hpa, hpb]
                · simp [hsym, hside, hva, hvb, hra, hrb, ha, hb, hpa, hpb]
                · simp [hsym, hside, hva, hvb, hra, hrb, ha, hb, hpa, hpb]
    · simp [hsym]
  · intro c d h
    unfold Order.canMatchWith
    rcases h with h | h
    · simp [h]
    · by_cases hsym : c.symbol = d.symbol <;> simp [hsym, h]

/-- C24 on the orders of `test_order_matching`: the GOOGL buy and sell at 2500 match, the TSLA
sell and the second GOOGL buy do not match the buy. -/
theorem C24_canMatchWith_definition_witness :
    ((Order.mk8 1 100 "GOOGL" OrderType.LIMIT OrderSide.BUY 2500 10 0 0).canMatchWith
        (Order.mk8 2 200 "GOOGL" OrderType.LIMIT OrderSide.SELL 2500 15 0 0) = true ↔
      (Order.mk8 1 100 "GOOGL" OrderType.LIMIT OrderSide.BUY 2500 10 0 0).symbol =
          (Order.mk8 2 200 "GOOGL" OrderType.LIMIT OrderSide.SELL 2500 15 0 0).symbol ∧
        (Order.mk8 1 100 "GOOGL" OrderType.LIMIT OrderSide.BUY 2500 10 0 0).side ≠
          (Order.mk8 2 200 "GOOGL" OrderType.LIMIT OrderSide.SELL 2500 15 0 0).side ∧
        (Order.mk8 1 100 "GOOGL" OrderType.LIMIT OrderSide.BUY 2500 10 0 0).isValid = true ∧
        (Order.mk8 2 200 "GOOGL" OrderType.LIMIT OrderSide.SELL 2500 15 0 0).isValid = true ∧
        0 < (Order.mk8 1 100 "GOOGL" OrderType.LIMIT OrderSide.BUY 2500 10 0 0).remainingQty ∧
        0 < (Order.mk8 2 200 "GOOGL" OrderType.LIMIT OrderSide.SELL 2500 15 0 0).remainingQty ∧
        ((Order.mk8 1 100 "GOOGL" OrderType.LIMIT OrderSide.BUY 2500 10 0 0).type
            = OrderType.LIMIT →
          (Order.mk8 2 200 "GOOGL" OrderType.LIMIT OrderSide.SELL 2500 15 0 0).type
            = OrderType.LIMIT →
          ((Order.mk8 1 100 "GOOGL" OrderType.LIMIT OrderSide.BUY 2500 10 0 0).side
              = OrderSide.BUY →
            (Order.mk8 2 200 "GOOGL" OrderType.LIMIT OrderSide.SELL 2500 15 0 0).price ≤
              (Order.mk8 1 100 "GOOGL" OrderType.LIMIT OrderSide.BUY 2500 10 0 0).price) ∧
          ((Order.mk8 1 100 "GOOGL" OrderType.LIMIT OrderSide.BUY 2500 10 0 0).side
              = OrderSide.SELL →
            (Order.mk8 1 100 "GOOGL" OrderType.LIMIT OrderSide.BUY 2500 10 0 0).price ≤
              (Order.mk8 2 200 "GOOGL" OrderType.LIMIT OrderSide.SELL 2500 15 0 0).price))) ∧
      (Order.mk8 1 100 "GOOGL" OrderType.LIMIT OrderSide.BUY 2500 10 0 0).canMatchWith
        (Order.mk8 2 200 "GOOGL" OrderType.LIMIT OrderSide.SELL 2500 15 0 0) = true ∧
      (Order.mk8 1 100 "GOOGL" OrderType.LIMIT OrderSide.BUY 2500 10 0 0).canMatchWith
        (Order.mk8 3 300 "TSLA" OrderType.LIMIT OrderSide.SELL 800 5 0 0) = false ∧
      (Order.mk8 1 100 "GOOGL" OrderType.LIMIT OrderSide.BUY 2500 10 0 0).canMatchWith
        (Order.mk8 4 400 "GOOGL" OrderType.LIMIT OrderSide.BUY 2450 20 0 0) = false ∧
      (Order.mk8 1 100 "GOOGL" OrderType.LIMIT OrderSide.BUY 2400 10 0 0).canMatchWith
        (Order.mk8 2 200 "GOOGL" OrderType.LIMIT OrderSide.SELL 2500 15 0 0) = false ∧
      (Order.mk8 1 100 "GOOGL" OrderType.MARKET OrderSide.BUY 0 10 0 0).canMatchWith
        (Order.mk8 2 200 "GOOGL" OrderType.LIMIT OrderSide.SELL 2500 15 0 0) = true :=
  ⟨(C24_canMatchWith_definition
      (Order.mk8 1 100 "GOOGL" OrderType.LIMIT OrderSide.BUY 2500 10 0 0)
      (Order.mk8 2 200 "GOOGL" OrderType.LIMIT OrderSide.SELL 2500 15 0 0)
      (Or.inl rfl) (Or.inl rfl)).1,
    by decide, by decide, by decide, by decide, by decide⟩

/-- C25 (canMatchWith is symmetric): for all orders `a` and `b`, of any types, sides, prices and
quantities, `a.canMatchWith(b)` and `b.canMatchWith(a)` are the same. -/
theorem C25_canMatchWith_symmetric (a b : Order) : a.canMatchWith b = b.canMatchWith a := by
  unfold Order.canMatchWith
  by_cases hsym : a.symbol = b.symbol
  · by_cases hside : a.side = b.side
    · simp [hsym, hside]
    · have hside2 : ¬ b.side = a.side := fun e => hside e.symm
      cases hva : a.isValid <;> cases hvb : b.isValid <;>
        simp only [hsym, hside, hside2, hva, hvb, ne_eq, not_true_eq_false, if_false, if_true,
          Bool.not_true, Bool.not_false, Bool.or_false, Bool.or_true, Bool.false_eq_true]
      by_cases hra : a.remainingQty = 0
      · simp [hra]
      · by_cases hrb : b.remainingQty = 0
        · simp [hrb]
        · simp only [hra, hrb, or_self, if_false]
          by_cases hl : a.type = OrderType.LIMIT ∧ b.type = OrderType.LIMIT
          · have hl2 : b.type = OrderType.LIMIT ∧ a.type = OrderType.LIMIT := ⟨hl.2, hl.1⟩
            rw [if_pos hl, if_pos hl2]
            cases hsa : a.side <;> cases hsb : b.side
            · exact absurd (hsa.trans hsb.symm) hside
            · simp
            · simp
            · exact absurd (hsa.trans hsb.symm) hside
          · have hl2 : ¬ (b.type = OrderType.LIMIT ∧ a.type = OrderType.LIMIT) :=
              fun h => hl ⟨h.2, h.1⟩
            rw [if_neg hl, if_neg hl2]
            by_cases hm : a.type = OrderType.MARKET ∨ b.type = OrderType.MARKET
            · rw [if_pos hm, if_pos hm.symm]
            · rw [if_neg hm, if_neg (fun h => hm h.symm)]
  · have hsym2 : ¬ b.symbol = a.symbol := fun e => hsym e.symm
    simp [hsym, hsym2]

/-- C26, counterexample: two STOP orders, the first placed earlier at price 10, the second later
at price 20: neither is MARKET, yet `getExecutionPrice` is 20, the price of the later one; and
for two MARKET orders it is the larger price, whatever the timestamps. -/
theorem C26_execution_price_counterexample :
    (Order.mk8 1 0 "AAPL" OrderType.STOP OrderSide.BUY 10 5 0 1).type ≠ OrderType.MARKET ∧
      (Order.mk8 2 0 "AAPL" OrderType.STOP OrderSide.SELL 20 5 0 2).type ≠ OrderType.MARKET ∧
      (Order.mk8 1 0 "AAPL" OrderType.STOP OrderSide.BUY 10 5 0 1).timestamp <
        (Order.mk8 2 0 "AAPL" OrderType.STOP OrderSide.SELL 20 5 0 2).timestamp ∧
      (Order.mk8 1 0 "AAPL" OrderType.STOP OrderSide.BUY 10 5 0 1).getExecutionPrice
        (Order.mk8 2 0 "AAPL" OrderType.STOP OrderSide.SELL 20 5 0 2) = 20 ∧
      (Order.mk8 1 0 "AAPL" OrderType.STOP OrderSide.BUY 10 5 0 1).getExecutionPrice
          (Order.mk8 2 0 "AAPL" OrderType.STOP OrderSide.SELL 20 5 0 2) ≠
        (Order.mk8 1 0 "AAPL" OrderType.STOP OrderSide.BUY 10 5 0 1).price ∧
      (Order.mk8 1 0 "AAPL" OrderType.MARKET OrderSide.BUY 10 5 0 1).getExecutionPrice
        (Order.mk8 2 0 "AAPL" OrderType.MARKET OrderSide.SELL 20 5 0 2) = 20 := by
  decide

/-- C26, amended (execution price): when one order is MARKET and the other LIMIT,
`a.getExecutionPrice(b)` is the price of the LIMIT one; when both are LIMIT it is the price of
`a` if the timestamp of `a` is earlier than that of `b` and the price of `b` otherwise (so on
equal timestamps the price of `b`), hence their common price when the prices are equal; in
every other case (both MARKET, or a type other than LIMIT and MARKET on either side, apart from
the MARKET against LIMIT pairs) it is the larger of the two prices. -/
theorem C26_execution_price (a b : Order) :
    (a.type = OrderType.MARKET → b.type = OrderType.LIMIT → a.getExecutionPrice b = b.price) ∧
      (a.type = OrderType.LIMIT → b.type = OrderType.MARKET → a.getExecutionPrice b = a.price) ∧
      (a.type = OrderType.LIMIT → b.type = OrderType.LIMIT → a.timestamp < b.timestamp →
        a.getExecutionPrice b = a.price) ∧
      (a.type = OrderType.LIMIT → b.type = OrderType.LIMIT → b.timestamp ≤ a.timestamp →
        a.getExecutionPrice b = b.price) ∧
      (a.type = OrderType.LIMIT → b.type = OrderType.LIMIT → a.price = b.price →
        a.getExecutionPrice b = a.price) ∧
      (¬ (a.type = OrderType.MARKET ∧ b.type = OrderType.LIMIT) →
        ¬ (a.type = OrderType.LIMIT ∧ b.type = OrderType.MARKET) →
        ¬ (a.type = OrderType.LIMIT ∧ b.type = OrderType.LIMIT) →
        a.getExecutionPrice b = max a.price b.price) := by
  unfold Order.getExecutionPrice
  refine ⟨?_, ?_, ?_, ?_, ?_, ?_⟩
  · intro h1 h2; simp [h1, h2]
  · intro h1 h2; simp [h1, h2]
  · intro h1 h2 h3; simp [h1, h2, h3]
  · intro h1 h2 h3; simp [h1, h2, Nat.not_lt.2 h3]
  · intro h1 h2 h3; simp [h1, h2, h3]
  · intro h1 h2 h3
    rw [if_neg h1, if_neg (fun h => h2 ⟨h.2, h.1⟩), if_neg h3]

/-- C26 amended, on the orders of `test_order_matching` (two LIMIT orders at 2500) and on a
MARKET buy against a LIMIT sell. -/
theorem C26_execution_price_witness :
    (Order.mk8 1 100 "GOOGL" OrderType.LIMIT OrderSide.BUY 2500 10 0 1).getExecutionPrice
        (Order.mk8 2 200 "GOOGL" OrderType.LIMIT OrderSide.SELL 2500 15 0 2) =
        (Order.mk8 1 100 "GOOGL" OrderType.LIMIT OrderSide.BUY 2500 10 0 1).price ∧
      (Order.mk8 1 100 "GOOGL" OrderType.LIMIT OrderSide.BUY 2500 10 0 1).getExecutionPrice
        (Order.mk8 2 200 "GOOGL" OrderType.LIMIT OrderSide.SELL 2500 15 0 2) = 2500 ∧
      (Order.mk8 1 100 "GOOGL" OrderType.MARKET OrderSide.BUY 0 10 0 1).getExecutionPrice
        (Order.mk8 2 200 "GOOGL" OrderType.LIMIT OrderSide.SELL 2500 15 0 2) = 2500 ∧
      (Order.mk8 1 100 "GOOGL" OrderType.LIMIT OrderSide.BUY 2510 10 0 7).getExecutionPrice
        (Order.mk8 2 200 "GOOGL" OrderType.LIMIT OrderSide.SELL 2500 15 0 7) = 2500 :=
  ⟨(C26_execution_price
      (Order.mk8 1 100 "GOOGL" OrderType.LIMIT OrderSide.BUY 2500 10 0 1)
      (Order.mk8 2 200 "GOOGL" OrderType.LIMIT OrderSide.SELL 2500 15 0 2)).2.2.1 rfl rfl
      (by decide),
    by decide, by decide, by decide⟩

/-- C27 (fill accounting on an order): for an order built by the full constructor with quantity
`Q < 2^32` and a sequence of `updateRemainingQty` calls each of which asks for at most what is
left at that moment, the fills sum to at most `Q`, `remainingQty` is `Q` minus the sum,
`getFilledQty()` is the sum, `isFullyFilled()` holds exactly when the sum is `Q`,
`isPartiallyFilled()` exactly when the sum is strictly between 0 and `Q`, and the two are never
both true. -/
theorem C27_fill_accounting (id client : Nat) (sym : String) (t : OrderType) (side : OrderSide)
    (p : Price) (Q : Nat) (stop : Price) (now : Nat) (fills : List (Nat × Nat))
    (hQ : Q < 2 ^ 32) (hfit : fillsFit (Order.mk8 id client sym t side p Q stop now) fills) :
    fillSum fills ≤ Q ∧
      (applyFills (Order.mk8 id client sym t side p Q stop now) fills).remainingQty
        = Q - fillSum fills ∧
      (applyFills (Order.mk8 id client sym t side p Q stop now) fills).getFilledQty
        = fillSum fills ∧
      ((applyFills (Order.mk8 id client sym t side p Q stop now) fills).isFullyFilled = true ↔
        fillSum fills = Q) ∧
      ((applyFills (Order.mk8 id client sym t side p Q stop now) fills).isPartiallyFilled = true ↔
        0 < fillSum fills ∧ fillSum fills < Q) ∧
      ¬ ((applyFills (Order.mk8 id client sym t side p Q stop now) fills).isFullyFilled = true ∧
        (applyFills (Order.mk8 id client sym t side p Q stop now) fills).isPartiallyFilled
          = true) := by
  obtain ⟨h1, h2⟩ := applyFills_spec fills (Order.mk8 id client sym t side p Q stop now) hQ hfit
  have hrem : (Order.mk8 id client sym t side p Q stop now).remainingQty = Q := rfl
  have hqty : (Order.mk8 id client sym t side p Q stop now).quantity = Q := rfl
  rw [hrem] at h1
  rw [hqty] at h2
  have hr : (applyFills (Order.mk8 id client sym t side p Q stop now) fills).remainingQty
      = Q - fillSum fills := by omega
  refine ⟨by omega, hr, ?_, ?_, ?_, ?_⟩
  · unfold Order.getFilledQty
    rw [h2, hr, sub32_of_le hQ (Nat.sub_le _ _)]
    omega
  · simp only [Order.isFullyFilled, decide_eq_true_eq, hr]
    omega
  · simp only [Order.isPartiallyFilled, Bool.and_eq_true, decide_eq_true_eq, hr, h2]
    omega
  · simp only [Order.isFullyFilled, Order.isPartiallyFilled, Bool.and_eq_true,
      decide_eq_true_eq, hr, h2]
    omega

/-- C27 on the order of `test_order_lifecycle`: quantity 100 and the fills 30, 25, 45. -/
theorem C27_fill_accounting_witness :
    fillSum [(30, 1), (25, 2), (45, 3)] ≤ 100 ∧
      (applyFills (Order.mk8 10 500 "AMZN" OrderType.LIMIT OrderSide.BUY 3200 100 0 0)
        [(30, 1), (25, 2), (45, 3)]).remainingQty = 100 - fillSum [(30, 1), (25, 2), (45, 3)] ∧
      (applyFills (Order.mk8 10 500 "AMZN" OrderType.LIMIT OrderSide.BUY 3200 100 0 0)
        [(30, 1), (25, 2), (45, 3)]).remainingQty = 0 ∧
      (applyFills (Order.mk8 10 500 "AMZN" OrderType.LIMIT OrderSide.BUY 3200 100 0 0)
        [(30, 1), (25, 2)]).remainingQty = 45 ∧
      (applyFills (Order.mk8 10 500 "AMZN" OrderType.LIMIT OrderSide.BUY 3200 100 0 0)
        [(30, 1), (25, 2)]).getFilledQty = 55 ∧
      (applyFills (Order.mk8 10 500 "AMZN" OrderType.LIMIT OrderSide.BUY 3200 100 0 0)
        [(30, 1), (25, 2)]).isPartiallyFilled = true ∧
      (applyFills (Order.mk8 10 500 "AMZN" OrderType.LIMIT OrderSide.BUY 3200 100 0 0)
        [(30, 1), (25, 2), (45, 3)]).isFullyFilled = true :=
  ⟨(C27_fill_accounting 10 500 "AMZN" OrderType.LIMIT OrderSide.BUY 3200 100 0 0
      [(30, 1), (25, 2), (45, 3)] (by decide) (by decide)).1,
    (C27_fill_accounting 10 500 "AMZN" OrderType.LIMIT OrderSide.BUY 3200 100 0 0
      [(30, 1), (25, 2), (45, 3)] (by decide) (by decide)).2.1,
    by decide, by decide, by decide, by decide, by decide⟩

/-- C21 (trade orientation): in every reachable book, every order resting on the bid side has
side BUY and every order resting on the ask side has side SELL, and in every trade of the
history the order passed as the buy argument of `executeTrade` (and of the callback) has side
BUY and the order passed as the sell argument has side SELL. -/
theorem C21_trade_orientation (s : OrderBook) (h : Reachable s) :
    (∀ tr ∈ s.trades, tr.buy.side = OrderSide.BUY ∧ tr.sell.side = OrderSide.SELL) ∧
      (∀ a ∈ resting s.bids_, (s.mem a).side = OrderSide.BUY) ∧
      ∀ a ∈ resting s.asks_, (s.mem a).side = OrderSide.SELL := by
  have hs := reachable_wf h
  refine ⟨?_, ?_, ?_⟩
  · intro tr htr
    exact reachable_oriented h tr htr
  · intro a ha
    obtain ⟨l, hl, hal⟩ := mem_resting.1 ha
    exact ((hs.bids.2 l hl).2 a hal).2.1
  · intro a ha
    obtain ⟨l, hl, hal⟩ := mem_resting.1 ha
    exact ((hs.asks.2 l hl).2 a hal).2.1

/-- C21 on a buy of 10 at 100 met by sells of 4 and 3 with the callback installed: both trades
have the buy as buy party and a sell as sell party. -/
theorem C21_trade_orientation_witness :
    (∀ tr ∈ (bookAfter 8 [Call.setCallback true, Call.add (limitOrder 1 OrderSide.BUY 100 10),
          Call.add (limitOrder 2 OrderSide.SELL 100 4),
          Call.add (limitOrder 3 OrderSide.SELL 99 3)]).trades,
        tr.buy.side = OrderSide.BUY ∧ tr.sell.side = OrderSide.SELL) ∧
      (bookAfter 8 [Call.setCallback true, Call.add (limitOrder 1 OrderSide.BUY 100 10),
          Call.add (limitOrder 2 OrderSide.SELL 100 4),
          Call.add (limitOrder 3 OrderSide.SELL 99 3)]).trades.map Trade.summary =
        [(1, 2, 100, 4), (1, 3, 100, 3)] ∧
      (bookAfter 8 [Call.setCallback true, Call.add (limitOrder 1 OrderSide.BUY 100 10),
          Call.add (limitOrder 2 OrderSide.SELL 100 4),
          Call.add (limitOrder 3 OrderSide.SELL 99 3)]).trades.map
          (fun tr => (tr.buy.side, tr.sell.side, tr.notified)) =
        [(OrderSide.BUY, OrderSide.SELL, true), (OrderSide.BUY, OrderSide.SELL, true)] :=
  ⟨(C21_trade_orientation _ (bookAfter_reachable _ _ (by decide))).1, by decide, by decide⟩

/-- C30 (immutable identity, monotone remaining quantity): on a reachable book, an `addOrder`
call leaves `orderId`, `clientId`, `symbol`, `type`, `side`, `price` and `quantity` of every
order allocated before as they were and raises the remaining quantity of none of them, and the
order it admits keeps these fields as the caller set them and has at most the remaining quantity
it came with; a `cancelOrder` call, on any book, changes none of these fields of any order and
raises no remaining quantity. -/
theorem C30_identity_and_monotone (s : OrderBook) (h : Reachable s) :
    (∀ o fuel t, o.inRange → s.addNew fuel o = some t →
        (∀ p, p < s.nextPtr → (t.mem p).sameIdentity (s.mem p) ∧
          (t.mem p).remainingQty ≤ (s.mem p).remainingQty) ∧
        (t.mem s.nextPtr).sameIdentity o ∧ (t.mem s.nextPtr).remainingQty ≤ o.remainingQty) ∧
      ∀ (u : OrderBook) (orderId : Nat) (p : Addr),
        ((u.cancelOrder orderId).mem p).sameIdentity (u.mem p) ∧
          ((u.cancelOrder orderId).mem p).remainingQty ≤ (u.mem p).remainingQty := by
  have hs := reachable_wf h
  refine ⟨?_, ?_⟩
  · intro o fuel t ho hadd
    refine ⟨?_, ?_, ?_⟩
    · intro p hp
      obtain ⟨h1, h2, _⟩ := step_mono (Step.add s o fuel t ho hadd) hs p hp
      exact ⟨sameIdentity_of_withRemaining h2, h1⟩
    · exact sameIdentity_of_withRemaining (addNew_new_object h ho hadd).2.1
    · have := (addNew_new_object h ho hadd).1
      omega
  · intro u orderId p
    obtain ⟨h1, h2⟩ := cancelOrder_mono u orderId p
    exact ⟨sameIdentity_of_withRemaining h1, h2⟩

/-- C30 on a buy of 10 at 100 (id 1): a sell of 4 at 100 leaves the buy its identity and lowers
its remaining quantity to 6, and `cancelOrder(1)` then lowers it to 0. -/
theorem C30_identity_and_monotone_witness :
    ((∀ p, p < (bookAfter 8 [Call.add (limitOrder 1 OrderSide.BUY 100 10)]).nextPtr →
          ((bookAfter 8 [Call.add (limitOrder 1 OrderSide.BUY 100 10),
            Call.add (limitOrder 2 OrderSide.SELL 100 4)]).mem p).sameIdentity
            ((bookAfter 8 [Call.add (limitOrder 1 OrderSide.BUY 100 10)]).mem p) ∧
          ((bookAfter 8 [Call.add (limitOrder 1 OrderSide.BUY 100 10),
            Call.add (limitOrder 2 OrderSide.SELL 100 4)]).mem p).remainingQty ≤
            ((bookAfter 8 [Call.add (limitOrder 1 OrderSide.BUY 100 10)]).mem p).remainingQty) ∧
        ((bookAfter 8 [Call.add (limitOrder 1 OrderSide.BUY 100 10),
            Call.add (limitOrder 2 OrderSide.SELL 100 4)]).mem
            (bookAfter 8 [Call.add (limitOrder 1 OrderSide.BUY 100 10)]).nextPtr).sameIdentity
          (limitOrder 2 OrderSide.SELL 100 4) ∧
        ((bookAfter 8 [Call.add (limitOrder 1 OrderSide.BUY 100 10),
            Call.add (limitOrder 2 OrderSide.SELL 100 4)]).mem
            (bookAfter 8 [Call.add (limitOrder 1 OrderSide.BUY 100 10)]).nextPtr).remainingQty ≤
          (limitOrder 2 OrderSide.SELL 100 4).remainingQty) ∧
      ((bookAfter 8 [Call.add (limitOrder 1 OrderSide.BUY 100 10),
          Call.add (limitOrder 2 OrderSide.SELL 100 4)]).mem 0).remainingQty = 6 ∧
      ((bookAfter 8 [Call.add (limitOrder 1 OrderSide.BUY 100 10),
          Call.add (limitOrder 2 OrderSide.SELL 100 4)]).mem 1).remainingQty = 0 ∧
      ((bookAfter 8 [Call.add (limitOrder 1 OrderSide.BUY 100 10),
          Call.add (limitOrder 2 OrderSide.SELL 100 4), Call.cancel 1]).mem 0).remainingQty = 0 ∧
      ((bookAfter 8 [Call.add (limitOrder 1 OrderSide.BUY 100 10),
          Call.add (limitOrder 2 OrderSide.SELL 100 4), Call.cancel 1]).mem 0).sameIdentity
        (limitOrder 1 OrderSide.BUY 100 10) :=
  ⟨(C30_identity_and_monotone (bookAfter 8 [Call.add (limitOrder 1 OrderSide.BUY 100 10)])
      (bookAfter_reachable _ _ (by decide))).1 (limitOrder 2 OrderSide.SELL 100 4) 8
      (bookAfter 8 [Call.add (limitOrder 1 OrderSide.BUY 100 10),
        Call.add (limitOrder 2 OrderSide.SELL 100 4)]) (by decide) rfl,
    by decide, by decide, by decide, by decide⟩

/-- C23 (trade count): in every reachable book `getTotalTrades()` is the number of
`executeTrade` calls made since the book was created, counted in `uint64_t` (so it is that number
as long as fewer than `2^64` fills were made); when a callback was installed from the start,
every one of these fills invoked it, so the invocations are the fills, in their order; an
`addOrder` call appends its fills to the history and adds their number to the counter, which
therefore does not decrease short of the wrap-around; `cancelOrder` and `setTradeCallback` leave
the counter and the history as they are. -/
theorem C23_trade_count (s : OrderBook) (h : Reachable s) :
    s.getTotalTrades = s.trades.length % 2 ^ 64 ∧
      (s.trades.length < 2 ^ 64 → s.getTotalTrades = s.trades.length) ∧
      (WithCallback s → s.trades.filter (fun tr => tr.notified) = s.trades) ∧
      (∀ o fuel t, o.inRange → s.addNew fuel o = some t →
        ∃ ts, t.trades = s.trades ++ ts ∧
          t.getTotalTrades = (s.getTotalTrades + ts.length) % 2 ^ 64 ∧
          (t.trades.length < 2 ^ 64 → s.getTotalTrades ≤ t.getTotalTrades)) ∧
      (∀ orderId, (s.cancelOrder orderId).getTotalTrades = s.getTotalTrades ∧
        (s.cancelOrder orderId).trades = s.trades) ∧
      ∀ cb, (s.setTradeCallback cb).getTotalTrades = s.getTotalTrades ∧
        (s.setTradeCallback cb).trades = s.trades := by
  have hs := reachable_wf h
  have hc : s.totalTrades_ = s.trades.length % 2 ^ 64 := reachable_countOK h
  refine ⟨hc, ?_, ?_, ?_, ?_, ?_⟩
  · intro hlt
    show s.totalTrades_ = s.trades.length
    rw [hc, Nat.mod_eq_of_lt hlt]
  · intro hw
    rw [List.filter_eq_self]
    exact (withCallback_notified hw).2
  · intro o fuel t ho hadd
    obtain ⟨ts, hts, _, _⟩ := addNew_appends hs ho hadd
    have hct : t.totalTrades_ = t.trades.length % 2 ^ 64 :=
      reachable_countOK (Reachable.step h (Step.add s o fuel t ho hadd))
    refine ⟨ts, hts, ?_, ?_⟩
    · show t.totalTrades_ = (s.totalTrades_ + ts.length) % 2 ^ 64
      rw [hct, hts, List.length_append, hc]
      omega
    · intro hlt
      show s.totalTrades_ ≤ t.totalTrades_
      rw [hct, Nat.mod_eq_of_lt hlt, hc, hts, List.length_append]
      exact le_trans (Nat.mod_le _ _) (Nat.le_add_right _ _)
  · intro orderId
    exact ⟨cancelOrder_totalTrades _ _, cancelOrder_trades _ _⟩
  · intro cb
    exact ⟨rfl, rfl⟩

/-- C23 on a buy of 10 at 100 met by sells of 4 and 3, with the callback installed first: two
fills, `getTotalTrades()` is 2, and both fills invoked the callback. -/
theorem C23_trade_count_witness :
    (bookAfter 8 [Call.setCallback true, Call.add (limitOrder 1 OrderSide.BUY 100 10),
        Call.add (limitOrder 2 OrderSide.SELL 100 4),
        Call.add (limitOrder 3 OrderSide.SELL 99 3)]).getTotalTrades =
        (bookAfter 8 [Call.setCallback true, Call.add (limitOrder 1 OrderSide.BUY 100 10),
          Call.add (limitOrder 2 OrderSide.SELL 100 4),
          Call.add (limitOrder 3 OrderSide.SELL 99 3)]).trades.length % 2 ^ 64 ∧
      (bookAfter 8 [Call.setCallback true, Call.add (limitOrder 1 OrderSide.BUY 100 10),
        Call.add (limitOrder 2 OrderSide.SELL 100 4),
        Call.add (limitOrder 3 OrderSide.SELL 99 3)]).getTotalTrades = 2 ∧
      (bookAfter 8 [Call.setCallback true, Call.add (limitOrder 1 OrderSide.BUY 100 10),
        Call.add (limitOrder 2 OrderSide.SELL 100 4),
        Call.add (limitOrder 3 OrderSide.SELL 99 3)]).trades.length = 2 ∧
      ((bookAfter 8 [Call.setCallback true, Call.add (limitOrder 1 OrderSide.BUY 100 10),
        Call.add (limitOrder 2 OrderSide.SELL 100 4),
        Call.add (limitOrder 3 OrderSide.SELL 99 3)]).trades.filter
          (fun tr => tr.notified)).length = 2 ∧
      (bookAfter 8 [Call.setCallback true, Call.add (limitOrder 1 OrderSide.BUY 100 10),
        Call.add (limitOrder 2 OrderSide.SELL 100 4),
        Call.add (limitOrder 3 OrderSide.SELL 99 3), Call.cancel 1]).getTotalTrades = 2 :=
  ⟨(C23_trade_count _ (bookAfter_reachable _ _ (by decide))).1,
    by decide, by decide, by decide, by decide⟩

/-- C28 (matching is total): on every reachable book and for every incoming order whose fields
are within their widths (valid or not; prices are never NaN here), `addOrder` returns: there is
a book `t` that the call returns for every step budget from some bound on, no budget makes it
return another book, and `t` is again a reachable, well-formed book. -/
theorem C28_matching_total (s : OrderBook) (h : Reachable s) (o : Order) (ho : o.inRange) :
    ∃ t, (∃ bound, ∀ fuel, bound ≤ fuel → s.addNew fuel o = some t) ∧
      (∀ fuel t2, s.addNew fuel o = some t2 → t2 = t) ∧ Reachable t ∧ WF t := by
  obtain ⟨fuel, t, hadd⟩ := addNew_total (reachable_wf h) ho
  have hr : Reachable t := Reachable.step h (Step.add s o fuel t ho hadd)
  exact ⟨t, ⟨fuel, addNew_mono_le hadd⟩, fun fuel2 t2 h2 => addNew_unique h2 hadd, hr,
    reachable_wf hr⟩

/-- C28 on a book with sells of 5 at 100, 101 and 102, for a buy of 12 at 101: the call returns
with two fills, whatever budget from 8 on. -/
theorem C28_matching_total_witness :
    (∃ t, (∃ bound, ∀ fuel, bound ≤ fuel →
          (bookAfter 8 [Call.add (limitOrder 1 OrderSide.SELL 100 5),
            Call.add (limitOrder 2 OrderSide.SELL 101 5),
            Call.add (limitOrder 3 OrderSide.SELL 102 5)]).addNew fuel
            (limitOrder 4 OrderSide.BUY 101 12) = some t) ∧
        (∀ fuel t2, (bookAfter 8 [Call.add (limitOrder 1 OrderSide.SELL 100 5),
            Call.add (limitOrder 2 OrderSide.SELL 101 5),
            Call.add (limitOrder 3 OrderSide.SELL 102 5)]).addNew fuel
            (limitOrder 4 OrderSide.BUY 101 12) = some t2 → t2 = t) ∧
        Reachable t ∧ WF t) ∧
      (bookAfter 8 [Call.add (limitOrder 1 OrderSide.SELL 100 5),
        Call.add (limitOrder 2 OrderSide.SELL 101 5),
        Call.add (limitOrder 3 OrderSide.SELL 102 5),
        Call.add (limitOrder 4 OrderSide.BUY 101 12)]).trades.map Trade.summary =
        [(4, 1, 100, 5), (4, 2, 101, 5)] ∧
      (bookAfter 8 [Call.add (limitOrder 1 OrderSide.SELL 100 5),
        Call.add (limitOrder 2 OrderSide.SELL 101 5),
        Call.add (limitOrder 3 OrderSide.SELL 102 5),
        Call.add (limitOrder 4 OrderSide.BUY 101 12)]).bids_ = [(101, [3])] ∧
      (bookAfter 8 [Call.add (limitOrder 1 OrderSide.SELL 100 5),
        Call.add (limitOrder 2 OrderSide.SELL 101 5),
        Call.add (limitOrder 3 OrderSide.SELL 102 5),
        Call.add (limitOrder 4 OrderSide.BUY 101 12)]).asks_ = [(102, [2])] :=
  ⟨C28_matching_total _ (bookAfter_reachable _ _ (by decide))
      (limitOrder 4 OrderSide.BUY 101 12) (by decide),
    by decide, by decide, by decide⟩

/-- C29 (matcher dispatch), what the code does: a pass of the worker loop gives the front intent
to `addOrder` whatever its type, and never calls `cancelOrder`. On a book where BUY id 1 at 100
for 10 rests, a CANCEL-typed intent with id 1 on the SELL side trades 10 at 100 against that
buy; on the BUY side it comes to rest behind it; in both cases the outcome differs from that of
`cancelOrder(1)`, which would leave an empty book with no trade. -/
theorem C29_cancel_intent_is_added :
    (∀ (fuel : Nat) (m : Matcher) (o : Order) (rest : List Order), m.orderQueue_ = o :: rest →
        (m.iterate fuel).map Matcher.book_ = m.book_.addNew fuel o) ∧
      (cancelIntentMatcher OrderSide.SELL).orderQueue_.map Order.type = [OrderType.CANCEL] ∧
      ((cancelIntentMatcher OrderSide.SELL).iterate 8).map
          (fun m => m.book_.trades.map Trade.summary) = some [(1, 1, 100, 10)] ∧
      ((cancelIntentMatcher OrderSide.SELL).iterate 8).map
          (fun m => m.book_.getTotalTrades) = some 1 ∧
      ((cancelIntentMatcher OrderSide.SELL).iterate 8).map
          (fun m => m.book_.trades.map (fun tr => tr.sell.type)) = some [OrderType.CANCEL] ∧
      ((cancelIntentMatcher OrderSide.BUY).iterate 8).map
          (fun m => m.book_.bids_) = some [(100, [0, 1])] ∧
      ((cancelIntentMatcher OrderSide.BUY).iterate 8).map
          (fun m => ((m.book_.mem 1).type, (m.book_.mem 0).remainingQty)) =
        some (OrderType.CANCEL, 10) ∧
      ((cancelIntentMatcher OrderSide.SELL).book_.cancelOrder 1).bids_ = [] ∧
      ((cancelIntentMatcher OrderSide.SELL).book_.cancelOrder 1).trades = [] := by
  refine ⟨?_, by decide, by decide, by decide, by decide, by decide, by decide, by decide,
    by decide⟩
  intro fuel m o rest hq
  unfold Matcher.iterate
  rw [hq]
  cases hadd : m.book_.addNew fuel o <;> simp [hadd]

/-- C22 (fill quantity): on a reachable book, the trades `ts` that an `addOrder` call appends to
the history are right fills (`FillsOK`): each has the quantity `min` of what the incoming order
and the resting order have left immediately before it, the callback sees both lowered by exactly
that quantity (as sums in the naturals: no subtraction wraps around), and no resting order is
filled twice in one call; every trade is between the incoming order and an order that rested on
the opposite side; the quantities of the trades sum to what the incoming order has lost, and to
what the orders resting on the opposite side have lost in total. -/
theorem C22_fill_quantity (s : OrderBook) (h : Reachable s) (o : Order) (ho : o.inRange)
    (fuel : Nat) (t : OrderBook) (hadd : s.addNew fuel o = some t) :
    ∃ ts, t.trades = s.trades ++ ts ∧ FillsOK o.side s.mem o.remainingQty ts ∧
      (∀ tr ∈ ts, tr.takerPtr o.side = s.nextPtr ∧
        tr.makerPtr o.side ∈ resting (s.opposite o.side)) ∧
      (t.mem s.nextPtr).remainingQty + (ts.map Trade.qty).sum = o.remainingQty ∧
      restingQty t.mem (t.opposite o.side) + (ts.map Trade.qty).sum =
        restingQty s.mem (s.opposite o.side) := by
  have hs := reachable_wf h
  have hold : ∀ a ∈ resting (s.opposite o.side), (s.alloc o).mem a = s.mem a := by
    intro a ha
    exact alloc_mem_other s o (Nat.ne_of_lt (resting_opp_lt hs ha))
  cases hv : o.isValid with
  | false =>
    rw [addNew_invalid hv hadd]
    refine ⟨[], by simp, trivial, ?_, by simp, ?_⟩
    · intro tr htr; cases htr
    · rw [alloc_opposite]
      simp only [List.map_nil, List.sum_nil, Nat.add_zero]
      exact restingQty_congr (fun a ha => by rw [hold a ha])
  | true =>
    obtain ⟨s1, hsteps, _, ht, hwf0, hnr0, _, _⟩ := addNew_run hs ho hv hadd
    obtain ⟨ts, hts, hfills, hall, hsum, hrsum⟩ := msteps_fills hsteps hwf0 hnr0
    obtain ⟨_, _, _, hfields⟩ := msteps_frame hsteps
    have hp0 : ((s.alloc o).indexed s.nextPtr).mem s.nextPtr = o := by
      rw [indexed_mem]; exact alloc_mem_self s o
    have hside1 : (s1.mem s.nextPtr).side = o.side := by
      rw [hfields s.nextPtr, withRemaining_side, hp0]
    rw [hp0] at hfills hsum
    rw [indexed_opposite, alloc_opposite] at hall hrsum
    rw [indexed_mem] at hfills hrsum
    rw [indexed_trades, alloc_trades] at hts
    refine ⟨ts, by rw [ht, restResidual_trades, hts], ?_, hall, ?_, ?_⟩
    · exact fillsOK_congr ts _ (fun tr htr => by rw [hold _ (hall tr htr).2]) hfills
    · rw [ht, restResidual_mem]; exact hsum
    · have hopp : (s1.restResidual s.nextPtr).opposite o.side = s1.opposite o.side := by
        have := restResidual_opposite s1 s.nextPtr
        rw [hside1] at this
        exact this
      rw [ht, restResidual_mem, hopp, hrsum]
      exact restingQty_congr (fun a ha => by rw [hold a ha])

/-- C22 on sells of 5 at 100 and 5 at 101 met by a buy of 7 at 101: two fills, of 5 and of 2;
the buy is used up, the second sell keeps 3, and the ask side has lost 7. -/
theorem C22_fill_quantity_witness :
    (∃ ts, (bookAfter 8 [Call.add (limitOrder 1 OrderSide.SELL 100 5),
          Call.add (limitOrder 2 OrderSide.SELL 101 5),
          Call.add (limitOrder 3 OrderSide.BUY 101 7)]).trades =
          (bookAfter 8 [Call.add (limitOrder 1 OrderSide.SELL 100 5),
            Call.add (limitOrder 2 OrderSide.SELL 101 5)]).trades ++ ts ∧
        FillsOK (limitOrder 3 OrderSide.BUY 101 7).side
          (bookAfter 8 [Call.add (limitOrder 1 OrderSide.SELL 100 5),
            Call.add (limitOrder 2 OrderSide.SELL 101 5)]).mem
          (limitOrder 3 OrderSide.BUY 101 7).remainingQty ts ∧
        (∀ tr ∈ ts, tr.takerPtr (limitOrder 3 OrderSide.BUY 101 7).side =
            (bookAfter 8 [Call.add (limitOrder 1 OrderSide.SELL 100 5),
              Call.add (limitOrder 2 OrderSide.SELL 101 5)]).nextPtr ∧
          tr.makerPtr (limitOrder 3 OrderSide.BUY 101 7).side ∈
            resting ((bookAfter 8 [Call.add (limitOrder 1 OrderSide.SELL 100 5),
              Call.add (limitOrder 2 OrderSide.SELL 101 5)]).opposite
                (limitOrder 3 OrderSide.BUY 101 7).side)) ∧
        ((bookAfter 8 [Call.add (limitOrder 1 OrderSide.SELL 100 5),
            Call.add (limitOrder 2 OrderSide.SELL 101 5),
            Call.add (limitOrder 3 OrderSide.BUY 101 7)]).mem
            (bookAfter 8 [Call.add (limitOrder 1 OrderSide.SELL 100 5),
              Call.add (limitOrder 2 OrderSide.SELL 101 5)]).nextPtr).remainingQty +
          (ts.map Trade.qty).sum = (limitOrder 3 OrderSide.BUY 101 7).remainingQty ∧
        restingQty (bookAfter 8 [Call.add (limitOrder 1 OrderSide.SELL 100 5),
            Call.add (limitOrder 2 OrderSide.SELL 101 5),
            Call.add (limitOrder 3 OrderSide.BUY 101 7)]).mem
            ((bookAfter 8 [Call.add (limitOrder 1 OrderSide.SELL 100 5),
              Call.add (limitOrder 2 OrderSide.SELL 101 5),
              Call.add (limitOrder 3 OrderSide.BUY 101 7)]).opposite
                (limitOrder 3 OrderSide.BUY 101 7).side) +
          (ts.map Trade.qty).sum =
          restingQty (bookAfter 8 [Call.add (limitOrder 1 OrderSide.SELL 100 5),
            Call.add (limitOrder 2 OrderSide.SELL 101 5)]).mem
            ((bookAfter 8 [Call.add (limitOrder 1 OrderSide.SELL 100 5),
              Call.add (limitOrder 2 OrderSide.SELL 101 5)]).opposite
                (limitOrder 3 OrderSide.BUY 101 7).side)) ∧
      (bookAfter 8 [Call.add (limitOrder 1 OrderSide.SELL 100 5),
        Call.add (limitOrder 2 OrderSide.SELL 101 5),
        Call.add (limitOrder 3 OrderSide.BUY 101 7)]).trades.map Trade.summary =
        [(3, 1, 100, 5), (3, 2, 101, 2)] ∧
      (bookAfter 8 [Call.add (limitOrder 1 OrderSide.SELL 100 5),
        Call.add (limitOrder 2 OrderSide.SELL 101 5),
        Call.add (limitOrder 3 OrderSide.BUY 101 7)]).trades.map
          (fun tr => (tr.buy.remainingQty, tr.sell.remainingQty)) = [(2, 0), (0, 3)] ∧
      restingQty (bookAfter 8 [Call.add (limitOrder 1 OrderSide.SELL 100 5),
        Call.add (limitOrder 2 OrderSide.SELL 101 5)]).mem
        (bookAfter 8 [Call.add (limitOrder 1 OrderSide.SELL 100 5),
          Call.add (limitOrder 2 OrderSide.SELL 101 5)]).asks_ = 10 ∧
      restingQty (bookAfter 8 [Call.add (limitOrder 1 OrderSide.SELL 100 5),
        Call.add (limitOrder 2 OrderSide.SELL 101 5),
        Call.add (limitOrder 3 OrderSide.BUY 101 7)]).mem
        (bookAfter 8 [Call.add (limitOrder 1 OrderSide.SELL 100 5),
          Call.add (limitOrder 2 OrderSide.SELL 101 5),
          Call.add (limitOrder 3 OrderSide.BUY 101 7)]).asks_ = 3 :=
  ⟨C22_fill_quantity _ (bookAfter_reachable _ _ (by decide))
      (limitOrder 3 OrderSide.BUY 101 7) (by decide) 8
      (bookAfter 8 [Call.add (limitOrder 1 OrderSide.SELL 100 5),
        Call.add (limitOrder 2 OrderSide.SELL 101 5),
        Call.add (limitOrder 3 OrderSide.BUY 101 7)]) rfl,
    by decide, by decide, by decide, by decide⟩

/-- C36 (over-fill is ignored): for an order whose `remainingQty` fits `uint32_t`, a call
`updateRemainingQty(q)` with `q` greater than `remainingQty` leaves the whole order as it is;
for every `q` the call does not raise `remainingQty`, does not change `quantity`, and when it
does fill, the new `remainingQty` and `q` sum to the old one, so the `uint32_t` subtraction
does not wrap around. -/
theorem C36_overfill_ignored (o : Order) (q now : Nat) (hr : o.remainingQty < 2 ^ 32) :
    (o.remainingQty < q → o.updateRemainingQty q now = o) ∧
      (o.updateRemainingQty q now).remainingQty ≤ o.remainingQty ∧
      (q ≤ o.remainingQty → (o.updateRemainingQty q now).remainingQty + q = o.remainingQty) ∧
      (o.updateRemainingQty q now).quantity = o.quantity ∧
      (o.updateRemainingQty q now).remainingQty < 2 ^ 32 := by
  unfold Order.updateRemainingQty
  by_cases hq : q ≤ o.remainingQty
  · rw [if_pos hq]
    have hs : sub32 o.remainingQty q = o.remainingQty - q := sub32_of_le hr hq
    refine ⟨fun h => absurd hq (Nat.not_le.2 h), ?_, ?_, rfl, ?_⟩
    · show sub32 o.remainingQty q ≤ o.remainingQty
      rw [hs]; exact Nat.sub_le _ _
    · intro _
      show sub32 o.remainingQty q + q = o.remainingQty
      rw [hs]; omega
    · show sub32 o.remainingQty q < 2 ^ 32
      rw [hs]; omega
  · rw [if_neg hq]
    exact ⟨fun _ => rfl, le_refl _, fun h => absurd h hq, rfl, hr⟩

/-- C36 on an order of 100 with 45 left: a fill of 46 changes nothing, a fill of 45 uses it
up. -/
theorem C36_overfill_ignored_witness :
    ((Order.mk8 10 500 "AMZN" OrderType.LIMIT OrderSide.BUY 3200 100 0 0).withRemaining
          45).updateRemainingQty 46 9 =
        (Order.mk8 10 500 "AMZN" OrderType.LIMIT OrderSide.BUY 3200 100 0 0).withRemaining 45 ∧
      (((Order.mk8 10 500 "AMZN" OrderType.LIMIT OrderSide.BUY 3200 100 0 0).withRemaining
          45).updateRemainingQty 45 9).remainingQty = 0 ∧
      (((Order.mk8 10 500 "AMZN" OrderType.LIMIT OrderSide.BUY 3200 100 0 0).withRemaining
          45).updateRemainingQty (2 ^ 32 - 1) 9).remainingQty = 45 :=
  ⟨(C36_overfill_ignored
      ((Order.mk8 10 500 "AMZN" OrderType.LIMIT OrderSide.BUY 3200 100 0 0).withRemaining 45)
      46 9 (by decide)).1 (by decide),
    by decide, by decide⟩

/-- C35 (no zero-quantity maker): in every reachable book every order resting in a price level
has `remainingQty > 0`, every trade of the history has a positive quantity, and every trade an
`addOrder` call appends has a positive quantity. -/
theorem C35_no_zero_maker (s : OrderBook) (h : Reachable s) :
    (∀ l, (l ∈ s.bids_ ∨ l ∈ s.asks_) → ∀ a ∈ l.2, 0 < (s.mem a).remainingQty) ∧
      (∀ tr ∈ s.trades, 0 < tr.qty) ∧
      ∀ o fuel t, o.inRange → s.addNew fuel o = some t →
        ∃ ts, t.trades = s.trades ++ ts ∧ ∀ tr ∈ ts, 0 < tr.qty := by
  have hs := reachable_wf h
  refine ⟨?_, reachable_positive h, fun o fuel t ho hadd => addNew_positive hs ho hadd⟩
  intro l hl a ha
  rcases hl with hl | hl
  · exact ((hs.bids.2 l hl).2 a ha).2.2.2
  · exact ((hs.asks.2 l hl).2 a ha).2.2.2

/-- C35 on a buy of 10 at 100 met by sells of 4 and 6: the first sell leaves the buy resting
with 6, the second uses it up and it is gone from its level; both trades are positive. -/
theorem C35_no_zero_maker_witness :
    (∀ l, (l ∈ (bookAfter 8 [Call.add (limitOrder 1 OrderSide.BUY 100 10),
          Call.add (limitOrder 2 OrderSide.SELL 100 4)]).bids_ ∨
        l ∈ (bookAfter 8 [Call.add (limitOrder 1 OrderSide.BUY 100 10),
          Call.add (limitOrder 2 OrderSide.SELL 100 4)]).asks_) →
        ∀ a ∈ l.2, 0 < ((bookAfter 8 [Call.add (limitOrder 1 OrderSide.BUY 100 10),
          Call.add (limitOrder 2 OrderSide.SELL 100 4)]).mem a).remainingQty) ∧
      (bookAfter 8 [Call.add (limitOrder 1 OrderSide.BUY 100 10),
        Call.add (limitOrder 2 OrderSide.SELL 100 4)]).bids_ = [(100, [0])] ∧
      ((bookAfter 8 [Call.add (limitOrder 1 OrderSide.BUY 100 10),
        Call.add (limitOrder 2 OrderSide.SELL 100 4)]).mem 0).remainingQty = 6 ∧
      (bookAfter 8 [Call.add (limitOrder 1 OrderSide.BUY 100 10),
        Call.add (limitOrder 2 OrderSide.SELL 100 4),
        Call.add (limitOrder 3 OrderSide.SELL 100 6)]).bids_ = [] ∧
      (bookAfter 8 [Call.add (limitOrder 1 OrderSide.BUY 100 10),
        Call.add (limitOrder 2 OrderSide.SELL 100 4),
        Call.add (limitOrder 3 OrderSide.SELL 100 6)]).trades.map Trade.qty = [4, 6] :=
  ⟨(C35_no_zero_maker _ (bookAfter_reachable _ _ (by decide))).1,
    by decide, by decide, by decide, by decide⟩

/-- C32 (enum lookup in the parser): for every string `s`, `stringToOrderType(s)` returns the
type `v` exactly when the upper-cased `s` is the printed name of `v`, and throws exactly when the
upper-cased `s` is none of MARKET, LIMIT, STOP, STOP_LIMIT, CANCEL, MODIFY; `stringToOrderSide(s)`
returns `v` exactly when the upper-cased `s` is the printed name of `v` and throws exactly when
it is neither BUY nor SELL; the printed names are their own upper-casing, so a printed name in
any letter case is looked up to its value. -/
theorem C32_enum_lookup (s : List Char) :
    (∀ v, OrderParser.stringToOrderType s = some v ↔
        OrderParser.toUpper s = (orderTypeToString v).data) ∧
      (OrderParser.stringToOrderType s = none ↔
        OrderParser.toUpper s ∉ ["MARKET".data, "LIMIT".data, "STOP".data, "STOP_LIMIT".data,
          "CANCEL".data, "MODIFY".data]) ∧
      (∀ v, OrderParser.stringToOrderSide s = some v ↔
        OrderParser.toUpper s = (orderSideToString v).data) ∧
      (OrderParser.stringToOrderSide s = none ↔
        OrderParser.toUpper s ∉ ["BUY".data, "SELL".data]) ∧
      (∀ v : OrderType,
        OrderParser.toUpper (orderTypeToString v).data = (orderTypeToString v).data) ∧
      (∀ v : OrderSide,
        OrderParser.toUpper (orderSideToString v).data = (orderSideToString v).data) ∧
      OrderParser.stringToOrderType "Stop_Limit".data = some OrderType.STOP_LIMIT ∧
      OrderParser.stringToOrderType "market".data = some OrderType.MARKET ∧
      OrderParser.stringToOrderType "LIMITS".data = none ∧
      OrderParser.stringToOrderSide "sElL".data = some OrderSide.SELL ∧
      OrderParser.stringToOrderSide "".data = none := by
  refine ⟨?_, ?_, ?_, ?_, ?_, ?_, by decide, by decide, by decide, by decide, by decide⟩
  · intro v
    simp only [OrderParser.stringToOrderType]
    generalize OrderParser.toUpper s = u
    by_cases h1 : u = "MARKET".data
    · subst h1; cases v <;> decide
    by_cases h2 : u = "LIMIT".data
    · subst h2; cases v <;> decide
    by_cases h3 : u = "STOP".data
    · subst h3; cases v <;> decide
    by_cases h4 : u = "STOP_LIMIT".data
    · subst h4; cases v <;> decide
    by_cases h5 : u = "CANCEL".data
    · subst h5; cases v <;> decide
    by_cases h6 : u = "MODIFY".data
    · subst h6; cases v <;> decide
    rw [if_neg h1, if_neg h2, if_neg h3, if_neg h4, if_neg h5, if_neg h6]
    constructor
    · intro h; cases h
    · intro h
      cases v
      · exact absurd h h1
      · exact absurd h h2
      · exact absurd h h3
      · exact absurd h h4
      · exact absurd h h5
      · exact absurd h h6
  · simp only [OrderParser.stringToOrderType]
    generalize OrderParser.toUpper s = u
    by_cases h1 : u = "MARKET".data
    · subst h1; decide
    by_cases h2 : u = "LIMIT".data
    · subst h2; decide
    by_cases h3 : u = "STOP".data
    · subst h3; decide
    by_cases h4 : u = "STOP_LIMIT".data
    · subst h4; decide
    by_cases h5 : u = "CANCEL".data
    · subst h5; decide
    by_cases h6 : u = "MODIFY".data
    · subst h6; decide
    rw [if_neg h1, if_neg h2, if_neg h3, if_neg h4, if_neg h5, if_neg h6]
    simp only [List.mem_cons, List.mem_singleton, List.not_mem_nil, or_false, not_or, true_iff]
    exact ⟨h1, h2, h3, h4, h5, h6⟩
  · intro v
    simp only [OrderParser.stringToOrderSide]
    generalize OrderParser.toUpper s = u
    by_cases h1 : u = "BUY".data
    · subst h1; cases v <;> decide
    by_cases h2 : u = "SELL".data
    · subst h2; cases v <;> decide
    rw [if_neg h1, if_neg h2]
    constructor
    · intro h; cases h
    · intro h
      cases v
      · exact absurd h h1
      · exact absurd h h2
  · simp only [OrderParser.stringToOrderSide]
    generalize OrderParser.toUpper s = u
    by_cases h1 : u = "BUY".data
    · subst h1; decide
    by_cases h2 : u = "SELL".data
    · subst h2; decide
    rw [if_neg h1, if_neg h2]
    simp only [List.mem_cons, List.mem_singleton, List.not_mem_nil, or_false, not_or, true_iff]
    exact ⟨h1, h2⟩
  · intro v; cases v <;> decide
  · intro v; cases v <;> decide

/-- C31, counterexample: the JSON object with the members symbol, quantity, type and side has no
member orderId, yet `parse` returns a valid order for it, with the order id 5. The search for the
quoted name finds it at index 10, where it is the value of symbol, and the number after the next
colon (index 30), which is the quantity, is read as the order id. -/
theorem C31_parser_returns_valid_counterexample :
    OrderParser.parse glibcConv 7
        "\x7b\"symbol\":\"orderId\",\"quantity\":5,\"type\":\"limit\",\"side\":\"buy\"\x7d" =
        some (Order.mk 5 0 "orderId" OrderType.LIMIT OrderSide.BUY 0 5 5 7 7 0) ∧
      (Order.mk 5 0 "orderId" OrderType.LIMIT OrderSide.BUY 0 5 5 7 7 0).isValid = true ∧
      findFrom
        "\x7b\"symbol\":\"orderId\",\"quantity\":5,\"type\":\"limit\",\"side\":\"buy\"\x7d".data
        (searchKey "orderId".data) 0 = some 10 ∧
      findFrom
        "\x7b\"symbol\":\"orderId\",\"quantity\":5,\"type\":\"limit\",\"side\":\"buy\"\x7d".data
        [colonChar] 10 = some 30 ∧
      OrderParser.extractJsonString
        "\x7b\"symbol\":\"orderId\",\"quantity\":5,\"type\":\"limit\",\"side\":\"buy\"\x7d".data
        "symbol".data = some "orderId".data := by
  decide

/-- C31, amended (the parser only returns valid orders): whatever the numeric conversions of the
library do, an order returned by `parse`, `parseJson`, `parseCsv` or `parsePipeDelimited`
satisfies `isValid`, that is `orderId > 0`, `quantity > 0` and a non-empty symbol; and a JSON
text that nowhere holds the quoted name of one of the keys orderId, symbol, type, side, quantity
(not as a member name and not inside a value either) is rejected by `parseJson`, and by `parse`
when the text is enclosed in braces. -/
theorem C31_parser_returns_valid (lib : StdConv) (now : Nat) :
    (∀ (input : String) (o : Order), OrderParser.parse lib now input = some o →
        o.isValid = true ∧ 0 < o.orderId ∧ 0 < o.quantity ∧ o.symbol ≠ "") ∧
      (∀ (text : List Char) (o : Order),
        (OrderParser.parseJson lib now text = some o ∨
          OrderParser.parseCsv lib now text = some o ∨
          OrderParser.parsePipeDelimited lib now text = some o) → o.isValid = true) ∧
      (∀ (json : List Char) (key : String),
        key ∈ ["orderId", "symbol", "type", "side", "quantity"] → quotedKeyAbsent json key →
        OrderParser.parseJson lib now json = none) ∧
      ∀ (input : String) (key : String),
        key ∈ ["orderId", "symbol", "type", "side", "quantity"] → quotedKeyAbsent input.data key →
        input.data.head? = some openBrace → input.data.getLast? = some closeBrace →
        OrderParser.parse lib now input = none := by
  have hthree : ∀ (text : List Char) (o : Order),
      (OrderParser.parseJson lib now text = some o ∨
        OrderParser.parseCsv lib now text = some o ∨
        OrderParser.parsePipeDelimited lib now text = some o) → o.isValid = true := by
    intro text o h
    rcases h with h | h | h
    · exact (checked_valid h).1
    · exact (checked_valid h).1
    · exact (checked_valid h).1
  have hjson : ∀ (json : List Char) (key : String),
      key ∈ ["orderId", "symbol", "type", "side", "quantity"] → quotedKeyAbsent json key →
      OrderParser.parseJson lib now json = none := by
    intro json key hkey hlack
    cases hp : OrderParser.parseJson lib now json with
    | none => rfl
    | some o =>
      exfalso
      obtain ⟨hv, hf⟩ := checked_valid hp
      obtain ⟨hid, hq, ⟨sym, hsym⟩, ⟨ty, hty⟩, ⟨sd, hsd⟩⟩ := jsonFields_values hf
      obtain ⟨hpos1, hpos2, _⟩ := (isValid_iff o).1 hv
      simp only [List.mem_cons, List.mem_singleton, List.not_mem_nil, or_false] at hkey
      rcases hkey with rfl | rfl | rfl | rfl | rfl
      · rw [hid, extractJsonValue_of_absent lib.u64 hlack] at hpos1
        exact lt_irrefl _ hpos1
      · rw [extractJsonString_of_absent hlack] at hsym; cases hsym
      · rw [extractJsonString_of_absent hlack] at hty; cases hty
      · rw [extractJsonString_of_absent hlack] at hsd; cases hsd
      · rw [hq, extractJsonValue_of_absent lib.u32 hlack] at hpos2
        exact lt_irrefl _ hpos2
  refine ⟨?_, hthree, hjson, ?_⟩
  · intro input o h
    have hv : o.isValid = true := by
      unfold OrderParser.parse at h
      split_ifs at h
      · exact hthree _ o (Or.inl h)
      · exact hthree _ o (Or.inr (Or.inl h))
      · exact hthree _ o (Or.inr (Or.inr h))
    exact ⟨hv, (isValid_iff o).1 hv⟩
  · intro input key hkey hlack hfront hback
    unfold OrderParser.parse
    by_cases h1 : input.data = []
    · rw [if_pos h1]
    · rw [if_neg h1, if_pos ⟨hfront, hback⟩]
      exact hjson _ key hkey hlack

/-- C31 amended, on inputs read with the conversions of the library: a JSON text, a CSV line and
a pipe-delimited line are returned as valid orders; a JSON text that nowhere holds the quoted
name quantity, a CSV line with order id 0, a line with an empty symbol and a line whose quantity
`2^32` is cut to 0 are rejected; the price 0.1 is the nearest double, the quantity text 1e2 is
read as 1, and the price text 0x10 as 16. -/
theorem C31_parser_returns_valid_witness :
    ((Order.mk 1 0 "AAPL" OrderType.LIMIT OrderSide.BUY (mkRat 201 2) 10 10 7 7 0).isValid = true ∧
        0 < (Order.mk 1 0 "AAPL" OrderType.LIMIT OrderSide.BUY (mkRat 201 2) 10 10 7 7 0).orderId ∧
        0 < (Order.mk 1 0 "AAPL" OrderType.LIMIT OrderSide.BUY (mkRat 201 2) 10 10 7 7 0).quantity ∧
        (Order.mk 1 0 "AAPL" OrderType.LIMIT OrderSide.BUY (mkRat 201 2) 10 10 7 7 0).symbol ≠ "") ∧
      OrderParser.parse glibcConv 7
        "\x7b\"orderId\": 1, \"symbol\": \"AAPL\", \"type\": \"limit\", \"side\": \"buy\", \"price\": 100.5, \"quantity\": 10\x7d" =
        some (Order.mk 1 0 "AAPL" OrderType.LIMIT OrderSide.BUY (mkRat 201 2) 10 10 7 7 0) ∧
      OrderParser.parse glibcConv 7 "2, MSFT ,market,SELL,250.75,50,456" =
        some (Order.mk 2 456 "MSFT" OrderType.MARKET OrderSide.SELL (mkRat 1003 4) 50 50 7 7 0) ∧
      OrderParser.parse glibcConv 7 "3|TSLA|STOP|buy|800|5" =
        some (Order.mk 3 0 "TSLA" OrderType.STOP OrderSide.BUY 800 5 5 7 7 0) ∧
      OrderParser.parse glibcConv 7
        "\x7b\"orderId\": 1, \"symbol\": \"AAPL\", \"type\": \"limit\", \"side\": \"buy\", \"price\": 100.5\x7d" =
        none ∧
      OrderParser.parse glibcConv 7 "0,MSFT,market,SELL,250.75,50" = none ∧
      OrderParser.parse glibcConv 7 "3| |STOP|buy|800|5" = none ∧
      OrderParser.parse glibcConv 7 "3|TSLA|STOP|buy|800|4294967296" = none ∧
      OrderParser.parse glibcConv 7 "4,IBM,limit,buy,0.1,1e2" =
        some (Order.mk 4 0 "IBM" OrderType.LIMIT OrderSide.BUY
          (mkRat 3602879701896397 36028797018963968) 1 1 7 7 0) ∧
      OrderParser.parse glibcConv 7 "6|IBM|limit|sell| 0x10|2" =
        some (Order.mk 6 0 "IBM" OrderType.LIMIT OrderSide.SELL 16 2 2 7 7 0) ∧
      OrderParser.parseJson glibcConv 7
        "\x7b\"orderId\": 1, \"symbol\": \"AAPL\", \"type\": \"limit\", \"side\": \"buy\", \"price\": 100.5\x7d".data =
        none :=
  ⟨(C31_parser_returns_valid glibcConv 7).1
      "\x7b\"orderId\": 1, \"symbol\": \"AAPL\", \"type\": \"limit\", \"side\": \"buy\", \"price\": 100.5, \"quantity\": 10\x7d"
      (Order.mk 1 0 "AAPL" OrderType.LIMIT OrderSide.BUY (mkRat 201 2) 10 10 7 7 0) (by decide),
    by decide, by decide, by decide, by decide, by decide, by decide, by decide, by decide,
    by decide,
    (C31_parser_returns_valid glibcConv 7).2.2.1
      "\x7b\"orderId\": 1, \"symbol\": \"AAPL\", \"type\": \"limit\", \"side\": \"buy\", \"price\": 100.5\x7d".data
      "quantity" (by decide) (absent_of_findFrom (by decide))⟩

/-- C33, counterexample: after `start`, one `submitOrder` and three actions of the worker (loop
test, pop, `addOrder`), one order has been applied to the book, where it rests, while
`getProcessedOrders()` is still 0: the counter is incremented only after `addOrder` returns. -/
theorem C33_matcher_order_counterexample :
    ((Engine.init OrderBook.empty).run
        [Event.start, Event.submit (limitOrder 1 OrderSide.BUY 100 10), Event.work 8,
          Event.work 8, Event.work 8]).map (fun e => e.applied.map Order.orderId) = some [1] ∧
      ((Engine.init OrderBook.empty).run
        [Event.start, Event.submit (limitOrder 1 OrderSide.BUY 100 10), Event.work 8,
          Event.work 8, Event.work 8]).map (fun e => e.matcher.book_.bids_) =
        some [(100, [0])] ∧
      ((Engine.init OrderBook.empty).run
        [Event.start, Event.submit (limitOrder 1 OrderSide.BUY 100 10), Event.work 8,
          Event.work 8, Event.work 8]).map (fun e => e.matcher.getProcessedOrders) = some 0 := by
  decide

/-- C33, amended (the matcher preserves submission order): after any sequence of `submitOrder`,
`start` and `stop` calls and worker actions on a matcher constructed on `book`, the orders
handed to `addOrder` so far are a start of the sequence of submitted orders, followed there by
the order the worker holds and by the queue; the book is `book` with the applied orders added one
after the other in that order; and `getProcessedOrders()`, counted in `uint64_t`, is the number
of applied orders, except between the return of `addOrder` and `processedOrders_++`, where it is
one less. -/
theorem C33_matcher_order (book : OrderBook) (events : List Event) (e : Engine)
    (h : (Engine.init book).run events = some e) :
    (∃ rest, e.submitted = e.applied ++ rest) ∧
      e.submitted = e.applied ++ e.worker.inHand ++ e.matcher.orderQueue_ ∧
      (∃ fuel, book.run fuel (e.applied.map Call.add) = some e.matcher.book_) ∧
      (e.worker.uncounted = false →
        e.matcher.getProcessedOrders = e.applied.length % 2 ^ 64) ∧
      (e.worker.uncounted = true →
        0 < e.applied.length ∧
          e.matcher.getProcessedOrders = (e.applied.length - 1) % 2 ^ 64) ∧
      (e.applied.length < 2 ^ 64 →
        (e.worker.uncounted = false → e.matcher.getProcessedOrders = e.applied.length) ∧
        (e.worker.uncounted = true →
          e.matcher.getProcessedOrders + 1 = e.applied.length)) := by
  obtain ⟨hsub, hbook, hc1, hc2⟩ := run_inv events _ e (init_inv book) h
  refine ⟨⟨e.worker.inHand ++ e.matcher.orderQueue_, by rw [hsub, List.append_assoc]⟩, hsub,
    hbook, hc1, hc2, ?_⟩
  intro hlen
  refine ⟨?_, ?_⟩
  · intro hu
    rw [hc1 hu, Nat.mod_eq_of_lt hlen]
  · intro hu
    obtain ⟨hpos, hcount⟩ := hc2 hu
    rw [hcount, Nat.mod_eq_of_lt (by omega)]
    omega

/-- C33 amended, on three submitted orders of which the worker has run two full passes: the two
first orders were applied in their order, the third waits in the queue, and the counter is 2. -/
theorem C33_matcher_order_witness :
    (∀ e, (Engine.init OrderBook.empty).run
          [Event.start, Event.submit (limitOrder 1 OrderSide.BUY 100 10),
            Event.submit (limitOrder 2 OrderSide.SELL 100 4),
            Event.submit (limitOrder 3 OrderSide.SELL 100 3),
            Event.work 8, Event.work 8, Event.work 8, Event.work 8, Event.work 8,
            Event.work 8, Event.work 8, Event.work 8, Event.work 8, Event.work 8] = some e →
        ∃ rest, e.submitted = e.applied ++ rest) ∧
      ((Engine.init OrderBook.empty).run
          [Event.start, Event.submit (limitOrder 1 OrderSide.BUY 100 10),
            Event.submit (limitOrder 2 OrderSide.SELL 100 4),
            Event.submit (limitOrder 3 OrderSide.SELL 100 3),
            Event.work 8, Event.work 8, Event.work 8, Event.work 8, Event.work 8,
            Event.work 8, Event.work 8, Event.work 8, Event.work 8, Event.work 8]).map
          (fun e => e.submitted.map Order.orderId) = some [1, 2, 3] ∧
      ((Engine.init OrderBook.empty).run
          [Event.start, Event.submit (limitOrder 1 OrderSide.BUY 100 10),
            Event.submit (limitOrder 2 OrderSide.SELL 100 4),
            Event.submit (limitOrder 3 OrderSide.SELL 100 3),
            Event.work 8, Event.work 8, Event.work 8, Event.work 8, Event.work 8,
            Event.work 8, Event.work 8, Event.work 8, Event.work 8, Event.work 8]).map
          (fun e => e.applied.map Order.orderId) = some [1, 2] ∧
      ((Engine.init OrderBook.empty).run
          [Event.start, Event.submit (limitOrder 1 OrderSide.BUY 100 10),
            Event.submit (limitOrder 2 OrderSide.SELL 100 4),
            Event.submit (limitOrder 3 OrderSide.SELL 100 3),
            Event.work 8, Event.work 8, Event.work 8, Event.work 8, Event.work 8,
            Event.work 8, Event.work 8, Event.work 8, Event.work 8, Event.work 8]).map
          (fun e => e.matcher.orderQueue_.map Order.orderId) = some [3] ∧
      ((Engine.init OrderBook.empty).run
          [Event.start, Event.submit (limitOrder 1 OrderSide.BUY 100 10),
            Event.submit (limitOrder 2 OrderSide.SELL 100 4),
            Event.submit (limitOrder 3 OrderSide.SELL 100 3),
            Event.work 8, Event.work 8, Event.work 8, Event.work 8, Event.work 8,
            Event.work 8, Event.work 8, Event.work 8, Event.work 8, Event.work 8]).map
          (fun e => e.matcher.getProcessedOrders) = some 2 ∧
      ((Engine.init OrderBook.empty).run
          [Event.start, Event.submit (limitOrder 1 OrderSide.BUY 100 10),
            Event.submit (limitOrder 2 OrderSide.SELL 100 4),
            Event.submit (limitOrder 3 OrderSide.SELL 100 3),
            Event.work 8, Event.work 8, Event.work 8, Event.work 8, Event.work 8,
            Event.work 8, Event.work 8, Event.work 8, Event.work 8, Event.work 8]).map
          (fun e => e.matcher.book_.trades.map Trade.summary) = some [(1, 2, 100, 4)] :=
  ⟨fun e he => (C33_matcher_order OrderBook.empty _ e he).1,
    by decide, by decide, by decide, by decide, by decide⟩

/-- C37, counterexample: BUY id 1 at 100 for 5 rests; SELL id 1 at 100 for 10 is admitted, fills
the buy and comes to rest on the ask side with 5. `cancelOrder(1)` then removes the sell, but
the buy is not left resting: it was used up by the admission. Second, after BUY id 1 at 100,
BUY id 1 at 99 and `cancelOrder(1)`, a third BUY id 1 at 100 followed by `cancelOrder(1)` takes
the first buy out of its level as well, with its 5 still remaining: a later `cancelOrder(1)`
is not always a no-op. -/
theorem C37_duplicate_ids_counterexample :
    (bookAfter 8 [Call.add (limitOrder 1 OrderSide.BUY 100 5)]).bids_ = [(100, [0])] ∧
      (bookAfter 8 [Call.add (limitOrder 1 OrderSide.BUY 100 5),
        Call.add (limitOrder 1 OrderSide.SELL 100 10)]).asks_ = [(100, [1])] ∧
      (bookAfter 8 [Call.add (limitOrder 1 OrderSide.BUY 100 5),
        Call.add (limitOrder 1 OrderSide.SELL 100 10)]).bids_ = [] ∧
      (bookAfter 8 [Call.add (limitOrder 1 OrderSide.BUY 100 5),
        Call.add (limitOrder 1 OrderSide.SELL 100 10)]).trades.map Trade.summary
        = [(1, 1, 100, 5)] ∧
      (bookAfter 8 [Call.add (limitOrder 1 OrderSide.BUY 100 5),
        Call.add (limitOrder 1 OrderSide.SELL 100 10), Call.cancel 1]).allResting = [] ∧
      0 ∉ (bookAfter 8 [Call.add (limitOrder 1 OrderSide.BUY 100 5),
        Call.add (limitOrder 1 OrderSide.SELL 100 10), Call.cancel 1]).allResting ∧
      (bookAfter 8 [Call.add (limitOrder 1 OrderSide.BUY 100 5),
        Call.add (limitOrder 1 OrderSide.BUY 99 5), Call.cancel 1]).bids_ = [(100, [0])] ∧
      (bookAfter 8 [Call.add (limitOrder 1 OrderSide.BUY 100 5),
        Call.add (limitOrder 1 OrderSide.BUY 99 5), Call.cancel 1,
        Call.add (limitOrder 1 OrderSide.BUY 100 5)]).bids_ = [(100, [0, 2])] ∧
      (bookAfter 8 [Call.add (limitOrder 1 OrderSide.BUY 100 5),
        Call.add (limitOrder 1 OrderSide.BUY 99 5), Call.cancel 1,
        Call.add (limitOrder 1 OrderSide.BUY 100 5), Call.cancel 1]).bids_ = [] ∧
      ((bookAfter 8 [Call.add (limitOrder 1 OrderSide.BUY 100 5),
        Call.add (limitOrder 1 OrderSide.BUY 99 5), Call.cancel 1,
        Call.add (limitOrder 1 OrderSide.BUY 100 5), Call.cancel 1]).mem 0).remainingQty = 5 := by
  decide

/-- C37, amended (duplicate order ids): on a reachable book let `addOrder` admit a valid order
`o2` with the id of an order `o1` (at `p1`), on another side or at another price than `o1`, and
let `o1` still rest after the admission (it was not used up by it). Then the index leads from the
id to `o2` only; `cancelOrder(id)` takes `o2` out of the book and leaves `o1` in its level with
its object unchanged; after it the id is not in the index, a second `cancelOrder(id)` changes
nothing, and this stays so after any further calls as long as no order with that id is admitted
again. -/
theorem C37_duplicate_ids (s : OrderBook) (h : Reachable s) (p1 : Addr) (o : Order)
    (fuel : Nat) (t : OrderBook) (ho : o.inRange) (hv : o.isValid = true)
    (hp1 : p1 < s.nextPtr) (hid : o.orderId = (s.mem p1).orderId)
    (hdiff : o.side ≠ (s.mem p1).side ∨ o.price ≠ (s.mem p1).price)
    (hadd : s.addNew fuel o = some t) (hrest : p1 ∈ t.allResting) :
    t.orderMap_ (t.mem p1).orderId = some s.nextPtr ∧
      (t.mem s.nextPtr).orderId = (t.mem p1).orderId ∧
      s.nextPtr ∉ (t.cancelOrder (t.mem p1).orderId).allResting ∧
      (∀ l, (l ∈ t.bids_ ∨ l ∈ t.asks_) → p1 ∈ l.2 →
        (l ∈ (t.cancelOrder (t.mem p1).orderId).bids_ ∨
          l ∈ (t.cancelOrder (t.mem p1).orderId).asks_)) ∧
      p1 ∈ (t.cancelOrder (t.mem p1).orderId).allResting ∧
      (t.cancelOrder (t.mem p1).orderId).mem p1 = t.mem p1 ∧
      (t.cancelOrder (t.mem p1).orderId).orderMap_ (t.mem p1).orderId = none ∧
      (t.cancelOrder (t.mem p1).orderId).cancelOrder (t.mem p1).orderId =
        t.cancelOrder (t.mem p1).orderId ∧
      ∀ calls f v, (∀ c ∈ calls, c.avoids (t.mem p1).orderId) →
        (t.cancelOrder (t.mem p1).orderId).run f calls = some v →
        v.orderMap_ (t.mem p1).orderId = none ∧ v.cancelOrder (t.mem p1).orderId = v := by
  have hs := reachable_wf h
  have ht : WF t := addNew_wf hs ho hadd
  obtain ⟨_, hf1, _⟩ := step_mono (Step.add s o fuel t ho hadd) hs p1 hp1
  obtain ⟨_, hf2, _⟩ := addNew_new_object h ho hadd
  have hid1 : (t.mem p1).orderId = o.orderId := by rw [hf1, withRemaining_orderId, hid]
  have hside1 : (t.mem p1).side = (s.mem p1).side := by rw [hf1, withRemaining_side]
  have hprice1 : (t.mem p1).price = (s.mem p1).price := by rw [hf1, withRemaining_price]
  have hside2 : (t.mem s.nextPtr).side = o.side := by rw [hf2, withRemaining_side]
  have hprice2 : (t.mem s.nextPtr).price = o.price := by rw [hf2, withRemaining_price]
  have hidx : t.orderMap_ (t.mem p1).orderId = some s.nextPtr := by
    rw [addNew_orderMap hadd, if_pos hv, hid1, Function.update_same]
  have hne : p1 ≠ s.nextPtr := Nat.ne_of_lt hp1
  have hnone : (t.cancelOrder (t.mem p1).orderId).orderMap_ (t.mem p1).orderId = none := by
    rw [cancelOrder_orderMap hidx, Function.update_same]
  have hkeep : ∀ l, (l ∈ t.bids_ ∨ l ∈ t.asks_) → p1 ∈ l.2 →
      (l ∈ (t.cancelOrder (t.mem p1).orderId).bids_ ∨
        l ∈ (t.cancelOrder (t.mem p1).orderId).asks_) := by
    intro l hl hin
    apply cancelOrder_keeps_level ht hidx hl
    rcases hl with hl | hl
    · obtain ⟨_, hsd, hpr, _⟩ := (ht.bids.2 l hl).2 p1 hin
      rcases hdiff with hd | hd
      · left
        refine ⟨hl, ?_⟩
        rw [hside2]
        rw [← hside1, hsd] at hd
        cases hos : o.side with
        | BUY => exact absurd hos hd
        | SELL => rfl
      · right; right
        rw [hprice2, ← hpr, hprice1]
        exact fun e => hd e.symm
    · obtain ⟨_, hsd, hpr, _⟩ := (ht.asks.2 l hl).2 p1 hin
      rcases hdiff with hd | hd
      · right; left
        refine ⟨hl, ?_⟩
        rw [hside2]
        rw [← hside1, hsd] at hd
        cases hos : o.side with
        | BUY => rfl
        | SELL => exact absurd hos hd
      · right; right
        rw [hprice2, ← hpr, hprice1]
        exact fun e => hd e.symm
  refine ⟨hidx, by rw [hf2, withRemaining_orderId, hid1], cancelOrder_not_resting ht hidx,
    hkeep, ?_, ?_, hnone, cancelOrder_none hnone, ?_⟩
  · rcases List.mem_append.1 hrest with hb | ha
    · obtain ⟨l, hl, hin⟩ := mem_resting.1 hb
      rcases hkeep l (Or.inl hl) hin with h1 | h1
      · exact List.mem_append_left _ (mem_resting.2 ⟨l, h1, hin⟩)
      · exact List.mem_append_right _ (mem_resting.2 ⟨l, h1, hin⟩)
    · obtain ⟨l, hl, hin⟩ := mem_resting.1 ha
      rcases hkeep l (Or.inr hl) hin with h1 | h1
      · exact List.mem_append_left _ (mem_resting.2 ⟨l, h1, hin⟩)
      · exact List.mem_append_right _ (mem_resting.2 ⟨l, h1, hin⟩)
  · rw [cancelOrder_mem hidx, cancelledMem_other _ _ _ hne]
  · intro calls f v hall hrun
    have := run_avoids_index calls _ v hall hnone hrun
    exact ⟨this, cancelOrder_none this⟩

/-- C37 amended, on BUY id 1 at 100 for 5 followed by BUY id 1 at 99 for 5: `cancelOrder(1)`
takes the second buy out, the first stays at 100 with its 5, and a second `cancelOrder(1)`
changes nothing. -/
theorem C37_duplicate_ids_witness :
    ((bookAfter 8 [Call.add (limitOrder 1 OrderSide.BUY 100 5),
          Call.add (limitOrder 1 OrderSide.BUY 99 5)]).orderMap_
          ((bookAfter 8 [Call.add (limitOrder 1 OrderSide.BUY 100 5),
            Call.add (limitOrder 1 OrderSide.BUY 99 5)]).mem 0).orderId =
        some (bookAfter 8 [Call.add (limitOrder 1 OrderSide.BUY 100 5)]).nextPtr) ∧
      (bookAfter 8 [Call.add (limitOrder 1 OrderSide.BUY 100 5),
        Call.add (limitOrder 1 OrderSide.BUY 99 5)]).bids_ = [(100, [0]), (99, [1])] ∧
      (bookAfter 8 [Call.add (limitOrder 1 OrderSide.BUY 100 5),
        Call.add (limitOrder 1 OrderSide.BUY 99 5), Call.cancel 1]).bids_ = [(100, [0])] ∧
      ((bookAfter 8 [Call.add (limitOrder 1 OrderSide.BUY 100 5),
        Call.add (limitOrder 1 OrderSide.BUY 99 5), Call.cancel 1]).mem 0).remainingQty = 5 ∧
      (bookAfter 8 [Call.add (limitOrder 1 OrderSide.BUY 100 5),
        Call.add (limitOrder 1 OrderSide.BUY 99 5), Call.cancel 1, Call.cancel 1]).bids_
        = [(100, [0])] ∧
      (bookAfter 8 [Call.add (limitOrder 1 OrderSide.BUY 100 5),
        Call.add (limitOrder 1 OrderSide.BUY 99 5), Call.cancel 1]).orderMap_ 1 = none :=
  ⟨(C37_duplicate_ids (bookAfter 8 [Call.add (limitOrder 1 OrderSide.BUY 100 5)])
      (bookAfter_reachable _ _ (by decide)) 0 (limitOrder 1 OrderSide.BUY 99 5) 8
      (bookAfter 8 [Call.add (limitOrder 1 OrderSide.BUY 100 5),
        Call.add (limitOrder 1 OrderSide.BUY 99 5)])
      (by decide) (by decide) (by decide) (by decide) (Or.inr (by decide)) rfl (by decide)).1,
    by decide, by decide, by decide, by decide, by decide⟩

/-- C34 (determinism): two runs that apply to a fresh book call sequences which agree in
everything but the clock readings of the orders handed in (`timestamp`, `lastModified`), each
with its own step budget, end in books that agree in everything but these time points: the same
trade events (buy id, sell id, price, quantity), the same levels with the same queue order, the
same index, the same id and remaining quantity of every order object, and the same trade count;
runs of the very same calls end in the same book. -/
theorem C34_determinism (calls1 calls2 : List Call) (f1 f2 : Nat) (t1 t2 : OrderBook)
    (hsame : calls1.map Call.eraseTime = calls2.map Call.eraseTime)
    (h1 : OrderBook.empty.run f1 calls1 = some t1)
    (h2 : OrderBook.empty.run f2 calls2 = some t2) :
    t1.eraseTime = t2.eraseTime ∧
      t1.trades.map Trade.summary = t2.trades.map Trade.summary ∧
      t1.bids_ = t2.bids_ ∧ t1.asks_ = t2.asks_ ∧ t1.orderMap_ = t2.orderMap_ ∧
      (∀ a, (t1.mem a).remainingQty = (t2.mem a).remainingQty ∧
        (t1.mem a).orderId = (t2.mem a).orderId ∧ (t1.mem a).eraseTime = (t2.mem a).eraseTime) ∧
      t1.getTotalTrades = t2.getTotalTrades ∧
      (calls1 = calls2 → t1 = t2) := by
  have e1 := run_mono_le (le_max_left f1 f2) calls1 _ _ h1
  have e2 := run_mono_le (le_max_right f1 f2) calls2 _ _ h2
  have hE : t1.eraseTime = t2.eraseTime := by
    have r1 := run_erase (max f1 f2) calls1 OrderBook.empty
    have r2 := run_erase (max f1 f2) calls2 OrderBook.empty
    rw [e1] at r1
    rw [e2, ← hsame, r1] at r2
    exact Option.some.inj r2
  have hsum : ∀ t : OrderBook,
      t.trades.map Trade.summary = t.eraseTime.trades.map Trade.summary := by
    intro t
    simp only [OrderBook.eraseTime, List.map_map]
    rfl
  have hmem : ∀ a, (t1.mem a).eraseTime = (t2.mem a).eraseTime := fun a =>
    congrFun (congrArg OrderBook.mem hE) a
  have hb := congrArg OrderBook.bids_ hE
  have ha := congrArg OrderBook.asks_ hE
  have hm := congrArg OrderBook.orderMap_ hE
  have ht := congrArg OrderBook.totalTrades_ hE
  refine ⟨hE, by rw [hsum t1, hsum t2, hE], hb, ha, hm, ?_, ht, ?_⟩
  · intro a
    have hq := congrArg Order.remainingQty (hmem a)
    have hi := congrArg Order.orderId (hmem a)
    exact ⟨hq, hi, hmem a⟩
  · intro hc
    rw [hc, e2] at e1
    exact (Option.some.inj e1).symm

/-- C34 on a buy of 10 at 100 met by a sell of 4, run once with the clock readings 3 and 5 and
a budget of 8, and once with the readings 11 and 17 and a budget of 9: the same trade
(1, 2, 100, 4) and the same book. -/
theorem C34_determinism_witness :
    (bookAfter 8 [Call.add (limitOrderAt 3 1 OrderSide.BUY 100 10),
          Call.add (limitOrderAt 5 2 OrderSide.SELL 100 4)]).trades.map Trade.summary =
        (bookAfter 9 [Call.add (limitOrderAt 11 1 OrderSide.BUY 100 10),
          Call.add (limitOrderAt 17 2 OrderSide.SELL 100 4)]).trades.map Trade.summary ∧
      (bookAfter 9 [Call.add (limitOrderAt 11 1 OrderSide.BUY 100 10),
          Call.add (limitOrderAt 17 2 OrderSide.SELL 100 4)]).trades.map Trade.summary =
        [(1, 2, 100, 4)] ∧
      (bookAfter 8 [Call.add (limitOrderAt 3 1 OrderSide.BUY 100 10),
          Call.add (limitOrderAt 5 2 OrderSide.SELL 100 4)]).bids_ = [(100, [0])] ∧
      (bookAfter 9 [Call.add (limitOrderAt 11 1 OrderSide.BUY 100 10),
          Call.add (limitOrderAt 17 2 OrderSide.SELL 100 4)]).bids_ = [(100, [0])] ∧
      ((bookAfter 8 [Call.add (limitOrderAt 3 1 OrderSide.BUY 100 10),
          Call.add (limitOrderAt 5 2 OrderSide.SELL 100 4)]).mem 0).timestamp = 3 ∧
      ((bookAfter 9 [Call.add (limitOrderAt 11 1 OrderSide.BUY 100 10),
          Call.add (limitOrderAt 17 2 OrderSide.SELL 100 4)]).mem 0).timestamp = 11 :=
  ⟨(C34_determinism
      [Call.add (limitOrderAt 3 1 OrderSide.BUY 100 10),
        Call.add (limitOrderAt 5 2 OrderSide.SELL 100 4)]
      [Call.add (limitOrderAt 11 1 OrderSide.BUY 100 10),
        Call.add (limitOrderAt 17 2 OrderSide.SELL 100 4)] 8 9
      (bookAfter 8 [Call.add (limitOrderAt 3 1 OrderSide.BUY 100 10),
        Call.add (limitOrderAt 5 2 OrderSide.SELL 100 4)])
      (bookAfter 9 [Call.add (limitOrderAt 11 1 OrderSide.BUY 100 10),
        Call.add (limitOrderAt 17 2 OrderSide.SELL 100 4)]) rfl rfl rfl).2.1,
    by decide, by decide, by decide, by decide, by decide⟩

end OBME
